import Mathlib

/-!
The expression language of `causer`: a shallow embedding of the tokenizer
(`expr/parser/lexer.go`, `utils.go`), the parser (`expr/parser/parser.go`), the AST (`expr/ast/node.go`) and the compiler
(`expr/compiler/compiler.go`, `utils.go`), with the opcode numbering of
`runtime/code.go`.

Conventions.
* A Go `string` is its byte sequence (`GoString`); a `rune` is an `Int`, so that
  the lexer's sentinel `eof = -1` is a rune like any other (every `Int` argument named
  `alpha`, `quote` or `r` below is a Go `rune`).
* Go loops and recursion take a `fuel : Nat`; running out of fuel is `none`, a
  value the Go code returns is `some _`.
* Pointer receivers become explicit state passing: a method of `*lexer`,
  `*parser` or `*compiler` takes the record and returns the updated record.
* What the Go code imports from outside the repository (`unicode`, `utf8`,
  `strings`, `github.com/spf13/cast`) is modelled where its behaviour is fixed
  and small, and is a field of `Extern` where it is a large table.
-/

namespace Causer

/-! ## Go strings, runes and the `unicode/utf8` package -/

/-- A Go `string`, as the sequence of its bytes. -/
abbrev GoString := List Nat

/-- The constant `utf8.RuneError`. -/
def RuneError : Int := 0xFFFD

/-- The constant `utf8.RuneSelf`. -/
def RuneSelf : Nat := 0x80

/-- The constant `utf8.UTFMax`. -/
def UTFMax : Nat := 4

/-- The function `utf8.EncodeRune`: the UTF-8 bytes of a rune; a rune that is out of range or
a surrogate is written as `RuneError`. -/
def EncodeRune (r : Int) : GoString :=
  let i := r.toNat
  if 0 ≤ r ∧ r ≤ 0x7F then [i]
  else if 0 ≤ r ∧ r ≤ 0x7FF then [0xC0 + i / 64, 0x80 + i % 64]
  else if r < 0 ∨ 0x10FFFF < r ∨ (0xD800 ≤ r ∧ r ≤ 0xDFFF) then [0xEF, 0xBF, 0xBD]
  else if r ≤ 0xFFFF then [0xE0 + i / 4096, 0x80 + i / 64 % 64, 0x80 + i % 64]
  else [0xF0 + i / 262144, 0x80 + i / 4096 % 64, 0x80 + i / 64 % 64, 0x80 + i % 64]

/-- A string literal of the Go source, as a Go string (its UTF-8 bytes). -/
def lit (s : String) : GoString :=
  (s.toList.map (fun c => EncodeRune (c.toNat : Int))).flatten

/-- A continuation byte `10xxxxxx` (`locb ≤ b ≤ hicb`). -/
def isCont (b : Nat) : Bool := 0x80 ≤ b && b ≤ 0xBF

/-- A two-byte encoding with first byte `s0` (`C2..DF`): the rune and its width, or
`(RuneError, 1)`. -/
def decode2 (s0 : Nat) (t : GoString) : Int × Nat :=
  match t with
  | s1 :: _ =>
    if isCont s1 then (((s0 % 32 * 64 + s1 % 64 : Nat) : Int), 2) else (RuneError, 1)
  | _ => (RuneError, 1)

/-- A three-byte encoding with first byte `s0` (`E0..EF`). The second byte's range excludes
the overlong forms after `E0` and the surrogates after `ED`. -/
def decode3 (s0 : Nat) (t : GoString) : Int × Nat :=
  match t with
  | s1 :: s2 :: _ =>
    if s1 < (if s0 = 0xE0 then 0xA0 else 0x80) ∨ (if s0 = 0xED then 0x9F else 0xBF) < s1 then
      (RuneError, 1)
    else if !isCont s2 then (RuneError, 1)
    else (((s0 % 16 * 4096 + s1 % 64 * 64 + s2 % 64 : Nat) : Int), 3)
  | _ => (RuneError, 1)

/-- A four-byte encoding with first byte `s0` (`F0..F4`). The second byte's range excludes
the overlong forms after `F0` and the runes above `U+10FFFF` after `F4`. -/
def decode4 (s0 : Nat) (t : GoString) : Int × Nat :=
  match t with
  | s1 :: s2 :: s3 :: _ =>
    if s1 < (if s0 = 0xF0 then 0x90 else 0x80) ∨ (if s0 = 0xF4 then 0x8F else 0xBF) < s1 then
      (RuneError, 1)
    else if !isCont s2 then (RuneError, 1)
    else if !isCont s3 then (RuneError, 1)
    else (((s0 % 8 * 262144 + s1 % 64 * 4096 + s2 % 64 * 64 + s3 % 64 : Nat) : Int), 4)
  | _ => (RuneError, 1)

/-- The function `utf8.DecodeRuneInString`: the first rune of `s` and its width in bytes.
Every malformed or truncated encoding is `(RuneError, 1)`; the empty string
is `(RuneError, 0)`. The first byte selects the length and the accepted range of the second
byte (the tables `first` and `acceptRanges`). -/
def DecodeRuneInString (s : GoString) : Int × Nat :=
  match s with
  | [] => (RuneError, 0)
  | s0 :: t =>
    if s0 < 0x80 then ((s0 : Int), 1)
    else if s0 < 0xC2 then (RuneError, 1)
    else if s0 < 0xE0 then decode2 s0 t
    else if s0 < 0xF0 then decode3 s0 t
    else if s0 < 0xF5 then decode4 s0 t
    else (RuneError, 1)

/-- The function `utf8.RuneStart`: `b&0xC0 != 0x80`. -/
def RuneStart (b : Nat) : Bool := !(b / 64 % 4 == 2)

/-- The backward scan of `utf8.DecodeLastRuneInString`:
`for start--; start >= lim; start-- { if RuneStart(s[start]) { break } }`,
entered with the already decremented `start`. It runs at most `UTFMax` times. -/
def lastRuneStart (s : GoString) (lim : Int) : Nat → Int → Int
  | 0, start => start
  | n + 1, start =>
    if start ≥ lim then
      if RuneStart (s.getD start.toNat 0) then start else lastRuneStart s lim n (start - 1)
    else start

/-- The function `utf8.DecodeLastRuneInString`: the last rune of `s` and its width. -/
def DecodeLastRuneInString (s : GoString) : Int × Nat :=
  let end_ : Int := s.length
  if end_ = 0 then (RuneError, 0)
  else
    let start := end_ - 1
    let r : Int := (s.getD start.toNat 0 : Nat)
    if r < RuneSelf then (r, 1)
    else
      let lim := if end_ - UTFMax < 0 then 0 else end_ - UTFMax
      let start := lastRuneStart s lim UTFMax (start - 1)
      let start := if start < 0 then 0 else start
      let (r, size) := DecodeRuneInString (s.drop start.toNat)
      if start + size ≠ end_ then (RuneError, 1) else (r, size)

/-! ## What the program takes from outside the repository -/

/-- The parts of the imported packages that are large tables or number parsers:
the Unicode range tables `unicode.Letter`, `unicode.Digit` and `unicode.White_Space`
above Latin-1 (`isExcludingLatin`), and the conversions `cast.ToInt` and `cast.ToFloat64`
of `github.com/spf13/cast` (a `float64` is given by its IEEE-754 bits). -/
structure Extern where
  Letter : Int → Bool
  Digit : Int → Bool
  White_Space : Int → Bool
  ToInt : GoString → Int
  ToFloat64 : GoString → Nat

/-- An `Extern` whose tables are empty above Latin-1 and whose conversions return zero. -/
def Extern.ascii : Extern :=
  { Letter := fun _ => false, Digit := fun _ => false, White_Space := fun _ => false,
    ToInt := fun _ => 0, ToFloat64 := fun _ => 0 }

/-- The Latin-1 letters (`properties[r]&pLmask != 0`): `A-Z`, `a-z`, `ª`, `µ`, `º`,
`À-Ö`, `Ø-ö`, `ø-ÿ`. -/
def latin1Letter (r : Int) : Bool :=
  (0x41 ≤ r && r ≤ 0x5A) || (0x61 ≤ r && r ≤ 0x7A) || r == 0xAA || r == 0xB5 || r == 0xBA ||
  (0xC0 ≤ r && r ≤ 0xD6) || (0xD8 ≤ r && r ≤ 0xF6) || (0xF8 ≤ r && r ≤ 0xFF)

/-- The function `unicode.IsLetter`. -/
def IsLetter (X : Extern) (r : Int) : Bool :=
  if 0 ≤ r ∧ r ≤ 0xFF then latin1Letter r
  else if r < 0 then false
  else X.Letter r

/-- The function `unicode.IsDigit`. -/
def IsDigit (X : Extern) (r : Int) : Bool :=
  if r ≤ 0xFF then (0x30 ≤ r && r ≤ 0x39)
  else X.Digit r

/-- The function `unicode.IsSpace`. -/
def IsSpace (X : Extern) (r : Int) : Bool :=
  if 0 ≤ r ∧ r ≤ 0xFF then
    r == 0x09 || r == 0x0A || r == 0x0B || r == 0x0C || r == 0x0D || r == 0x20 ||
    r == 0x85 || r == 0xA0
  else if r < 0 then false
  else X.White_Space r

/-- The function `strings.ContainsRune`, for the sets this program passes: every one is an
ASCII-only literal, in which a rune outside ASCII (or the invalid rune `eof`) is never found. -/
def ContainsRune (valid : GoString) (r : Int) : Bool :=
  if 0 ≤ r ∧ r < 0x80 then valid.contains r.toNat else false

/-! ## Tokens (`expr/parser/token.go`) -/

/-- Modelled from the spec: the struct `Position`, whose declaration is not under `src/`. The
spec gives it as a line (counted from 1) and an offset within the line (counted from 0, reset
at a newline); the field names are those of the literals in `lexer.go`,
`Position{Line: 1, Offset: 0}`. -/
structure Position where
  Line : Int
  Offset : Int
deriving DecidableEq, Repr

/-- The type `Kind` with its six constants. -/
inductive Kind where
  | TokenKindOperator
  | TokenKindNumber
  | TokenKindString
  | TokenKindBracket
  | TokenKindIdentifier
  | TokenKindEOF
deriving DecidableEq, Repr

export Kind (TokenKindOperator TokenKindNumber TokenKindString TokenKindBracket
  TokenKindIdentifier TokenKindEOF)

/-- The struct `Token`. -/
structure Token where
  Position : Causer.Position
  Kind : Causer.Kind
  Value : GoString
deriving DecidableEq, Repr

/-- The errors the tokenizer and the parser create with `fmt.Errorf`, one constructor for
each message. -/
inductive Error where
  | unexpectedEscape
  | unexpectedTerminated
  | unableEscapeString
  | unableEscapeLast
  | unableEscape (alpha : Nat)
  | badNumberSyntax (word : GoString)
  | unexpectedToken (current : Token)
  | unexpectEndOfExpression
  | expectName
  | invalidToken
deriving DecidableEq, Repr

/-! ## The tokenizer (`expr/parser/lexer.go`, `expr/parser/utils.go`) -/

/-- The struct `lexer`. The byte offsets `start`, `end` and `width` are naturals: `width` is
only subtracted from `end` right after it was added to it, or when it is zero. -/
structure lexer where
  source : GoString
  tokens : List Token
  start : Nat
  end_ : Nat
  width : Nat
  startPos : Position
  locPos : Position
  prevPos : Position
  err : Option Error
deriving DecidableEq, Repr

/-- The sentinel `eof`. -/
def eof : Int := -1

/-- The variable `keywords`. -/
def keywords : List GoString := [lit "not", lit "in", lit "and", lit "or"]

/-- The function `isSpace`. -/
def isSpace (X : Extern) (alpha : Int) : Bool := IsSpace X alpha

/-- The function `isAlphaNumeric`. -/
def isAlphaNumeric (X : Extern) (alpha : Int) : Bool :=
  alpha == 0x5F || alpha == 0x24 || IsLetter X alpha || IsDigit X alpha

/-- The method `peekAlpha`: the rune at `end` and its width, `eof` at the end of the source
(where it also clears `width`). -/
def lexer.peekAlpha (l : lexer) : Int × Nat × lexer :=
  if l.end_ ≥ l.source.length then (eof, 0, { l with width := 0 })
  else
    let d := DecodeRuneInString (l.source.drop l.end_)
    (d.1, d.2, l)

/-- The method `nextAlpha`: consume one rune, keeping the line and offset up to date. -/
def lexer.nextAlpha (l : lexer) : Int × lexer :=
  let p := l.peekAlpha
  let alpha := p.1
  let width := p.2.1
  let l := p.2.2
  if alpha = eof then (eof, l)
  else
    let l := { l with width := width, end_ := l.end_ + width, prevPos := l.locPos }
    let l :=
      if alpha = 0x0A then { l with locPos := { Line := l.locPos.Line + 1, Offset := 0 } }
      else { l with locPos := { l.locPos with Offset := l.locPos.Offset + 1 } }
    (alpha, l)

/-- The method `prevAlpha`: step back over the rune just read. -/
def lexer.prevAlpha (l : lexer) : lexer :=
  { l with end_ := l.end_ - l.width, locPos := l.prevPos }

/-- The method `ignore`. -/
def lexer.ignore (l : lexer) : lexer :=
  { l with start := l.end_, startPos := l.locPos }

/-- The method `word`: `l.source[l.start:l.end]`. -/
def lexer.word (l : lexer) : GoString :=
  (l.source.drop l.start).take (l.end_ - l.start)

/-- The method `scanEscape`: the rune after a backslash must be one of
`a b f n r t v \` or the quote; the result is the rune after the escape. -/
def lexer.scanEscape (l : lexer) (quote : Int) : Int × lexer :=
  let p := l.nextAlpha
  let alpha := p.1
  let l := p.2
  if alpha = 0x61 ∨ alpha = 0x62 ∨ alpha = 0x66 ∨ alpha = 0x6E ∨ alpha = 0x72 ∨ alpha = 0x74 ∨
      alpha = 0x76 ∨ alpha = 0x5C ∨ alpha = quote then
    l.nextAlpha
  else (alpha, { l with err := some Error.unexpectedEscape })

/-- The loop `for alpha != quote { ... }` of `scanString`. -/
def lexer.scanStringLoop (quote : Int) : Nat → Int → lexer → Option lexer
  | 0, _, _ => none
  | fuel + 1, alpha, l =>
    if alpha = quote then some l
    else if alpha = 0x0A ∨ alpha = eof then
      some { l with err := some Error.unexpectedTerminated }
    else if alpha = 0x5C then
      let p := l.scanEscape quote
      scanStringLoop quote fuel p.1 p.2
    else
      let p := l.nextAlpha
      scanStringLoop quote fuel p.1 p.2

/-- The method `scanString`. -/
def lexer.scanString (fuel : Nat) (l : lexer) (quote : Int) : Option lexer :=
  let p := l.nextAlpha
  lexer.scanStringLoop quote fuel p.1 p.2

/-- The method `accept`. -/
def lexer.accept (l : lexer) (valid : GoString) : Bool × lexer :=
  let p := l.peekAlpha
  if ContainsRune valid p.1 then (true, p.2.2.nextAlpha.2)
  else (false, p.2.2)

/-- The loop `next := l.accept(dig); for next { next = l.accept(dig) }` of `scanNumber`. -/
def lexer.acceptRun (dig : GoString) : Nat → lexer → Option lexer
  | 0, _ => none
  | fuel + 1, l =>
    let p := l.accept dig
    if p.1 then acceptRun dig fuel p.2 else some p.2

/-- The digit alphabet `dig` that `scanNumber` selects from the prefix `0x`, `0o` or `0b`
(decimal otherwise), and the lexer after the prefix. -/
def lexer.numberDigits (l : lexer) : GoString × lexer :=
  let p0 := l.accept (lit "0")
  if p0.1 then
    let px := p0.2.accept (lit "xX")
    if px.1 then (lit "0123456789abcdefABCDEF_", px.2)
    else
      let po := px.2.accept (lit "oO")
      if po.1 then (lit "01234567_", po.2)
      else
        let pb := po.2.accept (lit "bB")
        if pb.1 then (lit "01_", pb.2) else (lit "0123456789_", pb.2)
  else (lit "0123456789_", p0.2)

/-- The method `scanNumber`. -/
def lexer.scanNumber (fuel : Nat) (l : lexer) : Option (Bool × lexer) :=
  let q := l.numberDigits
  match lexer.acceptRun q.1 fuel q.2 with
  | none => none
  | some l =>
    let pd := l.accept (lit ".")
    if pd.1 then
      match lexer.acceptRun q.1 fuel pd.2 with
      | none => none
      | some l => some (true, l)
    else some (true, pd.2)

/-- The method `productEOF`. -/
def lexer.productEOF (l : lexer) : lexer :=
  { l with
    tokens := l.tokens ++ [{ Kind := TokenKindEOF, Position := l.prevPos, Value := [] }],
    start := l.end_ }

/-- The method `product`. -/
def lexer.product (l : lexer) (kind : Kind) (word : GoString) : lexer :=
  { l with
    tokens := l.tokens ++ [{ Kind := kind, Position := l.startPos, Value := word }],
    start := l.end_, startPos := l.locPos }

/-- The replacer `newline`: `strings.NewReplacer("\r\n", "\n", "\r", "\n")`. -/
def newline : GoString → GoString
  | [] => []
  | 0x0D :: 0x0A :: rest => 0x0A :: newline rest
  | 0x0D :: rest => 0x0A :: newline rest
  | b :: rest => b :: newline rest

/-- The switch of `unescapeAlpha` on the byte after a backslash: the character the escape
denotes, `none` in the default case. -/
def escapeValue (alpha : Nat) : Option Int :=
  if alpha = 0x61 then some 0x07
  else if alpha = 0x62 then some 0x08
  else if alpha = 0x66 then some 0x0C
  else if alpha = 0x6E then some 0x0A
  else if alpha = 0x72 then some 0x0D
  else if alpha = 0x74 then some 0x09
  else if alpha = 0x76 then some 0x0B
  else if alpha = 0x5C then some 0x5C
  else if alpha = 0x27 then some 0x27
  else if alpha = 0x22 then some 0x22
  else none

/-- The function `unescapeAlpha`: the value of the first character or escape of a non-empty
`input`, whether it was read as a multi-byte rune, the rest of the input, and an error. For a
first byte above `utf8.RuneSelf` it decodes the LAST rune of the input
(`utf8.DecodeLastRuneInString`) and drops that rune's width from the front. -/
def unescapeAlpha (input : GoString) : Int × Bool × GoString × Option Error :=
  let c := input.getD 0 0
  if c > RuneSelf then
    ((DecodeLastRuneInString input).1, true, input.drop (DecodeLastRuneInString input).2, none)
  else if c ≠ 0x5C then ((c : Int), false, input.drop 1, none)
  else if input.length ≤ 1 then (0, false, [], some Error.unableEscapeLast)
  else
    match escapeValue (input.getD 1 0) with
    | some value => (value, false, input.drop 2, none)
    | none => (0, false, [], some (Error.unableEscape (input.getD 1 0)))

/-- The loop `for len(input) > 0 { ... }` of `unescape`, with the buffer built so far. -/
def unescapeLoop : Nat → GoString → GoString → Option (GoString × Option Error)
  | 0, _, _ => none
  | fuel + 1, input, buf =>
    if input.length > 0 then
      let r := unescapeAlpha input
      match r.2.2.2 with
      | some e => some ([], some e)
      | none =>
        let alpha := r.1
        if alpha < RuneSelf ∨ !r.2.1 then
          unescapeLoop fuel r.2.2.1 (buf ++ [alpha.toNat % 256])
        else unescapeLoop fuel r.2.2.1 (buf ++ EncodeRune alpha)
    else some (buf, none)

/-- The function `unescape`: strip the quotes of a string lexeme and resolve its escapes. -/
def unescape (fuel : Nat) (input : GoString) : Option (GoString × Option Error) :=
  let input := newline input
  if input.length < 2 then some (input, some Error.unableEscapeString)
  else if input.getD 0 0 ≠ input.getD (input.length - 1) 0 ∨
      (input.getD 0 0 ≠ 0x27 ∧ input.getD 0 0 ≠ 0x22) then
    some (input, some Error.unableEscapeString)
  else unescapeLoop fuel ((input.drop 1).take (input.length - 2)) []

/-- The values of the type `lexerStateFunc` other than `nil`. -/
inductive lexerStateFunc where
  | rootState
  | identifierState
  | dotState
  | numberState
deriving DecidableEq, Repr

export lexerStateFunc (rootState identifierState dotState numberState)

/-- The loop of `identifierState`: read alphanumeric runes; at the first other rune step back
and emit the word, as an operator when it is a keyword and as an identifier otherwise. -/
def identifierLoop (X : Extern) : Nat → lexer → Option lexer
  | 0, _ => none
  | fuel + 1, l =>
    let p := l.nextAlpha
    if isAlphaNumeric X p.1 then identifierLoop X fuel p.2
    else
      let l := p.2.prevAlpha
      let word := l.word
      if keywords.contains word then some (l.product TokenKindOperator word)
      else some (l.product TokenKindIdentifier word)

/-- The case `alpha == '\'' || alpha == '"'` of `rootState`: scan the literal, unescape the
lexeme, keep the error of `unescape` if there is one, and emit a String token. -/
def lexer.rootString (fuel : Nat) (l : lexer) (alpha : Int) : Option lexer :=
  match l.scanString fuel alpha with
  | none => none
  | some l =>
    match unescape fuel l.word with
    | none => none
    | some r =>
      let l := match r.2 with
        | some e => { l with err := some e }
        | none => l
      some (l.product TokenKindString r.1)

/-- The state function `rootState`: the next state (`none` for `nil`) and the updated
lexer. -/
def lexer.rootState (X : Extern) (fuel : Nat) (l : lexer) :
    Option (Option lexerStateFunc × lexer) :=
  let p := l.nextAlpha
  let alpha := p.1
  let l := p.2
  if alpha = eof then some (none, l.productEOF)
  else if isSpace X alpha then some (some lexerStateFunc.rootState, l.ignore)
  else if alpha = 0x27 ∨ alpha = 0x22 then
    match l.rootString fuel alpha with
    | none => none
    | some l => some (some lexerStateFunc.rootState, l)
  else if 0x30 ≤ alpha ∧ alpha ≤ 0x39 then some (some lexerStateFunc.numberState, l.prevAlpha)
  else if ContainsRune (lit "([\x7b") alpha then
    some (some lexerStateFunc.rootState, l.product TokenKindBracket l.word)
  else if ContainsRune (lit ")]\x7d") alpha then
    some (some lexerStateFunc.rootState, l.product TokenKindBracket l.word)
  else if ContainsRune (lit "?:%,+-*/^") alpha then
    some (some lexerStateFunc.rootState, l.product TokenKindOperator l.word)
  else if ContainsRune (lit "&|!=<>") alpha then
    let l := (l.accept (lit "&|=")).2
    some (some lexerStateFunc.rootState, l.product TokenKindOperator l.word)
  else if alpha = 0x2E then some (some lexerStateFunc.dotState, l.prevAlpha)
  else if isAlphaNumeric X alpha then some (some lexerStateFunc.identifierState, l.prevAlpha)
  else some (some lexerStateFunc.rootState, l)

/-- The state function `identifierState`. -/
def lexer.identifierState (X : Extern) (fuel : Nat) (l : lexer) :
    Option (Option lexerStateFunc × lexer) :=
  match identifierLoop X fuel l with
  | none => none
  | some l => some (some lexerStateFunc.rootState, l)

/-- The state function `dotState`. -/
def lexer.dotState (l : lexer) : Option lexerStateFunc × lexer :=
  let l := l.nextAlpha.2
  let p := l.peekAlpha
  if ContainsRune (lit "0123456789") p.1 then (some lexerStateFunc.numberState, p.2.2)
  else (some lexerStateFunc.rootState, p.2.2.product TokenKindOperator p.2.2.word)

/-- The state function `numberState`. -/
def lexer.numberState (fuel : Nat) (l : lexer) : Option (Option lexerStateFunc × lexer) :=
  match l.scanNumber fuel with
  | none => none
  | some r =>
    if !r.1 then some (none, { r.2 with err := some (Error.badNumberSyntax r.2.word) })
    else some (some lexerStateFunc.rootState, r.2.product TokenKindNumber r.2.word)

/-- One call `state(l)` of a state function. -/
def lexerStateFunc.call (X : Extern) (fuel : Nat) :
    lexerStateFunc → lexer → Option (Option lexerStateFunc × lexer)
  | rootState, l => l.rootState X fuel
  | identifierState, l => l.identifierState X fuel
  | dotState, l => some l.dotState
  | numberState, l => l.numberState fuel

/-- The loop `for state := rootState; state != nil && l.err == nil; { state = state(l) }`. -/
def lexerLoop (X : Extern) : Nat → Option lexerStateFunc → lexer → Option lexer
  | 0, _, _ => none
  | fuel + 1, state, l =>
    match state with
    | none => some l
    | some s =>
      if l.err ≠ none then some l
      else
        match s.call X fuel l with
        | none => none
        | some r => lexerLoop X fuel r.1 r.2

/-- The function `Lexer`: the tokens of a source, or the error (with a `nil` token list). -/
def Lexer (X : Extern) (fuel : Nat) (source : GoString) : Option (Except Error (List Token)) :=
  let l : lexer :=
    { source := source, tokens := [], start := 0, end_ := 0, width := 0,
      startPos := { Line := 1, Offset := 0 }, locPos := { Line := 1, Offset := 0 },
      prevPos := { Line := 1, Offset := 0 }, err := none }
  match lexerLoop X fuel (some rootState) l with
  | none => none
  | some l =>
    match l.err with
    | some e => some (Except.error e)
    | none => some (Except.ok l.tokens)

/-! ## The syntax tree (`expr/ast/node.go`) -/

/-- The interface `ast.Node` with its eleven implementations, and `nil` for the nil
interface value (which `parsePrimary` returns for a token that starts no expression).
A `float64` is given by its IEEE-754 bits. -/
inductive Node where
  | nil : Node
  | UnaryNode (Operator : GoString) (Expr : Node) : Node
  | BinaryNode (Operator : GoString) (Left : Node) (Right : Node) : Node
  | MethodNode (Node_ : Node) (Method : GoString) (Arguments : List Node) : Node
  | FunctionNode (Name : GoString) (Arguments : List Node) : Node
  | PropertyNode (Node_ : Node) (Property : GoString) : Node
  | BoolNode (Value : Bool) : Node
  | NilNode : Node
  | IdentifierNode (Value : GoString) : Node
  | FloatNode (Value : Nat) : Node
  | IntNode (Value : Int) : Node
  | StringNode (Value : GoString) : Node
deriving Repr

export Node (UnaryNode BinaryNode MethodNode FunctionNode PropertyNode BoolNode NilNode
  IdentifierNode FloatNode IntNode StringNode)

/-- The struct `ast.Tree`. -/
structure Tree where
  Root : Node
deriving Repr

/-! ## The parser (`expr/parser/parser.go`) -/

/-- The struct `parser`. -/
structure parser where
  tokens : List Token
  current : Token
  pos : Nat
  err : Option Error
deriving DecidableEq, Repr

/-- The type `associativity` with its two constants. -/
inductive associativity where
  | associateLeft
  | associateRight
deriving DecidableEq, Repr

export associativity (associateLeft associateRight)

/-- The struct `operator`. -/
structure operator where
  priority : Int
  associate : associativity
deriving DecidableEq, Repr

/-- The map `unaryOp`. -/
def unaryOp : List (GoString × operator) :=
  [ (lit "not", ⟨5, associateLeft⟩),
    (lit "!", ⟨5, associateLeft⟩),
    (lit "-", ⟨10, associateLeft⟩),
    (lit "+", ⟨10, associateLeft⟩) ]

/-- The map `binaryOp`. -/
def binaryOp : List (GoString × operator) :=
  [ (lit "or", ⟨1, associateLeft⟩),
    (lit "||", ⟨1, associateLeft⟩),
    (lit "and", ⟨2, associateLeft⟩),
    (lit "&&", ⟨2, associateLeft⟩),
    (lit "==", ⟨3, associateLeft⟩),
    (lit "!=", ⟨3, associateLeft⟩),
    (lit "<", ⟨3, associateLeft⟩),
    (lit ">", ⟨3, associateLeft⟩),
    (lit "<=", ⟨3, associateLeft⟩),
    (lit ">=", ⟨3, associateLeft⟩),
    (lit "in", ⟨3, associateLeft⟩),
    (lit "+", ⟨4, associateLeft⟩),
    (lit "-", ⟨4, associateLeft⟩),
    (lit "*", ⟨6, associateLeft⟩),
    (lit "/", ⟨6, associateLeft⟩),
    (lit "^", ⟨7, associateLeft⟩) ]

/-- The value of a non-empty string of ASCII decimal digits. -/
def decimalValue (s : GoString) : Nat :=
  s.foldl (fun acc b => 10 * acc + (b - 0x30)) 0

/-- The function `cast.ToInt` on a string. On a plain decimal numeral (ASCII digits, no
leading zero, below `2^63`) it is the numeral's value; every other string is left to
`Extern.ToInt`. -/
def ToInt (X : Extern) (s : GoString) : Int :=
  if s ≠ [] ∧ s.all (fun b => 0x30 ≤ b && b ≤ 0x39) ∧ (s = lit "0" ∨ s.head? ≠ some 0x30) ∧
      decimalValue s < 2 ^ 63 then
    (decimalValue s : Int)
  else X.ToInt s

/-- The method `next`. -/
def parser.next (p : parser) : parser :=
  let p := { p with pos := p.pos + 1 }
  if p.pos ≥ p.tokens.length then { p with err := some Error.unexpectEndOfExpression }
  else { p with current := p.tokens.getD p.pos p.current }

/-- The test `p.current.Kind == TokenKindBracket && p.current.Value == v`. -/
def parser.atBracket (p : parser) (v : GoString) : Bool :=
  p.current.Kind == TokenKindBracket && p.current.Value == v

mutual

/-- The method `parse`: a primary expression, then the loop over the binary operators whose
priority is at least `priority`. -/
def parser.parse (X : Extern) : Nat → parser → Int → Option (Node × parser)
  | 0, _, _ => none
  | fuel + 1, p, priority =>
    match parser.parsePrimary X fuel p with
    | none => none
    | some (nodeLeft, p) => parser.parseLoop X fuel p priority nodeLeft p.current

/-- The loop `for token.Kind == TokenKindOperator && p.err == nil { ... }` of `parse`. -/
def parser.parseLoop (X : Extern) : Nat → parser → Int → Node → Token → Option (Node × parser)
  | 0, _, _, _, _ => none
  | fuel + 1, p, priority, nodeLeft, token =>
    if token.Kind = TokenKindOperator ∧ p.err = none then
      match binaryOp.lookup token.Value with
      | some op =>
        if op.priority ≥ priority then
          let p := p.next
          match
            (if op.associate = associateLeft then parser.parse X fuel p (op.priority + 1)
             else parser.parse X fuel p op.priority) with
          | none => none
          | some (nodeRight, p) =>
            parser.parseLoop X fuel p priority (BinaryNode token.Value nodeLeft nodeRight)
              p.current
        else some (nodeLeft, p)
      | none => some (nodeLeft, p)
    else some (nodeLeft, p)

/-- The method `parsePrimary`. -/
def parser.parsePrimary (X : Extern) : Nat → parser → Option (Node × parser)
  | 0, _ => none
  | fuel + 1, p =>
    let token := p.current
    match (if token.Kind = TokenKindOperator then unaryOp.lookup token.Value else none) with
    | some op =>
      let p := p.next
      match parser.parse X fuel p op.priority with
      | none => none
      | some (expr, p) => parser.parsePostfix X fuel p (UnaryNode token.Value expr)
    | none =>
      if token.Kind = TokenKindBracket ∧ token.Value = lit "(" then
        let p := p.next
        match parser.parse X fuel p 0 with
        | none => none
        | some (expr, p) =>
          let p := p.next
          parser.parsePostfix X fuel p expr
      else
        match token.Kind with
        | TokenKindIdentifier =>
          let p := p.next
          if token.Value = lit "true" then some (BoolNode true, p)
          else if token.Value = lit "false" then some (BoolNode false, p)
          else if token.Value = lit "nil" then some (NilNode, p)
          else
            match parser.parseIdentifier X fuel p token with
            | none => none
            | some (node, p) => parser.parsePostfix X fuel p node
        | TokenKindNumber =>
          let p := p.next
          let value := token.Value.filter (fun b => b != 0x5F)
          if value.contains 0x2E then some (FloatNode (X.ToFloat64 value), p)
          else some (IntNode (ToInt X value), p)
        | TokenKindString =>
          let p := p.next
          some (StringNode token.Value, p)
        | _ => some (Node.nil, p)

/-- The method `parseIdentifier`. -/
def parser.parseIdentifier (X : Extern) : Nat → parser → Token → Option (Node × parser)
  | 0, _, _ => none
  | fuel + 1, p, token =>
    if p.atBracket (lit "(") then
      let p := p.next
      match parser.parseArguments X fuel p with
      | none => none
      | some (arguments, p) => some (FunctionNode token.Value arguments, p)
    else some (IdentifierNode token.Value, p)

/-- The method `parsePostfix`. -/
def parser.parsePostfix (X : Extern) : Nat → parser → Node → Option (Node × parser)
  | 0, _, _ => none
  | fuel + 1, p, node => parser.parsePostfixLoop X fuel p node p.current

/-- The loop `for (token.Kind == TokenKindOperator || token.Kind == TokenKindBracket) &&
p.err == nil { ... }` of `parsePostfix`. -/
def parser.parsePostfixLoop (X : Extern) : Nat → parser → Node → Token → Option (Node × parser)
  | 0, _, _, _ => none
  | fuel + 1, p, node, token =>
    if (token.Kind = TokenKindOperator ∨ token.Kind = TokenKindBracket) ∧ p.err = none then
      if token.Value = lit "." then
        let p := p.next
        let token := p.current
        let p := p.next
        let p := if token.Kind ≠ TokenKindIdentifier then { p with err := some Error.expectName }
          else p
        if p.atBracket (lit "(") then
          let p := p.next
          match parser.parseArguments X fuel p with
          | none => none
          | some (args, p) =>
            parser.parsePostfixLoop X fuel p (MethodNode node token.Value args) p.current
        else parser.parsePostfixLoop X fuel p (PropertyNode node token.Value) p.current
      else if p.atBracket (lit "(") then
        let p := p.next
        match parser.parseArguments X fuel p with
        | none => none
        | some (args, p) =>
          parser.parsePostfixLoop X fuel p (FunctionNode token.Value args) p.current
      else some (node, p)
    else some (node, p)

/-- The method `parseArguments`. -/
def parser.parseArguments (X : Extern) : Nat → parser → Option (List Node × parser)
  | 0, _ => none
  | fuel + 1, p =>
    match parser.parseArgumentsLoop X fuel p [] with
    | none => none
    | some (nodes, p) => some (nodes, p.next)

/-- The loop `for !(p.current.Kind == TokenKindBracket && p.current.Value == ")") &&
p.err == nil { ... }` of `parseArguments`, with the nodes collected so far. -/
def parser.parseArgumentsLoop (X : Extern) :
    Nat → parser → List Node → Option (List Node × parser)
  | 0, _, _ => none
  | fuel + 1, p, nodes =>
    if !p.atBracket (lit ")") ∧ p.err = none then
      let p :=
        if nodes.length > 0 then
          if !(p.current.Kind == TokenKindOperator && p.current.Value == lit ",") then
            { p with err := some Error.invalidToken }
          else p
        else p
      match parser.parse X fuel p 0 with
      | none => none
      | some (node, p) => parser.parseArgumentsLoop X fuel p (nodes ++ [node])
    else some (nodes, p)

end

/-- The function `Parse`. The lexer's token list is never empty, so `tokens[0]` exists. -/
def Parse (X : Extern) (fuel : Nat) (source : GoString) : Option (Except Error Tree) :=
  match Lexer X fuel source with
  | none => none
  | some (Except.error err) => some (Except.error err)
  | some (Except.ok tokens) =>
    match tokens.head? with
    | none => none
    | some t0 =>
      let p : parser := { tokens := tokens, current := t0, pos := 0, err := none }
      match parser.parse X fuel p 0 with
      | none => none
      | some (node, p) =>
        let p := if p.current.Kind ≠ TokenKindEOF then
            { p with err := some (Error.unexpectedToken p.current) }
          else p
        match p.err with
        | some err => some (Except.error err)
        | none => some (Except.ok { Root := node })

/-! ## Opcodes (`runtime/code.go`) and the compiler (`expr/compiler`) -/

/-- The opcode `OpCodeAdd`. -/
def OpCodeAdd : Nat := 0
/-- The opcode `OpCodeSub`. -/
def OpCodeSub : Nat := 1
/-- The opcode `OpCodeMul`. -/
def OpCodeMul : Nat := 2
/-- The opcode `OpCodeDiv`. -/
def OpCodeDiv : Nat := 3
/-- The opcode `OpCodePow`. -/
def OpCodePow : Nat := 4
/-- The opcode `OpCodeMod`. -/
def OpCodeMod : Nat := 5
/-- The opcode `OpCodePop`. -/
def OpCodePop : Nat := 6
/-- The opcode `OpCodePush`. -/
def OpCodePush : Nat := 7
/-- The opcode `OpCodeCall`. -/
def OpCodeCall : Nat := 8
/-- The opcode `OpCodeNot`. -/
def OpCodeNot : Nat := 9
/-- The opcode `OpCodeNegate`. -/
def OpCodeNegate : Nat := 10
/-- The opcode `OpCodeProperty`. -/
def OpCodeProperty : Nat := 11
/-- The opcode `OpCodeFetch`. -/
def OpCodeFetch : Nat := 12
/-- The opcode `OpCodeTrue`. -/
def OpCodeTrue : Nat := 13
/-- The opcode `OpCodeFalse`. -/
def OpCodeFalse : Nat := 14
/-- The opcode `OpCodeNil`. -/
def OpCodeNil : Nat := 15

/-- Modelled from the spec: the struct `runtime.Call`, whose declaration is not under `src/`, is
the constructor `Call`. The spec gives the call descriptor as a record of a name and an
argument count; the field names are those of the literals in `compiler.go` and
`runtime_test.go`, `Call{Name: ..., ArgumentsCnt: ...}`. The other constructors are the values
of the constant pool (`[]interface{}`) that the compiler takes from the tree: an `int`, a
`float64` (by its bits) and a `string`. -/
inductive Const where
  | int (Value : Int) : Const
  | float64 (Value : Nat) : Const
  | string (Value : GoString) : Const
  | Call (Name : GoString) (ArgumentsCnt : Int) : Const
deriving DecidableEq, Repr

/-- Whether the bits of a `float64` are a NaN. -/
def float64IsNaN (bits : Nat) : Bool :=
  bits / 2 ^ 52 % 2 ^ 11 == 2 ^ 11 - 1 && bits % 2 ^ 52 != 0

/-- Go's `==` on two interface values, as the key comparison of `map[interface{}]uint16`:
equal dynamic types and equal values, where a NaN equals nothing and `+0` equals `-0`. -/
def Const.same : Const → Const → Bool
  | Const.int a, Const.int b => a == b
  | Const.float64 a, Const.float64 b =>
    !float64IsNaN a && !float64IsNaN b && (a == b || (a % 2 ^ 63 == 0 && b % 2 ^ 63 == 0))
  | Const.string a, Const.string b => a == b
  | Const.Call n a, Const.Call m b => n == m && a == b
  | _, _ => false

/-- The struct `compiler`. The map `constantsIndex` is the list of its entries, the newest
first; an entry is only added for a key that is not yet there. -/
structure compiler where
  instructions : List Nat
  constants : List Const
  constantsIndex : List (Const × Nat)
deriving DecidableEq, Repr

/-- The function `encode`: the two bytes of a `uint16`, big-endian. -/
def encode (input : Nat) : List Nat := [input / 256 % 256, input % 256]

/-- The method `appendInstruction`. -/
def compiler.appendInstruction (c : compiler) (instruction : Nat) (operands : List Nat) :
    compiler :=
  { c with instructions := c.instructions ++ [instruction] ++ operands }

/-- The test `hashable` of `newConstant`: the kind of the value is neither `reflect.Slice` nor
`reflect.Map`. The kinds of the pool's values are `Int`, `Float64`, `String` and `Struct`. -/
def Const.hashable : Const → Bool
  | Const.int _ => true
  | Const.float64 _ => true
  | Const.string _ => true
  | Const.Call _ _ => true

/-- The map read `c.constantsIndex[i]`. -/
def compiler.index (c : compiler) (i : Const) : Option Nat :=
  (c.constantsIndex.find? (fun e => Const.same e.1 i)).map Prod.snd

/-- The method `newConstant`: the encoded pool index of `i`, which is appended to the pool
unless it is hashable and already indexed. The index is a `uint16`. -/
def compiler.newConstant (c : compiler) (i : Const) : List Nat × compiler :=
  let hashable := i.hashable
  match (if hashable then c.index i else none) with
  | some ret => (encode ret, c)
  | none =>
    let c := { c with constants := c.constants ++ [i] }
    let c :=
      if hashable then
        { c with constantsIndex := (i, (c.constants.length - 1) % 65536) :: c.constantsIndex }
      else c
    (encode ((c.constants.length - 1) % 65536), c)

/-- The statement `c.appendInstruction(op, c.newConstant(i)...)`. -/
def compiler.appendConstant (c : compiler) (op : Nat) (i : Const) : compiler :=
  let r := c.newConstant i
  r.2.appendInstruction op r.1

mutual

/-- The method `compile` with the eleven methods it dispatches to (`compileUnaryNode`,
`compileBinaryNode`, ...), one for each case of the type switch; a `nil` node matches no
case. -/
def compiler.compile (c : compiler) : Node → compiler
  | Node.nil => c
  | UnaryNode Operator Expr =>
    let c := c.compile Expr
    if Operator = lit "!" ∨ Operator = lit "not" then c.appendInstruction OpCodeNot []
    else if Operator = lit "-" then c.appendInstruction OpCodeNegate []
    else c
  | BinaryNode Operator Left Right =>
    let c := c.compile Left
    let c := c.compile Right
    if Operator = lit "+" then c.appendInstruction OpCodeAdd []
    else if Operator = lit "-" then c.appendInstruction OpCodeSub []
    else if Operator = lit "*" then c.appendInstruction OpCodeMul []
    else if Operator = lit "/" then c.appendInstruction OpCodeDiv []
    else if Operator = lit "^" then c.appendInstruction OpCodePow []
    else if Operator = lit "%" then c.appendInstruction OpCodeMod []
    else c
  | MethodNode Node_ Method Arguments =>
    let c := c.compile Node_
    let c := c.compileArguments Arguments
    c.appendConstant OpCodeCall (Const.Call Method Arguments.length)
  | FunctionNode Name Arguments =>
    let c := c.compileArguments Arguments
    c.appendConstant OpCodeCall (Const.Call Name Arguments.length)
  | PropertyNode Node_ Property =>
    let c := c.compile Node_
    c.appendConstant OpCodeProperty (Const.string Property)
  | IdentifierNode Value => c.appendConstant OpCodeFetch (Const.string Value)
  | BoolNode Value =>
    if Value then c.appendInstruction OpCodeTrue [] else c.appendInstruction OpCodeFalse []
  | NilNode => c.appendInstruction OpCodeNil []
  | FloatNode Value => c.appendConstant OpCodePush (Const.float64 Value)
  | IntNode Value => c.appendConstant OpCodePush (Const.int Value)
  | StringNode Value => c.appendConstant OpCodePush (Const.string Value)

/-- The loop `for _, arg := range n.Arguments { c.compile(arg) }`. -/
def compiler.compileArguments (c : compiler) : List Node → compiler
  | [] => c
  | arg :: rest => (c.compile arg).compileArguments rest

end

/-- The function `Compile`: the instruction stream and the constant pool (the error is
always `nil`). -/
def Compile (tree : Tree) : List Nat × List Const :=
  let c : compiler := { instructions := [], constants := [], constantsIndex := [] }
  let c := c.compile tree.Root
  (c.instructions, c.constants)

/-! ## Auxiliary notions for the theorems -/

/-- One more unit of fuel preserves every result of the eight parser functions. -/
def parserStep (X : Extern) (n : Nat) : Prop :=
  (∀ p pr r, parser.parse X n p pr = some r → parser.parse X (n + 1) p pr = some r) ∧
  (∀ p pr nl t r, parser.parseLoop X n p pr nl t = some r →
    parser.parseLoop X (n + 1) p pr nl t = some r) ∧
  (∀ p r, parser.parsePrimary X n p = some r → parser.parsePrimary X (n + 1) p = some r) ∧
  (∀ p t r, parser.parseIdentifier X n p t = some r →
    parser.parseIdentifier X (n + 1) p t = some r) ∧
  (∀ p nd r, parser.parsePostfix X n p nd = some r →
    parser.parsePostfix X (n + 1) p nd = some r) ∧
  (∀ p nd t r, parser.parsePostfixLoop X n p nd t = some r →
    parser.parsePostfixLoop X (n + 1) p nd t = some r) ∧
  (∀ p r, parser.parseArguments X n p = some r → parser.parseArguments X (n + 1) p = some r) ∧
  (∀ p ns r, parser.parseArgumentsLoop X n p ns = some r →
    parser.parseArgumentsLoop X (n + 1) p ns = some r)


/-- The tokens of the source `f(a, b)`. -/
def fabTokens : List Token :=
  [⟨⟨1, 0⟩, TokenKindIdentifier, [0x66]⟩, ⟨⟨1, 1⟩, TokenKindBracket, [0x28]⟩,
   ⟨⟨1, 2⟩, TokenKindIdentifier, [0x61]⟩, ⟨⟨1, 3⟩, TokenKindOperator, [0x2C]⟩,
   ⟨⟨1, 5⟩, TokenKindIdentifier, [0x62]⟩, ⟨⟨1, 6⟩, TokenKindBracket, [0x29]⟩,
   ⟨⟨1, 6⟩, TokenKindEOF, []⟩]

/-- The parser over the tokens of `f(a, b)`, standing at token `pos` with no error. -/
def fabAt (pos : Nat) : parser :=
  { tokens := fabTokens, current := fabTokens.getD pos ⟨⟨1, 6⟩, TokenKindEOF, []⟩, pos := pos,
    err := none }

/-! ### The compiler's state across one compilation -/

/-- The index of a reachable compiler state is sound and exact: an indexed key points to a
pool slot holding an equal value, and a pool value that equals itself (anything but a NaN)
is indexed at its own slot. -/
structure compiler.WF (c : compiler) : Prop where
  sound : ∀ k i, c.index k = some i →
    ∃ k', c.constants[i]? = some k' ∧ Const.same k' k = true
  exact : ∀ i k, c.constants[i]? = some k → Const.same k k = true → c.index k = some i

/-- A later state of the same compilation: instructions and constants were only appended, and
the index stays sound and exact as long as the pool is within the range of a `uint16`. -/
structure compiler.Extends (c c' : compiler) : Prop where
  instr : ∃ code, c'.instructions = c.instructions ++ code
  consts : ∃ ks, c'.constants = c.constants ++ ks
  wf : c.WF → c'.constants.length ≤ 65536 → c'.WF

/-- The bytes that compiling `n` in the state `c` appends to the instruction stream. -/
def compiler.code (c : compiler) (n : Node) : List Nat :=
  (c.compile n).instructions.drop c.instructions.length

/-- The bytes that compiling the argument list `args` in the state `c` appends: the code of
each argument in turn, each compiled in the state its predecessors left. -/
def compiler.codeArguments (c : compiler) : List Node → List Nat
  | [] => []
  | arg :: rest => c.code arg ++ (c.compile arg).codeArguments rest

/-! ### Arithmetic trees (C5) -/

/-- The opcode of an arithmetic operator symbol. -/
def arithOpcode (op : GoString) : Option Nat :=
  if op = lit "+" then some OpCodeAdd
  else if op = lit "-" then some OpCodeSub
  else if op = lit "*" then some OpCodeMul
  else if op = lit "/" then some OpCodeDiv
  else if op = lit "^" then some OpCodePow
  else if op = lit "%" then some OpCodeMod
  else none

/-- A tree built only from `IntNode` literals and `BinaryNode` nodes whose operator is one of
`+ - * / ^ %`. -/
inductive ArithTree : Node → Prop where
  | int (v : Int) : ArithTree (IntNode v)
  | binary (op : GoString) (l r : Node) : (arithOpcode op).isSome = true → ArithTree l →
      ArithTree r → ArithTree (BinaryNode op l r)

/-- The literal values of an arithmetic tree, in a left-to-right traversal. -/
def literals : Node → List Int
  | IntNode v => [v]
  | BinaryNode _ l r => literals l ++ literals r
  | _ => []

/-- The distinct values of a list in the order of their first occurrence. -/
def firstOccurrences : List Int → List Int
  | [] => []
  | x :: xs => x :: (firstOccurrences xs).filter (fun y => decide (y ≠ x))

/-- The post-order instruction stream of an arithmetic tree over a given pool: a literal is
`OpCodePush` and the big-endian index of its value in the pool, a binary node is the code of
its operands and then the opcode of its operator. -/
def postorder (pool : List Int) : Node → List Nat
  | IntNode v => [OpCodePush, pool.indexOf v / 256, pool.indexOf v % 256]
  | BinaryNode op l r => postorder pool l ++ postorder pool r ++ (arithOpcode op).toList
  | _ => []

/-- The pool after one more literal: unchanged when the value is there, the value appended
otherwise. -/
def poolAdd (vs : List Int) (v : Int) : List Int := if v ∈ vs then vs else vs ++ [v]

/-! ### The stack effect of an instruction stream (C6) -/

/-- The opcodes that are followed by a two-byte operand. -/
def hasOperand (op : Nat) : Bool :=
  op = OpCodePush || op = OpCodeFetch || op = OpCodeProperty || op = OpCodeCall

/-- The stack effect of one instruction on a stack of depth `d`: `PUSH`, `FETCH`, `TRUE`,
`FALSE`, `NIL` push one value; `NOT`, `NEGATE`, `PROPERTY` pop one and push one; `ADD`, `SUB`,
`MUL`, `DIV`, `POW`, `MOD` pop two and push one; `CALL` pops the argument count of the
descriptor its operand indexes and pushes one. The result is `none` when the instruction
would pop from a stack that is too short, when the operand of a `CALL` is not the index of a
descriptor, and for any other opcode. -/
def stackEffect (constants : List Const) (op operand d : Nat) : Option Nat :=
  if op = OpCodePush ∨ op = OpCodeFetch ∨ op = OpCodeTrue ∨ op = OpCodeFalse ∨ op = OpCodeNil then
    some (d + 1)
  else if op = OpCodeNot ∨ op = OpCodeNegate ∨ op = OpCodeProperty then
    if 1 ≤ d then some d else none
  else if op = OpCodeAdd ∨ op = OpCodeSub ∨ op = OpCodeMul ∨ op = OpCodeDiv ∨ op = OpCodePow ∨
      op = OpCodeMod then
    if 2 ≤ d then some (d - 1) else none
  else if op = OpCodeCall then
    match constants[operand]? with
    | some (Const.Call _ cnt) =>
      if 0 ≤ cnt ∧ cnt.toNat ≤ d then some (d - cnt.toNat + 1) else none
    | _ => none
  else none

/-- The depth of the stack after running an instruction stream in order from depth `d`,
decoded from its first byte: one opcode byte, followed by a two-byte big-endian operand exactly
when the opcode takes one. The result is `none` when an instruction has no stack effect
(`stackEffect`) or an operand is cut off. -/
def stackRun (constants : List Const) : List Nat → Nat → Option Nat
  | [], d => some d
  | op :: rest, d =>
    if hasOperand op then
      match rest with
      | hi :: lo :: rest =>
        match stackEffect constants op (hi * 256 + lo) d with
        | some d' => stackRun constants rest d'
        | none => none
      | _ => none
    else
      match stackEffect constants op 0 d with
      | some d' => stackRun constants rest d'
      | none => none

/-- A tree the compiler lowers completely: no nil node, no method call, and every binary
operator one of `+ - * / ^ %`. -/
inductive Lowerable : Node → Prop where
  | unary (op : GoString) (e : Node) : Lowerable e → Lowerable (UnaryNode op e)
  | binary (op : GoString) (l r : Node) : (arithOpcode op).isSome = true → Lowerable l →
      Lowerable r → Lowerable (BinaryNode op l r)
  | function (name : GoString) (args : List Node) : (∀ a, a ∈ args → Lowerable a) →
      Lowerable (FunctionNode name args)
  | property (e : Node) (name : GoString) : Lowerable e → Lowerable (PropertyNode e name)
  | bool (v : Bool) : Lowerable (BoolNode v)
  | nilNode : Lowerable NilNode
  | identifier (v : GoString) : Lowerable (IdentifierNode v)
  | float (v : Nat) : Lowerable (FloatNode v)
  | int (v : Int) : Lowerable (IntNode v)
  | string (v : GoString) : Lowerable (StringNode v)

/-! ### Worked examples -/

/-- The tree of `1 + 2 - 3`. -/
def exampleArith : Node :=
  BinaryNode (lit "-") (BinaryNode (lit "+") (IntNode 1) (IntNode 2)) (IntNode 3)

/-- The tree of `func(1 + 2 - 3) + func(1)`. -/
def exampleCalls : Node :=
  BinaryNode (lit "+") (FunctionNode (lit "func") [exampleArith])
    (FunctionNode (lit "func") [IntNode 1])

/-- The compiler state `Compile` starts from. -/
def compiler.empty : compiler := { instructions := [], constants := [], constantsIndex := [] }

/-! ### Notions for the tokenizer's theorems -/

/-- What holds of the first rune `d.1` and its width `d.2` in a string `s0 :: t` whose first
byte is outside ASCII: the rune is outside ASCII, and so is every byte it spans. -/
def NonAscii (s0 : Nat) (t : GoString) (d : Int × Nat) : Prop :=
  1 ≤ d.2 ∧ d.2 ≤ (s0 :: t).length ∧ 0x80 ≤ d.1 ∧ ∀ x, x ∈ (s0 :: t).take d.2 → 0x80 ≤ x

/-- The bytes that may follow a backslash in a literal quoted by `q`: `a b f n r t v \` and
the quote itself. -/
def isEscape (q e : Nat) : Bool :=
  e == 0x61 || e == 0x62 || e == 0x66 || e == 0x6E || e == 0x72 || e == 0x74 || e == 0x76 ||
  e == 0x5C || e == q

/-- The text after an opening quote `q` is no well-formed rest of a string literal: a raw
newline or the end of the input comes before an unescaped closing `q`, or a backslash is
followed by something other than `a b f n r t v \` or `q`. It is stated on bytes: the
characters the rule names are ASCII, and no byte of a longer character is. -/
def unclosed (q : Nat) : GoString → Bool
  | [] => true
  | b :: rest =>
    if b = q then false
    else if b = 0x0A then true
    else if b = 0x5C then
      match rest with
      | [] => true
      | e :: rest' => if isEscape q e then unclosed q rest' else true
    else unclosed q rest

/-- The bytes of the source that the lexer has not read yet. -/
def lexer.rest (l : lexer) : GoString := l.source.drop l.end_

/-! ## Infix expressions over identifiers -/

/-- The conversion `string(runes)`: the UTF-8 bytes of a string of runes. -/
def encRunes (a : List Int) : GoString := (a.map EncodeRune).flatten

/-- A rune that UTF-8 encodes as itself: a Unicode scalar value. -/
def validRune (r : Int) : Bool := 0 ≤ r && r ≤ 0x10FFFF && !(0xD800 ≤ r && r ≤ 0xDFFF)

/-- A word of the lexer, as `rootState` and `identifierState` read it: a non-empty string of
runes that `isAlphaNumeric` accepts, whose first rune reaches the last but one case of
`rootState` (it is no ASCII digit, which starts a number, and `isSpace` rejects it). -/
def IsWord (X : Extern) (a : List Int) : Bool :=
  match a with
  | [] => false
  | r :: _ =>
    !(0x30 ≤ r && r ≤ 0x39) && !isSpace X r &&
      a.all (fun r => validRune r && isAlphaNumeric X r)

/-- An identifier: a word that is none of the `keywords`, for which `identifierState` emits an
Identifier token. -/
def IsIdentifier (X : Extern) (a : List Int) : Bool :=
  IsWord X a && !keywords.contains (encRunes a)

/-- The node that `parsePrimary` makes of an Identifier token that no bracket follows:
`true`, `false` and `nil` are constants, every other one is an `IdentifierNode`. -/
def operand (v : GoString) : Node :=
  if v = lit "true" then BoolNode true
  else if v = lit "false" then BoolNode false
  else if v = lit "nil" then NilNode
  else IdentifierNode v

/-- The source text `a p b q c`, with one space between its five parts. -/
def twoOperatorSource (a p b q c : GoString) : GoString :=
  a ++ 0x20 :: (p ++ 0x20 :: (b ++ 0x20 :: (q ++ 0x20 :: c)))

/-- The kind and the value of a token, without its position. -/
def Token.kv (t : Token) : Causer.Kind × GoString := (t.Kind, t.Value)

/-- The lexer stands between two tokens: it has read the first `k` bytes of the source `S`
without an error and has emitted tokens of the kinds and values `kvs`. -/
def lexer.Ready (l : lexer) (S : GoString) (k : Nat) (kvs : List (Causer.Kind × GoString)) : Prop :=
  l.source = S ∧ l.start = k ∧ l.end_ = k ∧ l.err = none ∧ l.tokens.map Token.kv = kvs


/-! ## The virtual machine (`runtime/runtime.go`) -/

/-- The kinds `reflect.Kind` of the values of the model, and `Interface`, which is the kind
of no dynamic value but of the element type of a `map[string]interface{}`. -/
inductive ReflectKind where
  | Bool
  | Int
  | Uint8
  | Float64
  | String
  | Struct
  | Func
  | Map
  | Slice
  | Ptr
  | Interface
deriving DecidableEq, Repr

/-- The dynamic values (`interface{}`) of the virtual machine: the stack, the constant pool,
the registered implementations and the environment hold them.
* `nil` is the nil interface; `float64` is given by its bits; `uint8` is what indexing a
  string gives.
* `Call` is the struct `runtime.Call` (see `Const`).
* `func` is a function value: `id` names the function for `Host.Call`, `In` lists the kinds
  of its parameters (`Type.In(i).Kind()`), `NumOut` is the number of its results. The types
  of the parameters, of which the model has the kinds only, are with the host: `Host.Call`
  panics where an argument is not assignable to a parameter.
* `slice` is a `[]interface{}`.
* `map` is a map with `string` keys, by its entries: `elem` is the kind of its element type,
  `Interface` for a `map[string]interface{}`.
* `struct` is a struct by its fields: the name, whether the field is exported, and the
  value; the type of a field is the type of its value.
* `ptr` is a pointer to a variable of the type of the value it holds. -/
inductive Value where
  | nil : Value
  | bool (v : Bool) : Value
  | int (v : Int) : Value
  | uint8 (v : Nat) : Value
  | float64 (bits : Nat) : Value
  | string (v : GoString) : Value
  | Call (Name : GoString) (ArgumentsCnt : Int) : Value
  | func (id : Nat) (In : List ReflectKind) (NumOut : Nat) : Value
  | slice (elems : List Value) : Value
  | map (elem : ReflectKind) (entries : List (GoString × Value)) : Value
  | struct (fields : List (GoString × Bool × Value)) : Value
  | ptr (elem : Value) : Value
deriving Repr

/-- The run-time panics of Go that the virtual machine can raise. -/
inductive Panic where
  | indexOutOfRange
  | sliceBounds
  | nilDereference
  | typeAssertion
  | negativeLen
  | reflectPanic
deriving DecidableEq, Repr

/-- The errors the virtual machine creates with `fmt.Errorf`. -/
inductive RuntimeError where
  | unexceptedInstruction
  | invalidOperator (op : GoString)
deriving DecidableEq, Repr

/-- What the virtual machine takes from the host and from outside the repository.
* `Call id args` is `reflect.Value.Call` on the function `id` with arguments as many as it
  has parameters: its results, or a panic, as when an argument cannot be assigned to a
  parameter.
* `ToInt` is `cast.ToInt`.
* `spare` is the spare capacity of the slice `instructions` that the host passes to `New`:
  the bytes of its backing array from its length to its capacity. -/
structure Host where
  Call : Nat → List Value → Except Panic (List Value)
  ToInt : Value → Int
  spare : List Nat

/-- The environment: the value `env` and the method set of its dynamic type, every method as
the function value that `MethodByName` returns. -/
structure Env where
  value : Value
  methods : List (GoString × Value)

/-- The struct `Runtime`. The top of the stack is the end of the list. The map `instImpl` is
a list of the operator symbols with their implementations, in the order of registration. The
map `instFunc`, which `New` fills and nothing changes, is the function `instFunc` below. -/
structure Runtime where
  stack : List Value
  constants : List Value
  instructions : List Nat
  instructionPointer : Nat
  instImpl : List (GoString × List Value)
  env : Env

/-- The constant `runtimeOpAdd`. -/
def runtimeOpAdd : GoString := lit "+"
/-- The constant `runtimeOpSub`. -/
def runtimeOpSub : GoString := lit "-"
/-- The constant `runtimeOpMul`. -/
def runtimeOpMul : GoString := lit "*"
/-- The constant `runtimeOpDiv`. -/
def runtimeOpDiv : GoString := lit "/"
/-- The constant `runtimeOpMod`. -/
def runtimeOpMod : GoString := lit "%"
/-- The constant `runtimeOpPow`. -/
def runtimeOpPow : GoString := lit "^"

/-- The values of the map `instFunc`: the closures `rt.instBinaryOp(op)` and the methods
`rt.instPop`, `rt.instPush`, `rt.instCall`, `rt.instFetch`, `rt.instProperty`. -/
inductive Inst where
  | instBinaryOp (op : GoString)
  | instPop
  | instPush
  | instCall
  | instFetch
  | instProperty
deriving DecidableEq, Repr

/-- The map `rt.instFunc` that `New` builds: eleven opcodes have an entry, `OpCodeNot`,
`OpCodeNegate`, `OpCodeTrue`, `OpCodeFalse` and `OpCodeNil` have none. -/
def instFunc (op : Nat) : Option Inst :=
  if op = OpCodeAdd then some (Inst.instBinaryOp runtimeOpAdd)
  else if op = OpCodeSub then some (Inst.instBinaryOp runtimeOpSub)
  else if op = OpCodeMul then some (Inst.instBinaryOp runtimeOpMul)
  else if op = OpCodeDiv then some (Inst.instBinaryOp runtimeOpDiv)
  else if op = OpCodeMod then some (Inst.instBinaryOp runtimeOpMod)
  else if op = OpCodePow then some (Inst.instBinaryOp runtimeOpPow)
  else if op = OpCodePop then some Inst.instPop
  else if op = OpCodePush then some Inst.instPush
  else if op = OpCodeCall then some Inst.instCall
  else if op = OpCodeFetch then some Inst.instFetch
  else if op = OpCodeProperty then some Inst.instProperty
  else none

/-- The function `New`. -/
def New (instructions : List Nat) (constants : List Value) (env : Env) : Runtime :=
  { stack := [], constants := constants, instructions := instructions,
    instructionPointer := 0, instImpl := [], env := env }

/-- The method `readArg`: the two bytes at the instruction pointer, big-endian. The slice
expression `r.instructions[ip : ip+2]` is bounded by the capacity of `r.instructions`, not by
its length: within the length it gives two bytes of the instructions, past the length and
within the capacity it reslices into the spare capacity, and past the capacity it panics. -/
def Runtime.readArg (H : Host) (r : Runtime) : Except Panic (Nat × Runtime) :=
  if r.instructionPointer + 2 ≤ r.instructions.length then
    Except.ok (r.instructions.getD r.instructionPointer 0 * 256 +
        r.instructions.getD (r.instructionPointer + 1) 0,
      { r with instructionPointer := r.instructionPointer + 2 })
  else if r.instructionPointer + 2 ≤ r.instructions.length + H.spare.length then
    Except.ok ((r.instructions ++ H.spare).getD r.instructionPointer 0 * 256 +
        (r.instructions ++ H.spare).getD (r.instructionPointer + 1) 0,
      { r with instructionPointer := r.instructionPointer + 2 })
  else Except.error Panic.sliceBounds

/-- The method `readConstant`. -/
def Runtime.readConstant (H : Host) (r : Runtime) : Except Panic (Value × Runtime) :=
  match r.readArg H with
  | Except.error p => Except.error p
  | Except.ok (i, r) =>
    match r.constants.get? i with
    | some v => Except.ok (v, r)
    | none => Except.error Panic.indexOutOfRange

/-- The method `push`. -/
def Runtime.push (r : Runtime) (v : Value) : Runtime :=
  { r with stack := r.stack ++ [v] }

/-- The method `pop`: indexing the empty stack panics. -/
def Runtime.pop (r : Runtime) : Except Panic (Value × Runtime) :=
  match r.stack.getLast? with
  | none => Except.error Panic.indexOutOfRange
  | some v => Except.ok (v, { r with stack := r.stack.dropLast })

/-- The method `Register`. -/
def Runtime.Register (r : Runtime) (name : GoString) (fn : Value) : Runtime :=
  match r.instImpl.lookup name with
  | none => { r with instImpl := r.instImpl ++ [(name, [fn])] }
  | some _ =>
    { r with instImpl :=
        r.instImpl.map (fun e => if e.1 = name then (e.1, e.2 ++ [fn]) else e) }

/-- The call `reflect.TypeOf(v).Kind()`: on the nil interface `reflect.TypeOf` is nil and the
call panics. -/
def Value.Kind : Value → Except Panic ReflectKind
  | Value.nil => Except.error Panic.nilDereference
  | Value.bool _ => Except.ok ReflectKind.Bool
  | Value.int _ => Except.ok ReflectKind.Int
  | Value.uint8 _ => Except.ok ReflectKind.Uint8
  | Value.float64 _ => Except.ok ReflectKind.Float64
  | Value.string _ => Except.ok ReflectKind.String
  | Value.Call _ _ => Except.ok ReflectKind.Struct
  | Value.func _ _ _ => Except.ok ReflectKind.Func
  | Value.slice _ => Except.ok ReflectKind.Slice
  | Value.map _ _ => Except.ok ReflectKind.Map
  | Value.struct _ => Except.ok ReflectKind.Struct
  | Value.ptr _ => Except.ok ReflectKind.Ptr

/-- The call `implType.NumIn()` on the type of a function value. -/
def Value.NumIn : Value → Nat
  | Value.func _ ins _ => ins.length
  | _ => 0

/-- The call `implType.NumOut()` on the type of a function value. -/
def Value.NumOut : Value → Nat
  | Value.func _ _ n => n
  | _ => 0

/-- The call `implType.In(i).Kind()` on the type of a function value: when the function has
no parameter `i`, indexing the parameters inside `reflect` panics with an index out of range;
on a type that is no function type `In` panics itself. -/
def Value.In (v : Value) (i : Nat) : Except Panic ReflectKind :=
  match v with
  | Value.func _ ins _ =>
    match ins.get? i with
    | some k => Except.ok k
    | none => Except.error Panic.indexOutOfRange
  | _ => Except.error Panic.reflectPanic

/-- The call `reflect.Value.Call(in)`: it panics on a value that is no function and on a
wrong number of arguments; otherwise the host runs the function. -/
def Value.Call_ (H : Host) (fn : Value) (args : List Value) : Except Panic (List Value) :=
  match fn with
  | Value.func id ins _ =>
    if args.length = ins.length then H.Call id args else Except.error Panic.reflectPanic
  | _ => Except.error Panic.reflectPanic

/-- The index `ret[0]` into the results of a call. -/
def firstResult (ret : List Value) : Except Panic Value :=
  match ret with
  | v :: _ => Except.ok v
  | [] => Except.error Panic.indexOutOfRange

/-- The loop `for _, impl := range impls { ... }` of `instBinaryOp`, and the
`return fmt.Errorf("invalid operator %s", op)` after it. The result is the runtime and the
error the closure returns. -/
def Runtime.binaryOpLoop (H : Host) (op : GoString) (left right : Value) (r : Runtime) :
    List Value → Except Panic (Runtime × Option RuntimeError)
  | [] => Except.ok (r, some (RuntimeError.invalidOperator op))
  | impl :: impls =>
    match impl.Kind with
    | Except.error p => Except.error p
    | Except.ok k =>
      if k = ReflectKind.Func then
        if impl.NumIn ≠ 2 ∧ impl.NumOut ≠ 1 then binaryOpLoop H op left right r impls
        else
          match impl.In 0 with
          | Except.error p => Except.error p
          | Except.ok in0 =>
            match left.Kind with
            | Except.error p => Except.error p
            | Except.ok kl =>
              if in0 ≠ kl then binaryOpLoop H op left right r impls
              else
                match impl.In 1 with
                | Except.error p => Except.error p
                | Except.ok in1 =>
                  match right.Kind with
                  | Except.error p => Except.error p
                  | Except.ok kr =>
                    if in1 ≠ kr then binaryOpLoop H op left right r impls
                    else
                      match impl.Call_ H [left, right] with
                      | Except.error p => Except.error p
                      | Except.ok ret =>
                        match firstResult ret with
                        | Except.error p => Except.error p
                        | Except.ok v => Except.ok (r.push v, none)
      else binaryOpLoop H op left right r impls

/-- The closure that `instBinaryOp(op)` returns. -/
def Runtime.instBinaryOp (H : Host) (op : GoString) (r : Runtime) :
    Except Panic (Runtime × Option RuntimeError) :=
  match r.pop with
  | Except.error p => Except.error p
  | Except.ok (right, r) =>
    match r.pop with
    | Except.error p => Except.error p
    | Except.ok (left, r) =>
      match r.instImpl.lookup op with
      | none => Except.ok (r, some (RuntimeError.invalidOperator op))
      | some impls => r.binaryOpLoop H op left right impls

/-- The method `instPop`. -/
def Runtime.instPop (r : Runtime) : Except Panic (Runtime × Option RuntimeError) :=
  match r.pop with
  | Except.error p => Except.error p
  | Except.ok (_, r) => Except.ok (r, none)

/-- The method `instPush`. -/
def Runtime.instPush (H : Host) (r : Runtime) :
    Except Panic (Runtime × Option RuntimeError) :=
  match r.readConstant H with
  | Except.error p => Except.error p
  | Except.ok (v, r) => Except.ok (r.push v, none)

/-- The method `fetch`, on the values of the model.
* A pointer to a struct is replaced by the struct.
* A slice is indexed with `cast.ToInt(identifiy)`; `Index` panics out of range. A string is
  indexed likewise and gives a byte.
* A map is looked up with the key: `MapIndex` panics on a key that is no string; an entry
  that is missing gives `nil`.
* A struct is looked up with `reflect.ValueOf(identifiy).String()`, which for a value that
  is no string is a text in angle brackets that names no field; a field that is missing or
  not exported gives `nil`.
* Every other value gives `nil`. -/
def fetch (H : Host) (env : Value) (identifiy : Value) : Except Panic Value :=
  let envValue := match env with
    | Value.ptr (Value.struct fields) => Value.struct fields
    | v => v
  match envValue with
  | Value.slice elems =>
    let i := H.ToInt identifiy
    if 0 ≤ i ∧ i < elems.length then Except.ok (elems.getD i.toNat Value.nil)
    else Except.error Panic.indexOutOfRange
  | Value.string s =>
    let i := H.ToInt identifiy
    if 0 ≤ i ∧ i < s.length then Except.ok (Value.uint8 (s.getD i.toNat 0))
    else Except.error Panic.indexOutOfRange
  | Value.map _ entries =>
    match identifiy with
    | Value.string key =>
      match entries.lookup key with
      | some v => Except.ok v
      | none => Except.ok Value.nil
    | _ => Except.error Panic.reflectPanic
  | Value.struct fields =>
    match identifiy with
    | Value.string name =>
      match fields.lookup name with
      | some (exported, v) => if exported then Except.ok v else Except.ok Value.nil
      | none => Except.ok Value.nil
    | _ => Except.ok Value.nil
  | _ => Except.ok Value.nil

/-- The method `instProperty`. -/
def Runtime.instProperty (H : Host) (r : Runtime) :
    Except Panic (Runtime × Option RuntimeError) :=
  match r.pop with
  | Except.error p => Except.error p
  | Except.ok (instance_, r) =>
    match r.readConstant H with
    | Except.error p => Except.error p
    | Except.ok (prop, r) =>
      match fetch H instance_ prop with
      | Except.error p => Except.error p
      | Except.ok v => Except.ok (r.push v, none)

/-- The method `instFetch`. -/
def Runtime.instFetch (H : Host) (r : Runtime) :
    Except Panic (Runtime × Option RuntimeError) :=
  match r.readConstant H with
  | Except.error p => Except.error p
  | Except.ok (c, r) =>
    match fetch H r.env.value c with
    | Except.error p => Except.error p
    | Except.ok v => Except.ok (r.push v, none)

/-- The method `instNil`: it does nothing, and `New` does not enter it in `instFunc`. -/
def Runtime.instNil (r : Runtime) : Except Panic (Runtime × Option RuntimeError) :=
  Except.ok (r, none)

/-- The loop `for i := call.ArgumentsCnt; i > 0; i-- { in[i-1] = pop() }` of `instCall`: the
value popped first is the last argument. -/
def Runtime.popArguments : Nat → Runtime → List Value → Except Panic (List Value × Runtime)
  | 0, r, in_ => Except.ok (in_, r)
  | i + 1, r, in_ =>
    match r.pop with
    | Except.error p => Except.error p
    | Except.ok (param, r) => popArguments i r (param :: in_)

/-- The method `fetchFn`: the `reflect.Value` for a name, `none` for the nil pointer. The
`reflect.Value` is the value together with its read-only flag, which is set on a value that
was obtained through a field that is not exported.
* `reflect.ValueOf(r.env)` of a nil environment is the zero `reflect.Value`, on which
  `NumMethod` panics.
* A method of that name comes first.
* Then a pointer is replaced by what it points to.
* A map is looked up for an entry, and `Elem()` is taken of the entry: of an element of an
  interface type it is the value in the interface, of an element of a pointer type it is
  what the pointer points to, and on an element of any other type `Elem()` panics.
* A struct is looked up for a field, exported or not. -/
def Runtime.fetchFn (r : Runtime) (name : GoString) : Except Panic (Option (Value × Bool)) :=
  match r.env.value with
  | Value.nil => Except.error Panic.reflectPanic
  | env =>
    match (if r.env.methods.length > 0 then r.env.methods.lookup name else none) with
    | some method => Except.ok (some (method, false))
    | none =>
      let v := match env with
        | Value.ptr e => e
        | v => v
      match v with
      | Value.map elem entries =>
        match entries.lookup name with
        | some ret =>
          if elem = ReflectKind.Interface then Except.ok (some (ret, false))
          else if elem = ReflectKind.Ptr then
            match ret with
            | Value.ptr e => Except.ok (some (e, false))
            | _ => Except.error Panic.reflectPanic
          else Except.error Panic.reflectPanic
        | none => Except.ok none
      | Value.struct fields =>
        match fields.lookup name with
        | some (exported, ret) => Except.ok (some (ret, !exported))
        | none => Except.ok none
      | _ => Except.ok none

/-- The method `instCall`. The type assertion `.(Call)` panics on a constant that is no
`Call`, `make` panics on a negative count, `*r.fetchFn(...)` panics on the nil pointer, and
`Call` panics on a value whose read-only flag is set. -/
def Runtime.instCall (H : Host) (r : Runtime) : Except Panic (Runtime × Option RuntimeError) :=
  match r.readConstant H with
  | Except.error p => Except.error p
  | Except.ok (Value.Call name cnt, r) =>
    if cnt < 0 then Except.error Panic.negativeLen
    else
      match r.popArguments cnt.toNat [] with
      | Except.error p => Except.error p
      | Except.ok (in_, r) =>
        match r.fetchFn name with
        | Except.error p => Except.error p
        | Except.ok none => Except.error Panic.nilDereference
        | Except.ok (some (fn, readOnly)) =>
          if readOnly then Except.error Panic.reflectPanic
          else
            match fn.Call_ H in_ with
            | Except.error p => Except.error p
            | Except.ok ret =>
              match firstResult ret with
              | Except.error p => Except.error p
              | Except.ok v => Except.ok (r.push v, none)
  | Except.ok (_, _) => Except.error Panic.typeAssertion

/-- The call `instFunc()` of an entry of the map `instFunc`. -/
def Inst.run (H : Host) : Inst → Runtime → Except Panic (Runtime × Option RuntimeError)
  | Inst.instBinaryOp op, r => r.instBinaryOp H op
  | Inst.instPop, r => r.instPop
  | Inst.instPush, r => r.instPush H
  | Inst.instCall, r => r.instCall H
  | Inst.instFetch, r => r.instFetch H
  | Inst.instProperty, r => r.instProperty H

/-- What a call of `Run` ends with: the two results `(interface{}, error)`, or a panic. -/
inductive Outcome where
  | returned (value : Value) (err : Option RuntimeError)
  | panicked (p : Panic)
deriving Repr

/-- The method `Run`: the loop `for r.instructionPointer < len(r.instructions) { ... }` and
the `return r.pop(), nil` after it. The statement `instFunc()` drops the error that the
instruction returns. -/
def Runtime.Run (H : Host) : Nat → Runtime → Option Outcome
  | 0, _ => none
  | fuel + 1, r =>
    if r.instructionPointer < r.instructions.length then
      let op := r.instructions.getD r.instructionPointer 0
      let r := { r with instructionPointer := r.instructionPointer + 1 }
      match instFunc op with
      | some f =>
        match f.run H r with
        | Except.error p => some (Outcome.panicked p)
        | Except.ok (r, _) => Run H fuel r
      | none => some (Outcome.returned Value.nil (some RuntimeError.unexceptedInstruction))
    else
      match r.pop with
      | Except.error p => some (Outcome.panicked p)
      | Except.ok (v, _) => some (Outcome.returned v none)

/-! ## Operator dispatch and the test of the virtual machine -/

/-- The function `func(left int, right float64) float64` that `TestRuntimeAdd` registers
for `+`. -/
def addIntFloat : Value := Value.func 0 [ReflectKind.Int, ReflectKind.Float64] 1
/-- An ASCII digit. -/
def isDigitByte (b : Nat) : Bool := 0x30 ≤ b && b ≤ 0x39

/-- A run of ASCII digits and separators `_`. -/
def isDigitRun (s : GoString) : Bool := s.all (fun b => isDigitByte b || b == 0x5F)

/-- The text of a decimal numeric literal: a digit and a run of digits and `_`; the same
followed by `.` and a run of digits and `_`; or `.`, a digit and a run of digits and `_`. -/
inductive DecimalLiteral : GoString → Prop where
  | whole (d : Nat) (run : GoString) (hd : isDigitByte d = true) (hrun : isDigitRun run = true) :
    DecimalLiteral (d :: run)
  | fraction (d : Nat) (run run2 : GoString) (hd : isDigitByte d = true)
    (hrun : isDigitRun run = true) (hrun2 : isDigitRun run2 = true) :
    DecimalLiteral (d :: run ++ 0x2E :: run2)
  | leadingDot (d : Nat) (run : GoString) (hd : isDigitByte d = true)
    (hrun : isDigitRun run = true) : DecimalLiteral (0x2E :: d :: run)

/-- The lexer is inside a token: it has read the source `S` up to byte `e` without an error,
the token it is reading starts at byte `s`, and it has emitted tokens of the kinds and values
`kvs`. -/
def lexer.At (l : lexer) (S : GoString) (kvs : List (Causer.Kind × GoString)) (s e : Nat) :
    Prop :=
  l.source = S ∧ l.tokens.map Token.kv = kvs ∧ l.start = s ∧ l.end_ = e ∧ l.err = none

/-- None of the tokens emitted so far is the end marker. -/
def lexer.NoEOF (l : lexer) : Prop := ∀ t ∈ l.tokens, t.Kind ≠ TokenKindEOF

/-! ## Operands -/

/-- The node that `parsePrimary` makes of an Identifier token that no bracket follows, of a
Number token and of a String token. -/
def primaryNode (X : Extern) (t : Token) : Node :=
  match t.Kind with
  | TokenKindIdentifier => operand t.Value
  | TokenKindNumber =>
    if (t.Value.filter (fun b => b != 0x5F)).contains 0x2E then
      FloatNode (X.ToFloat64 (t.Value.filter (fun b => b != 0x5F)))
    else IntNode (ToInt X (t.Value.filter (fun b => b != 0x5F)))
  | TokenKindString => StringNode t.Value
  | _ => Node.nil

/-- The kinds of the tokens that are operands: Identifier, Number and String. -/
def Kind.isOperand : Causer.Kind → Bool
  | TokenKindIdentifier => true
  | TokenKindNumber => true
  | TokenKindString => true
  | _ => false

/-- The text of an operand that is an identifier or a decimal numeric literal, with the kind
of its token. -/
inductive OperandText (X : Extern) : GoString → Causer.Kind → Prop where
  | identifier (a : List Int) (h : IsIdentifier X a = true) :
    OperandText X (encRunes a) TokenKindIdentifier
  | number (w : GoString) (h : DecimalLiteral w) : OperandText X w TokenKindNumber



/-! ## Decoding an instruction stream -/

/-- The instructions of a stream, decoded from its first byte: one opcode byte, followed by a
two-byte big-endian operand exactly when the opcode is `OpCodePush`, `OpCodeFetch`,
`OpCodeProperty` or `OpCodeCall` (it is how `Run` reads the stream: these four are the opcodes
whose functions call `readConstant`). An instruction is its opcode and, where it has one, its
operand. The result is `none` when the stream ends inside an instruction. -/
def decode : List Nat → Option (List (Nat × Option Nat))
  | [] => some []
  | op :: rest =>
    if hasOperand op then
      match rest with
      | hi :: lo :: rest => (decode rest).map (fun is => (op, some (hi * 256 + lo)) :: is)
      | _ => none
    else (decode rest).map (fun is => (op, none) :: is)

/-- The instruction stream decodes to its end, and every operand in it is less than `n`. -/
def decodesBelow (n : Nat) (code : List Nat) : Prop :=
  ∃ is, decode code = some is ∧ ∀ op k, (op, some k) ∈ is → k < n

/-- A compiler state whose operands are in range: every entry of the index points into the
pool, and the instructions emitted so far decode to their end with every operand less than
the length of the pool. -/
structure compiler.InRange (c : compiler) : Prop where
  index : ∀ e, e ∈ c.constantsIndex → e.2 < c.constants.length
  code : decodesBelow c.constants.length c.instructions

/-! ## String literals -/

/-- The rest of a string literal after its opening quote `q`, as `scanString` reads it up to
the closing quote: characters other than the quote, the raw newline and the backslash, and
backslashes followed by one of `a b f n r t v \` or the quote; the unescaped quote that closes
the literal is its last byte. It is stated on bytes: the characters that `scanString` looks
for are ASCII, and no byte of a longer character is. -/
def literalRest (q : Nat) : GoString → Bool
  | [] => false
  | b :: rest =>
    if b = q then rest.isEmpty
    else if b = 0x0A then false
    else if b = 0x5C then
      match rest with
      | [] => false
      | e :: rest' => isEscape q e && literalRest q rest'
    else literalRest q rest

/-- The text of a string literal: a quote `'` or `"`, and the rest up to the same quote. -/
inductive StringLiteral : GoString → Prop where
  | quoted (q : Nat) (body : GoString) (hq : q = 0x27 ∨ q = 0x22)
    (hbody : literalRest q body = true) : StringLiteral (q :: body)

/-! ## Numeric literals with a prefix -/

/-- The digit alphabet `dig` that `scanNumber` selects for the letter after a leading `0`:
`x`, `X` the hexadecimal one, `o`, `O` the octal one, `b`, `B` the binary one. -/
def prefixAlphabet (p : Nat) : Option GoString :=
  if p = 0x78 ∨ p = 0x58 then some (lit "0123456789abcdefABCDEF_")
  else if p = 0x6F ∨ p = 0x4F then some (lit "01234567_")
  else if p = 0x62 ∨ p = 0x42 then some (lit "01_")
  else none

/-- The text of a numeric literal with a prefix: `0`, a prefix letter, and a run of the digits
of its alphabet and `_`; or the same followed by `.` and a further such run. -/
inductive PrefixedLiteral : GoString → Prop where
  | whole (p : Nat) (dig run : GoString) (hp : prefixAlphabet p = some dig)
    (hrun : run.all dig.contains = true) : PrefixedLiteral (0x30 :: p :: run)
  | fraction (p : Nat) (dig run run2 : GoString) (hp : prefixAlphabet p = some dig)
    (hrun : run.all dig.contains = true) (hrun2 : run2.all dig.contains = true) :
    PrefixedLiteral (0x30 :: p :: run ++ 0x2E :: run2)

/-- The text of an operand of the source: an identifier, a numeric literal (decimal, or with
a prefix) or a string literal. -/
inductive Operand (X : Extern) : GoString → Prop where
  | text (w : GoString) (kind : Causer.Kind) (h : OperandText X w kind) : Operand X w
  | prefixed (w : GoString) (h : PrefixedLiteral w) : Operand X w
  | string (w : GoString) (h : StringLiteral w) : Operand X w

/-- The source `x % y`. -/
def moduloSource (x y : GoString) : GoString := x ++ 0x20 :: 0x25 :: 0x20 :: y

/-! ## Worked token lists -/

/-- The parser over the tokens `tokens`, standing at token `pos` with no error. -/
def parserAt (tokens : List Token) (pos : Nat) : parser :=
  { tokens := tokens, current := tokens.getD pos ⟨⟨0, 0⟩, TokenKindEOF, []⟩, pos := pos,
    err := none }

/-- The tokens of the source `a.m(1, 2)`. -/
def methodTokens : List Token :=
  [⟨⟨1, 0⟩, TokenKindIdentifier, [0x61]⟩, ⟨⟨1, 1⟩, TokenKindOperator, [0x2E]⟩,
   ⟨⟨1, 2⟩, TokenKindIdentifier, [0x6D]⟩, ⟨⟨1, 3⟩, TokenKindBracket, [0x28]⟩,
   ⟨⟨1, 4⟩, TokenKindNumber, [0x31]⟩, ⟨⟨1, 5⟩, TokenKindOperator, [0x2C]⟩,
   ⟨⟨1, 7⟩, TokenKindNumber, [0x32]⟩, ⟨⟨1, 8⟩, TokenKindBracket, [0x29]⟩,
   ⟨⟨1, 8⟩, TokenKindEOF, []⟩]

/-- The tokens of the source `f(,)`. -/
def commaTokens : List Token :=
  [⟨⟨1, 0⟩, TokenKindIdentifier, [0x66]⟩, ⟨⟨1, 1⟩, TokenKindBracket, [0x28]⟩,
   ⟨⟨1, 2⟩, TokenKindOperator, [0x2C]⟩, ⟨⟨1, 3⟩, TokenKindBracket, [0x29]⟩,
   ⟨⟨1, 3⟩, TokenKindEOF, []⟩]


/-! ## Theorems -/

/-- Lifting a one-step fuel monotonicity to any larger fuel. -/
theorem fuel_lift {β : Type} (f : Nat → Option β)
    (h : ∀ n r, f n = some r → f (n + 1) = some r) :
    ∀ n m r, n ≤ m → f n = some r → f m = some r := by
  intro n m r hnm hf
  induction hnm with
  | refl => exact hf
  | step _ ih => exact h _ _ ih

theorem scanStringLoop_step (quote : Int) : ∀ (n : Nat) (alpha : Int) (l r : lexer),
    lexer.scanStringLoop quote n alpha l = some r →
    lexer.scanStringLoop quote (n + 1) alpha l = some r := by
  intro n
  induction n with
  | zero => intro alpha l r h; simp [lexer.scanStringLoop] at h
  | succ n ih =>
    intro alpha l r h
    rw [lexer.scanStringLoop] at h ⊢
    split_ifs at h ⊢
    · exact h
    · exact h
    · exact ih _ _ _ h
    · exact ih _ _ _ h

theorem acceptRun_step (dig : GoString) : ∀ (n : Nat) (l r : lexer),
    lexer.acceptRun dig n l = some r → lexer.acceptRun dig (n + 1) l = some r := by
  intro n
  induction n with
  | zero => intro l r h; simp [lexer.acceptRun] at h
  | succ n ih =>
    intro l r h
    rw [lexer.acceptRun] at h ⊢
    split_ifs at h ⊢
    · exact ih _ _ h
    · exact h

theorem identifierLoop_step (X : Extern) : ∀ (n : Nat) (l r : lexer),
    identifierLoop X n l = some r → identifierLoop X (n + 1) l = some r := by
  intro n
  induction n with
  | zero => intro l r h; simp [identifierLoop] at h
  | succ n ih =>
    intro l r h
    rw [identifierLoop] at h ⊢
    split_ifs at h ⊢
    · exact ih _ _ h
    · exact h

theorem unescapeLoop_step : ∀ (n : Nat) (input buf : GoString) (r : GoString × Option Error),
    unescapeLoop n input buf = some r → unescapeLoop (n + 1) input buf = some r := by
  intro n
  induction n with
  | zero => intro input buf r h; simp [unescapeLoop] at h
  | succ n ih =>
    intro input buf r h
    rw [unescapeLoop] at h ⊢
    split_ifs at h ⊢
    · dsimp only at h ⊢
      cases hr : (unescapeAlpha input).2.2.2 with
      | some e => rw [hr] at h; simpa [hr] using h
      | none =>
        rw [hr] at h
        simp only [hr] at h ⊢
        split_ifs at h ⊢
        · exact ih _ _ _ h
        · exact ih _ _ _ h
    · exact h

theorem scanString_step (n : Nat) (l r : lexer) (quote : Int)
    (h : l.scanString n quote = some r) : l.scanString (n + 1) quote = some r :=
  scanStringLoop_step quote n _ _ r h

theorem unescape_step (n : Nat) (input : GoString) (r : GoString × Option Error)
    (h : unescape n input = some r) : unescape (n + 1) input = some r := by
  unfold unescape at h ⊢
  dsimp only at h ⊢
  split_ifs at h ⊢
  · exact h
  · exact h
  · exact unescapeLoop_step _ _ _ _ h

theorem scanNumber_step (n : Nat) (l : lexer) (r : Bool × lexer)
    (h : l.scanNumber n = some r) : l.scanNumber (n + 1) = some r := by
  unfold lexer.scanNumber at h ⊢
  generalize l.numberDigits = q at h ⊢
  dsimp only at h ⊢
  split at h
  · exact absurd h (by simp)
  · rename_i l1 h1
    rw [acceptRun_step _ _ _ _ h1]
    dsimp only at h ⊢
    split_ifs at h ⊢
    · split at h
      · exact absurd h (by simp)
      · rename_i l2 h2
        rw [acceptRun_step _ _ _ _ h2]
        exact h
    · exact h

theorem rootString_step (n : Nat) (l r : lexer) (alpha : Int)
    (h : l.rootString n alpha = some r) : l.rootString (n + 1) alpha = some r := by
  unfold lexer.rootString at h ⊢
  split at h
  · exact absurd h (by simp)
  · rename_i l1 h1
    rw [scanString_step _ _ _ _ h1]
    dsimp only at h ⊢
    split at h
    · exact absurd h (by simp)
    · rename_i r1 h2
      rw [unescape_step _ _ _ h2]
      exact h

theorem rootState_step (X : Extern) (n : Nat) (l : lexer)
    (r : Option lexerStateFunc × lexer) (h : l.rootState X n = some r) :
    l.rootState X (n + 1) = some r := by
  unfold lexer.rootState at h ⊢
  generalize l.nextAlpha = p at h ⊢
  dsimp only at h ⊢
  by_cases h1 : p.1 = eof
  · rw [if_pos h1] at h ⊢; exact h
  rw [if_neg h1] at h ⊢
  by_cases h2 : isSpace X p.1 = true
  · rw [if_pos h2] at h ⊢; exact h
  rw [if_neg h2] at h ⊢
  by_cases h3 : p.1 = 0x27 ∨ p.1 = 0x22
  · rw [if_pos h3] at h ⊢
    split at h
    · exact absurd h (by simp)
    · rename_i l1 h4
      rw [rootString_step _ _ _ _ h4]
      exact h
  rw [if_neg h3] at h ⊢
  exact h

theorem identifierState_step (X : Extern) (n : Nat) (l : lexer)
    (r : Option lexerStateFunc × lexer) (h : l.identifierState X n = some r) :
    l.identifierState X (n + 1) = some r := by
  unfold lexer.identifierState at h ⊢
  split at h
  · exact absurd h (by simp)
  · rename_i l1 h1
    rw [identifierLoop_step _ _ _ _ h1]
    exact h

theorem numberState_step (n : Nat) (l : lexer)
    (r : Option lexerStateFunc × lexer) (h : l.numberState n = some r) :
    l.numberState (n + 1) = some r := by
  unfold lexer.numberState at h ⊢
  split at h
  · exact absurd h (by simp)
  · rename_i r1 h1
    rw [scanNumber_step _ _ _ h1]
    exact h

theorem call_step (X : Extern) (n : Nat) (s : lexerStateFunc) (l : lexer)
    (r : Option lexerStateFunc × lexer) (h : s.call X n l = some r) :
    s.call X (n + 1) l = some r := by
  cases s with
  | rootState => exact rootState_step X n l r h
  | identifierState => exact identifierState_step X n l r h
  | dotState => exact h
  | numberState => exact numberState_step n l r h

theorem lexerLoop_step (X : Extern) : ∀ (n : Nat) (s : Option lexerStateFunc) (l r : lexer),
    lexerLoop X n s l = some r → lexerLoop X (n + 1) s l = some r := by
  intro n
  induction n with
  | zero => intro s l r h; simp [lexerLoop] at h
  | succ n ih =>
    intro s l r h
    unfold lexerLoop at h ⊢
    cases s with
    | none => exact h
    | some s =>
      dsimp only at h ⊢
      split_ifs at h ⊢
      · exact h
      · split at h
        · exact absurd h (by simp)
        · rename_i r1 h1
          rw [call_step _ _ _ _ _ h1]
          exact ih _ _ _ h

theorem Lexer_step (X : Extern) (n : Nat) (source : GoString)
    (r : Except Error (List Token)) (h : Lexer X n source = some r) :
    Lexer X (n + 1) source = some r := by
  unfold Lexer at h ⊢
  dsimp only at h ⊢
  split at h
  · exact absurd h (by simp)
  · rename_i l1 h1
    rw [lexerLoop_step _ _ _ _ _ h1]
    exact h

/-- More fuel does not change what the tokenizer returns. -/
theorem Lexer_mono (X : Extern) (source : GoString) (n m : Nat)
    (r : Except Error (List Token)) (hnm : n ≤ m) (h : Lexer X n source = some r) :
    Lexer X m source = some r :=
  fuel_lift (fun k => Lexer X k source) (fun k r => Lexer_step X k source r) n m r hnm h


theorem parserStep_all (X : Extern) : ∀ n, parserStep X n := by
  intro n
  induction n with
  | zero =>
    refine ⟨?_, ?_, ?_, ?_, ?_, ?_, ?_, ?_⟩
    · intro p pr r h; simp [parser.parse] at h
    · intro p pr nl t r h; simp [parser.parseLoop] at h
    · intro p r h; simp [parser.parsePrimary] at h
    · intro p t r h; simp [parser.parseIdentifier] at h
    · intro p nd r h; simp [parser.parsePostfix] at h
    · intro p nd t r h; simp [parser.parsePostfixLoop] at h
    · intro p r h; simp [parser.parseArguments] at h
    · intro p ns r h; simp [parser.parseArgumentsLoop] at h
  | succ n ih =>
    obtain ⟨iParse, iLoop, iPrimary, iIdent, iPostfix, iPostfixLoop, iArgs, iArgsLoop⟩ := ih
    refine ⟨?_, ?_, ?_, ?_, ?_, ?_, ?_, ?_⟩
    · intro p pr r h
      rw [parser.parse] at h ⊢
      split at h
      · exact absurd h (by simp)
      · rename_i nl p1 h1
        rw [iPrimary _ _ h1]
        exact iLoop _ _ _ _ _ h
    · intro p pr nl t r h
      rw [parser.parseLoop] at h ⊢
      split_ifs at h ⊢ with hc
      · split at h
        · rename_i op hop
          split_ifs at h ⊢ with hp ha
          · dsimp only at h ⊢
            split at h
            · exact absurd h (by simp)
            · rename_i nr p1 h1
              rw [iParse _ _ _ h1]
              exact iLoop _ _ _ _ _ h
          · dsimp only at h ⊢
            split at h
            · exact absurd h (by simp)
            · rename_i nr p1 h1
              rw [iParse _ _ _ h1]
              exact iLoop _ _ _ _ _ h
          · exact h
        · rename_i hop
          exact h
      · exact h
    · intro p r h
      rw [parser.parsePrimary] at h ⊢
      dsimp only at h ⊢
      cases hu : (if p.current.Kind = TokenKindOperator then
          List.lookup p.current.Value unaryOp else none) with
      | some op =>
        simp only [hu] at h ⊢
        split at h
        · exact absurd h (by simp)
        · rename_i e p1 h1
          rw [iParse _ _ _ h1]
          exact iPostfix _ _ _ h
      | none =>
        simp only [hu] at h ⊢
        by_cases hb : p.current.Kind = TokenKindBracket ∧ p.current.Value = lit "("
        · rw [if_pos hb] at h ⊢
          split at h
          · exact absurd h (by simp)
          · rename_i e p1 h1
            rw [iParse _ _ _ h1]
            exact iPostfix _ _ _ h
        · rw [if_neg hb] at h ⊢
          cases hk : p.current.Kind with
          | TokenKindIdentifier =>
            simp only [hk] at h ⊢
            split_ifs at h ⊢
            · exact h
            · exact h
            · exact h
            · split at h
              · exact absurd h (by simp)
              · rename_i nd p1 h1
                rw [iIdent _ _ _ h1]
                exact iPostfix _ _ _ h
          | _ =>
            simp only [hk] at h ⊢
            exact h
    · intro p t r h
      rw [parser.parseIdentifier] at h ⊢
      dsimp only at h ⊢
      split_ifs at h ⊢
      · split at h
        · exact absurd h (by simp)
        · rename_i a p1 h1
          rw [iArgs _ _ h1]
          exact h
      · exact h
    · intro p nd r h
      rw [parser.parsePostfix] at h ⊢
      exact iPostfixLoop _ _ _ _ h
    · intro p nd t r h
      rw [parser.parsePostfixLoop] at h ⊢
      dsimp only at h ⊢
      split_ifs at h ⊢
      all_goals first
        | exact h
        | exact iPostfixLoop _ _ _ _ h
        | (split at h
           · exact absurd h (by simp)
           · rename_i a p1 h1
             rw [iArgs _ _ h1]
             exact iPostfixLoop _ _ _ _ h)
    · intro p r h
      rw [parser.parseArguments] at h ⊢
      split at h
      · exact absurd h (by simp)
      · rename_i ns p1 h1
        rw [iArgsLoop _ _ _ h1]
        exact h
    · intro p ns r h
      rw [parser.parseArgumentsLoop] at h ⊢
      dsimp only at h ⊢
      split_ifs at h ⊢
      all_goals first
        | exact h
        | (split at h
           · exact absurd h (by simp)
           · rename_i a p1 h1
             rw [iParse _ _ _ h1]
             exact iArgsLoop _ _ _ h)

/-- More fuel does not change what `parse` returns. -/
theorem parse_mono (X : Extern) (p : parser) (pr : Int) (n m : Nat) (r : Node × parser)
    (hnm : n ≤ m) (h : parser.parse X n p pr = some r) : parser.parse X m p pr = some r :=
  fuel_lift (fun k => parser.parse X k p pr) (fun k r => (parserStep_all X k).1 p pr r) n m r hnm h

/-- More fuel does not change what the argument loop returns. -/
theorem parseArgumentsLoop_mono (X : Extern) (p : parser) (ns : List Node) (n m : Nat)
    (r : List Node × parser) (hnm : n ≤ m) (h : parser.parseArgumentsLoop X n p ns = some r) :
    parser.parseArgumentsLoop X m p ns = some r :=
  fuel_lift (fun k => parser.parseArgumentsLoop X k p ns)
    (fun k r => (parserStep_all X k).2.2.2.2.2.2.2 p ns r) n m r hnm h

theorem Parse_step (X : Extern) (n : Nat) (source : GoString) (r : Except Error Tree)
    (h : Parse X n source = some r) : Parse X (n + 1) source = some r := by
  unfold Parse at h ⊢
  cases hl : Lexer X n source with
  | none => rw [hl] at h; exact absurd h (by simp)
  | some res =>
    rw [Lexer_step X n source res hl]
    rw [hl] at h
    cases res with
    | error e => exact h
    | ok tokens =>
      dsimp only at h ⊢
      cases ht : tokens.head? with
      | none => rw [ht] at h; exact absurd h (by simp)
      | some t0 =>
        rw [ht] at h
        dsimp only at h ⊢
        split at h
        · exact absurd h (by simp)
        · rename_i nd p1 h1
          rw [(parserStep_all X n).1 _ _ _ h1]
          exact h

/-- More fuel does not change what `Parse` returns. -/
theorem Parse_mono (X : Extern) (source : GoString) (n m : Nat) (r : Except Error Tree)
    (hnm : n ≤ m) (h : Parse X n source = some r) : Parse X m source = some r :=
  fuel_lift (fun k => Parse X k source) (fun k r => Parse_step X k source r) n m r hnm h


/-! ### Concrete runs -/

theorem lexer_one_plus (X : Extern) :
    Lexer X 10 (lit "1 +") = some (Except.ok
      [⟨⟨1, 0⟩, TokenKindNumber, [0x31]⟩, ⟨⟨1, 2⟩, TokenKindOperator, [0x2B]⟩,
       ⟨⟨1, 2⟩, TokenKindEOF, []⟩]) := rfl

theorem parse_one_plus (X : Extern) :
    parser.parse X 10
      { tokens := [⟨⟨1, 0⟩, TokenKindNumber, [0x31]⟩, ⟨⟨1, 2⟩, TokenKindOperator, [0x2B]⟩,
          ⟨⟨1, 2⟩, TokenKindEOF, []⟩],
        current := ⟨⟨1, 0⟩, TokenKindNumber, [0x31]⟩, pos := 0, err := none } 0 =
    some (BinaryNode [0x2B] (IntNode 1) Node.nil,
      { tokens := [⟨⟨1, 0⟩, TokenKindNumber, [0x31]⟩, ⟨⟨1, 2⟩, TokenKindOperator, [0x2B]⟩,
          ⟨⟨1, 2⟩, TokenKindEOF, []⟩],
        current := ⟨⟨1, 2⟩, TokenKindEOF, []⟩, pos := 2, err := none }) := rfl

theorem Parse_one_plus_10 (X : Extern) :
    Parse X 10 (lit "1 +") =
      some (Except.ok { Root := BinaryNode (lit "+") (IntNode 1) Node.nil }) := by
  unfold Parse
  rw [lexer_one_plus]
  simp only [List.head?]
  rw [parse_one_plus]
  rfl

/-- C3, at the failing input `1 +`: `Parse` returns a tree whose right operand is the nil
node, and a nil error. -/
theorem C3_trailing_operator_yields_tree (X : Extern) (n : Nat) :
    Parse X (n + 10) (lit "1 +") =
      some (Except.ok { Root := BinaryNode (lit "+") (IntNode 1) Node.nil }) :=
  Parse_mono X _ 10 (n + 10) _ (Nat.le_add_left 10 n) (Parse_one_plus_10 X)

theorem Lexer_ea_10 (X : Extern) :
    Lexer X 10 [0x22, 0xC3, 0xA9, 0x61, 0x22] = some (Except.ok
      [⟨⟨1, 0⟩, TokenKindString, [0x61, 0x61, 0x61]⟩, ⟨⟨1, 3⟩, TokenKindEOF, []⟩]) := rfl

/-- C9, at the failing input `"éa"` (the bytes `22 C3 A9 61 22`): the String token's value is
`aaa`, not `éa`. -/
theorem C9_multibyte_content_is_garbled (X : Extern) (n : Nat) :
    lit "\"éa\"" = [0x22, 0xC3, 0xA9, 0x61, 0x22] ∧
    Lexer X (n + 10) (lit "\"éa\"") = some (Except.ok
      [⟨⟨1, 0⟩, TokenKindString, lit "aaa"⟩, ⟨⟨1, 3⟩, TokenKindEOF, []⟩]) :=
  ⟨rfl, Lexer_mono X _ 10 (n + 10) _ (Nat.le_add_left 10 n) (Lexer_ea_10 X)⟩

theorem Lexer_fab_20 (X : Extern) :
    Lexer X 20 (lit "f(a, b)") = some (Except.ok fabTokens) := rfl

theorem parse_fab_comma_5 (X : Extern) :
    parser.parse X 5 (fabAt 3) 0 = some (Node.nil, fabAt 3) := rfl

theorem parse_fab_first_6 (X : Extern) :
    parser.parse X 6 (fabAt 2) 0 = some (IdentifierNode [0x61], fabAt 3) := rfl

/-- At the comma of `f(a, b)`, `parse(0)` consumes nothing and returns the nil node. -/
theorem parse_fab_comma (X : Extern) (n : Nat) :
    parser.parse X n (fabAt 3) 0 = none ∨
    parser.parse X n (fabAt 3) 0 = some (Node.nil, fabAt 3) := by
  cases h : parser.parse X n (fabAt 3) 0 with
  | none => exact Or.inl rfl
  | some r =>
    have h1 := parse_mono X _ _ n (n + 5) r (Nat.le_add_right n 5) h
    have h2 := parse_mono X _ _ 5 (n + 5) _ (Nat.le_add_left 5 n) (parse_fab_comma_5 X)
    rw [h1] at h2
    exact Or.inr h2

/-- Once the argument loop stands at the comma with an argument collected, it never ends. -/
theorem parseArgumentsLoop_fab_comma (X : Extern) :
    ∀ (n : Nat) (nodes : List Node), nodes ≠ [] →
      parser.parseArgumentsLoop X n (fabAt 3) nodes = none := by
  intro n
  induction n with
  | zero => intro nodes _; rfl
  | succ n ih =>
    intro nodes hne
    rw [parser.parseArgumentsLoop]
    have hc : ((!(fabAt 3).atBracket (lit ")")) = true ∧ (fabAt 3).err = none) :=
      ⟨by decide, rfl⟩
    rw [if_pos hc]
    have hlen : nodes.length > 0 := List.length_pos.mpr hne
    have hcomma : ¬ ((!((fabAt 3).current.Kind == TokenKindOperator &&
        (fabAt 3).current.Value == lit ",")) = true) := by decide
    simp only [hlen, if_true, if_neg hcomma]
    rcases parse_fab_comma X n with h | h
    · rw [h]
    · rw [h]
      exact ih _ (by simp)

theorem parseArgumentsLoop_fab (X : Extern) (n : Nat) :
    parser.parseArgumentsLoop X n (fabAt 2) [] = none := by
  cases n with
  | zero => rfl
  | succ n =>
    rw [parser.parseArgumentsLoop]
    have hc : ((!(fabAt 2).atBracket (lit ")")) = true ∧ (fabAt 2).err = none) :=
      ⟨by decide, rfl⟩
    rw [if_pos hc]
    simp only [List.length_nil, gt_iff_lt, lt_self_iff_false, if_false]
    cases h : parser.parse X n (fabAt 2) 0 with
    | none => rfl
    | some r =>
      have h1 := parse_mono X _ _ n (n + 6) r (Nat.le_add_right n 6) h
      have h2 := parse_mono X _ _ 6 (n + 6) _ (Nat.le_add_left 6 n) (parse_fab_first_6 X)
      rw [h1] at h2
      cases h2
      exact parseArgumentsLoop_fab_comma X n _ (by simp)

theorem parseArguments_fab (X : Extern) (n : Nat) :
    parser.parseArguments X n (fabAt 2) = none := by
  cases n with
  | zero => rfl
  | succ n => rw [parser.parseArguments, parseArgumentsLoop_fab]

theorem parseIdentifier_fab (X : Extern) (n : Nat) :
    parser.parseIdentifier X n (fabAt 1) ⟨⟨1, 0⟩, TokenKindIdentifier, [0x66]⟩ = none := by
  cases n with
  | zero => rfl
  | succ n =>
    rw [parser.parseIdentifier]
    have hb : (fabAt 1).atBracket (lit "(") = true := by decide
    have hn : (fabAt 1).next = fabAt 2 := by decide
    rw [if_pos hb]
    simp only [hn, parseArguments_fab]

theorem parsePrimary_fab (X : Extern) (n : Nat) :
    parser.parsePrimary X n (fabAt 0) = none := by
  cases n with
  | zero => rfl
  | succ n =>
    rw [parser.parsePrimary]
    have hv : (fabAt 0).current = ⟨⟨1, 0⟩, TokenKindIdentifier, [0x66]⟩ := rfl
    have h1 : ¬ (([0x66] : GoString) = lit "true") := by decide
    have h2 : ¬ (([0x66] : GoString) = lit "false") := by decide
    have h3 : ¬ (([0x66] : GoString) = lit "nil") := by decide
    have hn : (fabAt 0).next = fabAt 1 := by decide
    simp [hv, hn, parseIdentifier_fab, h1, h2, h3]

theorem parse_fab (X : Extern) (n : Nat) : parser.parse X n (fabAt 0) 0 = none := by
  cases n with
  | zero => rfl
  | succ n => rw [parser.parse, parsePrimary_fab]

/-- C4, at the failing input `f(a, b)`: `Parse` does not return, whatever the fuel. The
argument loop checks for the comma but never consumes it. -/
theorem C4_two_arguments_never_return (X : Extern) (fuel : Nat) :
    Parse X fuel (lit "f(a, b)") = none := by
  unfold Parse
  cases hl : Lexer X fuel (lit "f(a, b)") with
  | none => rfl
  | some res =>
    have h1 := Lexer_mono X _ fuel (fuel + 20) res (Nat.le_add_right fuel 20) hl
    have h2 := Lexer_mono X _ 20 (fuel + 20) _ (Nat.le_add_left 20 fuel) (Lexer_fab_20 X)
    rw [h1] at h2
    cases h2
    have h0 : parser.parse X fuel
        { tokens := fabTokens, current := ⟨⟨1, 0⟩, TokenKindIdentifier, [0x66]⟩, pos := 0,
          err := none } 0 = none := parse_fab X fuel
    simp only [fabTokens, List.head?] at h0 ⊢
    rw [h0]

/-- The calls with no argument and with one argument do return. -/
theorem Parse_call_zero_one (X : Extern) (n : Nat) :
    Parse X (n + 20) (lit "f()") = some (Except.ok { Root := FunctionNode (lit "f") [] }) ∧
    Parse X (n + 20) (lit "f(a)") =
      some (Except.ok { Root := FunctionNode (lit "f") [IdentifierNode (lit "a")] }) :=
  ⟨Parse_mono X _ 20 (n + 20) _ (Nat.le_add_left 20 n) rfl,
   Parse_mono X _ 20 (n + 20) _ (Nat.le_add_left 20 n) rfl⟩


/-! ### The constant pool -/

theorem Const.same_trans {a b c : Const} (h1 : Const.same a b = true)
    (h2 : Const.same c b = true) : Const.same a c = true := by
  cases a <;> cases b <;> cases c <;>
    simp only [Const.same, Bool.and_eq_true, Bool.or_eq_true, beq_iff_eq, Bool.not_eq_true',
      Bool.false_eq_true] at h1 h2 ⊢
  · rw [h1, h2]
  · obtain ⟨⟨ha, hb⟩, h1⟩ := h1
    obtain ⟨⟨hc, _⟩, h2⟩ := h2
    refine ⟨⟨ha, hc⟩, ?_⟩
    rcases h1 with h1 | h1 <;> rcases h2 with h2 | h2
    · left; rw [h1, h2]
    · right; rw [h1]; exact ⟨h2.2, h2.1⟩
    · right; rw [h2]; exact ⟨h1.1, h1.2⟩
    · right; exact ⟨h1.1, h2.1⟩
  · rw [h1, h2]
  · exact ⟨h1.1.trans h2.1.symm, h1.2.trans h2.2.symm⟩

theorem Const.same_int {k : Const} {v : Int} (h : Const.same k (Const.int v) = true) :
    k = Const.int v := by
  cases k <;> simp_all [Const.same]

theorem Const.same_Call {k : Const} {name : GoString} {cnt : Int}
    (h : Const.same k (Const.Call name cnt) = true) : k = Const.Call name cnt := by
  cases k <;> simp_all [Const.same]

theorem Const.same_Call_self (name : GoString) (cnt : Int) :
    Const.same (Const.Call name cnt) (Const.Call name cnt) = true := by
  simp [Const.same]

theorem Const.same_int_self (v : Int) : Const.same (Const.int v) (Const.int v) = true := by
  simp [Const.same]

theorem Const.hashable_eq (k : Const) : k.hashable = true := by
  cases k <;> rfl

/-- The empty compiler state is well formed. -/
theorem compiler.WF_empty :
    compiler.WF { instructions := [], constants := [], constantsIndex := [] } :=
  ⟨fun k i h => by simp [compiler.index] at h, fun i k h => by simp at h⟩

theorem compiler.newConstant_hit {c : compiler} {k : Const} {i : Nat}
    (h : c.index k = some i) : c.newConstant k = (encode i, c) := by
  simp [compiler.newConstant, Const.hashable_eq, h]

theorem compiler.newConstant_miss {c : compiler} {k : Const} (h : c.index k = none) :
    c.newConstant k = (encode (c.constants.length % 65536),
      compiler.mk c.instructions (c.constants ++ [k])
        ((k, c.constants.length % 65536) :: c.constantsIndex)) := by
  simp [compiler.newConstant, Const.hashable_eq, h]

theorem compiler.index_cons (c : compiler) (k k2 : Const) (j : Nat) (cs : List Const) :
    compiler.index (compiler.mk c.instructions cs ((k, j) :: c.constantsIndex)) k2 =
      if Const.same k k2 = true then some j else c.index k2 := by
  simp only [compiler.index, List.find?_cons]
  cases h : Const.same k k2 <;> simp

/-- After a miss, the longer pool is still well formed, as long as the new slot's number is a
`uint16`. -/
theorem compiler.WF_miss {c : compiler} {k : Const} (hwf : c.WF) (h : c.index k = none)
    (hb : c.constants.length < 65536) :
    compiler.WF (compiler.mk c.instructions (c.constants ++ [k])
      ((k, c.constants.length % 65536) :: c.constantsIndex)) := by
  have hmod : c.constants.length % 65536 = c.constants.length := Nat.mod_eq_of_lt hb
  constructor
  · intro k2 i hi
    rw [compiler.index_cons] at hi
    split_ifs at hi with hs
    · cases hi
      refine ⟨k, ?_, hs⟩
      rw [hmod]
      simp
    · obtain ⟨k', hk', hs'⟩ := hwf.sound k2 i hi
      refine ⟨k', ?_, hs'⟩
      have hlt : i < c.constants.length := (List.getElem?_eq_some_iff.mp hk').1
      simpa [List.getElem?_append_left hlt] using hk'
  · intro i k0 hk0 hself
    rw [compiler.index_cons]
    by_cases hlt : i < c.constants.length
    · have hk0' : c.constants[i]? = some k0 := by
        simpa [List.getElem?_append_left hlt] using hk0
      have hidx := hwf.exact i k0 hk0' hself
      have hns : ¬ Const.same k k0 = true := by
        intro hs
        simp only [compiler.index, Option.map_eq_some', Prod.exists] at hidx
        obtain ⟨e, j, hfind, rfl⟩ := hidx
        have hpred := List.find?_some hfind
        have hmem := List.mem_of_find?_eq_some hfind
        have : Const.same e k = true := Const.same_trans hpred hs
        have hne : c.index k ≠ none := by
          simp only [compiler.index, ne_eq, Option.map_eq_none', List.find?_eq_none, not_forall]
          exact ⟨(e, j), hmem, by simpa using this⟩
        exact hne h
      rw [if_neg hns]
      exact hidx
    · have hi : i = c.constants.length := by
        have := (List.getElem?_eq_some_iff.mp hk0).1
        simp at this
        omega
      subst hi
      have : k0 = k := by simpa using hk0.symm
      subst this
      rw [if_pos hself, hmod]

theorem compiler.Extends.refl (c : compiler) : c.Extends c :=
  ⟨⟨[], by simp⟩, ⟨[], by simp⟩, fun h _ => h⟩

theorem compiler.Extends.trans {c c' c'' : compiler} (h1 : c.Extends c')
    (h2 : c'.Extends c'') : c.Extends c'' := by
  obtain ⟨i1, hi1⟩ := h1.instr
  obtain ⟨i2, hi2⟩ := h2.instr
  obtain ⟨k1, hk1⟩ := h1.consts
  obtain ⟨k2, hk2⟩ := h2.consts
  refine ⟨⟨i1 ++ i2, by rw [hi2, hi1, List.append_assoc]⟩,
    ⟨k1 ++ k2, by rw [hk2, hk1, List.append_assoc]⟩, ?_⟩
  intro hwf hb
  refine h2.wf (h1.wf hwf ?_) hb
  have : c'.constants.length ≤ c''.constants.length := by
    rw [hk2, List.length_append]; omega
  omega

theorem compiler.appendInstruction_extends (c : compiler) (op : Nat) (xs : List Nat) :
    c.Extends (c.appendInstruction op xs) :=
  ⟨⟨[op] ++ xs, by simp [compiler.appendInstruction]⟩, ⟨[], by simp [compiler.appendInstruction]⟩,
    fun h _ => ⟨fun k i hi => h.sound k i hi, fun i k hk hs => h.exact i k hk hs⟩⟩

theorem compiler.newConstant_extends (c : compiler) (k : Const) :
    c.Extends (c.newConstant k).2 := by
  cases h : c.index k with
  | some i => rw [compiler.newConstant_hit h]; exact compiler.Extends.refl c
  | none =>
    rw [compiler.newConstant_miss h]
    refine ⟨⟨[], by simp⟩, ⟨[k], rfl⟩, ?_⟩
    intro hwf hb
    refine compiler.WF_miss hwf h ?_
    simp only [List.length_append, List.length_singleton] at hb
    omega

theorem compiler.appendConstant_extends (c : compiler) (op : Nat) (k : Const) :
    c.Extends (c.appendConstant op k) :=
  (compiler.newConstant_extends c k).trans (compiler.appendInstruction_extends _ _ _)

mutual

/-- Compiling a node only appends instructions and constants, and keeps the index sound and
exact. -/
theorem compiler.compile_extends : ∀ (n : Node) (c : compiler), c.Extends (c.compile n)
  | Node.nil, c => by rw [compiler.compile]; exact compiler.Extends.refl c
  | UnaryNode op e, c => by
    rw [compiler.compile]
    have h := compiler.compile_extends e c
    split_ifs
    · exact h.trans (compiler.appendInstruction_extends _ _ _)
    · exact h.trans (compiler.appendInstruction_extends _ _ _)
    · exact h
  | BinaryNode op l r, c => by
    rw [compiler.compile]
    have h := (compiler.compile_extends l c).trans (compiler.compile_extends r (c.compile l))
    split_ifs
    all_goals first
      | exact h
      | exact h.trans (compiler.appendInstruction_extends _ _ _)
  | MethodNode e m args, c => by
    rw [compiler.compile]
    exact ((compiler.compile_extends e c).trans
      (compiler.compileArguments_extends args (c.compile e))).trans
      (compiler.appendConstant_extends _ _ _)
  | FunctionNode f args, c => by
    rw [compiler.compile]
    exact (compiler.compileArguments_extends args c).trans
      (compiler.appendConstant_extends _ _ _)
  | PropertyNode e p, c => by
    rw [compiler.compile]
    exact (compiler.compile_extends e c).trans (compiler.appendConstant_extends _ _ _)
  | BoolNode v, c => by
    rw [compiler.compile]
    split_ifs <;> exact compiler.appendInstruction_extends _ _ _
  | NilNode, c => by rw [compiler.compile]; exact compiler.appendInstruction_extends _ _ _
  | IdentifierNode v, c => by rw [compiler.compile]; exact compiler.appendConstant_extends _ _ _
  | FloatNode v, c => by rw [compiler.compile]; exact compiler.appendConstant_extends _ _ _
  | IntNode v, c => by rw [compiler.compile]; exact compiler.appendConstant_extends _ _ _
  | StringNode v, c => by rw [compiler.compile]; exact compiler.appendConstant_extends _ _ _

/-- Compiling an argument list only appends instructions and constants, and keeps the index
sound and exact. -/
theorem compiler.compileArguments_extends :
    ∀ (args : List Node) (c : compiler), c.Extends (c.compileArguments args)
  | [], c => by rw [compiler.compileArguments]; exact compiler.Extends.refl c
  | a :: rest, c => by
    rw [compiler.compileArguments]
    exact (compiler.compile_extends a c).trans
      (compiler.compileArguments_extends rest (c.compile a))

end

theorem compiler.compile_instructions (c : compiler) (n : Node) :
    (c.compile n).instructions = c.instructions ++ c.code n := by
  obtain ⟨code, h⟩ := (compiler.compile_extends n c).instr
  rw [compiler.code, h, List.drop_left]

theorem compiler.compileArguments_instructions :
    ∀ (args : List Node) (c : compiler),
      (c.compileArguments args).instructions = c.instructions ++ c.codeArguments args
  | [], c => by simp [compiler.compileArguments, compiler.codeArguments]
  | a :: rest, c => by
    rw [compiler.compileArguments, compiler.codeArguments,
      compiler.compileArguments_instructions rest (c.compile a), compiler.compile_instructions,
      List.append_assoc]

theorem compiler.Extends.length_le {c c' : compiler} (h : c.Extends c') :
    c.constants.length ≤ c'.constants.length := by
  obtain ⟨ks, hk⟩ := h.consts
  rw [hk, List.length_append]; omega

theorem compiler.Extends.getElem? {c c' : compiler} (h : c.Extends c') {i : Nat} {k : Const}
    (hk : c.constants[i]? = some k) : c'.constants[i]? = some k := by
  obtain ⟨ks, hks⟩ := h.consts
  have hlt : i < c.constants.length := (List.getElem?_eq_some_iff.mp hk).1
  rw [hks, List.getElem?_append_left hlt]
  exact hk

/-- The operand that `newConstant` returns is the index of a slot holding the constant, for a
constant that only equals itself (an `int`, a `string`, a call descriptor). -/
theorem compiler.newConstant_operand (c : compiler) (k : Const) (hwf : c.WF)
    (hk : ∀ k', Const.same k' k = true → k' = k)
    (hb : (c.newConstant k).2.constants.length ≤ 65536) :
    ∃ i, (c.newConstant k).1 = [i / 256, i % 256] ∧ i < 65536 ∧
      (c.newConstant k).2.constants[i]? = some k := by
  cases h : c.index k with
  | some i =>
    rw [compiler.newConstant_hit h] at hb ⊢
    obtain ⟨k', hk', hs⟩ := hwf.sound k i h
    have hlt : i < c.constants.length := (List.getElem?_eq_some_iff.mp hk').1
    have hi : i < 65536 := by
      simp only at hb
      omega
    refine ⟨i, ?_, hi, ?_⟩
    · simp only [encode]
      rw [Nat.mod_eq_of_lt (by omega : i / 256 < 256)]
    · rw [← hk k' hs]; exact hk'
  | none =>
    rw [compiler.newConstant_miss h] at hb ⊢
    simp only [List.length_append, List.length_singleton] at hb
    have hmod : c.constants.length % 65536 = c.constants.length := Nat.mod_eq_of_lt (by omega)
    refine ⟨c.constants.length, ?_, by omega, ?_⟩
    · simp only [encode, hmod]
      rw [Nat.mod_eq_of_lt (by omega : c.constants.length / 256 < 256)]
    · simp


/-! ### Call sites (C7, C8) -/

theorem compiler.newConstant_instructions (c : compiler) (k : Const) :
    (c.newConstant k).2.instructions = c.instructions := by
  cases h : c.index k with
  | some i => rw [compiler.newConstant_hit h]
  | none => rw [compiler.newConstant_miss h]

/-- The statement `c.appendInstruction(OpCodeCall, c.newConstant(Call{...})...)` appends one
`OpCodeCall` whose operand is the index of a slot holding the descriptor. -/
theorem compiler.appendConstant_Call (c : compiler) (hwf : c.WF) (name : GoString) (cnt : Int)
    (hb : (c.appendConstant OpCodeCall (Const.Call name cnt)).constants.length ≤ 65536) :
    ∃ i, (c.appendConstant OpCodeCall (Const.Call name cnt)).instructions =
        c.instructions ++ [OpCodeCall, i / 256, i % 256] ∧ i < 65536 ∧
      (c.appendConstant OpCodeCall (Const.Call name cnt)).constants[i]? =
        some (Const.Call name cnt) := by
  have hb' : (c.newConstant (Const.Call name cnt)).2.constants.length ≤ 65536 := hb
  obtain ⟨i, h1, h2, h3⟩ := compiler.newConstant_operand c (Const.Call name cnt) hwf
    (fun k' hk' => Const.same_Call hk') hb'
  refine ⟨i, ?_, h2, h3⟩
  simp only [compiler.appendConstant, compiler.appendInstruction,
    compiler.newConstant_instructions, h1, List.append_assoc, List.singleton_append]

/-- With the descriptor already in slot `i`, the statement appends `OpCodeCall` with operand
`i` and leaves the pool as it is. -/
theorem compiler.appendConstant_Call_again (c : compiler) (hwf : c.WF) (name : GoString)
    (cnt : Int) (i : Nat) (hi : c.constants[i]? = some (Const.Call name cnt))
    (hb : c.constants.length ≤ 65536) :
    (c.appendConstant OpCodeCall (Const.Call name cnt)).instructions =
        c.instructions ++ [OpCodeCall, i / 256, i % 256] ∧
      (c.appendConstant OpCodeCall (Const.Call name cnt)).constants = c.constants := by
  have hidx := hwf.exact i _ hi (Const.same_Call_self name cnt)
  have hlt : i < c.constants.length := (List.getElem?_eq_some_iff.mp hi).1
  simp only [compiler.appendConstant, compiler.appendInstruction,
    compiler.newConstant_hit hidx, encode, List.append_assoc, List.singleton_append, and_true]
  rw [Nat.mod_eq_of_lt (by omega : i / 256 < 256)]

/-- A function call compiles to the code of its arguments in order and then one `OpCodeCall`
whose operand is the index of a pool slot holding its descriptor. -/
theorem compiler.compile_FunctionNode (c : compiler) (hwf : c.WF) (name : GoString)
    (args : List Node) (hb : (c.compile (FunctionNode name args)).constants.length ≤ 65536) :
    ∃ i, (c.compile (FunctionNode name args)).instructions =
        c.instructions ++ c.codeArguments args ++ [OpCodeCall, i / 256, i % 256] ∧
      i < 65536 ∧
      (c.compile (FunctionNode name args)).constants[i]? =
        some (Const.Call name args.length) := by
  rw [compiler.compile] at hb ⊢
  have hext := compiler.compileArguments_extends args c
  have hle := (compiler.appendConstant_extends (c.compileArguments args) OpCodeCall
    (Const.Call name args.length)).length_le
  have hwf1 := hext.wf hwf (by omega)
  obtain ⟨i, h1, h2, h3⟩ := compiler.appendConstant_Call _ hwf1 name args.length hb
  exact ⟨i, by rw [h1, compiler.compileArguments_instructions], h2, h3⟩

/-- A method call compiles to the code of the receiver, the code of its arguments in order and
then one `OpCodeCall` whose operand is the index of a pool slot holding its descriptor. -/
theorem compiler.compile_MethodNode (c : compiler) (hwf : c.WF) (name : GoString)
    (recv : Node) (args : List Node)
    (hb : (c.compile (MethodNode recv name args)).constants.length ≤ 65536) :
    ∃ i, (c.compile (MethodNode recv name args)).instructions =
        c.instructions ++ c.code recv ++ (c.compile recv).codeArguments args ++
          [OpCodeCall, i / 256, i % 256] ∧
      i < 65536 ∧
      (c.compile (MethodNode recv name args)).constants[i]? =
        some (Const.Call name args.length) := by
  rw [compiler.compile] at hb ⊢
  have hext := (compiler.compile_extends recv c).trans
    (compiler.compileArguments_extends args (c.compile recv))
  have hle := (compiler.appendConstant_extends ((c.compile recv).compileArguments args)
    OpCodeCall (Const.Call name args.length)).length_le
  have hwf1 := hext.wf hwf (by omega)
  obtain ⟨i, h1, h2, h3⟩ := compiler.appendConstant_Call _ hwf1 name args.length hb
  exact ⟨i, by rw [h1, compiler.compileArguments_instructions, compiler.compile_instructions],
    h2, h3⟩

/-- C7: a function call compiles to the code of its arguments in order and then one
`OpCodeCall` whose operand is the index of a pool slot holding `Call{Name, ArgumentsCnt}`; a
method call compiles to the code of the receiver, then of the arguments, then the same. This
holds in every state `c` a compilation reaches (`c.WF`), as long as the pool stays within
65536 entries. -/
theorem C7_call_emits_arguments_then_one_call (c : compiler) (hwf : c.WF) (name : GoString)
    (recv : Node) (args : List Node) :
    ((c.compile (FunctionNode name args)).constants.length ≤ 65536 →
      ∃ i, (c.compile (FunctionNode name args)).instructions =
          c.instructions ++ c.codeArguments args ++ [OpCodeCall, i / 256, i % 256] ∧
        i < 65536 ∧
        (c.compile (FunctionNode name args)).constants[i]? =
          some (Const.Call name args.length)) ∧
    ((c.compile (MethodNode recv name args)).constants.length ≤ 65536 →
      ∃ i, (c.compile (MethodNode recv name args)).instructions =
          c.instructions ++ c.code recv ++ (c.compile recv).codeArguments args ++
            [OpCodeCall, i / 256, i % 256] ∧
        i < 65536 ∧
        (c.compile (MethodNode recv name args)).constants[i]? =
          some (Const.Call name args.length)) :=
  ⟨compiler.compile_FunctionNode c hwf name args, compiler.compile_MethodNode c hwf name recv args⟩

/-- C8 as amended: call descriptors are deduplicated. Once a pool slot `i` holds
`Call{name, n}`, a call node (function or method) with that name and `n` arguments compiles
to its operands' code and `OpCodeCall` with operand `i`, and appends no descriptor: the pool
after the node is the pool after its operands. -/
theorem C8_call_descriptor_is_reused (c : compiler) (hwf : c.WF) (name : GoString)
    (recv : Node) (args : List Node) (i : Nat)
    (hi : c.constants[i]? = some (Const.Call name args.length)) :
    ((c.compile (FunctionNode name args)).constants.length ≤ 65536 →
      (c.compile (FunctionNode name args)).instructions =
          c.instructions ++ c.codeArguments args ++ [OpCodeCall, i / 256, i % 256] ∧
        (c.compile (FunctionNode name args)).constants = (c.compileArguments args).constants) ∧
    ((c.compile (MethodNode recv name args)).constants.length ≤ 65536 →
      (c.compile (MethodNode recv name args)).instructions =
          c.instructions ++ c.code recv ++ (c.compile recv).codeArguments args ++
            [OpCodeCall, i / 256, i % 256] ∧
        (c.compile (MethodNode recv name args)).constants =
          ((c.compile recv).compileArguments args).constants) := by
  constructor
  · intro hb
    rw [compiler.compile] at hb ⊢
    have hext := compiler.compileArguments_extends args c
    have hle := (compiler.appendConstant_extends (c.compileArguments args) OpCodeCall
      (Const.Call name args.length)).length_le
    have hwf1 := hext.wf hwf (by omega)
    obtain ⟨h1, h2⟩ := compiler.appendConstant_Call_again _ hwf1 name args.length i
      (hext.getElem? hi) (by omega)
    exact ⟨by rw [h1, compiler.compileArguments_instructions], h2⟩
  · intro hb
    rw [compiler.compile] at hb ⊢
    have hext := (compiler.compile_extends recv c).trans
      (compiler.compileArguments_extends args (c.compile recv))
    have hle := (compiler.appendConstant_extends ((c.compile recv).compileArguments args)
      OpCodeCall (Const.Call name args.length)).length_le
    have hwf1 := hext.wf hwf (by omega)
    obtain ⟨h1, h2⟩ := compiler.appendConstant_Call_again _ hwf1 name args.length i
      (hext.getElem? hi) (by omega)
    exact ⟨by rw [h1, compiler.compileArguments_instructions, compiler.compile_instructions],
      h2⟩

/-- The pool that `Compile` returns holds no descriptor twice. -/
theorem Compile_descriptor_unique (t : Tree) (hb : (Compile t).2.length ≤ 65536)
    (i j : Nat) (name : GoString) (cnt : Int)
    (hi : (Compile t).2[i]? = some (Const.Call name cnt))
    (hj : (Compile t).2[j]? = some (Const.Call name cnt)) : i = j := by
  have hwf := (compiler.compile_extends t.Root
    { instructions := [], constants := [], constantsIndex := [] }).wf compiler.WF_empty hb
  have h1 := hwf.exact i _ hi (Const.same_Call_self name cnt)
  have h2 := hwf.exact j _ hj (Const.same_Call_self name cnt)
  rw [h1] at h2
  exact Option.some.inj h2


/-! ### Arithmetic trees (C5) -/

theorem firstOccurrences_filter (p : Int → Bool) :
    ∀ l : List Int, firstOccurrences (l.filter p) = (firstOccurrences l).filter p
  | [] => rfl
  | y :: l => by
    by_cases hp : p y = true
    · rw [List.filter_cons_of_pos hp, firstOccurrences, firstOccurrences,
        List.filter_cons_of_pos hp, firstOccurrences_filter p l, List.filter_filter,
        List.filter_filter]
      congr 1
      apply List.filter_congr
      intro x _
      exact Bool.and_comm _ _
    · rw [List.filter_cons_of_neg hp, firstOccurrences, List.filter_cons_of_neg hp,
        firstOccurrences_filter p l, List.filter_filter]
      apply List.filter_congr
      intro x _
      by_cases hx : x = y
      · subst hx; simp [hp]
      · simp [hx]

theorem foldl_poolAdd (ls : List Int) : ∀ vs : List Int,
    ls.foldl poolAdd vs = vs ++ firstOccurrences (ls.filter (fun x => decide (x ∉ vs))) := by
  induction ls with
  | nil => intro vs; simp [firstOccurrences]
  | cons x xs ih =>
    intro vs
    rw [List.foldl_cons, ih]
    by_cases hx : x ∈ vs
    · simp [poolAdd, hx]
    · have hf : (List.filter (fun y => decide (y ∉ vs ++ [x])) xs) =
          List.filter (fun y => decide (y ≠ x)) (List.filter (fun y => decide (y ∉ vs)) xs) := by
        rw [List.filter_filter]
        apply List.filter_congr
        intro y _
        simp [not_or, and_comm]
      simp only [poolAdd, hx, if_false]
      rw [hf, firstOccurrences_filter, List.filter_cons_of_pos (by simpa using hx),
        firstOccurrences, List.append_assoc, List.singleton_append]

/-- Adding the literals one by one to the empty pool gives the distinct values in the order of
their first occurrence. -/
theorem foldl_poolAdd_nil (ls : List Int) : ls.foldl poolAdd [] = firstOccurrences ls := by
  rw [foldl_poolAdd]
  simp

theorem foldl_poolAdd_initial (ls : List Int) : ∀ vs : List Int, vs <+: ls.foldl poolAdd vs := by
  intro vs
  rw [foldl_poolAdd]
  exact List.prefix_append _ _

/-- In a pool of `int` values, `newConstant` returns the index of the value in the pool
extended by it. -/
theorem compiler.newConstant_int (c : compiler) (vs : List Int) (v : Int) (hwf : c.WF)
    (hc : c.constants = vs.map Const.int) (hb : (poolAdd vs v).length ≤ 65536) :
    (c.newConstant (Const.int v)).1 =
        [(poolAdd vs v).indexOf v / 256, (poolAdd vs v).indexOf v % 256] ∧
      (c.newConstant (Const.int v)).2.constants = (poolAdd vs v).map Const.int := by
  cases h : c.index (Const.int v) with
  | some i =>
    obtain ⟨k', hk', hs⟩ := hwf.sound _ i h
    have hk := Const.same_int hs
    subst hk
    rw [hc, List.getElem?_map] at hk'
    have hv : vs[i]? = some v := by
      cases hx : vs[i]? with
      | none => rw [hx] at hk'; simp at hk'
      | some w => rw [hx] at hk'; simp at hk'; rw [hk']
    have hmem : v ∈ vs := List.mem_iff_getElem?.mpr ⟨i, hv⟩
    have hidx : c.constants[vs.indexOf v]? = some (Const.int v) := by
      rw [hc, List.getElem?_map, List.getElem?_indexOf hmem]; rfl
    have hi : i = vs.indexOf v := by
      have := hwf.exact _ _ hidx (Const.same_int_self v)
      rw [h] at this
      exact Option.some.inj this
    have hlt : i < vs.length := (List.getElem?_eq_some_iff.mp hv).1
    have hpa : poolAdd vs v = vs := by simp [poolAdd, hmem]
    rw [hpa] at hb ⊢
    rw [compiler.newConstant_hit h, ← hi]
    refine ⟨?_, hc⟩
    simp only [encode]
    rw [Nat.mod_eq_of_lt (by omega : i / 256 < 256)]
  | none =>
    have hmem : v ∉ vs := by
      intro hmem
      have hidx : c.constants[vs.indexOf v]? = some (Const.int v) := by
        rw [hc, List.getElem?_map, List.getElem?_indexOf hmem]; rfl
      have := hwf.exact _ _ hidx (Const.same_int_self v)
      rw [h] at this
      exact absurd this (by simp)
    have hpa : poolAdd vs v = vs ++ [v] := by simp [poolAdd, hmem]
    rw [hpa] at hb ⊢
    simp only [List.length_append, List.length_singleton] at hb
    have hlen : c.constants.length = vs.length := by rw [hc, List.length_map]
    rw [compiler.newConstant_miss h, hlen, Nat.mod_eq_of_lt (by omega : vs.length < 65536),
      List.indexOf_append_of_not_mem hmem, List.indexOf_cons_self]
    refine ⟨?_, by simp [hc]⟩
    simp only [encode, Nat.add_zero]
    rw [Nat.mod_eq_of_lt (by omega : vs.length / 256 < 256)]

theorem arithOpcode_compile (c : compiler) (op : GoString) (code : Nat)
    (h : arithOpcode op = some code) :
    (if op = lit "+" then c.appendInstruction OpCodeAdd []
      else if op = lit "-" then c.appendInstruction OpCodeSub []
      else if op = lit "*" then c.appendInstruction OpCodeMul []
      else if op = lit "/" then c.appendInstruction OpCodeDiv []
      else if op = lit "^" then c.appendInstruction OpCodePow []
      else if op = lit "%" then c.appendInstruction OpCodeMod []
      else c) = c.appendInstruction code [] := by
  unfold arithOpcode at h
  split_ifs at h ⊢ <;> (cases h; rfl)

/-- Compiling an arithmetic tree in a state whose pool holds the `int` values `vs`: the pool
becomes `vs` extended by the tree's literals, and the instructions appended are the
post-order stream over any pool that starts with the new one. -/
theorem compiler.compile_arith {t : Node} (ht : ArithTree t) :
    ∀ (c : compiler) (vs : List Int), c.WF → c.constants = vs.map Const.int →
      ((literals t).foldl poolAdd vs).length ≤ 65536 →
      (c.compile t).constants = ((literals t).foldl poolAdd vs).map Const.int ∧
      ∀ pool, (literals t).foldl poolAdd vs <+: pool →
        (c.compile t).instructions = c.instructions ++ postorder pool t := by
  induction ht with
  | int v =>
    intro c vs hwf hc hb
    simp only [literals, List.foldl_cons, List.foldl_nil] at hb ⊢
    obtain ⟨h1, h2⟩ := compiler.newConstant_int c vs v hwf hc hb
    rw [compiler.compile]
    refine ⟨h2, ?_⟩
    intro pool hpre
    obtain ⟨rest, rfl⟩ := hpre
    have hmem : v ∈ poolAdd vs v := by
      unfold poolAdd; split_ifs with h
      · exact h
      · simp
    simp only [compiler.appendConstant, compiler.appendInstruction,
      compiler.newConstant_instructions, h1, postorder, List.indexOf_append_of_mem hmem,
      List.append_assoc, List.singleton_append]
  | binary op l r hop _ _ ihl ihr =>
    intro c vs hwf hc hb
    simp only [literals, List.foldl_append] at hb ⊢
    have hpre := foldl_poolAdd_initial (literals r) ((literals l).foldl poolAdd vs)
    have hb1 : ((literals l).foldl poolAdd vs).length ≤ 65536 := le_trans hpre.length_le hb
    obtain ⟨hl1, hl2⟩ := ihl c vs hwf hc hb1
    have hwf1 : (c.compile l).WF :=
      (compiler.compile_extends l c).wf hwf (by rw [hl1, List.length_map]; exact hb1)
    obtain ⟨hr1, hr2⟩ := ihr (c.compile l) _ hwf1 hl1 hb
    obtain ⟨code, hcode⟩ := Option.isSome_iff_exists.mp hop
    rw [compiler.compile]
    simp only [arithOpcode_compile _ op code hcode]
    refine ⟨hr1, ?_⟩
    intro pool hpool
    simp only [compiler.appendInstruction, hr2 pool hpool, hl2 pool (hpre.trans hpool), postorder,
      hcode, Option.toList_some, List.append_assoc, List.append_nil]

/-- C5: for a tree of `IntNode` literals and `+ - * / ^ %` nodes with at most 65536 distinct
literal values, `Compile` returns the post-order instruction stream (a literal is `OpCodePush`
and the big-endian pool index of its value, a binary node is its opcode) and the pool of the
distinct literal values in the order of their first occurrence. -/
theorem C5_arithmetic_pool_and_postorder (t : Node) (ht : ArithTree t)
    (hb : (firstOccurrences (literals t)).length ≤ 65536) :
    Compile { Root := t } =
      (postorder (firstOccurrences (literals t)) t,
       (firstOccurrences (literals t)).map Const.int) := by
  rw [← foldl_poolAdd_nil] at hb ⊢
  obtain ⟨h1, h2⟩ := compiler.compile_arith ht
    { instructions := [], constants := [], constantsIndex := [] } [] compiler.WF_empty rfl hb
  simp only [Compile, h1, h2 _ (List.prefix_refl _), List.nil_append]


/-! ### The stack effect of compiled code (C6) -/

theorem stackRun_plain (K : List Const) (op : Nat) (rest : List Nat) (d : Nat)
    (h : hasOperand op = false) :
    stackRun K (op :: rest) d = (stackEffect K op 0 d).bind (stackRun K rest) := by
  cases rest with
  | nil => simp only [stackRun, h]; cases stackEffect K op 0 d <;> rfl
  | cons a rest =>
    cases rest with
    | nil => simp only [stackRun, h]; cases stackEffect K op 0 d <;> rfl
    | cons b rest => simp only [stackRun, h]; cases stackEffect K op 0 d <;> rfl

theorem stackRun_operand (K : List Const) (op hi lo : Nat) (rest : List Nat) (d : Nat)
    (h : hasOperand op = true) :
    stackRun K (op :: hi :: lo :: rest) d =
      (stackEffect K op (hi * 256 + lo) d).bind (stackRun K rest) := by
  simp only [stackRun, h]
  cases stackEffect K op (hi * 256 + lo) d <;> rfl

theorem stackRun_cut (K : List Const) (op : Nat) (rest : List Nat) (d : Nat)
    (h : hasOperand op = true) (hlen : rest.length < 2) : stackRun K (op :: rest) d = none := by
  cases rest with
  | nil => simp [stackRun, h]
  | cons a rest =>
    cases rest with
    | nil => simp [stackRun, h]
    | cons b rest => simp only [List.length_cons] at hlen; omega

/-- Running a stream that ends without a cut-off operand, and then another one, is running
the second from the depth the first one reached. -/
theorem stackRun_append (K : List Const) (ys : List Nat) :
    ∀ (n : Nat) (xs : List Nat), xs.length ≤ n → ∀ d d', stackRun K xs d = some d' →
      stackRun K (xs ++ ys) d = stackRun K ys d' := by
  intro n
  induction n with
  | zero =>
    intro xs hlen d d' h
    have : xs = [] := List.length_eq_zero.mp (Nat.le_zero.mp hlen)
    subst this
    simp only [stackRun, Option.some.injEq] at h
    subst h
    rfl
  | succ n ih =>
    intro xs hlen d d' h
    cases xs with
    | nil =>
      simp only [stackRun, Option.some.injEq] at h
      subst h
      rfl
    | cons op rest =>
      have hrest : rest.length ≤ n := by simpa using hlen
      rw [List.cons_append]
      cases hop : hasOperand op with
      | false =>
        rw [stackRun_plain K op _ d hop] at h ⊢
        cases he : stackEffect K op 0 d with
        | none => rw [he] at h; exact absurd h (by simp)
        | some d1 =>
          rw [he] at h
          exact ih rest hrest _ _ h
      | true =>
        cases rest with
        | nil => rw [stackRun_cut K op _ d hop (by simp)] at h; exact absurd h (by simp)
        | cons hi rest1 =>
          cases rest1 with
          | nil => rw [stackRun_cut K op _ d hop (by simp)] at h; exact absurd h (by simp)
          | cons lo rest2 =>
            have hrest2 : rest2.length ≤ n := by
              simp only [List.length_cons] at hrest; omega
            simp only [List.cons_append]
            rw [stackRun_operand K op hi lo _ d hop] at h ⊢
            cases he : stackEffect K op (hi * 256 + lo) d with
            | none => rw [he] at h; exact absurd h (by simp)
            | some d1 =>
              rw [he] at h
              exact ih rest2 hrest2 _ _ h

theorem stackRun_append_some (K : List Const) (xs ys : List Nat) (d d' : Nat)
    (h : stackRun K xs d = some d') : stackRun K (xs ++ ys) d = stackRun K ys d' :=
  stackRun_append K ys xs.length xs (Nat.le_refl _) d d' h

theorem compiler.newConstant_two_bytes (c : compiler) (k : Const) :
    ∃ hi lo, (c.newConstant k).1 = [hi, lo] := by
  cases h : c.index k with
  | some i => rw [compiler.newConstant_hit h]; exact ⟨_, _, rfl⟩
  | none => rw [compiler.newConstant_miss h]; exact ⟨_, _, rfl⟩

theorem compiler.appendConstant_instructions (c : compiler) (op : Nat) (k : Const) :
    ∃ hi lo, (c.appendConstant op k).instructions = c.instructions ++ [op, hi, lo] := by
  obtain ⟨hi, lo, h⟩ := compiler.newConstant_two_bytes c k
  exact ⟨hi, lo, by simp [compiler.appendConstant, compiler.appendInstruction,
    compiler.newConstant_instructions, h]⟩

theorem compiler.code_eq (c : compiler) (n : Node) (xs : List Nat)
    (h : (c.compile n).instructions = c.instructions ++ xs) : c.code n = xs := by
  rw [compiler.code, h, List.drop_left]

theorem compiler.Extends.pool_le {c c' : compiler} (h : c.Extends c') :
    c.constants <+: c'.constants := by
  obtain ⟨ks, hk⟩ := h.consts
  exact ⟨ks, hk.symm⟩

/-- The code of a lowerable argument list pushes one value for each argument. -/
theorem compiler.codeArguments_run (K : List Const) (hK : K.length ≤ 65536) :
    ∀ (args : List Node),
      (∀ a, a ∈ args → ∀ (c : compiler), c.WF → (c.compile a).constants <+: K →
        ∀ d, stackRun K (c.code a) d = some (d + 1)) →
      ∀ (c : compiler), c.WF → (c.compileArguments args).constants <+: K →
        ∀ d, stackRun K (c.codeArguments args) d = some (d + args.length)
  | [], _, c, _, _, d => by simp [compiler.codeArguments, stackRun]
  | a :: rest, ih, c, hwf, hpre, d => by
    rw [compiler.compileArguments] at hpre
    have hext := compiler.compileArguments_extends rest (c.compile a)
    have hpre1 : (c.compile a).constants <+: K := hext.pool_le.trans hpre
    have hwf1 : (c.compile a).WF :=
      (compiler.compile_extends a c).wf hwf (le_trans hpre1.length_le hK)
    rw [compiler.codeArguments,
      stackRun_append_some K _ _ d (d + 1) (ih a (List.mem_cons_self _ _) c hwf hpre1 d),
      compiler.codeArguments_run K hK rest (fun b hb => ih b (List.mem_cons_of_mem _ hb))
        (c.compile a) hwf1 hpre (d + 1)]
    simp only [List.length_cons]
    congr 1
    omega


theorem stackRun_single (K : List Const) (op d d' : Nat) (h : hasOperand op = false)
    (he : stackEffect K op 0 d = some d') : stackRun K [op] d = some d' := by
  rw [stackRun_plain K op [] d h, he]
  rfl

theorem stackRun_triple (K : List Const) (op hi lo d d' : Nat) (h : hasOperand op = true)
    (he : stackEffect K op (hi * 256 + lo) d = some d') :
    stackRun K [op, hi, lo] d = some d' := by
  rw [stackRun_operand K op hi lo [] d h, he]
  rfl

theorem arithOpcode_effect (K : List Const) (op : GoString) (code d : Nat)
    (h : arithOpcode op = some code) :
    hasOperand code = false ∧ stackEffect K code 0 (d + 2) = some (d + 1) := by
  unfold arithOpcode at h
  split_ifs at h <;> (cases h; exact ⟨by decide, by simp [stackEffect, OpCodeAdd, OpCodeSub,
    OpCodeMul, OpCodeDiv, OpCodePow, OpCodeMod, OpCodePush, OpCodeFetch, OpCodeTrue, OpCodeFalse,
    OpCodeNil, OpCodeNot, OpCodeNegate, OpCodeProperty]⟩)

theorem compiler.appendConstant_push_run (K : List Const) (c : compiler) (op : Nat) (k : Const)
    (hop : op = OpCodePush ∨ op = OpCodeFetch) (d : Nat) (n : Node)
    (hn : c.compile n = c.appendConstant op k) : stackRun K (c.code n) d = some (d + 1) := by
  obtain ⟨hi, lo, h⟩ := compiler.appendConstant_instructions c op k
  rw [compiler.code_eq c n [op, hi, lo] (by rw [hn, h])]
  apply stackRun_triple
  · rcases hop with rfl | rfl <;> decide
  · rcases hop with rfl | rfl <;> simp [stackEffect]

/-- The code of a lowerable node pushes exactly one value and never pops below the depth it
started from. -/
theorem compiler.code_run (K : List Const) (hK : K.length ≤ 65536) {n : Node}
    (hn : Lowerable n) :
    ∀ (c : compiler), c.WF → (c.compile n).constants <+: K →
      ∀ d, stackRun K (c.code n) d = some (d + 1) := by
  induction hn with
  | unary op e _ ih =>
    intro c hwf hpre d
    have hrun := fun h => ih c hwf h d
    rw [compiler.compile] at hpre
    by_cases h1 : op = lit "!" ∨ op = lit "not"
    · simp only [h1, if_true] at hpre
      rw [compiler.code_eq c _ (c.code e ++ [OpCodeNot])
        (by rw [compiler.compile]; simp only [h1, if_true]
            simp [compiler.appendInstruction, compiler.compile_instructions]),
        stackRun_append_some K _ _ d (d + 1) (hrun hpre)]
      exact stackRun_single K _ _ _ (by decide) (by simp [stackEffect, OpCodeNot, OpCodePush,
        OpCodeFetch, OpCodeTrue, OpCodeFalse, OpCodeNil])
    · by_cases h2 : op = lit "-"
      · rw [if_neg h1, if_pos h2] at hpre
        rw [compiler.code_eq c _ (c.code e ++ [OpCodeNegate])
          (by rw [compiler.compile, if_neg h1, if_pos h2]
              simp [compiler.appendInstruction, compiler.compile_instructions]),
          stackRun_append_some K _ _ d (d + 1) (hrun hpre)]
        exact stackRun_single K _ _ _ (by decide) (by simp [stackEffect, OpCodeNegate,
          OpCodePush, OpCodeFetch, OpCodeTrue, OpCodeFalse, OpCodeNil, OpCodeNot])
      · rw [if_neg h1, if_neg h2] at hpre
        rw [compiler.code_eq c _ (c.code e)
          (by rw [compiler.compile, if_neg h1, if_neg h2]
              simp [compiler.compile_instructions])]
        exact hrun hpre
  | binary op l r hop _ _ ihl ihr =>
    intro c hwf hpre d
    obtain ⟨code, hcode⟩ := Option.isSome_iff_exists.mp hop
    rw [compiler.compile] at hpre
    simp only [arithOpcode_compile _ op code hcode] at hpre
    have hpre2 : ((c.compile l).compile r).constants <+: K := hpre
    have hpre1 : (c.compile l).constants <+: K :=
      (compiler.compile_extends r (c.compile l)).pool_le.trans hpre2
    have hwf1 : (c.compile l).WF :=
      (compiler.compile_extends l c).wf hwf (le_trans hpre1.length_le hK)
    obtain ⟨hno, heff⟩ := arithOpcode_effect K op code d hcode
    rw [compiler.code_eq c _ (c.code l ++ ((c.compile l).code r ++ [code]))
      (by rw [compiler.compile]; simp only [arithOpcode_compile _ op code hcode]
          simp [compiler.appendInstruction, compiler.compile_instructions]),
      stackRun_append_some K _ _ d (d + 1) (ihl c hwf hpre1 d),
      stackRun_append_some K _ _ (d + 1) (d + 2) (ihr _ hwf1 hpre2 (d + 1))]
    exact stackRun_single K _ _ _ hno heff
  | function name args _ ih =>
    intro c hwf hpre d
    have hb : (c.compile (FunctionNode name args)).constants.length ≤ 65536 :=
      le_trans hpre.length_le hK
    obtain ⟨i, h1, h2, h3⟩ := compiler.compile_FunctionNode c hwf name args hb
    rw [compiler.code_eq c _ _ (by rw [h1, List.append_assoc])]
    rw [compiler.compile] at hpre
    have hpre1 : (c.compileArguments args).constants <+: K :=
      (compiler.appendConstant_extends _ _ _).pool_le.trans hpre
    rw [stackRun_append_some K _ _ d (d + args.length)
      (compiler.codeArguments_run K hK args ih c hwf hpre1 d)]
    apply stackRun_triple K _ _ _ _ _ (by decide)
    obtain ⟨ks, hks⟩ := hpre
    have hKi : K[i / 256 * 256 + i % 256]? = some (Const.Call name args.length) := by
      rw [Nat.div_add_mod' i 256, ← hks, ← compiler.compile,
        List.getElem?_append_left (List.getElem?_eq_some_iff.mp h3).1]
      exact h3
    simp [stackEffect, hKi, OpCodeCall, OpCodePush, OpCodeFetch, OpCodeTrue, OpCodeFalse,
      OpCodeNil, OpCodeNot, OpCodeNegate, OpCodeProperty, OpCodeAdd, OpCodeSub, OpCodeMul,
      OpCodeDiv, OpCodePow, OpCodeMod]
  | property e name _ ih =>
    intro c hwf hpre d
    rw [compiler.compile] at hpre
    have hpre1 : (c.compile e).constants <+: K :=
      (compiler.appendConstant_extends _ _ _).pool_le.trans hpre
    obtain ⟨hi, lo, h⟩ := compiler.appendConstant_instructions (c.compile e) OpCodeProperty
      (Const.string name)
    rw [compiler.code_eq c _ (c.code e ++ [OpCodeProperty, hi, lo])
      (by rw [compiler.compile, h, compiler.compile_instructions, List.append_assoc]),
      stackRun_append_some K _ _ d (d + 1) (ih c hwf hpre1 d)]
    exact stackRun_triple K _ _ _ _ _ (by decide) (by simp [stackEffect, OpCodeProperty,
      OpCodePush, OpCodeFetch, OpCodeTrue, OpCodeFalse, OpCodeNil, OpCodeNot, OpCodeNegate])
  | bool v =>
    intro c _ _ d
    cases v
    · rw [compiler.code_eq c _ [OpCodeFalse] (by simp [compiler.compile,
        compiler.appendInstruction])]
      exact stackRun_single K _ _ _ (by decide) (by simp [stackEffect])
    · rw [compiler.code_eq c _ [OpCodeTrue] (by simp [compiler.compile,
        compiler.appendInstruction])]
      exact stackRun_single K _ _ _ (by decide) (by simp [stackEffect])
  | nilNode =>
    intro c _ _ d
    rw [compiler.code_eq c _ [OpCodeNil] (by simp [compiler.compile,
      compiler.appendInstruction])]
    exact stackRun_single K _ _ _ (by decide) (by simp [stackEffect])
  | identifier v =>
    intro c _ _ d
    exact compiler.appendConstant_push_run K c OpCodeFetch _ (Or.inr rfl) d _
      (by rw [compiler.compile])
  | float v =>
    intro c _ _ d
    exact compiler.appendConstant_push_run K c OpCodePush _ (Or.inl rfl) d _
      (by rw [compiler.compile])
  | int v =>
    intro c _ _ d
    exact compiler.appendConstant_push_run K c OpCodePush _ (Or.inl rfl) d _
      (by rw [compiler.compile])
  | string v =>
    intro c _ _ d
    exact compiler.appendConstant_push_run K c OpCodePush _ (Or.inl rfl) d _
      (by rw [compiler.compile])

/-- C6 as amended: for every tree with no nil node, no method call and no binary operator
other than `+ - * / ^ %` (in particular every such tree that `Parse` returns), whose pool is
within 65536 entries, the instruction stream of `Compile`, run in order from the empty stack
with each opcode's stack effect, never pops from a stack that is too short and leaves exactly
one value. -/
theorem C6_lowerable_tree_leaves_one_value (t : Tree) (ht : Lowerable t.Root)
    (hb : (Compile t).2.length ≤ 65536) :
    stackRun (Compile t).2 (Compile t).1 0 = some 1 := by
  have h := compiler.code_run (Compile t).2 hb ht
    { instructions := [], constants := [], constantsIndex := [] } compiler.WF_empty
    (List.prefix_refl _) 0
  have hc : (Compile t).1 = compiler.code
      { instructions := [], constants := [], constantsIndex := [] } t.Root := by
    simp [Compile, compiler.code]
  rw [hc]
  exact h


/-! ### The worked examples of the tests -/

theorem Lexer_arith_20 (X : Extern) :
    Lexer X 20 (lit "1 + 2 - 3") = some (Except.ok
      [⟨⟨1, 0⟩, TokenKindNumber, [0x31]⟩, ⟨⟨1, 2⟩, TokenKindOperator, [0x2B]⟩,
       ⟨⟨1, 4⟩, TokenKindNumber, [0x32]⟩, ⟨⟨1, 6⟩, TokenKindOperator, [0x2D]⟩,
       ⟨⟨1, 8⟩, TokenKindNumber, [0x33]⟩, ⟨⟨1, 8⟩, TokenKindEOF, []⟩]) := rfl

theorem Parse_arith_20 (X : Extern) :
    Parse X 20 (lit "1 + 2 - 3") = some (Except.ok { Root := exampleArith }) := by
  unfold Parse
  rw [Lexer_arith_20]
  rfl

/-- The source `1 + 2 - 3` parses to `exampleArith`. -/
theorem Parse_arith (X : Extern) (n : Nat) :
    Parse X (n + 20) (lit "1 + 2 - 3") = some (Except.ok { Root := exampleArith }) :=
  Parse_mono X _ 20 (n + 20) _ (Nat.le_add_left 20 n) (Parse_arith_20 X)

theorem Compile_arith :
    Compile { Root := exampleArith } =
      ([OpCodePush, 0, 0, OpCodePush, 0, 1, OpCodeAdd, OpCodePush, 0, 2, OpCodeSub],
       [Const.int 1, Const.int 2, Const.int 3]) := by decide

theorem Lexer_calls_40 (X : Extern) :
    Lexer X 40 (lit "func(1 + 2 - 3) + func(1)") = some (Except.ok
      [⟨⟨1, 0⟩, TokenKindIdentifier, [0x66, 0x75, 0x6E, 0x63]⟩,
       ⟨⟨1, 4⟩, TokenKindBracket, [0x28]⟩,
       ⟨⟨1, 5⟩, TokenKindNumber, [0x31]⟩, ⟨⟨1, 7⟩, TokenKindOperator, [0x2B]⟩,
       ⟨⟨1, 9⟩, TokenKindNumber, [0x32]⟩, ⟨⟨1, 11⟩, TokenKindOperator, [0x2D]⟩,
       ⟨⟨1, 13⟩, TokenKindNumber, [0x33]⟩, ⟨⟨1, 14⟩, TokenKindBracket, [0x29]⟩,
       ⟨⟨1, 16⟩, TokenKindOperator, [0x2B]⟩,
       ⟨⟨1, 18⟩, TokenKindIdentifier, [0x66, 0x75, 0x6E, 0x63]⟩,
       ⟨⟨1, 22⟩, TokenKindBracket, [0x28]⟩, ⟨⟨1, 23⟩, TokenKindNumber, [0x31]⟩,
       ⟨⟨1, 24⟩, TokenKindBracket, [0x29]⟩, ⟨⟨1, 24⟩, TokenKindEOF, []⟩]) := rfl

theorem Parse_calls_40 (X : Extern) :
    Parse X 40 (lit "func(1 + 2 - 3) + func(1)") =
      some (Except.ok { Root := exampleCalls }) := by
  unfold Parse
  rw [Lexer_calls_40]
  rfl

/-- The source `func(1 + 2 - 3) + func(1)` parses to `exampleCalls`. -/
theorem Parse_calls (X : Extern) (n : Nat) :
    Parse X (n + 40) (lit "func(1 + 2 - 3) + func(1)") =
      some (Except.ok { Root := exampleCalls }) :=
  Parse_mono X _ 40 (n + 40) _ (Nat.le_add_left 40 n) (Parse_calls_40 X)

theorem Compile_calls :
    Compile { Root := exampleCalls } =
      ([OpCodePush, 0, 0, OpCodePush, 0, 1, OpCodeAdd, OpCodePush, 0, 2, OpCodeSub,
        OpCodeCall, 0, 3, OpCodePush, 0, 0, OpCodeCall, 0, 3, OpCodeAdd],
       [Const.int 1, Const.int 2, Const.int 3, Const.Call (lit "func") 1]) := by decide


theorem ArithTree_exampleArith : ArithTree exampleArith :=
  ArithTree.binary _ _ _ (by decide)
    (ArithTree.binary _ _ _ (by decide) (ArithTree.int 1) (ArithTree.int 2)) (ArithTree.int 3)

theorem Lowerable_exampleArith : Lowerable exampleArith :=
  Lowerable.binary _ _ _ (by decide)
    (Lowerable.binary _ _ _ (by decide) (Lowerable.int 1) (Lowerable.int 2)) (Lowerable.int 3)

theorem Lowerable_exampleCalls : Lowerable exampleCalls :=
  Lowerable.binary _ _ _ (by decide)
    (Lowerable.function _ _ (fun a ha => by
      rw [List.mem_singleton] at ha; subst ha; exact Lowerable_exampleArith))
    (Lowerable.function _ _ (fun a ha => by
      rw [List.mem_singleton] at ha; subst ha; exact Lowerable.int 1))

/-- C5 at `1 + 2 - 3`: the pool is `[1, 2, 3]` and the stream is
`PUSH#0, PUSH#1, ADD, PUSH#2, SUB`. -/
theorem C5_witness_one_plus_two_minus_three :
    ArithTree exampleArith ∧ (firstOccurrences (literals exampleArith)).length ≤ 65536 ∧
    (∀ (X : Extern) (n : Nat),
      Parse X (n + 20) (lit "1 + 2 - 3") = some (Except.ok { Root := exampleArith })) ∧
    Compile { Root := exampleArith } =
      ([OpCodePush, 0, 0, OpCodePush, 0, 1, OpCodeAdd, OpCodePush, 0, 2, OpCodeSub],
       [Const.int 1, Const.int 2, Const.int 3]) :=
  ⟨ArithTree_exampleArith, by decide, Parse_arith,
    (C5_arithmetic_pool_and_postorder exampleArith ArithTree_exampleArith (by decide)).trans
      (by decide)⟩

/-- The source `1 +`: `Parse` accepts it, `Compile` gives `PUSH#0, ADD`, and `ADD` finds one
value on the stack where it pops two. -/
theorem stackRun_trailing_operator :
    (∀ X : Extern, Parse X 10 (lit "1 +") =
      some (Except.ok { Root := BinaryNode (lit "+") (IntNode 1) Node.nil })) ∧
    Compile { Root := BinaryNode (lit "+") (IntNode 1) Node.nil } =
      ([OpCodePush, 0, 0, OpCodeAdd], [Const.int 1]) ∧
    stackRun [Const.int 1] [OpCodePush, 0, 0, OpCodeAdd] 0 = none :=
  ⟨Parse_one_plus_10, by decide, by decide⟩

theorem Lexer_comparison_20 (X : Extern) :
    Lexer X 20 (lit "a == b") = some (Except.ok
      [⟨⟨1, 0⟩, TokenKindIdentifier, [0x61]⟩, ⟨⟨1, 2⟩, TokenKindOperator, [0x3D, 0x3D]⟩,
       ⟨⟨1, 5⟩, TokenKindIdentifier, [0x62]⟩, ⟨⟨1, 5⟩, TokenKindEOF, []⟩]) := rfl

theorem Parse_comparison_20 (X : Extern) :
    Parse X 20 (lit "a == b") = some (Except.ok
      (Tree.mk (BinaryNode (lit "==") (IdentifierNode (lit "a")) (IdentifierNode (lit "b"))))) := by
  unfold Parse
  rw [Lexer_comparison_20]
  rfl

/-- C6 is false at the source `a == b`: `Parse` accepts it, `Compile` gives the two
instructions `FETCH#0, FETCH#1` and none for the operator `==`, and the run leaves two values
on the stack, not one. -/
theorem C6_counterexample_comparison :
    (∀ X : Extern, Parse X 20 (lit "a == b") = some (Except.ok
      (Tree.mk (BinaryNode (lit "==") (IdentifierNode (lit "a")) (IdentifierNode (lit "b")))))) ∧
    Compile (Tree.mk (BinaryNode (lit "==") (IdentifierNode (lit "a"))
        (IdentifierNode (lit "b")))) =
      ([OpCodeFetch, 0, 0, OpCodeFetch, 0, 1], [Const.string (lit "a"), Const.string (lit "b")]) ∧
    stackRun [Const.string (lit "a"), Const.string (lit "b")]
      [OpCodeFetch, 0, 0, OpCodeFetch, 0, 1] 0 = some 2 ∧
    stackRun [Const.string (lit "a"), Const.string (lit "b")]
      [OpCodeFetch, 0, 0, OpCodeFetch, 0, 1] 0 ≠ some 1 :=
  ⟨Parse_comparison_20, by decide, by decide, by decide⟩

/-- Three more sources that `Parse` accepts and whose code does not leave one value: a
comparison (`a == b` leaves two: no opcode is emitted for `==`), a method call (`a.b()` leaves
two: the receiver stays under the result) and the empty source (no code, no value). -/
theorem stackRun_other_sources (X : Extern) :
    (Parse X 20 (lit "a == b") = some (Except.ok
        (Tree.mk (BinaryNode (lit "==") (IdentifierNode (lit "a")) (IdentifierNode (lit "b"))))) ∧
      stackRun
        (Compile (Tree.mk (BinaryNode (lit "==") (IdentifierNode (lit "a"))
          (IdentifierNode (lit "b"))))).2
        (Compile (Tree.mk (BinaryNode (lit "==") (IdentifierNode (lit "a"))
          (IdentifierNode (lit "b"))))).1 0 = some 2) ∧
    (Parse X 20 (lit "a.b()") = some (Except.ok
        (Tree.mk (MethodNode (IdentifierNode (lit "a")) (lit "b") []))) ∧
      stackRun (Compile (Tree.mk (MethodNode (IdentifierNode (lit "a")) (lit "b") []))).2
        (Compile (Tree.mk (MethodNode (IdentifierNode (lit "a")) (lit "b") []))).1 0 = some 2) ∧
    (Parse X 20 [] = some (Except.ok (Tree.mk Node.nil)) ∧
      stackRun (Compile (Tree.mk Node.nil)).2 (Compile (Tree.mk Node.nil)).1 0 = some 0) :=
  ⟨⟨rfl, by decide⟩, ⟨rfl, by decide⟩, ⟨rfl, by decide⟩⟩

/-- C6 as amended, at `func(1 + 2 - 3) + func(1)`. -/
theorem C6_witness_calls :
    Lowerable (Tree.mk exampleCalls).Root ∧ (Compile { Root := exampleCalls }).2.length ≤ 65536 ∧
    stackRun (Compile { Root := exampleCalls }).2 (Compile { Root := exampleCalls }).1 0 =
      some 1 :=
  ⟨Lowerable_exampleCalls, by decide,
    C6_lowerable_tree_leaves_one_value { Root := exampleCalls } Lowerable_exampleCalls
      (by decide)⟩

/-- C7 at the call `func(1)` compiled first, and the stream and pool of
`func(1 + 2 - 3) + func(1)`: `PUSH#0, PUSH#1, ADD, PUSH#2, SUB, CALL#3, PUSH#0, CALL#3, ADD` with
a pool of four entries. -/
theorem C7_witness_func :
    compiler.empty.WF ∧
    (∃ i, (compiler.empty.compile (FunctionNode (lit "func") [IntNode 1])).instructions =
        compiler.empty.instructions ++ compiler.empty.codeArguments [IntNode 1] ++
          [OpCodeCall, i / 256, i % 256] ∧
      i < 65536 ∧
      (compiler.empty.compile (FunctionNode (lit "func") [IntNode 1])).constants[i]? =
        some (Const.Call (lit "func") ([IntNode 1] : List Node).length)) ∧
    Compile { Root := exampleCalls } =
      ([OpCodePush, 0, 0, OpCodePush, 0, 1, OpCodeAdd, OpCodePush, 0, 2, OpCodeSub,
        OpCodeCall, 0, 3, OpCodePush, 0, 0, OpCodeCall, 0, 3, OpCodeAdd],
       [Const.int 1, Const.int 2, Const.int 3, Const.Call (lit "func") 1]) :=
  ⟨compiler.WF_empty,
    (C7_call_emits_arguments_then_one_call compiler.empty compiler.WF_empty (lit "func")
      Node.nil [IntNode 1]).1 (by decide),
    Compile_calls⟩

/-- C8 is false at `func(1 + 2 - 3) + func(1)`: the tree holds two call nodes `func` with one
argument each, the pool holds one descriptor, in slot 3, and both `OpCodeCall` instructions
carry the operand 3. -/
theorem C8_counterexample_same_index :
    exampleCalls = BinaryNode (lit "+") (FunctionNode (lit "func") [exampleArith])
      (FunctionNode (lit "func") [IntNode 1]) ∧
    Compile { Root := exampleCalls } =
      ([OpCodePush, 0, 0, OpCodePush, 0, 1, OpCodeAdd, OpCodePush, 0, 2, OpCodeSub,
        OpCodeCall, 0, 3, OpCodePush, 0, 0, OpCodeCall, 0, 3, OpCodeAdd],
       [Const.int 1, Const.int 2, Const.int 3, Const.Call (lit "func") 1]) :=
  ⟨rfl, Compile_calls⟩

theorem WF_after_first_call :
    (compiler.empty.compile (FunctionNode (lit "func") [exampleArith])).WF :=
  (compiler.compile_extends _ compiler.empty).wf compiler.WF_empty (by decide)

/-- C8 as amended, at the second call of `func(1 + 2 - 3) + func(1)`: in the state the first
call leaves, slot 3 holds the descriptor, and the second call emits `CALL#3` and adds no
slot. -/
theorem C8_witness_second_call :
    (compiler.empty.compile (FunctionNode (lit "func") [exampleArith])).WF ∧
    (compiler.empty.compile (FunctionNode (lit "func") [exampleArith])).constants[3]? =
      some (Const.Call (lit "func") ([IntNode 1] : List Node).length) ∧
    (((compiler.empty.compile (FunctionNode (lit "func") [exampleArith])).compile
        (FunctionNode (lit "func") [IntNode 1])).instructions =
      (compiler.empty.compile (FunctionNode (lit "func") [exampleArith])).instructions ++
        (compiler.empty.compile (FunctionNode (lit "func") [exampleArith])).codeArguments
          [IntNode 1] ++ [OpCodeCall, 3 / 256, 3 % 256] ∧
     ((compiler.empty.compile (FunctionNode (lit "func") [exampleArith])).compile
        (FunctionNode (lit "func") [IntNode 1])).constants =
      ((compiler.empty.compile (FunctionNode (lit "func") [exampleArith])).compileArguments
        [IntNode 1]).constants) :=
  ⟨WF_after_first_call, by decide,
    (C8_call_descriptor_is_reused _ WF_after_first_call (lit "func") Node.nil [IntNode 1] 3
      (by decide)).1 (by decide)⟩


/-! ### UTF-8 decoding -/

theorem Decode_ascii (b : Nat) (rest : GoString) (h : b < 0x80) :
    DecodeRuneInString (b :: rest) = ((b : Int), 1) := by
  simp [DecodeRuneInString, h]

theorem NonAscii_error (s0 : Nat) (t : GoString) (h : 0x80 ≤ s0) :
    NonAscii s0 t (RuneError, 1) := by
  refine ⟨by simp, by simp, by simp [RuneError], ?_⟩
  intro x hx
  simp at hx
  omega

theorem NonAscii_decode2 (s0 : Nat) (t : GoString) (h : 0xC2 ≤ s0) (h' : s0 < 0xE0) :
    NonAscii s0 t (decode2 s0 t) := by
  unfold decode2
  cases t with
  | nil => exact NonAscii_error s0 _ (by omega)
  | cons s1 t1 =>
    dsimp only
    split_ifs with hc
    · simp only [isCont, Bool.and_eq_true, decide_eq_true_eq] at hc
      refine ⟨by simp, by simp, by dsimp only; omega, ?_⟩
      intro x hx
      simp at hx
      rcases hx with rfl | rfl <;> omega
    · exact NonAscii_error s0 _ (by omega)

theorem NonAscii_decode3 (s0 : Nat) (t : GoString) (h : 0xE0 ≤ s0) (h' : s0 < 0xF0) :
    NonAscii s0 t (decode3 s0 t) := by
  unfold decode3
  cases t with
  | nil => exact NonAscii_error s0 _ (by omega)
  | cons s1 t1 =>
    cases t1 with
    | nil => exact NonAscii_error s0 _ (by omega)
    | cons s2 t2 =>
      dsimp only
      split_ifs
      all_goals first
        | exact NonAscii_error s0 _ (by omega)
        | (simp only [isCont, Bool.not_eq_true', Bool.and_eq_false_iff, decide_eq_false_iff_not,
            not_or, not_lt, not_le, not_not, Bool.and_eq_true, decide_eq_true_eq,
            Bool.not_eq_false] at *
           refine ⟨by simp, by simp, by dsimp only; omega, ?_⟩
           intro x hx
           simp at hx
           rcases hx with rfl | rfl | rfl <;> omega)

theorem NonAscii_decode4 (s0 : Nat) (t : GoString) (h : 0xF0 ≤ s0) (h' : s0 < 0xF5) :
    NonAscii s0 t (decode4 s0 t) := by
  unfold decode4
  cases t with
  | nil => exact NonAscii_error s0 _ (by omega)
  | cons s1 t1 =>
    cases t1 with
    | nil => exact NonAscii_error s0 _ (by omega)
    | cons s2 t2 =>
      cases t2 with
      | nil => exact NonAscii_error s0 _ (by omega)
      | cons s3 t3 =>
        dsimp only
        split_ifs
        all_goals first
          | exact NonAscii_error s0 _ (by omega)
          | (simp only [isCont, Bool.not_eq_true', Bool.and_eq_false_iff,
              decide_eq_false_iff_not, not_or, not_lt, not_le, not_not, Bool.and_eq_true,
              decide_eq_true_eq, Bool.not_eq_false] at *
             refine ⟨by simp, by simp, by dsimp only; omega, ?_⟩
             intro x hx
             simp at hx
             rcases hx with rfl | rfl | rfl | rfl <;> omega)

/-- The first rune of a string that starts with a byte outside ASCII is outside ASCII, and so
are all the bytes it spans. -/
theorem Decode_nonascii (s0 : Nat) (t : GoString) (h : 0x80 ≤ s0) :
    NonAscii s0 t (DecodeRuneInString (s0 :: t)) := by
  unfold DecodeRuneInString
  have h0 : ¬ s0 < 0x80 := by omega
  simp only [if_neg h0]
  split_ifs with h1 h2 h3 h4
  · exact NonAscii_error s0 t h
  · exact NonAscii_decode2 s0 t (by omega) (by omega)
  · exact NonAscii_decode3 s0 t (by omega) (by omega)
  · exact NonAscii_decode4 s0 t (by omega) (by omega)
  · exact NonAscii_error s0 t h

/-- The width of the first rune of a non-empty string is between one and the length, and the
rune is not negative. -/
theorem Decode_width (s : GoString) (h : s ≠ []) :
    1 ≤ (DecodeRuneInString s).2 ∧ (DecodeRuneInString s).2 ≤ s.length ∧
      0 ≤ (DecodeRuneInString s).1 := by
  cases s with
  | nil => exact absurd rfl h
  | cons s0 t =>
    by_cases h0 : s0 < 0x80
    · rw [Decode_ascii s0 t h0]
      simp
    · obtain ⟨h1, h2, h3, _⟩ := Decode_nonascii s0 t (by omega)
      exact ⟨h1, h2, le_trans (by decide) h3⟩


/-! ### Reading runes -/

theorem lexer.rest_length (l : lexer) : l.rest.length = l.source.length - l.end_ := by
  simp [lexer.rest]

theorem lexer.nextAlpha_nil (l : lexer) (h : l.rest = []) :
    l.nextAlpha = (eof, { l with width := 0 }) := by
  have hlen : l.end_ ≥ l.source.length := by
    have := lexer.rest_length l
    rw [h] at this
    simp at this
    omega
  simp [lexer.nextAlpha, lexer.peekAlpha, hlen]

/-- Reading a rune when there is one: the rune and its width are those of `DecodeRuneInString`
on the rest; only `end`, `width` and the positions change. -/
theorem lexer.nextAlpha_cons (l : lexer) (h : l.rest ≠ []) :
    l.nextAlpha.1 = (DecodeRuneInString l.rest).1 ∧
    l.nextAlpha.2.source = l.source ∧
    l.nextAlpha.2.end_ = l.end_ + (DecodeRuneInString l.rest).2 ∧
    l.nextAlpha.2.width = (DecodeRuneInString l.rest).2 ∧
    l.nextAlpha.2.err = l.err ∧ l.nextAlpha.2.tokens = l.tokens ∧
    l.nextAlpha.2.start = l.start ∧ l.nextAlpha.2.startPos = l.startPos := by
  have hlen : ¬ l.end_ ≥ l.source.length := by
    intro hge
    apply h
    simp [lexer.rest, List.drop_eq_nil_iff, hge]
  have hne : (DecodeRuneInString l.rest).1 ≠ eof := by
    intro heq
    have := (Decode_width l.rest h).2.2
    rw [heq] at this
    exact absurd this (by decide)
  simp only [lexer.nextAlpha, lexer.peekAlpha, if_neg hlen]
  rw [← lexer.rest] 
  simp only [if_neg hne]
  split_ifs <;> simp

theorem lexer.nextAlpha_rest (l : lexer) (h : l.rest ≠ []) :
    l.nextAlpha.2.rest = l.rest.drop (DecodeRuneInString l.rest).2 := by
  obtain ⟨_, h2, h3, _⟩ := lexer.nextAlpha_cons l h
  simp only [lexer.rest, h2, h3, List.drop_drop]

theorem lexer.nextAlpha_err (l : lexer) : l.nextAlpha.2.err = l.err := by
  by_cases h : l.rest = []
  · rw [lexer.nextAlpha_nil l h]
  · exact (lexer.nextAlpha_cons l h).2.2.2.2.1

theorem lexer.nextAlpha_source (l : lexer) : l.nextAlpha.2.source = l.source := by
  by_cases h : l.rest = []
  · rw [lexer.nextAlpha_nil l h]
  · exact (lexer.nextAlpha_cons l h).2.1

/-- Reading a rune shortens the rest, unless the rune is `eof`. -/
theorem lexer.nextAlpha_measure (l : lexer) :
    (l.nextAlpha.1 = eof ∧ l.nextAlpha.2.rest.length = l.rest.length) ∨
    (l.nextAlpha.1 ≠ eof ∧ l.nextAlpha.2.rest.length < l.rest.length) := by
  by_cases h : l.rest = []
  · left
    rw [lexer.nextAlpha_nil l h]
    exact ⟨rfl, rfl⟩
  · right
    obtain ⟨h1, -⟩ := lexer.nextAlpha_cons l h
    obtain ⟨w1, w2, w3⟩ := Decode_width l.rest h
    refine ⟨?_, ?_⟩
    · rw [h1]; intro heq; rw [heq] at w3; exact absurd w3 (by decide)
    · rw [lexer.nextAlpha_rest l h, List.length_drop]
      have : 0 < l.rest.length := List.length_pos.mpr h
      omega


/-! ### Scanning a string literal (C10) -/

theorem lexer.scanStringLoop_succ (quote : Int) (fuel : Nat) (alpha : Int) (l : lexer) :
    lexer.scanStringLoop quote (fuel + 1) alpha l =
      if alpha = quote then some l
      else if alpha = 0x0A ∨ alpha = eof then
        some { l with err := some Error.unexpectedTerminated }
      else if alpha = 0x5C then
        lexer.scanStringLoop quote fuel (l.scanEscape quote).1 (l.scanEscape quote).2
      else lexer.scanStringLoop quote fuel l.nextAlpha.1 l.nextAlpha.2 := by
  rw [lexer.scanStringLoop]

/-- The fuel that the loop of `scanString` needs with the rune `alpha` in hand. -/
theorem lexer.nextAlpha_fuel (l : lexer) :
    (if l.nextAlpha.1 = eof then 1 else l.nextAlpha.2.rest.length + 2) ≤ l.rest.length + 1 := by
  rcases lexer.nextAlpha_measure l with ⟨h1, _⟩ | ⟨h1, h2⟩
  · rw [if_pos h1]; omega
  · rw [if_neg h1]; omega

theorem lexer.nextAlpha_rest_le (l : lexer) : l.nextAlpha.2.rest.length ≤ l.rest.length := by
  rcases lexer.nextAlpha_measure l with ⟨_, h2⟩ | ⟨_, h2⟩ <;> omega

theorem lexer.scanEscape_cases (l : lexer) (quote : Int) :
    l.scanEscape quote = l.nextAlpha.2.nextAlpha ∨
    l.scanEscape quote =
      (l.nextAlpha.1, { l.nextAlpha.2 with err := some Error.unexpectedEscape }) := by
  unfold lexer.scanEscape
  dsimp only
  split_ifs
  · exact Or.inl rfl
  · exact Or.inr rfl

theorem lexer.scanEscape_fuel (l : lexer) (quote : Int) :
    (if (l.scanEscape quote).1 = eof then 1 else (l.scanEscape quote).2.rest.length + 2) ≤
      l.rest.length + 1 := by
  rcases lexer.scanEscape_cases l quote with h | h
  · rw [h]
    have h1 := lexer.nextAlpha_fuel l.nextAlpha.2
    have h2 := lexer.nextAlpha_rest_le l
    omega
  · rw [h]
    exact lexer.nextAlpha_fuel l

theorem lexer.scanEscape_err (l : lexer) (quote : Int) (h : l.err ≠ none) :
    (l.scanEscape quote).2.err ≠ none := by
  rcases lexer.scanEscape_cases l quote with h1 | h1
  · rw [h1, lexer.nextAlpha_err, lexer.nextAlpha_err]; exact h
  · rw [h1]; simp

theorem lexer.scanEscape_source (l : lexer) (quote : Int) :
    (l.scanEscape quote).2.source = l.source := by
  rcases lexer.scanEscape_cases l quote with h1 | h1
  · rw [h1, lexer.nextAlpha_source, lexer.nextAlpha_source]
  · rw [h1]; exact lexer.nextAlpha_source l

/-- The loop of `scanString` ends, with the source unchanged and an error that was set still
set. -/
theorem lexer.scanStringLoop_total (quote : Int) :
    ∀ (fuel : Nat) (alpha : Int) (l : lexer),
      (if alpha = eof then 1 else l.rest.length + 2) ≤ fuel →
      ∃ l', lexer.scanStringLoop quote fuel alpha l = some l' ∧
        (l.err ≠ none → l'.err ≠ none) ∧ l'.source = l.source := by
  intro fuel
  induction fuel with
  | zero =>
    intro alpha l h
    split_ifs at h <;> omega
  | succ fuel ih =>
    intro alpha l h
    rw [lexer.scanStringLoop_succ]
    by_cases h1 : alpha = quote
    · rw [if_pos h1]; exact ⟨l, rfl, fun h => h, rfl⟩
    rw [if_neg h1]
    by_cases h2 : alpha = 0x0A ∨ alpha = eof
    · rw [if_pos h2]; exact ⟨_, rfl, fun _ => by simp, rfl⟩
    rw [if_neg h2]
    have hne : ¬ alpha = eof := fun h => h2 (Or.inr h)
    rw [if_neg hne] at h
    by_cases h3 : alpha = 0x5C
    · rw [if_pos h3]
      have hf := lexer.scanEscape_fuel l quote
      obtain ⟨l', e1, e2, e3⟩ := ih (l.scanEscape quote).1 (l.scanEscape quote).2 (by omega)
      exact ⟨l', e1, fun h => e2 (lexer.scanEscape_err l quote h),
        e3.trans (lexer.scanEscape_source l quote)⟩
    · rw [if_neg h3]
      have hf := lexer.nextAlpha_fuel l
      obtain ⟨l', e1, e2, e3⟩ := ih l.nextAlpha.1 l.nextAlpha.2 (by omega)
      exact ⟨l', e1, fun h => e2 (by rw [lexer.nextAlpha_err]; exact h),
        e3.trans (lexer.nextAlpha_source l)⟩

theorem unclosed_other (q b : Nat) (t : GoString) (h1 : b ≠ q) (h2 : b ≠ 0x0A)
    (h3 : b ≠ 0x5C) : unclosed q (b :: t) = unclosed q t := by
  cases t <;> simp [unclosed, h1, h2, h3]

theorem unclosed_quote (q : Nat) (t : GoString) : unclosed q (q :: t) = false := by
  cases t <;> simp [unclosed]

theorem unclosed_escape (q e : Nat) (t : GoString) (hq : q ≠ 0x5C) :
    unclosed q (0x5C :: e :: t) = (if isEscape q e then unclosed q t else true) := by
  have : ¬ (0x5C = q) := fun h => hq h.symm
  simp [unclosed, this]

theorem unclosed_skip (q : Nat) (hq : q < 0x80) :
    ∀ (n : Nat) (s : GoString), (∀ x, x ∈ s.take n → 0x80 ≤ x) →
      unclosed q s = unclosed q (s.drop n) := by
  intro n
  induction n with
  | zero => intro s _; rfl
  | succ n ih =>
    intro s h
    cases s with
    | nil => rfl
    | cons b t =>
      have hb : 0x80 ≤ b := h b (by simp)
      rw [List.drop_succ_cons, ← ih t (fun x hx => h x (by simp [hx])),
        unclosed_other q b t (by omega) (by omega) (by omega)]

theorem isEscape_iff (q e : Nat) :
    ((e : Int) = 0x61 ∨ (e : Int) = 0x62 ∨ (e : Int) = 0x66 ∨ (e : Int) = 0x6E ∨
      (e : Int) = 0x72 ∨ (e : Int) = 0x74 ∨ (e : Int) = 0x76 ∨ (e : Int) = 0x5C ∨
      (e : Int) = (q : Int)) ↔ isEscape q e = true := by
  simp only [isEscape, Bool.or_eq_true, beq_iff_eq]
  constructor
  · intro h; omega
  · intro h; omega

/-- A rune outside ASCII, or `eof`, is no escape character. -/
theorem scanEscape_bad (l : lexer) (q : Nat) (hq : q < 0x80)
    (h : l.nextAlpha.1 = eof ∨ 0x80 ≤ l.nextAlpha.1) :
    l.scanEscape (q : Int) =
      (l.nextAlpha.1, { l.nextAlpha.2 with err := some Error.unexpectedEscape }) := by
  unfold lexer.scanEscape
  dsimp only
  rw [if_neg]
  simp only [eof] at h
  intro hc
  omega


theorem lexer.nextAlpha_ascii (l : lexer) (b : Nat) (t : GoString) (h : l.rest = b :: t)
    (hb : b < 0x80) : l.nextAlpha.1 = (b : Int) ∧ l.nextAlpha.2.rest = t := by
  have hne : l.rest ≠ [] := by rw [h]; simp
  have h1 := (lexer.nextAlpha_cons l hne).1
  have h2 := lexer.nextAlpha_rest l hne
  rw [h, Decode_ascii b t hb] at h1 h2
  exact ⟨h1, h2⟩

/-- The loop of `scanString` on a rest that is `unclosed`: it ends with an error set. -/
theorem lexer.scanString_unclosed (q : Nat) (hq : q = 0x27 ∨ q = 0x22) :
    ∀ (fuel : Nat) (l : lexer), unclosed q l.rest = true → l.rest.length + 2 ≤ fuel →
      ∃ l', lexer.scanStringLoop (q : Int) fuel l.nextAlpha.1 l.nextAlpha.2 = some l' ∧
        l'.err ≠ none ∧ l'.source = l.source := by
  have hq80 : q < 0x80 := by omega
  intro fuel
  induction fuel with
  | zero => intro l _ h; omega
  | succ fuel ih =>
    intro l hu hf
    rw [lexer.scanStringLoop_succ]
    cases hr : l.rest with
    | nil =>
      rw [lexer.nextAlpha_nil l hr]
      rw [if_neg (by simp only [eof]; omega), if_pos (Or.inr rfl)]
      exact ⟨_, rfl, by simp, rfl⟩
    | cons b t =>
      rw [hr] at hu hf
      simp only [List.length_cons] at hf
      have hne : l.rest ≠ [] := by rw [hr]; simp
      by_cases hb : b < 0x80
      · obtain ⟨ha, ht⟩ := lexer.nextAlpha_ascii l b t hr hb
        rw [ha]
        by_cases h1 : b = q
        · rw [h1, unclosed_quote] at hu; exact absurd hu (by simp)
        rw [if_neg (by omega)]
        by_cases h2 : b = 0x0A
        · rw [if_pos (Or.inl (by omega))]
          exact ⟨_, rfl, by simp, lexer.nextAlpha_source l⟩
        rw [if_neg (by simp only [eof]; omega)]
        by_cases h3 : b = 0x5C
        · rw [if_pos (by omega)]
          subst h3
          cases t with
          | nil =>
            have hnil : l.nextAlpha.2.nextAlpha.1 = eof := by
              rw [lexer.nextAlpha_nil _ ht]
            rw [scanEscape_bad _ q hq80 (Or.inl hnil), hnil]
            obtain ⟨l', e1, e2, e3⟩ := lexer.scanStringLoop_total (q : Int) fuel eof
              { l.nextAlpha.2.nextAlpha.2 with err := some Error.unexpectedEscape }
              (by rw [if_pos rfl]; omega)
            refine ⟨l', e1, e2 (by simp), e3.trans ?_⟩
            show l.nextAlpha.2.nextAlpha.2.source = l.source
            rw [lexer.nextAlpha_source, lexer.nextAlpha_source]
          | cons e t' =>
            simp only [List.length_cons] at hf
            rw [unclosed_escape q e t' (by omega)] at hu
            by_cases he : e < 0x80
            · obtain ⟨ha2, ht2⟩ := lexer.nextAlpha_ascii l.nextAlpha.2 e t' ht he
              by_cases hesc : isEscape q e = true
              · rw [if_pos hesc] at hu
                have hse : l.nextAlpha.2.scanEscape (q : Int) =
                    l.nextAlpha.2.nextAlpha.2.nextAlpha := by
                  unfold lexer.scanEscape
                  dsimp only
                  rw [if_pos]
                  rw [ha2]
                  exact (isEscape_iff q e).mpr hesc
                rw [hse]
                obtain ⟨l', e1, e2, e3⟩ := ih l.nextAlpha.2.nextAlpha.2 (by rw [ht2]; exact hu)
                  (by rw [ht2]; omega)
                refine ⟨l', e1, e2, e3.trans ?_⟩
                rw [lexer.nextAlpha_source, lexer.nextAlpha_source]
              · have hse : l.nextAlpha.2.scanEscape (q : Int) =
                    (l.nextAlpha.2.nextAlpha.1,
                      { l.nextAlpha.2.nextAlpha.2 with err := some Error.unexpectedEscape }) := by
                  unfold lexer.scanEscape
                  dsimp only
                  rw [if_neg]
                  rw [ha2]
                  exact fun hc => hesc ((isEscape_iff q e).mp hc)
                rw [hse]
                obtain ⟨l', e1, e2, e3⟩ := lexer.scanStringLoop_total (q : Int) fuel
                  l.nextAlpha.2.nextAlpha.1
                  { l.nextAlpha.2.nextAlpha.2 with err := some Error.unexpectedEscape }
                  (by
                    have : (lexer.rest { l.nextAlpha.2.nextAlpha.2 with
                        err := some Error.unexpectedEscape }) = t' := ht2
                    rw [this]
                    split_ifs <;> omega)
                refine ⟨l', e1, e2 (by simp), e3.trans ?_⟩
                show l.nextAlpha.2.nextAlpha.2.source = l.source
                rw [lexer.nextAlpha_source, lexer.nextAlpha_source]
            · have hne2 : l.nextAlpha.2.rest ≠ [] := by rw [ht]; simp
              have hd := Decode_nonascii e t' (by omega)
              have ha2 := (lexer.nextAlpha_cons l.nextAlpha.2 hne2).1
              rw [ht] at ha2
              have hbad : l.nextAlpha.2.nextAlpha.1 = eof ∨ 0x80 ≤ l.nextAlpha.2.nextAlpha.1 :=
                Or.inr (by rw [ha2]; exact hd.2.2.1)
              rw [scanEscape_bad _ q hq80 hbad]
              have hle := lexer.nextAlpha_rest_le l.nextAlpha.2
              rw [ht] at hle
              simp only [List.length_cons] at hle
              obtain ⟨l', e1, e2, e3⟩ := lexer.scanStringLoop_total (q : Int) fuel
                l.nextAlpha.2.nextAlpha.1
                { l.nextAlpha.2.nextAlpha.2 with err := some Error.unexpectedEscape }
                (by
                  have hm := lexer.nextAlpha_fuel l.nextAlpha.2
                  rw [ht] at hm
                  simp only [List.length_cons] at hm
                  have : (lexer.rest { l.nextAlpha.2.nextAlpha.2 with
                      err := some Error.unexpectedEscape }) = l.nextAlpha.2.nextAlpha.2.rest := rfl
                  rw [this]
                  split_ifs at hm ⊢ <;> omega)
              refine ⟨l', e1, e2 (by simp), e3.trans ?_⟩
              show l.nextAlpha.2.nextAlpha.2.source = l.source
              rw [lexer.nextAlpha_source, lexer.nextAlpha_source]
        · rw [if_neg (by omega)]
          rw [unclosed_other q b t h1 h2 h3] at hu
          obtain ⟨l', e1, e2, e3⟩ := ih l.nextAlpha.2 (by rw [ht]; exact hu) (by rw [ht]; omega)
          exact ⟨l', e1, e2, e3.trans (lexer.nextAlpha_source l)⟩
      · have hd := Decode_nonascii b t (by omega)
        have ha := (lexer.nextAlpha_cons l hne).1
        have hrest := lexer.nextAlpha_rest l hne
        rw [hr] at ha hrest
        have h80 : 0x80 ≤ l.nextAlpha.1 := by rw [ha]; exact hd.2.2.1
        rw [if_neg (by omega), if_neg (by simp only [eof]; omega), if_neg (by omega)]
        obtain ⟨l', e1, e2, e3⟩ := ih l.nextAlpha.2
          (by rw [hrest, ← unclosed_skip q hq80 _ _ hd.2.2.2]; exact hu)
          (by
            rw [hrest, List.length_drop]
            have := hd.1
            simp only [List.length_cons]
            omega)
        exact ⟨l', e1, e2, e3.trans (lexer.nextAlpha_source l)⟩


/-! ### `unescape` ends -/

theorem lastRuneStart_le (s : GoString) (lim : Int) :
    ∀ (n : Nat) (start : Int), lastRuneStart s lim n start ≤ start := by
  intro n
  induction n with
  | zero => intro start; simp [lastRuneStart]
  | succ n ih =>
    intro start
    rw [lastRuneStart]
    split_ifs
    · exact le_refl _
    · exact le_trans (ih _) (by omega)
    · exact le_refl _

/-- The last rune of a non-empty string is at least one byte wide. -/
theorem DecodeLast_width (s : GoString) (h : s ≠ []) : 1 ≤ (DecodeLastRuneInString s).2 := by
  have hlen : 0 < s.length := List.length_pos.mpr h
  have hle0 := lastRuneStart_le s 0 UTFMax ((s.length : Int) - 1 - 1)
  have hle1 := lastRuneStart_le s ((s.length : Int) - (UTFMax : Int)) UTFMax
    ((s.length : Int) - 1 - 1)
  unfold DecodeLastRuneInString
  dsimp only
  split_ifs
  all_goals first
    | exact le_refl _
    | omega

theorem unescapeAlpha_shorter (input : GoString) (h : input ≠ [])
    (hn : (unescapeAlpha input).2.2.2 = none) :
    (unescapeAlpha input).2.2.1.length < input.length := by
  have hlen : 0 < input.length := List.length_pos.mpr h
  have hw := DecodeLast_width input h
  unfold unescapeAlpha at hn ⊢
  by_cases h1 : input.getD 0 0 > RuneSelf
  · simp only [if_pos h1, List.length_drop]
    omega
  simp only [if_neg h1] at hn ⊢
  by_cases h2 : input.getD 0 0 ≠ 0x5C
  · simp only [if_pos h2, List.length_drop]
    omega
  simp only [if_neg h2] at hn ⊢
  by_cases h3 : input.length ≤ 1
  · simp only [if_pos h3] at hn
    exact absurd hn (by simp)
  simp only [if_neg h3] at hn ⊢
  cases he : escapeValue (input.getD 1 0) with
  | none => rw [he] at hn; exact absurd hn (by simp)
  | some v =>
    simp only [List.length_drop]
    omega

theorem unescapeLoop_total : ∀ (fuel : Nat) (input buf : GoString),
    input.length + 1 ≤ fuel → ∃ r, unescapeLoop fuel input buf = some r := by
  intro fuel
  induction fuel with
  | zero => intro input buf h; omega
  | succ fuel ih =>
    intro input buf h
    rw [unescapeLoop]
    by_cases hl : input.length > 0
    · rw [if_pos hl]
      dsimp only
      cases hn : (unescapeAlpha input).2.2.2 with
      | some e => exact ⟨_, rfl⟩
      | none =>
        have hs := unescapeAlpha_shorter input (List.length_pos.mp hl) hn
        dsimp only
        split_ifs
        · exact ih _ _ (by omega)
        · exact ih _ _ (by omega)
    · rw [if_neg hl]; exact ⟨_, rfl⟩

theorem newline_cr_lf (rest : GoString) :
    newline (0x0D :: 0x0A :: rest) = 0x0A :: newline rest := by
  rw [newline]

theorem newline_cr (rest : GoString) (h : rest.head? ≠ some 0x0A) :
    newline (0x0D :: rest) = 0x0A :: newline rest := by
  cases rest with
  | nil => simp [newline]
  | cons c rest =>
    have hc : c ≠ 0x0A := by simpa using h
    rw [newline]
    intro r hr
    simp only [List.cons.injEq, true_and] at hr
    exact hc hr.1

theorem newline_other (b : Nat) (rest : GoString) (h : b ≠ 0x0D) :
    newline (b :: rest) = b :: newline rest := by
  rw [newline]
  all_goals (intros; simp_all)

theorem newline_length_le : ∀ (n : Nat) (s : GoString), s.length ≤ n →
    (newline s).length ≤ s.length := by
  intro n
  induction n with
  | zero =>
    intro s h
    have : s = [] := List.length_eq_zero.mp (Nat.le_zero.mp h)
    subst this
    simp [newline]
  | succ n ih =>
    intro s h
    cases s with
    | nil => simp [newline]
    | cons b rest =>
      simp only [List.length_cons] at h
      by_cases hb : b = 0x0D
      · subst hb
        by_cases hr : rest.head? = some 0x0A
        · cases rest with
          | nil => simp at hr
          | cons c rest2 =>
            have hc : c = 0x0A := by simpa using hr
            subst hc
            rw [newline_cr_lf]
            have := ih rest2 (by simp only [List.length_cons] at h; omega)
            simp only [List.length_cons]
            omega
        · rw [newline_cr rest hr]
          have := ih rest (by omega)
          simp only [List.length_cons]
          omega
      · rw [newline_other b rest hb]
        have := ih rest (by omega)
        simp only [List.length_cons]
        omega

theorem newline_length (s : GoString) : (newline s).length ≤ s.length :=
  newline_length_le s.length s (Nat.le_refl _)

/-- The function `unescape` returns, given one unit of fuel more than the lexeme is long. -/
theorem unescape_total (fuel : Nat) (input : GoString) (h : input.length + 1 ≤ fuel) :
    ∃ r, unescape fuel input = some r := by
  unfold unescape
  dsimp only
  split_ifs
  · exact ⟨_, rfl⟩
  · exact ⟨_, rfl⟩
  · apply unescapeLoop_total
    have := newline_length input
    simp only [List.length_take, List.length_drop]
    omega


theorem lexer.word_length (l : lexer) : l.word.length ≤ l.source.length := by
  unfold lexer.word
  simp only [List.length_take, List.length_drop]
  omega

theorem lexer.rest_length_le (l : lexer) : l.rest.length ≤ l.source.length := by
  rw [lexer.rest_length]
  omega

/-- The string case of `rootState` on a rest that is `unclosed`: it returns with the error
set. -/
theorem lexer.rootString_unclosed (q : Nat) (hq : q = 0x27 ∨ q = 0x22) (fuel : Nat) (l : lexer)
    (hu : unclosed q l.rest = true) (hf : l.source.length + 2 ≤ fuel) :
    ∃ l', l.rootString fuel (q : Int) = some l' ∧ l'.err ≠ none := by
  have hr := lexer.rest_length_le l
  obtain ⟨l1, h1, herr, hsrc⟩ := lexer.scanString_unclosed q hq fuel l hu (by omega)
  have hw := lexer.word_length l1
  obtain ⟨r, hr2⟩ := unescape_total fuel l1.word (by rw [hsrc] at hw; omega)
  unfold lexer.rootString lexer.scanString
  dsimp only
  rw [h1]
  dsimp only
  rw [hr2]
  dsimp only
  refine ⟨_, rfl, ?_⟩
  cases r.2 with
  | none => exact herr
  | some e => simp [lexer.product]

/-- The first step of the lexer on a source that opens with a quote and is `unclosed`. -/
theorem lexer.rootState_unclosed (X : Extern) (q : Nat) (hq : q = 0x27 ∨ q = 0x22) (fuel : Nat)
    (l : lexer) (t : GoString) (hl : l.rest = q :: t) (hu : unclosed q t = true)
    (hf : l.source.length + 2 ≤ fuel) :
    ∃ l', l.rootState X fuel = some (some lexerStateFunc.rootState, l') ∧ l'.err ≠ none := by
  obtain ⟨ha, ht⟩ := lexer.nextAlpha_ascii l q t hl (by omega)
  obtain ⟨l', h1, h2⟩ := lexer.rootString_unclosed q hq fuel l.nextAlpha.2 (by rw [ht]; exact hu)
    (by rw [lexer.nextAlpha_source]; exact hf)
  refine ⟨l', ?_, h2⟩
  unfold lexer.rootState
  dsimp only
  rw [ha, h1]
  have h3 : ¬ ((q : Int) = eof) := by simp only [eof]; omega
  have h4 : isSpace X (q : Int) = false := by
    rcases hq with rfl | rfl <;> simp [isSpace, IsSpace]
  have h5 : (q : Int) = 0x27 ∨ (q : Int) = 0x22 := by omega
  rw [if_neg h3, h4]
  simp only [Bool.false_eq_true, if_false, if_pos h5]

/-- The tokenizer on a source that opens with a quote and is `unclosed`, at a fixed fuel. -/
theorem Lexer_unclosed (X : Extern) (q : Nat) (hq : q = 0x27 ∨ q = 0x22) (t : GoString)
    (hu : unclosed q t = true) :
    ∃ e, Lexer X (t.length + 5) (q :: t) = some (Except.error e) := by
  obtain ⟨l', h1, h2⟩ := lexer.rootState_unclosed X q hq (t.length + 4)
    (lexer.mk (q :: t) [] 0 0 0 ⟨1, 0⟩ ⟨1, 0⟩ ⟨1, 0⟩ none) t rfl hu
    (by simp only [List.length_cons]; omega)
  cases he : l'.err with
  | none => exact absurd he h2
  | some e =>
    refine ⟨e, ?_⟩
    unfold Lexer
    dsimp only
    rw [lexerLoop]
    simp only [lexerStateFunc.call, ne_eq, not_true_eq_false, if_false]
    rw [h1]
    dsimp only
    rw [lexerLoop]
    simp only [he]
    rw [if_pos (by simp)]
    dsimp only
    rw [he]

/-- Claim C10. A source that starts with a quote character `q` (`'` or `"`) and whose string
literal is unterminated (a raw newline or the end of the input comes before an unescaped
closing `q`) or holds a backslash followed by something other than `a b f n r t v \` or `q`
makes `Lexer` return an error and no token list, for every fuel from the length of the
source plus four on. -/
theorem C10_bad_string_literal_is_error (X : Extern) (q : Nat) (t : GoString)
    (hq : q = 0x27 ∨ q = 0x22) (hu : unclosed q t = true) :
    ∃ e, ∀ n, Lexer X ((q :: t).length + 4 + n) (q :: t) = some (Except.error e) := by
  obtain ⟨e, he⟩ := Lexer_unclosed X q hq t hu
  exact ⟨e, fun n => Lexer_mono X (q :: t) _ _ _ (by simp only [List.length_cons]; omega) he⟩

/-- Claim C10, witness: the sources `"ab` (end of input), `'a` + newline + `'` (raw newline)
and `"a\z"` (unknown escape) are covered. -/
theorem C10_witness_bad_literals :
    (∀ X, ∃ e, ∀ n, Lexer X ((0x22 :: lit "ab").length + 4 + n) (0x22 :: lit "ab")
      = some (Except.error e)) ∧
    (∀ X, ∃ e, ∀ n, Lexer X ((0x27 :: lit "a\n'").length + 4 + n) (0x27 :: lit "a\n'")
      = some (Except.error e)) ∧
    (∀ X, ∃ e, ∀ n, Lexer X ((0x22 :: lit "a\\z\"").length + 4 + n) (0x22 :: lit "a\\z\"")
      = some (Except.error e)) :=
  ⟨fun X => C10_bad_string_literal_is_error X 0x22 (lit "ab") (Or.inr rfl) (by decide),
   fun X => C10_bad_string_literal_is_error X 0x27 (lit "a\n'") (Or.inl rfl) (by decide),
   fun X => C10_bad_string_literal_is_error X 0x22 (lit "a\\z\"") (Or.inr rfl) (by decide)⟩

/-- The error that is returned is the one of `unescape`, which runs on the lexeme after
`scanString` has failed and overwrites the error of the scan. -/
theorem Lexer_bad_literals (X : Extern) (n : Nat) :
    Lexer X (n + 10) (lit "\"ab") = some (Except.error Error.unableEscapeString) ∧
    Lexer X (n + 10) (lit "'a\n'") = some (Except.error Error.unableEscapeString) ∧
    Lexer X (n + 10) (lit "\"a\\z\"") = some (Except.error (Error.unableEscape 0x7A)) :=
  ⟨Lexer_mono X _ 10 _ _ (by omega) rfl, Lexer_mono X _ 10 _ _ (by omega) rfl,
   Lexer_mono X _ 10 _ _ (by omega) rfl⟩


theorem isCont_iff (b : Nat) : isCont b = true ↔ 0x80 ≤ b ∧ b ≤ 0xBF := by
  simp [isCont]

/-- A rune that UTF-8 can encode is decoded from its encoding, whatever follows. -/
theorem Decode_Encode (r : Int) (t : GoString) (h : validRune r = true) :
    DecodeRuneInString (EncodeRune r ++ t) = (r, (EncodeRune r).length) := by
  simp only [validRune, Bool.and_eq_true, decide_eq_true_eq, Bool.not_eq_true',
    Bool.and_eq_false_iff, decide_eq_false_iff_not] at h
  obtain ⟨⟨h0, h1⟩, h2⟩ := h
  obtain ⟨i, rfl⟩ : ∃ i : Nat, r = (i : Int) := ⟨r.toNat, by omega⟩
  have hi : i ≤ 0x10FFFF := by omega
  have hs : ¬ (0xD800 ≤ i ∧ i ≤ 0xDFFF) := by omega
  unfold EncodeRune
  simp only [Int.toNat_ofNat]
  by_cases c1 : i ≤ 0x7F
  · rw [if_pos (by omega)]
    simp only [List.singleton_append, List.length_singleton]
    rw [Decode_ascii i t (by omega)]
  rw [if_neg (by omega)]
  by_cases c2 : i ≤ 0x7FF
  · rw [if_pos (by omega)]
    simp only [List.cons_append, List.nil_append, List.length_cons, List.length_nil]
    unfold DecodeRuneInString
    dsimp only
    rw [if_neg (by omega), if_neg (by omega), if_pos (by omega)]
    unfold decode2
    dsimp only
    rw [if_pos ((isCont_iff _).mpr (by omega))]
    simp only [Prod.mk.injEq, and_true]
    congr 1
    omega
  rw [if_neg (by omega), if_neg (by omega)]
  by_cases c3 : i ≤ 0xFFFF
  · rw [if_pos (by omega)]
    simp only [List.cons_append, List.nil_append, List.length_cons, List.length_nil]
    unfold DecodeRuneInString
    dsimp only
    rw [if_neg (by omega), if_neg (by omega), if_neg (by omega), if_pos (by omega)]
    unfold decode3
    dsimp only
    rw [if_neg (by split_ifs <;> omega), (isCont_iff _).mpr (by omega)]
    simp only [Bool.not_true, Bool.false_eq_true, if_false, Prod.mk.injEq, and_true]
    congr 1
    omega
  rw [if_neg (by omega)]
  simp only [List.cons_append, List.nil_append, List.length_cons, List.length_nil]
  unfold DecodeRuneInString
  dsimp only
  rw [if_neg (by omega), if_neg (by omega), if_neg (by omega), if_neg (by omega),
    if_pos (by omega)]
  unfold decode4
  dsimp only
  rw [if_neg (by split_ifs <;> omega), (isCont_iff _).mpr (by omega),
    (isCont_iff _).mpr (by omega)]
  simp only [Bool.not_true, Bool.false_eq_true, if_false, Prod.mk.injEq, and_true,
    Bool.or_self]
  congr 1
  omega


theorem EncodeRune_length (r : Int) : 1 ≤ (EncodeRune r).length := by
  unfold EncodeRune
  dsimp only
  split_ifs <;> simp

theorem EncodeRune_ne_nil (r : Int) : EncodeRune r ≠ [] := by
  intro h
  have := EncodeRune_length r
  rw [h] at this
  simp at this

theorem encRunes_cons (r : Int) (a : List Int) :
    encRunes (r :: a) = EncodeRune r ++ encRunes a := by
  simp [encRunes]

theorem encRunes_nil : encRunes [] = [] := rfl

theorem encRunes_length (a : List Int) : a.length ≤ (encRunes a).length := by
  induction a with
  | nil => simp [encRunes]
  | cons r a ih =>
    rw [encRunes_cons, List.length_append, List.length_cons]
    have := EncodeRune_length r
    omega

/-- The ASCII runes that `isAlphaNumeric` accepts. -/
theorem alnum_ascii (X : Extern) (r : Int) (h : isAlphaNumeric X r = true) (h0 : 0 ≤ r)
    (h1 : r < 0x80) :
    r = 0x5F ∨ r = 0x24 ∨ (0x41 ≤ r ∧ r ≤ 0x5A) ∨ (0x61 ≤ r ∧ r ≤ 0x7A) ∨
      (0x30 ≤ r ∧ r ≤ 0x39) := by
  have c1 : 0 ≤ r ∧ r ≤ 0xFF := by omega
  have c2 : r ≤ 0xFF := by omega
  simp only [isAlphaNumeric, IsLetter, IsDigit, latin1Letter, if_pos c1, if_pos c2,
    Bool.or_eq_true, Bool.and_eq_true, decide_eq_true_eq, beq_iff_eq] at h
  omega

theorem alnum_eof (X : Extern) : isAlphaNumeric X eof = false := by
  simp [isAlphaNumeric, IsLetter, IsDigit, latin1Letter, eof]

theorem alnum_space (X : Extern) : isAlphaNumeric X 0x20 = false := by
  simp [isAlphaNumeric, IsLetter, IsDigit, latin1Letter]

theorem isSpace_space (X : Extern) : isSpace X 0x20 = true := by
  simp [isSpace, IsSpace]

/-- Reading the encoding of a rune gives the rune back. -/
theorem lexer.nextAlpha_rune (l : lexer) (r : Int) (t : GoString) (hv : validRune r = true)
    (h : l.rest = EncodeRune r ++ t) :
    l.nextAlpha.1 = r ∧ l.nextAlpha.2.source = l.source ∧
    l.nextAlpha.2.end_ = l.end_ + (EncodeRune r).length ∧
    l.nextAlpha.2.width = (EncodeRune r).length ∧
    l.nextAlpha.2.err = l.err ∧ l.nextAlpha.2.tokens = l.tokens ∧
    l.nextAlpha.2.start = l.start ∧ l.nextAlpha.2.rest = t := by
  have hne : l.rest ≠ [] := by
    rw [h]
    intro hh
    exact EncodeRune_ne_nil r (List.append_eq_nil.mp hh).1
  obtain ⟨h1, h2, h3, h4, h5, h6, h7, _⟩ := lexer.nextAlpha_cons l hne
  have h8 := lexer.nextAlpha_rest l hne
  rw [h, Decode_Encode r t hv] at h1 h3 h4 h8
  refine ⟨h1, h2, h3, h4, h5, h6, h7, ?_⟩
  rw [h8]
  exact List.drop_left _ _

/-- Reading an ASCII byte. -/
theorem lexer.nextAlpha_byte (l : lexer) (b : Nat) (t : GoString) (hb : b < 0x80)
    (h : l.rest = b :: t) :
    l.nextAlpha.1 = (b : Int) ∧ l.nextAlpha.2.source = l.source ∧
    l.nextAlpha.2.end_ = l.end_ + 1 ∧ l.nextAlpha.2.width = 1 ∧
    l.nextAlpha.2.err = l.err ∧ l.nextAlpha.2.tokens = l.tokens ∧
    l.nextAlpha.2.start = l.start ∧ l.nextAlpha.2.rest = t := by
  have hne : l.rest ≠ [] := by rw [h]; simp
  obtain ⟨h1, h2, h3, h4, h5, h6, h7, _⟩ := lexer.nextAlpha_cons l hne
  have h8 := lexer.nextAlpha_rest l hne
  rw [h, Decode_ascii b t hb] at h1 h3 h4 h8
  exact ⟨h1, h2, h3, h4, h5, h6, h7, h8⟩

/-- The rune after a word ends the word: the end of the input or a space. In both cases
stepping back returns to the end of the word. -/
theorem lexer.nextAlpha_tail (X : Extern) (l : lexer) (tail : GoString)
    (htail : tail = [] ∨ ∃ t, tail = 0x20 :: t) (h : l.rest = tail) :
    isAlphaNumeric X l.nextAlpha.1 = false ∧ l.nextAlpha.2.source = l.source ∧
    l.nextAlpha.2.end_ - l.nextAlpha.2.width = l.end_ ∧
    l.nextAlpha.2.err = l.err ∧ l.nextAlpha.2.tokens = l.tokens ∧
    l.nextAlpha.2.start = l.start := by
  rcases htail with rfl | ⟨t, rfl⟩
  · rw [lexer.nextAlpha_nil l h]
    exact ⟨alnum_eof X, rfl, rfl, rfl, rfl, rfl⟩
  · obtain ⟨h1, h2, h3, h4, h5, h6, h7, _⟩ := lexer.nextAlpha_byte l 0x20 t (by omega) h
    rw [h1, h3, h4]
    exact ⟨alnum_space X, h2, by omega, h5, h6, h7⟩

/-- The loop of `identifierState` on the rest of a word: it reads the word to its end and
emits it, as an Operator token if it is a keyword and as an Identifier token if not. -/
theorem identifierLoop_word (X : Extern) (S : GoString) (k : Nat) (tail : GoString)
    (htail : tail = [] ∨ ∃ t, tail = 0x20 :: t) :
    ∀ (a : List Int), (∀ r ∈ a, validRune r = true ∧ isAlphaNumeric X r = true) →
    ∀ (fuel : Nat) (l : lexer), a.length + 1 ≤ fuel → l.source = S → l.start = k →
      l.err = none → l.rest = encRunes a ++ tail →
      ∃ l', identifierLoop X fuel l = some l' ∧ l'.source = S ∧
        l'.start = l.end_ + (encRunes a).length ∧ l'.end_ = l.end_ + (encRunes a).length ∧
        l'.err = none ∧
        l'.tokens.map Token.kv = l.tokens.map Token.kv ++
          [(if keywords.contains ((S.drop k).take (l.end_ + (encRunes a).length - k))
              then TokenKindOperator else TokenKindIdentifier,
            (S.drop k).take (l.end_ + (encRunes a).length - k))] := by
  intro a
  induction a with
  | nil =>
    intro _ fuel l hf hs hk he hr
    obtain ⟨fuel, rfl⟩ : ∃ f, fuel = f + 1 := ⟨fuel - 1, by omega⟩
    rw [encRunes_nil, List.nil_append] at hr
    obtain ⟨h1, h2, h3, h4, h5, h6⟩ := lexer.nextAlpha_tail X l tail htail hr
    unfold identifierLoop
    dsimp only
    rw [h1]
    simp only [Bool.false_eq_true, if_false, encRunes_nil, List.length_nil, Nat.add_zero]
    have hw : l.nextAlpha.2.prevAlpha.word = (S.drop k).take (l.end_ - k) := by
      simp only [lexer.word, lexer.prevAlpha, h2, h3, h6, hs, hk]
    rw [hw]
    split_ifs with hkw
    · refine ⟨_, rfl, ?_, ?_, ?_, ?_, ?_⟩
      · simp only [lexer.product, lexer.prevAlpha, h2, hs]
      · simp only [lexer.product, lexer.prevAlpha, h3]
      · simp only [lexer.product, lexer.prevAlpha, h3]
      · simp only [lexer.product, lexer.prevAlpha, h4, he]
      · simp only [lexer.product, lexer.prevAlpha, h5, List.map_append, List.map_cons,
          List.map_nil, Token.kv]
    · refine ⟨_, rfl, ?_, ?_, ?_, ?_, ?_⟩
      · simp only [lexer.product, lexer.prevAlpha, h2, hs]
      · simp only [lexer.product, lexer.prevAlpha, h3]
      · simp only [lexer.product, lexer.prevAlpha, h3]
      · simp only [lexer.product, lexer.prevAlpha, h4, he]
      · simp only [lexer.product, lexer.prevAlpha, h5, List.map_append, List.map_cons,
          List.map_nil, Token.kv]
  | cons r a ih =>
    intro hall fuel l hf hs hk he hr
    obtain ⟨fuel, rfl⟩ : ∃ f, fuel = f + 1 := ⟨fuel - 1, by simp at hf; omega⟩
    have hr0 := hall r (List.mem_cons_self r a)
    rw [encRunes_cons, List.append_assoc] at hr
    obtain ⟨h1, h2, h3, h4, h5, h6, h7, h8⟩ := lexer.nextAlpha_rune l r _ hr0.1 hr
    obtain ⟨l', e1, e2, e3, e4, e5, e6⟩ := ih (fun x hx => hall x (List.mem_cons_of_mem r hx))
      fuel l.nextAlpha.2 (by simp at hf; omega) (h2.trans hs) (h7.trans hk) (h5.trans he) h8
    refine ⟨l', ?_, e2, ?_, ?_, e5, ?_⟩
    · unfold identifierLoop
      dsimp only
      rw [h1, hr0.2]
      simp only [if_true]
      exact e1
    · rw [e3, h3, encRunes_cons, List.length_append]; omega
    · rw [e4, h3, encRunes_cons, List.length_append]; omega
    · rw [e6, h6, h3, encRunes_cons, List.length_append, Nat.add_assoc]


theorem lexerLoop_succ (X : Extern) (n : Nat) (s : lexerStateFunc) (l : lexer)
    (he : l.err = none) :
    lexerLoop X (n + 1) (some s) l =
      (s.call X n l).bind (fun r => lexerLoop X n r.1 r.2) := by
  rw [lexerLoop]
  simp only [he, ne_eq, not_true_eq_false, if_false]
  cases s.call X n l <;> rfl

theorem lexerLoop_nil (X : Extern) (n : Nat) (l : lexer) :
    lexerLoop X (n + 1) none l = some l := by
  rw [lexerLoop]

theorem lexerLoop_two (X : Extern) (n : Nat) (s : Option lexerStateFunc) (l r : lexer)
    (h : lexerLoop X (n + 1) s l = some r) : lexerLoop X (n + 2) s l = some r :=
  lexerLoop_step X (n + 1) s l r h

theorem ContainsRune_false (valid : GoString) (r : Int) (h : ∀ b ∈ valid, (b : Int) ≠ r) :
    ContainsRune valid r = false := by
  unfold ContainsRune
  split_ifs with hr
  · rw [List.contains_eq_any_beq, List.any_eq_false]
    intro b hb
    have := h b hb
    simp only [beq_iff_eq]
    omega
  · rfl

theorem lit_open : lit "([\x7b" = [0x28, 0x5B, 0x7B] := rfl
theorem lit_close : lit ")]\x7d" = [0x29, 0x5D, 0x7D] := rfl
theorem lit_single : lit "?:%,+-*/^" = [0x3F, 0x3A, 0x25, 0x2C, 0x2B, 0x2D, 0x2A, 0x2F, 0x5E] :=
  rfl
theorem lit_double : lit "&|!=<>" = [0x26, 0x7C, 0x21, 0x3D, 0x3C, 0x3E] := rfl
theorem lit_second : lit "&|=" = [0x26, 0x7C, 0x3D] := rfl

/-- A rune that `isAlphaNumeric` accepts is none of the punctuation marks of `rootState`. -/
theorem alnum_not_punct (X : Extern) (r : Int) (h : isAlphaNumeric X r = true) :
    r ≠ eof ∧ ¬ (r = 0x27 ∨ r = 0x22) ∧ ContainsRune (lit "([\x7b") r = false ∧
    ContainsRune (lit ")]\x7d") r = false ∧ ContainsRune (lit "?:%,+-*/^") r = false ∧
    ContainsRune (lit "&|!=<>") r = false ∧ r ≠ 0x2E := by
  have key : 0 ≤ r → r < 0x80 → r = 0x5F ∨ r = 0x24 ∨ (0x41 ≤ r ∧ r ≤ 0x5A) ∨
      (0x61 ≤ r ∧ r ≤ 0x7A) ∨ (0x30 ≤ r ∧ r ≤ 0x39) := alnum_ascii X r h
  refine ⟨?_, ?_, ?_, ?_, ?_, ?_, ?_⟩
  · intro he
    rw [he, alnum_eof] at h
    exact absurd h (by simp)
  · intro hq
    have := key (by omega) (by omega)
    omega
  · apply ContainsRune_false
    rw [lit_open]
    intro b hb
    simp only [List.mem_cons, List.mem_singleton, List.not_mem_nil, or_false] at hb
    intro hbr
    have := key (by omega) (by omega)
    omega
  · apply ContainsRune_false
    rw [lit_close]
    intro b hb
    simp only [List.mem_cons, List.mem_singleton, List.not_mem_nil, or_false] at hb
    intro hbr
    have := key (by omega) (by omega)
    omega
  · apply ContainsRune_false
    rw [lit_single]
    intro b hb
    simp only [List.mem_cons, List.mem_singleton, List.not_mem_nil, or_false] at hb
    intro hbr
    have := key (by omega) (by omega)
    omega
  · apply ContainsRune_false
    rw [lit_double]
    intro b hb
    simp only [List.mem_cons, List.mem_singleton, List.not_mem_nil, or_false] at hb
    intro hbr
    have := key (by omega) (by omega)
    omega
  · intro hq
    have := key (by omega) (by omega)
    omega

/-- The state `rootState` on the first rune of a word: it steps back and hands over to
`identifierState`. -/
theorem lexer.rootState_word (X : Extern) (l : lexer) (r : Int) (t : GoString) (fuel : Nat)
    (hv : validRune r = true) (ha : isAlphaNumeric X r = true)
    (hd : ¬ (0x30 ≤ r ∧ r ≤ 0x39)) (hs : isSpace X r = false)
    (h : l.rest = EncodeRune r ++ t) :
    l.rootState X fuel = some (some lexerStateFunc.identifierState, l.nextAlpha.2.prevAlpha) := by
  obtain ⟨h1, _⟩ := lexer.nextAlpha_rune l r t hv h
  obtain ⟨p1, p2, p3, p4, p5, p6, p7⟩ := alnum_not_punct X r ha
  unfold lexer.rootState
  dsimp only
  rw [h1, if_neg p1, hs, if_neg (by simp), if_neg p2, if_neg hd, p3, p4, p5, p6]
  simp only [Bool.false_eq_true, if_false, if_neg p7, ha, if_true]

/-- One word of the source: two rounds of the lexer loop (`rootState`, then
`identifierState`) emit it as one token and leave the lexer after it. -/
theorem lexerLoop_word (X : Extern) (S : GoString) (k : Nat) (kvs : List (Kind × GoString))
    (a : List Int) (tail : GoString) (hw : IsWord X a = true)
    (htail : tail = [] ∨ ∃ t, tail = 0x20 :: t) (l : lexer) (hl : l.Ready S k kvs)
    (hS : S.drop k = encRunes a ++ tail) (n : Nat) (hn : a.length + 1 ≤ n) :
    ∃ l', l'.Ready S (k + (encRunes a).length)
        (kvs ++ [(if keywords.contains (encRunes a) then TokenKindOperator
          else TokenKindIdentifier, encRunes a)]) ∧
      lexerLoop X (n + 2) (some lexerStateFunc.rootState) l =
        lexerLoop X n (some lexerStateFunc.rootState) l' := by
  obtain ⟨g1, g2, g3, g4, g5⟩ := hl
  have hrest : l.rest = encRunes a ++ tail := by
    rw [lexer.rest, g1, g3]
    exact hS
  cases a with
  | nil => simp [IsWord] at hw
  | cons r a' =>
    simp only [IsWord, Bool.and_eq_true, Bool.not_eq_true', List.all_eq_true,
      Bool.and_eq_false_iff, decide_eq_false_iff_not, decide_eq_true_eq] at hw
    obtain ⟨⟨hd, hs⟩, hall⟩ := hw
    have hd' : ¬ (0x30 ≤ r ∧ r ≤ 0x39) := by
      rcases hd with hd | hd
      · intro hh; exact hd hh.1
      · intro hh; exact hd hh.2
    have hr0 := hall r (List.mem_cons_self r a')
    have hrest' := hrest
    rw [encRunes_cons, List.append_assoc] at hrest'
    obtain ⟨h1, h2, h3, h4, h5, h6, h7, h8⟩ := lexer.nextAlpha_rune l r _ hr0.1 hrest'
    have hroot := lexer.rootState_word X l r _ (n + 1) hr0.1 hr0.2 hd' hs hrest'
    have q1 : l.nextAlpha.2.prevAlpha.source = S := by
      simp only [lexer.prevAlpha, h2, g1]
    have q2 : l.nextAlpha.2.prevAlpha.start = k := by
      simp only [lexer.prevAlpha, h7, g2]
    have q3 : l.nextAlpha.2.prevAlpha.end_ = k := by
      simp only [lexer.prevAlpha, h3, h4, g3]
      omega
    have q4 : l.nextAlpha.2.prevAlpha.err = none := by
      simp only [lexer.prevAlpha, h5, g4]
    have q5 : l.nextAlpha.2.prevAlpha.tokens = l.tokens := by
      simp only [lexer.prevAlpha, h6]
    have q6 : l.nextAlpha.2.prevAlpha.rest = encRunes (r :: a') ++ tail := by
      rw [lexer.rest, q1, q3]
      exact hS
    obtain ⟨l', e1, e2, e3, e4, e5, e6⟩ := identifierLoop_word X S k tail htail (r :: a')
      (fun x hx => hall x hx) n l.nextAlpha.2.prevAlpha hn q1 q2 q4 q6
    have hword : (S.drop k).take (k + (encRunes (r :: a')).length - k) = encRunes (r :: a') := by
      rw [hS, Nat.add_sub_cancel_left]
      exact List.take_left _ _
    rw [q3] at e3 e4 e6
    rw [hword, q5, g5] at e6
    refine ⟨l', ⟨e2, e3, e4, e5, e6⟩, ?_⟩
    rw [lexerLoop_succ X (n + 1) _ l g4]
    simp only [lexerStateFunc.call, hroot, Option.bind]
    rw [lexerLoop_succ X n _ _ q4]
    simp only [lexerStateFunc.call, lexer.identifierState, e1, Option.bind]

/-- One space of the source: one round of the lexer loop skips it. -/
theorem lexerLoop_space (X : Extern) (S : GoString) (k : Nat) (kvs : List (Kind × GoString))
    (tail : GoString) (l : lexer) (hl : l.Ready S k kvs) (hS : S.drop k = 0x20 :: tail)
    (n : Nat) :
    ∃ l', l'.Ready S (k + 1) kvs ∧
      lexerLoop X (n + 1) (some lexerStateFunc.rootState) l =
        lexerLoop X n (some lexerStateFunc.rootState) l' := by
  obtain ⟨g1, g2, g3, g4, g5⟩ := hl
  have hrest : l.rest = 0x20 :: tail := by
    rw [lexer.rest, g1, g3]
    exact hS
  obtain ⟨h1, h2, h3, h4, h5, h6, h7, h8⟩ := lexer.nextAlpha_byte l 0x20 tail (by omega) hrest
  refine ⟨l.nextAlpha.2.ignore, ⟨?_, ?_, ?_, ?_, ?_⟩, ?_⟩
  · simp only [lexer.ignore, h2, g1]
  · simp only [lexer.ignore, h3, g3]
  · simp only [lexer.ignore, h3, g3]
  · simp only [lexer.ignore, h5, g4]
  · simp only [lexer.ignore, h6, g5]
  · rw [lexerLoop_succ X n _ l g4]
    simp only [lexerStateFunc.call, lexer.rootState, h1]
    have e1 : ¬ (((0x20 : Nat) : Int) = eof) := by simp only [eof]; omega
    rw [if_neg e1]
    have e2 : isSpace X ((0x20 : Nat) : Int) = true := isSpace_space X
    rw [e2]
    simp only [if_true, Option.bind]

/-- The end of the source: `rootState` emits the EOF token and the loop ends. -/
theorem lexerLoop_eof (X : Extern) (S : GoString) (k : Nat) (kvs : List (Kind × GoString))
    (l : lexer) (hl : l.Ready S k kvs) (hS : S.drop k = []) (n : Nat) :
    ∃ l', lexerLoop X (n + 2) (some lexerStateFunc.rootState) l = some l' ∧ l'.err = none ∧
      l'.tokens.map Token.kv = kvs ++ [(TokenKindEOF, [])] := by
  obtain ⟨g1, g2, g3, g4, g5⟩ := hl
  have hrest : l.rest = [] := by
    rw [lexer.rest, g1, g3]
    exact hS
  refine ⟨lexer.productEOF { l with width := 0 }, ?_, ?_, ?_⟩
  · rw [lexerLoop_succ X (n + 1) _ l g4]
    simp only [lexerStateFunc.call, lexer.rootState, lexer.nextAlpha_nil l hrest, if_true,
      Option.bind]
    rw [lexerLoop_nil]
  · simp only [lexer.productEOF, g4]
  · simp only [lexer.productEOF, List.map_append, List.map_cons, List.map_nil, Token.kv, g5]


/-- The state `rootState` on one of the single-character operators `+ - * / ^`. -/
theorem lexer.rootState_single (X : Extern) (l : lexer) (b : Nat) (t : GoString) (fuel : Nat)
    (hb : b = 0x2B ∨ b = 0x2D ∨ b = 0x2A ∨ b = 0x2F ∨ b = 0x5E) (h : l.rest = b :: t) :
    l.rootState X fuel = some (some lexerStateFunc.rootState,
      l.nextAlpha.2.product TokenKindOperator l.nextAlpha.2.word) := by
  obtain ⟨h1, _⟩ := lexer.nextAlpha_byte l b t (by omega) h
  unfold lexer.rootState
  dsimp only
  rw [h1]
  rcases hb with rfl | rfl | rfl | rfl | rfl <;>
    simp [eof, isSpace, IsSpace, ContainsRune, lit_open, lit_close, lit_single]

/-- The method `accept` before an ASCII byte. -/
theorem lexer.accept_byte (l : lexer) (valid : GoString) (c : Nat) (t : GoString)
    (hc : c < 0x80) (h : l.rest = c :: t) :
    l.accept valid = if ContainsRune valid (c : Int) then (true, l.nextAlpha.2) else (false, l) := by
  have hlen : ¬ (l.end_ ≥ l.source.length) := by
    have := lexer.rest_length l
    rw [h] at this
    simp only [List.length_cons] at this
    omega
  have hd : DecodeRuneInString (l.source.drop l.end_) = ((c : Int), 1) := by
    have : l.source.drop l.end_ = c :: t := h
    rw [this, Decode_ascii c t hc]
  unfold lexer.accept lexer.peekAlpha
  simp only [if_neg hlen, hd]

/-- The state `rootState` on one of `& | ! = < >`: a following `&`, `|` or `=` joins the
operator. -/
theorem lexer.rootState_double (X : Extern) (l : lexer) (b c : Nat) (t : GoString) (fuel : Nat)
    (hb : b = 0x26 ∨ b = 0x7C ∨ b = 0x21 ∨ b = 0x3D ∨ b = 0x3C ∨ b = 0x3E) (hc : c < 0x80)
    (h : l.rest = b :: c :: t) :
    l.rootState X fuel = some (some lexerStateFunc.rootState,
      if ContainsRune (lit "&|=") (c : Int) then
        l.nextAlpha.2.nextAlpha.2.product TokenKindOperator l.nextAlpha.2.nextAlpha.2.word
      else l.nextAlpha.2.product TokenKindOperator l.nextAlpha.2.word) := by
  obtain ⟨h1, _, _, _, _, _, _, h8⟩ := lexer.nextAlpha_byte l b (c :: t) (by omega) h
  have hacc := lexer.accept_byte l.nextAlpha.2 (lit "&|=") c t hc h8
  unfold lexer.rootState
  dsimp only
  rw [h1, hacc]
  by_cases hcc : ContainsRune (lit "&|=") (c : Int) = true
  · rw [if_pos hcc, if_pos hcc]
    rcases hb with rfl | rfl | rfl | rfl | rfl | rfl <;>
      simp [eof, isSpace, IsSpace, ContainsRune, lit_open, lit_close, lit_single, lit_double]
  · rw [if_neg hcc, if_neg hcc]
    rcases hb with rfl | rfl | rfl | rfl | rfl | rfl <;>
      simp [eof, isSpace, IsSpace, ContainsRune, lit_open, lit_close, lit_single, lit_double]

/-- One single-character operator of the source. -/
theorem lexerLoop_single (X : Extern) (S : GoString) (k : Nat) (kvs : List (Kind × GoString))
    (b : Nat) (tail : GoString) (hb : b = 0x2B ∨ b = 0x2D ∨ b = 0x2A ∨ b = 0x2F ∨ b = 0x5E)
    (l : lexer) (hl : l.Ready S k kvs) (hS : S.drop k = b :: tail) (n : Nat) :
    ∃ l', l'.Ready S (k + 1) (kvs ++ [(TokenKindOperator, [b])]) ∧
      lexerLoop X (n + 1) (some lexerStateFunc.rootState) l =
        lexerLoop X n (some lexerStateFunc.rootState) l' := by
  obtain ⟨g1, g2, g3, g4, g5⟩ := hl
  have hrest : l.rest = b :: tail := by
    rw [lexer.rest, g1, g3]
    exact hS
  obtain ⟨h1, h2, h3, h4, h5, h6, h7, h8⟩ := lexer.nextAlpha_byte l b tail (by omega) hrest
  have hroot := lexer.rootState_single X l b tail n hb hrest
  have hword : l.nextAlpha.2.word = [b] := by
    simp only [lexer.word, h2, h3, h7, g1, g2, g3, hS, Nat.add_sub_cancel_left]
    rfl
  refine ⟨l.nextAlpha.2.product TokenKindOperator l.nextAlpha.2.word,
    ⟨?_, ?_, ?_, ?_, ?_⟩, ?_⟩
  rotate_left 5
  · rw [lexerLoop_succ X n _ l g4]
    simp only [lexerStateFunc.call, hroot, Option.bind]
  · simp only [lexer.product, h2, g1]
  · simp only [lexer.product, h3, g3]
  · simp only [lexer.product, h3, g3]
  · simp only [lexer.product, h5, g4]
  · simp only [lexer.product, h6, hword, List.map_append, List.map_cons, List.map_nil, Token.kv,
      g5]

/-- One operator of the source that starts with one of `& | ! = < >` and is two characters
long. -/
theorem lexerLoop_double (X : Extern) (S : GoString) (k : Nat) (kvs : List (Kind × GoString))
    (b c : Nat) (tail : GoString)
    (hb : b = 0x26 ∨ b = 0x7C ∨ b = 0x21 ∨ b = 0x3D ∨ b = 0x3C ∨ b = 0x3E)
    (hc : c = 0x26 ∨ c = 0x7C ∨ c = 0x3D)
    (l : lexer) (hl : l.Ready S k kvs) (hS : S.drop k = b :: c :: tail) (n : Nat) :
    ∃ l', l'.Ready S (k + 2) (kvs ++ [(TokenKindOperator, [b, c])]) ∧
      lexerLoop X (n + 1) (some lexerStateFunc.rootState) l =
        lexerLoop X n (some lexerStateFunc.rootState) l' := by
  obtain ⟨g1, g2, g3, g4, g5⟩ := hl
  have hrest : l.rest = b :: c :: tail := by
    rw [lexer.rest, g1, g3]
    exact hS
  obtain ⟨h1, h2, h3, h4, h5, h6, h7, h8⟩ :=
    lexer.nextAlpha_byte l b (c :: tail) (by omega) hrest
  obtain ⟨i1, i2, i3, i4, i5, i6, i7, i8⟩ :=
    lexer.nextAlpha_byte l.nextAlpha.2 c tail (by omega) h8
  have hroot := lexer.rootState_double X l b c tail n hb (by omega) hrest
  have hcc : ContainsRune (lit "&|=") (c : Int) = true := by
    rcases hc with rfl | rfl | rfl <;> simp [ContainsRune, lit_second]
  rw [if_pos hcc] at hroot
  have hword : l.nextAlpha.2.nextAlpha.2.word = [b, c] := by
    simp only [lexer.word, h2, h3, h7, i2, i3, i7, g1, g2, g3, hS]
    have : k + 1 + 1 - k = 2 := by omega
    rw [this]
    rfl
  refine ⟨l.nextAlpha.2.nextAlpha.2.product TokenKindOperator l.nextAlpha.2.nextAlpha.2.word,
    ⟨?_, ?_, ?_, ?_, ?_⟩, ?_⟩
  rotate_left 5
  · rw [lexerLoop_succ X n _ l g4]
    simp only [lexerStateFunc.call, hroot, Option.bind]
  · simp only [lexer.product, i2, h2, g1]
  · simp only [lexer.product, i3, h3, g3]
  · simp only [lexer.product, i3, h3, g3]
  · simp only [lexer.product, i5, h5, g4]
  · simp only [lexer.product, i6, h6, hword, List.map_append, List.map_cons, List.map_nil,
      Token.kv, g5]

/-- One of the operators `<` and `>` of the source, before a space. -/
theorem lexerLoop_angle (X : Extern) (S : GoString) (k : Nat) (kvs : List (Kind × GoString))
    (b : Nat) (tail : GoString) (hb : b = 0x3C ∨ b = 0x3E)
    (l : lexer) (hl : l.Ready S k kvs) (hS : S.drop k = b :: 0x20 :: tail) (n : Nat) :
    ∃ l', l'.Ready S (k + 1) (kvs ++ [(TokenKindOperator, [b])]) ∧
      lexerLoop X (n + 1) (some lexerStateFunc.rootState) l =
        lexerLoop X n (some lexerStateFunc.rootState) l' := by
  obtain ⟨g1, g2, g3, g4, g5⟩ := hl
  have hrest : l.rest = b :: 0x20 :: tail := by
    rw [lexer.rest, g1, g3]
    exact hS
  obtain ⟨h1, h2, h3, h4, h5, h6, h7, h8⟩ :=
    lexer.nextAlpha_byte l b (0x20 :: tail) (by omega) hrest
  have hroot := lexer.rootState_double X l b 0x20 tail n (by omega) (by omega) hrest
  have hcc : ¬ (ContainsRune (lit "&|=") ((0x20 : Nat) : Int) = true) := by
    simp [ContainsRune, lit_second]
  rw [if_neg hcc] at hroot
  have hword : l.nextAlpha.2.word = [b] := by
    simp only [lexer.word, h2, h3, h7, g1, g2, g3, hS, Nat.add_sub_cancel_left]
    rfl
  refine ⟨l.nextAlpha.2.product TokenKindOperator l.nextAlpha.2.word,
    ⟨?_, ?_, ?_, ?_, ?_⟩, ?_⟩
  rotate_left 5
  · rw [lexerLoop_succ X n _ l g4]
    simp only [lexerStateFunc.call, hroot, Option.bind]
  · simp only [lexer.product, h2, g1]
  · simp only [lexer.product, h3, g3]
  · simp only [lexer.product, h3, g3]
  · simp only [lexer.product, h5, g4]
  · simp only [lexer.product, h6, hword, List.map_append, List.map_cons, List.map_nil, Token.kv,
      g5]


theorem lookup_mem {α β : Type} [BEq α] [LawfulBEq α] (k : α) (v : β) :
    ∀ (l : List (α × β)), l.lookup k = some v → (k, v) ∈ l := by
  intro l
  induction l with
  | nil => intro h; simp [List.lookup] at h
  | cons x l ih =>
    intro h
    obtain ⟨k', v'⟩ := x
    by_cases hk : k = k'
    · subst hk
      simp only [List.lookup, beq_self_eq_true] at h
      simp only [Option.some.injEq] at h
      subst h
      exact List.mem_cons_self _ _
    · have hb : (k == k') = false := by simpa using hk
      simp only [List.lookup, hb] at h
      exact List.mem_cons_of_mem _ (ih h)

/-- The sixteen entries of `binaryOp`: every one is left-associative, has a priority from
1 to 7, and is not the operator `.`. -/
theorem binaryOp_entry (p : GoString) (op : operator) (h : binaryOp.lookup p = some op) :
    op.associate = associateLeft ∧ 1 ≤ op.priority ∧ op.priority ≤ 7 ∧ p ≠ lit "." := by
  have hm := lookup_mem p op binaryOp h
  simp only [binaryOp, List.mem_cons, Prod.mk.injEq, List.mem_singleton, List.not_mem_nil,
    or_false] at hm
  rcases hm with ⟨k1, o1⟩ | ⟨k2, o2⟩ | ⟨k3, o3⟩ | ⟨k4, o4⟩ | ⟨k5, o5⟩ | ⟨k6, o6⟩ | ⟨k7, o7⟩ |
    ⟨k8, o8⟩ | ⟨k9, o9⟩ | ⟨k10, o10⟩ | ⟨k11, o11⟩ | ⟨k12, o12⟩ | ⟨k13, o13⟩ | ⟨k14, o14⟩ |
    ⟨k15, o15⟩ | ⟨k16, o16⟩ <;>
  subst_vars <;>
  exact ⟨rfl, by decide, by decide, by decide⟩

theorem IsWord_or (X : Extern) : IsWord X [0x6F, 0x72] = true := by
  simp [IsWord, isSpace, IsSpace, validRune, isAlphaNumeric, IsLetter, latin1Letter]

theorem IsWord_and (X : Extern) : IsWord X [0x61, 0x6E, 0x64] = true := by
  simp [IsWord, isSpace, IsSpace, validRune, isAlphaNumeric, IsLetter, latin1Letter]

theorem IsWord_in (X : Extern) : IsWord X [0x69, 0x6E] = true := by
  simp [IsWord, isSpace, IsSpace, validRune, isAlphaNumeric, IsLetter, latin1Letter]

/-- One round more of the lexer loop, for the operators that take one round only. -/
theorem lexerLoop_pad (X : Extern) (n : Nat) (l l' : lexer)
    (h : lexerLoop X (n + 1) (some lexerStateFunc.rootState) l =
      lexerLoop X n (some lexerStateFunc.rootState) l') (r : lexer)
    (hr : lexerLoop X n (some lexerStateFunc.rootState) l' = some r) :
    lexerLoop X (n + 2) (some lexerStateFunc.rootState) l = some r :=
  lexerLoop_two X n _ l r (h.trans hr)

/-- One infix operator of `binaryOp` in the source, before a space: at most two rounds of
the lexer loop emit it as an Operator token. -/
theorem lexerLoop_operator (X : Extern) (S : GoString) (k : Nat) (kvs : List (Kind × GoString))
    (p : GoString) (op : operator) (tail : GoString) (hp : binaryOp.lookup p = some op)
    (l : lexer) (hl : l.Ready S k kvs) (hS : S.drop k = p ++ 0x20 :: tail) (n : Nat)
    (hn : 4 ≤ n) :
    ∃ l', l'.Ready S (k + p.length) (kvs ++ [(TokenKindOperator, p)]) ∧
      ∀ r, lexerLoop X n (some lexerStateFunc.rootState) l' = some r →
        lexerLoop X (n + 2) (some lexerStateFunc.rootState) l = some r := by
  have hm := lookup_mem p op binaryOp hp
  simp only [binaryOp, List.mem_cons, Prod.mk.injEq, List.mem_singleton, List.not_mem_nil,
    or_false] at hm
  rcases hm with ⟨k1, o1⟩ | ⟨k2, o2⟩ | ⟨k3, o3⟩ | ⟨k4, o4⟩ | ⟨k5, o5⟩ | ⟨k6, o6⟩ | ⟨k7, o7⟩ |
    ⟨k8, o8⟩ | ⟨k9, o9⟩ | ⟨k10, o10⟩ | ⟨k11, o11⟩ | ⟨k12, o12⟩ | ⟨k13, o13⟩ | ⟨k14, o14⟩ |
    ⟨k15, o15⟩ | ⟨k16, o16⟩ <;>
  subst_vars
  · obtain ⟨l', h1, h2⟩ := lexerLoop_word X S k kvs [0x6F, 0x72] (0x20 :: tail) (IsWord_or X)
      (Or.inr ⟨tail, rfl⟩) l hl hS n (by simp only [List.length_cons, List.length_nil]; omega)
    exact ⟨l', h1, fun r hr => h2.trans hr⟩
  · obtain ⟨l', h1, h2⟩ := lexerLoop_double X S k kvs 0x7C 0x7C (0x20 :: tail) (by omega) (by omega) l hl
      hS n
    exact ⟨l', h1, lexerLoop_pad X n l l' h2⟩
  · obtain ⟨l', h1, h2⟩ := lexerLoop_word X S k kvs [0x61, 0x6E, 0x64] (0x20 :: tail)
      (IsWord_and X) (Or.inr ⟨tail, rfl⟩) l hl hS n
      (by simp only [List.length_cons, List.length_nil]; omega)
    exact ⟨l', h1, fun r hr => h2.trans hr⟩
  · obtain ⟨l', h1, h2⟩ := lexerLoop_double X S k kvs 0x26 0x26 (0x20 :: tail) (by omega) (by omega) l hl
      hS n
    exact ⟨l', h1, lexerLoop_pad X n l l' h2⟩
  · obtain ⟨l', h1, h2⟩ := lexerLoop_double X S k kvs 0x3D 0x3D (0x20 :: tail) (by omega) (by omega) l hl
      hS n
    exact ⟨l', h1, lexerLoop_pad X n l l' h2⟩
  · obtain ⟨l', h1, h2⟩ := lexerLoop_double X S k kvs 0x21 0x3D (0x20 :: tail) (by omega) (by omega) l hl
      hS n
    exact ⟨l', h1, lexerLoop_pad X n l l' h2⟩
  · obtain ⟨l', h1, h2⟩ := lexerLoop_angle X S k kvs 0x3C tail (by omega) l hl hS n
    exact ⟨l', h1, lexerLoop_pad X n l l' h2⟩
  · obtain ⟨l', h1, h2⟩ := lexerLoop_angle X S k kvs 0x3E tail (by omega) l hl hS n
    exact ⟨l', h1, lexerLoop_pad X n l l' h2⟩
  · obtain ⟨l', h1, h2⟩ := lexerLoop_double X S k kvs 0x3C 0x3D (0x20 :: tail) (by omega) (by omega) l hl
      hS n
    exact ⟨l', h1, lexerLoop_pad X n l l' h2⟩
  · obtain ⟨l', h1, h2⟩ := lexerLoop_double X S k kvs 0x3E 0x3D (0x20 :: tail) (by omega) (by omega) l hl
      hS n
    exact ⟨l', h1, lexerLoop_pad X n l l' h2⟩
  · obtain ⟨l', h1, h2⟩ := lexerLoop_word X S k kvs [0x69, 0x6E] (0x20 :: tail) (IsWord_in X)
      (Or.inr ⟨tail, rfl⟩) l hl hS n (by simp only [List.length_cons, List.length_nil]; omega)
    exact ⟨l', h1, fun r hr => h2.trans hr⟩
  · obtain ⟨l', h1, h2⟩ := lexerLoop_single X S k kvs 0x2B (0x20 :: tail) (by omega) l hl hS n
    exact ⟨l', h1, lexerLoop_pad X n l l' h2⟩
  · obtain ⟨l', h1, h2⟩ := lexerLoop_single X S k kvs 0x2D (0x20 :: tail) (by omega) l hl hS n
    exact ⟨l', h1, lexerLoop_pad X n l l' h2⟩
  · obtain ⟨l', h1, h2⟩ := lexerLoop_single X S k kvs 0x2A (0x20 :: tail) (by omega) l hl hS n
    exact ⟨l', h1, lexerLoop_pad X n l l' h2⟩
  · obtain ⟨l', h1, h2⟩ := lexerLoop_single X S k kvs 0x2F (0x20 :: tail) (by omega) l hl hS n
    exact ⟨l', h1, lexerLoop_pad X n l l' h2⟩
  · obtain ⟨l', h1, h2⟩ := lexerLoop_single X S k kvs 0x5E (0x20 :: tail) (by omega) l hl hS n
    exact ⟨l', h1, lexerLoop_pad X n l l' h2⟩


theorem drop_pre (S pre rest : GoString) (k : Nat) (h : S.drop k = pre ++ rest) :
    S.drop (k + pre.length) = rest := by
  have : S.drop (k + pre.length) = (S.drop k).drop pre.length := by
    rw [List.drop_drop, Nat.add_comm]
  rw [this, h]
  exact List.drop_left _ _

theorem drop_space (S rest : GoString) (k : Nat) (h : S.drop k = 0x20 :: rest) :
    S.drop (k + 1) = rest :=
  drop_pre S [0x20] rest k h

theorem IsIdentifier_word (X : Extern) (a : List Int) (h : IsIdentifier X a = true) :
    IsWord X a = true ∧ keywords.contains (encRunes a) = false := by
  simpa [IsIdentifier] using h

/-- The tokens of the source `a p b q c`: three identifiers, two operators and the end. -/
theorem Lexer_twoOperators (X : Extern) (a b c : List Int) (p q : GoString) (op oq : operator)
    (ha : IsIdentifier X a = true) (hb : IsIdentifier X b = true)
    (hc : IsIdentifier X c = true) (hp : binaryOp.lookup p = some op)
    (hq : binaryOp.lookup q = some oq) (n : Nat) :
    ∃ tokens,
      Lexer X ((twoOperatorSource (encRunes a) p (encRunes b) q (encRunes c)).length + 16 + n)
        (twoOperatorSource (encRunes a) p (encRunes b) q (encRunes c)) = some (Except.ok tokens) ∧
      tokens.map Token.kv =
        [(TokenKindIdentifier, encRunes a), (TokenKindOperator, p),
         (TokenKindIdentifier, encRunes b), (TokenKindOperator, q),
         (TokenKindIdentifier, encRunes c), (TokenKindEOF, [])] := by
  obtain ⟨wa, ka⟩ := IsIdentifier_word X a ha
  obtain ⟨wb, kb⟩ := IsIdentifier_word X b hb
  obtain ⟨wc, kc⟩ := IsIdentifier_word X c hc
  have la := encRunes_length a
  have lb := encRunes_length b
  have lc := encRunes_length c
  generalize hS : twoOperatorSource (encRunes a) p (encRunes b) q (encRunes c) = S
  have hlen : S.length = (encRunes a).length + p.length + (encRunes b).length + q.length +
      (encRunes c).length + 4 := by
    rw [← hS]
    simp only [twoOperatorSource, List.length_append, List.length_cons]
    omega
  have d0 : S.drop 0 = encRunes a ++ 0x20 :: (p ++ 0x20 :: (encRunes b ++ 0x20 ::
      (q ++ 0x20 :: (encRunes c ++ [])))) := by
    rw [List.drop_zero, ← hS, List.append_nil]
    rfl
  have d1 := drop_pre S _ _ 0 d0
  have d2 := drop_space S _ _ d1
  have d3 := drop_pre S _ _ _ d2
  have d4 := drop_space S _ _ d3
  have d5 := drop_pre S _ _ _ d4
  have d6 := drop_space S _ _ d5
  have d7 := drop_pre S _ _ _ d6
  have d8 := drop_space S _ _ d7
  have d9 := drop_pre S _ _ _ d8
  let l0 : lexer := lexer.mk S [] 0 0 0 ⟨1, 0⟩ ⟨1, 0⟩ ⟨1, 0⟩ none
  have r0 : l0.Ready S 0 [] := ⟨rfl, rfl, rfl, rfl, rfl⟩
  let m := S.length + n
  obtain ⟨l1, r1, s1⟩ := lexerLoop_word X S 0 [] a _ wa (Or.inr ⟨_, rfl⟩) l0 r0 d0
    (m + 2 + 2 + 1 + 2 + 1 + 2 + 1 + 2 + 1) (by omega)
  obtain ⟨l2, r2, s2⟩ := lexerLoop_space X S _ _ _ l1 r1 d1 (m + 2 + 2 + 1 + 2 + 1 + 2 + 1 + 2)
  obtain ⟨l3, r3, s3⟩ := lexerLoop_operator X S _ _ p op _ hp l2 r2 d2
    (m + 2 + 2 + 1 + 2 + 1 + 2 + 1) (by omega)
  obtain ⟨l4, r4, s4⟩ := lexerLoop_space X S _ _ _ l3 r3 d3 (m + 2 + 2 + 1 + 2 + 1 + 2)
  obtain ⟨l5, r5, s5⟩ := lexerLoop_word X S _ _ b _ wb (Or.inr ⟨_, rfl⟩) l4 r4 d4
    (m + 2 + 2 + 1 + 2 + 1) (by omega)
  obtain ⟨l6, r6, s6⟩ := lexerLoop_space X S _ _ _ l5 r5 d5 (m + 2 + 2 + 1 + 2)
  obtain ⟨l7, r7, s7⟩ := lexerLoop_operator X S _ _ q oq _ hq l6 r6 d6
    (m + 2 + 2 + 1) (by omega)
  obtain ⟨l8, r8, s8⟩ := lexerLoop_space X S _ _ _ l7 r7 d7 (m + 2 + 2)
  obtain ⟨l9, r9, s9⟩ := lexerLoop_word X S _ _ c [] wc (Or.inl rfl) l8 r8 d8
    (m + 2) (by omega)
  obtain ⟨lf, sf, ef, tf⟩ := lexerLoop_eof X S _ _ l9 r9 d9 m
  have hrun : lexerLoop X (m + 2 + 2 + 1 + 2 + 1 + 2 + 1 + 2 + 1 + 2)
      (some lexerStateFunc.rootState) l0 = some lf := by
    rw [s1, s2]
    apply s3
    rw [s4, s5, s6]
    apply s7
    rw [s8, s9]
    exact sf
  have hfuel : S.length + 16 + n = m + 2 + 2 + 1 + 2 + 1 + 2 + 1 + 2 + 1 + 2 := by
    show S.length + 16 + n = S.length + n + 2 + 2 + 1 + 2 + 1 + 2 + 1 + 2 + 1 + 2
    omega
  refine ⟨lf.tokens, ?_, ?_⟩
  · rw [hfuel]
    unfold Lexer
    dsimp only
    show (match lexerLoop X (m + 2 + 2 + 1 + 2 + 1 + 2 + 1 + 2 + 1 + 2)
      (some lexerStateFunc.rootState) l0 with
      | none => none
      | some l =>
        match l.err with
        | some e => some (Except.error e)
        | none => some (Except.ok l.tokens)) = _
    rw [hrun]
    dsimp only
    rw [ef]
  · rw [tf]
    simp only [ka, kb, kc, Bool.false_eq_true, if_false, List.nil_append, List.cons_append,
      List.append_nil]


/-- The method `parsePostfix` before a token that is neither a bracket nor the operator
`.`: it returns the node as it is. -/
theorem parser.parsePostfix_stop (X : Extern) (n : Nat) (p : parser) (node : Node)
    (hk : p.current.Kind ≠ TokenKindBracket) (hv : p.current.Value ≠ lit ".") :
    parser.parsePostfix X (n + 2) p node = some (node, p) := by
  rw [parser.parsePostfix, parser.parsePostfixLoop]
  split_ifs with h1 h2
  · simp only [parser.atBracket, Bool.and_eq_true, beq_iff_eq] at h2
    exact absurd h2.1 hk
  · rfl
  · rfl

/-- The method `parsePrimary` on an Identifier token that no bracket and no `.` follows. -/
theorem parser.parsePrimary_operand (X : Extern) (n : Nat) (p : parser) (v : GoString)
    (hk : p.current.Kind = TokenKindIdentifier) (hv : p.current.Value = v)
    (hnk : p.next.current.Kind ≠ TokenKindBracket) (hnv : p.next.current.Value ≠ lit ".") :
    parser.parsePrimary X (n + 3) p = some (operand v, p.next) := by
  subst hv
  rw [parser.parsePrimary]
  dsimp only
  have h1 : ¬ (p.current.Kind = TokenKindOperator) := by rw [hk]; decide
  have h2 : ¬ (p.current.Kind = TokenKindBracket ∧ p.current.Value = lit "(") := by
    rw [hk]
    intro h
    exact absurd h.1 (by decide)
  rw [if_neg h1]
  dsimp only
  rw [if_neg h2, hk]
  dsimp only
  unfold operand
  split_ifs with c1 c2 c3
  · rfl
  · rfl
  · rfl
  · rw [parser.parseIdentifier]
    have h3 : p.next.atBracket (lit "(") = false := by
      simp only [parser.atBracket, Bool.and_eq_false_iff, beq_eq_false_iff_ne]
      exact Or.inl hnk
    rw [h3]
    simp only [Bool.false_eq_true, if_false]
    exact parser.parsePostfix_stop X n p.next _ hnk hnv

/-- The loop of `parse` before a token that is no operator: it returns. -/
theorem parser.parseLoop_end (X : Extern) (n : Nat) (p : parser) (priority : Int) (node : Node)
    (token : Token) (hk : token.Kind ≠ TokenKindOperator) :
    parser.parseLoop X (n + 1) p priority node token = some (node, p) := by
  rw [parser.parseLoop]
  rw [if_neg (fun h => hk h.1)]

/-- The loop of `parse` before an operator of a lower priority than the one asked for: it
returns. -/
theorem parser.parseLoop_low (X : Extern) (n : Nat) (p : parser) (priority : Int) (node : Node)
    (token : Token) (op : operator) (hop : binaryOp.lookup token.Value = some op)
    (hlow : op.priority < priority) :
    parser.parseLoop X (n + 1) p priority node token = some (node, p) := by
  rw [parser.parseLoop]
  split_ifs with h1
  · rw [hop]
    dsimp only
    rw [if_neg (by omega)]
  · rfl

/-- The loop of `parse` before an operator of at least the priority asked for: it parses the
right operand one priority higher, and goes on with the binary node. -/
theorem parser.parseLoop_go (X : Extern) (n : Nat) (p : parser) (priority : Int) (node : Node)
    (token : Token) (op : operator) (hk : token.Kind = TokenKindOperator) (he : p.err = none)
    (hop : binaryOp.lookup token.Value = some op) (hge : op.priority ≥ priority)
    (r : Node) (p' : parser) (hr : parser.parse X n p.next (op.priority + 1) = some (r, p')) :
    parser.parseLoop X (n + 1) p priority node token =
      parser.parseLoop X n p' priority (BinaryNode token.Value node r) p'.current := by
  rw [parser.parseLoop]
  rw [if_pos ⟨hk, he⟩, hop]
  dsimp only
  rw [if_pos hge, if_pos (binaryOp_entry _ _ hop).1, hr]

/-- The method `parse` on one operand, before a token that ends the expression at this
priority: the end of the input, or an operator of a lower priority. -/
theorem parser.parse_operand (X : Extern) (n : Nat) (p : parser) (priority : Int)
    (v : GoString) (hk : p.current.Kind = TokenKindIdentifier) (hv : p.current.Value = v)
    (hstop : p.next.current.Kind = TokenKindEOF ∨
      ∃ op, binaryOp.lookup p.next.current.Value = some op ∧ op.priority < priority ∧
        p.next.current.Kind = TokenKindOperator) :
    parser.parse X (n + 5) p priority = some (operand v, p.next) := by
  subst hv
  rw [parser.parse]
  rcases hstop with h | ⟨op, h1, h2, h3⟩
  · by_cases hdot : p.next.current.Value = lit "."
    · rw [parser.parsePrimary]
      dsimp only
      have g1 : ¬ (p.current.Kind = TokenKindOperator) := by rw [hk]; decide
      have g2 : ¬ (p.current.Kind = TokenKindBracket ∧ p.current.Value = lit "(") := by
        rw [hk]
        intro h
        exact absurd h.1 (by decide)
      rw [if_neg g1]
      dsimp only
      rw [if_neg g2, hk]
      dsimp only
      have g3 : p.next.atBracket (lit "(") = false := by
        simp only [parser.atBracket, Bool.and_eq_false_iff, beq_eq_false_iff_ne]
        exact Or.inl (by rw [h]; decide)
      have g4 : ∀ node, parser.parsePostfix X (n + 3) p.next node = some (node, p.next) := by
        intro node
        rw [parser.parsePostfix, parser.parsePostfixLoop]
        rw [if_neg]
        rw [h]
        intro hh
        rcases hh.1 with c | c <;> exact absurd c (by decide)
      unfold operand
      split_ifs with c1 c2 c3
      · dsimp only
        exact parser.parseLoop_end X _ _ _ _ _ (by rw [h]; decide)
      · dsimp only
        exact parser.parseLoop_end X _ _ _ _ _ (by rw [h]; decide)
      · dsimp only
        exact parser.parseLoop_end X _ _ _ _ _ (by rw [h]; decide)
      · rw [parser.parseIdentifier, g3]
        simp only [Bool.false_eq_true, if_false]
        rw [g4]
        dsimp only
        exact parser.parseLoop_end X _ _ _ _ _ (by rw [h]; decide)
    · rw [parser.parsePrimary_operand X (n + 1) p _ hk rfl (by rw [h]; decide) hdot]
      dsimp only
      exact parser.parseLoop_end X _ _ _ _ _ (by rw [h]; decide)
  · rw [parser.parsePrimary_operand X (n + 1) p _ hk rfl (by rw [h3]; decide)
      (binaryOp_entry _ _ h1).2.2.2]
    dsimp only
    exact parser.parseLoop_low X _ _ _ _ _ op h1 h2


theorem kv_eq (t : Token) (k : Kind) (v : GoString) (h : t.kv = (k, v)) :
    t = Token.mk t.Position k v := by
  cases t
  simp only [Token.kv, Prod.mk.injEq] at h
  simp only [h.1, h.2]

/-- A token list is fixed by its kinds and values up to the positions. -/
theorem kv_six (toks : List Token) (e0 e1 e2 e3 e4 e5 : Kind × GoString)
    (h : toks.map Token.kv = [e0, e1, e2, e3, e4, e5]) :
    ∃ x0 x1 x2 x3 x4 x5, toks =
      [Token.mk x0 e0.1 e0.2, Token.mk x1 e1.1 e1.2, Token.mk x2 e2.1 e2.2,
       Token.mk x3 e3.1 e3.2, Token.mk x4 e4.1 e4.2, Token.mk x5 e5.1 e5.2] := by
  rcases toks with _ | ⟨t0, _ | ⟨t1, _ | ⟨t2, _ | ⟨t3, _ | ⟨t4, _ | ⟨t5, _ | ⟨t6, ts⟩⟩⟩⟩⟩⟩⟩ <;>
    simp only [List.map_nil, List.map_cons, List.cons.injEq, and_true, reduceCtorEq,
      and_false] at h
  obtain ⟨h0, h1, h2, h3, h4, h5⟩ := h
  refine ⟨t0.Position, t1.Position, t2.Position, t3.Position, t4.Position, t5.Position, ?_⟩
  rw [kv_eq t0 e0.1 e0.2 h0, kv_eq t1 e1.1 e1.2 h1, kv_eq t2 e2.1 e2.2 h2,
    kv_eq t3 e3.1 e3.2 h3, kv_eq t4 e4.1 e4.2 h4, kv_eq t5 e5.1 e5.2 h5]

/-- The parser on the tokens of `a p b q c` when `q` has the higher priority: the node of
`p` is the root and the node of `q` its right child. -/
theorem parser.parse_right_nested (X : Extern) (x0 x1 x2 x3 x4 x5 : Position)
    (A p B q C : GoString) (op oq : operator) (hp : binaryOp.lookup p = some op)
    (hq : binaryOp.lookup q = some oq) (hlt : op.priority < oq.priority) (n : Nat)
    (toks : List Token)
    (ht : toks = [Token.mk x0 TokenKindIdentifier A, Token.mk x1 TokenKindOperator p,
      Token.mk x2 TokenKindIdentifier B, Token.mk x3 TokenKindOperator q,
      Token.mk x4 TokenKindIdentifier C, Token.mk x5 TokenKindEOF []]) :
    parser.parse X (n + 12) (parser.mk toks (Token.mk x0 TokenKindIdentifier A) 0 none) 0 =
      some (BinaryNode p (operand A) (BinaryNode q (operand B) (operand C)),
        parser.mk toks (Token.mk x5 TokenKindEOF []) 5 none) := by
  have ep := binaryOp_entry p op hp
  have eq := binaryOp_entry q oq hq
  have n0 : (parser.mk toks (Token.mk x0 TokenKindIdentifier A) 0 none).next =
      parser.mk toks (Token.mk x1 TokenKindOperator p) 1 none := by subst ht; rfl
  have n1 : (parser.mk toks (Token.mk x1 TokenKindOperator p) 1 none).next =
      parser.mk toks (Token.mk x2 TokenKindIdentifier B) 2 none := by subst ht; rfl
  have n2 : (parser.mk toks (Token.mk x2 TokenKindIdentifier B) 2 none).next =
      parser.mk toks (Token.mk x3 TokenKindOperator q) 3 none := by subst ht; rfl
  have n3 : (parser.mk toks (Token.mk x3 TokenKindOperator q) 3 none).next =
      parser.mk toks (Token.mk x4 TokenKindIdentifier C) 4 none := by subst ht; rfl
  have n4 : (parser.mk toks (Token.mk x4 TokenKindIdentifier C) 4 none).next =
      parser.mk toks (Token.mk x5 TokenKindEOF []) 5 none := by subst ht; rfl
  have hC : parser.parse X (n + 8) (parser.mk toks (Token.mk x4 TokenKindIdentifier C) 4 none)
      (oq.priority + 1) = some (operand C, parser.mk toks (Token.mk x5 TokenKindEOF []) 5 none) := by
    rw [← n4]
    exact parser.parse_operand X (n + 3) _ _ C rfl rfl (Or.inl (by rw [n4]))
  have hB : parser.parse X (n + 10) (parser.mk toks (Token.mk x2 TokenKindIdentifier B) 2 none)
      (op.priority + 1) = some (BinaryNode q (operand B) (operand C),
        parser.mk toks (Token.mk x5 TokenKindEOF []) 5 none) := by
    rw [parser.parse, parser.parsePrimary_operand X (n + 6) _ B rfl rfl
      (by rw [n2]; simp) (by rw [n2]; exact eq.2.2.2)]
    dsimp only
    rw [n2]
    rw [parser.parseLoop_go X (n + 8) _ _ _ _ oq rfl rfl hq (by omega) (operand C)
      (parser.mk toks (Token.mk x5 TokenKindEOF []) 5 none) (by rw [n3]; exact hC)]
    exact parser.parseLoop_end X _ _ _ _ _ (by simp)
  rw [parser.parse, parser.parsePrimary_operand X (n + 8) _ A rfl rfl
    (by rw [n0]; simp) (by rw [n0]; exact ep.2.2.2)]
  dsimp only
  rw [n0]
  rw [parser.parseLoop_go X (n + 10) _ _ _ _ op rfl rfl hp (by omega)
    (BinaryNode q (operand B) (operand C))
    (parser.mk toks (Token.mk x5 TokenKindEOF []) 5 none) (by rw [n1]; exact hB)]
  exact parser.parseLoop_end X _ _ _ _ _ (by simp)

/-- The parser on the tokens of `a p b q c` when `q` has no higher priority than `p`: the
node of `q` is the root and the node of `p` its left child. -/
theorem parser.parse_left_nested (X : Extern) (x0 x1 x2 x3 x4 x5 : Position)
    (A p B q C : GoString) (op oq : operator) (hp : binaryOp.lookup p = some op)
    (hq : binaryOp.lookup q = some oq) (hle : oq.priority ≤ op.priority) (n : Nat)
    (toks : List Token)
    (ht : toks = [Token.mk x0 TokenKindIdentifier A, Token.mk x1 TokenKindOperator p,
      Token.mk x2 TokenKindIdentifier B, Token.mk x3 TokenKindOperator q,
      Token.mk x4 TokenKindIdentifier C, Token.mk x5 TokenKindEOF []]) :
    parser.parse X (n + 12) (parser.mk toks (Token.mk x0 TokenKindIdentifier A) 0 none) 0 =
      some (BinaryNode q (BinaryNode p (operand A) (operand B)) (operand C),
        parser.mk toks (Token.mk x5 TokenKindEOF []) 5 none) := by
  have ep := binaryOp_entry p op hp
  have eq := binaryOp_entry q oq hq
  have n0 : (parser.mk toks (Token.mk x0 TokenKindIdentifier A) 0 none).next =
      parser.mk toks (Token.mk x1 TokenKindOperator p) 1 none := by subst ht; rfl
  have n1 : (parser.mk toks (Token.mk x1 TokenKindOperator p) 1 none).next =
      parser.mk toks (Token.mk x2 TokenKindIdentifier B) 2 none := by subst ht; rfl
  have n2 : (parser.mk toks (Token.mk x2 TokenKindIdentifier B) 2 none).next =
      parser.mk toks (Token.mk x3 TokenKindOperator q) 3 none := by subst ht; rfl
  have n3 : (parser.mk toks (Token.mk x3 TokenKindOperator q) 3 none).next =
      parser.mk toks (Token.mk x4 TokenKindIdentifier C) 4 none := by subst ht; rfl
  have n4 : (parser.mk toks (Token.mk x4 TokenKindIdentifier C) 4 none).next =
      parser.mk toks (Token.mk x5 TokenKindEOF []) 5 none := by subst ht; rfl
  have hC : parser.parse X (n + 9) (parser.mk toks (Token.mk x4 TokenKindIdentifier C) 4 none)
      (oq.priority + 1) = some (operand C, parser.mk toks (Token.mk x5 TokenKindEOF []) 5 none) := by
    rw [← n4]
    exact parser.parse_operand X (n + 4) _ _ C rfl rfl (Or.inl (by rw [n4]))
  have hB : parser.parse X (n + 10) (parser.mk toks (Token.mk x2 TokenKindIdentifier B) 2 none)
      (op.priority + 1) = some (operand B,
        parser.mk toks (Token.mk x3 TokenKindOperator q) 3 none) := by
    rw [← n2]
    exact parser.parse_operand X (n + 5) _ _ B rfl rfl
      (Or.inr ⟨oq, by rw [n2]; exact hq, by omega, by rw [n2]⟩)
  rw [parser.parse, parser.parsePrimary_operand X (n + 8) _ A rfl rfl
    (by rw [n0]; simp) (by rw [n0]; exact ep.2.2.2)]
  dsimp only
  rw [n0]
  rw [parser.parseLoop_go X (n + 10) _ _ _ _ op rfl rfl hp (by omega) (operand B)
    (parser.mk toks (Token.mk x3 TokenKindOperator q) 3 none) (by rw [n1]; exact hB)]
  dsimp only
  rw [parser.parseLoop_go X (n + 9) _ _ _ _ oq rfl rfl hq (by omega) (operand C)
    (parser.mk toks (Token.mk x5 TokenKindEOF []) 5 none) (by rw [n3]; exact hC)]
  exact parser.parseLoop_end X _ _ _ _ _ (by simp)


/-- The function `Parse` on the source `a p b q c`, given what the parser makes of the six
tokens. -/
theorem Parse_twoOperators (X : Extern) (a b c : List Int) (p q : GoString) (op oq : operator)
    (ha : IsIdentifier X a = true) (hb : IsIdentifier X b = true)
    (hc : IsIdentifier X c = true) (hp : binaryOp.lookup p = some op)
    (hq : binaryOp.lookup q = some oq) (n : Nat) (node : Node)
    (hparse : ∀ (x0 x1 x2 x3 x4 x5 : Position) (m : Nat) (toks : List Token),
      toks = [Token.mk x0 TokenKindIdentifier (encRunes a), Token.mk x1 TokenKindOperator p,
        Token.mk x2 TokenKindIdentifier (encRunes b), Token.mk x3 TokenKindOperator q,
        Token.mk x4 TokenKindIdentifier (encRunes c), Token.mk x5 TokenKindEOF []] →
      parser.parse X (m + 12)
        (parser.mk toks (Token.mk x0 TokenKindIdentifier (encRunes a)) 0 none) 0 =
        some (node, parser.mk toks (Token.mk x5 TokenKindEOF []) 5 none)) :
    Parse X ((twoOperatorSource (encRunes a) p (encRunes b) q (encRunes c)).length + 16 + n)
      (twoOperatorSource (encRunes a) p (encRunes b) q (encRunes c)) =
      some (Except.ok (Tree.mk (node))) := by
  obtain ⟨toks, hlex, hkv⟩ := Lexer_twoOperators X a b c p q op oq ha hb hc hp hq n
  obtain ⟨x0, x1, x2, x3, x4, x5, ht⟩ := kv_six toks _ _ _ _ _ _ hkv
  dsimp only at ht
  have hrun := hparse x0 x1 x2 x3 x4 x5
    ((twoOperatorSource (encRunes a) p (encRunes b) q (encRunes c)).length + 4 + n) toks ht
  have hfuel : (twoOperatorSource (encRunes a) p (encRunes b) q (encRunes c)).length + 4 + n + 12 =
      (twoOperatorSource (encRunes a) p (encRunes b) q (encRunes c)).length + 16 + n := by omega
  rw [hfuel] at hrun
  have hhead : toks.head? = some (Token.mk x0 TokenKindIdentifier (encRunes a)) := by
    rw [ht]
    rfl
  unfold Parse
  rw [hlex]
  dsimp only
  rw [hhead]
  dsimp only
  rw [hrun]
  simp

/-- The node of an operand is no binary node. -/
theorem operand_ne_binary (v o : GoString) (l r : Node) : operand v ≠ BinaryNode o l r := by
  unfold operand
  split_ifs <;> exact fun h => Node.noConfusion h

/-- Claim C1. For identifiers `a`, `b`, `c` and infix operators `p`, `q` of the table
`binaryOp` with `priority(p) < priority(q)`: `Parse` of `a p b q c` returns the tree
`Binary{p, a, Binary{q, b, c}}`, and `Parse` of `a q b p c` returns
`Binary{p, Binary{q, a, b}, c}`, for every fuel from the length of the source plus 16 on. The
operator of the higher priority is the deeper node both times. -/
theorem C1_higher_priority_is_deeper (X : Extern) (a b c : List Int) (p q : GoString)
    (op oq : operator) (ha : IsIdentifier X a = true) (hb : IsIdentifier X b = true)
    (hc : IsIdentifier X c = true) (hp : binaryOp.lookup p = some op)
    (hq : binaryOp.lookup q = some oq) (hlt : op.priority < oq.priority) :
    (∀ n, Parse X ((twoOperatorSource (encRunes a) p (encRunes b) q (encRunes c)).length + 16 + n)
        (twoOperatorSource (encRunes a) p (encRunes b) q (encRunes c)) =
      some (Except.ok (Tree.mk (BinaryNode p (operand (encRunes a))
        (BinaryNode q (operand (encRunes b)) (operand (encRunes c))))))) ∧
    (∀ n, Parse X ((twoOperatorSource (encRunes a) q (encRunes b) p (encRunes c)).length + 16 + n)
        (twoOperatorSource (encRunes a) q (encRunes b) p (encRunes c)) =
      some (Except.ok (Tree.mk (BinaryNode p
        (BinaryNode q (operand (encRunes a)) (operand (encRunes b))) (operand (encRunes c)))))) :=
  ⟨fun n => Parse_twoOperators X a b c p q op oq ha hb hc hp hq n _
      (fun x0 x1 x2 x3 x4 x5 m toks ht =>
        parser.parse_right_nested X x0 x1 x2 x3 x4 x5 _ p _ q _ op oq hp hq hlt m toks ht),
   fun n => Parse_twoOperators X a b c q p oq op ha hb hc hq hp n _
      (fun x0 x1 x2 x3 x4 x5 m toks ht =>
        parser.parse_left_nested X x0 x1 x2 x3 x4 x5 _ q _ p _ oq op hq hp (le_of_lt hlt) m toks
          ht)⟩

/-- Claim C2. For identifiers `a`, `b`, `c` and infix operators `p`, `q` of the table
`binaryOp` with equal priorities (`p = q` included): `Parse` of `a p b q c` returns the tree
`Binary{q, Binary{p, a, b}, c}`, for every fuel from the length of the source plus 16 on,
and so never the tree `Binary{p, a, Binary{q, b, c}}`. -/
theorem C2_equal_priority_groups_left (X : Extern) (a b c : List Int) (p q : GoString)
    (op oq : operator) (ha : IsIdentifier X a = true) (hb : IsIdentifier X b = true)
    (hc : IsIdentifier X c = true) (hp : binaryOp.lookup p = some op)
    (hq : binaryOp.lookup q = some oq) (heq : op.priority = oq.priority) :
    (∀ n, Parse X ((twoOperatorSource (encRunes a) p (encRunes b) q (encRunes c)).length + 16 + n)
        (twoOperatorSource (encRunes a) p (encRunes b) q (encRunes c)) =
      some (Except.ok (Tree.mk (BinaryNode q
        (BinaryNode p (operand (encRunes a)) (operand (encRunes b))) (operand (encRunes c)))))) ∧
    (∀ fuel, Parse X fuel (twoOperatorSource (encRunes a) p (encRunes b) q (encRunes c)) ≠
      some (Except.ok (Tree.mk (BinaryNode p (operand (encRunes a))
        (BinaryNode q (operand (encRunes b)) (operand (encRunes c))))))) := by
  have h1 : ∀ n, Parse X ((twoOperatorSource (encRunes a) p (encRunes b) q (encRunes c)).length + 16 + n)
        (twoOperatorSource (encRunes a) p (encRunes b) q (encRunes c)) =
      some (Except.ok (Tree.mk (BinaryNode q
        (BinaryNode p (operand (encRunes a)) (operand (encRunes b))) (operand (encRunes c))))) :=
    fun n => Parse_twoOperators X a b c p q op oq ha hb hc hp hq n _
      (fun x0 x1 x2 x3 x4 x5 m toks ht =>
        parser.parse_left_nested X x0 x1 x2 x3 x4 x5 _ p _ q _ op oq hp hq (le_of_eq heq.symm) m
          toks ht)
  refine ⟨h1, ?_⟩
  intro fuel hbad
  have hup := Parse_mono X _ fuel
    ((twoOperatorSource (encRunes a) p (encRunes b) q (encRunes c)).length + 16 + fuel) _
    (by omega) hbad
  rw [h1 fuel] at hup
  injection hup with hup
  injection hup with hup
  injection hup with hup
  injection hup with _ hl _
  exact operand_ne_binary _ _ _ _ hl.symm


/-! ### The worked examples of precedence and associativity -/

theorem Lexer_precedence_30 (X : Extern) :
    Lexer X 30 (lit "a + b / 5 - (10)") = some (Except.ok
      [⟨⟨1, 0⟩, TokenKindIdentifier, [0x61]⟩, ⟨⟨1, 2⟩, TokenKindOperator, [0x2B]⟩,
       ⟨⟨1, 4⟩, TokenKindIdentifier, [0x62]⟩, ⟨⟨1, 6⟩, TokenKindOperator, [0x2F]⟩,
       ⟨⟨1, 8⟩, TokenKindNumber, [0x35]⟩, ⟨⟨1, 10⟩, TokenKindOperator, [0x2D]⟩,
       ⟨⟨1, 12⟩, TokenKindBracket, [0x28]⟩, ⟨⟨1, 13⟩, TokenKindNumber, [0x31, 0x30]⟩,
       ⟨⟨1, 15⟩, TokenKindBracket, [0x29]⟩, ⟨⟨1, 15⟩, TokenKindEOF, []⟩]) := rfl

theorem Parse_precedence_30 (X : Extern) :
    Parse X 30 (lit "a + b / 5 - (10)") = some (Except.ok (Tree.mk
      (BinaryNode (lit "-")
        (BinaryNode (lit "+") (IdentifierNode (lit "a"))
          (BinaryNode (lit "/") (IdentifierNode (lit "b")) (IntNode 5)))
        (IntNode 10)))) := by
  unfold Parse
  rw [Lexer_precedence_30]
  rfl

/-- The source `a + b / 5 - (10)` of the parser's test: the root is `-`, its left child is
`+`, and the right child of that is `/`. -/
theorem Parse_precedence (X : Extern) (n : Nat) :
    Parse X (n + 30) (lit "a + b / 5 - (10)") = some (Except.ok (Tree.mk
      (BinaryNode (lit "-")
        (BinaryNode (lit "+") (IdentifierNode (lit "a"))
          (BinaryNode (lit "/") (IdentifierNode (lit "b")) (IntNode 5)))
        (IntNode 10)))) :=
  Parse_mono X _ 30 (n + 30) _ (Nat.le_add_left 30 n) (Parse_precedence_30 X)

theorem IsIdentifier_a (X : Extern) : IsIdentifier X [0x61] = true := by
  simp [IsIdentifier, IsWord, isSpace, IsSpace, validRune, isAlphaNumeric, IsLetter,
    latin1Letter]
  decide

theorem IsIdentifier_b (X : Extern) : IsIdentifier X [0x62] = true := by
  simp [IsIdentifier, IsWord, isSpace, IsSpace, validRune, isAlphaNumeric, IsLetter,
    latin1Letter]
  decide

theorem IsIdentifier_c (X : Extern) : IsIdentifier X [0x63] = true := by
  simp [IsIdentifier, IsWord, isSpace, IsSpace, validRune, isAlphaNumeric, IsLetter,
    latin1Letter]
  decide

theorem IsIdentifier_true (X : Extern) : IsIdentifier X [0x74, 0x72, 0x75, 0x65] = true := by
  simp [IsIdentifier, IsWord, isSpace, IsSpace, validRune, isAlphaNumeric, IsLetter,
    latin1Letter]
  decide

theorem IsIdentifier_nil (X : Extern) : IsIdentifier X [0x6E, 0x69, 0x6C] = true := by
  simp [IsIdentifier, IsWord, isSpace, IsSpace, validRune, isAlphaNumeric, IsLetter,
    latin1Letter]
  decide

theorem IsIdentifier_e_acute (X : Extern) : IsIdentifier X [0xE9] = true := by
  simp [IsIdentifier, IsWord, isSpace, IsSpace, validRune, isAlphaNumeric, IsLetter,
    latin1Letter]
  decide

/-- Claim C1, witness: `a + b / c` and `a / b + c` for every `Extern`, then `true or é < nil`
and `true < é or nil` (keyword operators, a two-byte identifier, and the constants `true`
and `nil` as operands), and the source `a + b / 5 - (10)` of the test. -/
theorem C1_witness_plus_divide :
    (∀ X : Extern,
      (∀ n, Parse X (25 + n) (lit "a + b / c") = some (Except.ok (Tree.mk
        (BinaryNode (lit "+") (IdentifierNode (lit "a"))
          (BinaryNode (lit "/") (IdentifierNode (lit "b")) (IdentifierNode (lit "c"))))))) ∧
      (∀ n, Parse X (25 + n) (lit "a / b + c") = some (Except.ok (Tree.mk
        (BinaryNode (lit "+")
          (BinaryNode (lit "/") (IdentifierNode (lit "a")) (IdentifierNode (lit "b")))
          (IdentifierNode (lit "c"))))))) ∧
    (∀ X : Extern,
      (∀ n, Parse X (32 + n) (lit "true or é < nil") = some (Except.ok (Tree.mk
        (BinaryNode (lit "or") (BoolNode true)
          (BinaryNode (lit "<") (IdentifierNode (lit "é")) NilNode))))) ∧
      (∀ n, Parse X (32 + n) (lit "true < é or nil") = some (Except.ok (Tree.mk
        (BinaryNode (lit "or")
          (BinaryNode (lit "<") (BoolNode true) (IdentifierNode (lit "é"))) NilNode))))) ∧
    (∀ (X : Extern) (n : Nat), Parse X (n + 30) (lit "a + b / 5 - (10)") =
      some (Except.ok (Tree.mk
        (BinaryNode (lit "-")
          (BinaryNode (lit "+") (IdentifierNode (lit "a"))
            (BinaryNode (lit "/") (IdentifierNode (lit "b")) (IntNode 5)))
          (IntNode 10))))) :=
  ⟨fun X => C1_higher_priority_is_deeper X [0x61] [0x62] [0x63] (lit "+") (lit "/")
      ⟨4, associateLeft⟩ ⟨6, associateLeft⟩ (IsIdentifier_a X) (IsIdentifier_b X)
      (IsIdentifier_c X) rfl rfl (by decide),
   fun X => C1_higher_priority_is_deeper X [0x74, 0x72, 0x75, 0x65] [0xE9] [0x6E, 0x69, 0x6C]
      (lit "or") (lit "<") ⟨1, associateLeft⟩ ⟨3, associateLeft⟩ (IsIdentifier_true X)
      (IsIdentifier_e_acute X) (IsIdentifier_nil X) rfl rfl (by decide),
   Parse_precedence⟩

/-- Claim C2, witness: `a - b - c` (the same operator twice) and `a == b != c` (two operators
of priority 3), for every `Extern`. -/
theorem C2_witness_minus_minus :
    (∀ X : Extern,
      (∀ n, Parse X (25 + n) (lit "a - b - c") = some (Except.ok (Tree.mk
        (BinaryNode (lit "-")
          (BinaryNode (lit "-") (IdentifierNode (lit "a")) (IdentifierNode (lit "b")))
          (IdentifierNode (lit "c")))))) ∧
      (∀ fuel, Parse X fuel (lit "a - b - c") ≠ some (Except.ok (Tree.mk
        (BinaryNode (lit "-") (IdentifierNode (lit "a"))
          (BinaryNode (lit "-") (IdentifierNode (lit "b")) (IdentifierNode (lit "c")))))))) ∧
    (∀ X : Extern,
      (∀ n, Parse X (27 + n) (lit "a == b != c") = some (Except.ok (Tree.mk
        (BinaryNode (lit "!=")
          (BinaryNode (lit "==") (IdentifierNode (lit "a")) (IdentifierNode (lit "b")))
          (IdentifierNode (lit "c")))))) ∧
      (∀ fuel, Parse X fuel (lit "a == b != c") ≠ some (Except.ok (Tree.mk
        (BinaryNode (lit "==") (IdentifierNode (lit "a"))
          (BinaryNode (lit "!=") (IdentifierNode (lit "b")) (IdentifierNode (lit "c")))))))) :=
  ⟨fun X => C2_equal_priority_groups_left X [0x61] [0x62] [0x63] (lit "-") (lit "-")
      ⟨4, associateLeft⟩ ⟨4, associateLeft⟩ (IsIdentifier_a X) (IsIdentifier_b X)
      (IsIdentifier_c X) rfl rfl rfl,
   fun X => C2_equal_priority_groups_left X [0x61] [0x62] [0x63] (lit "==") (lit "!=")
      ⟨3, associateLeft⟩ ⟨3, associateLeft⟩ (IsIdentifier_a X) (IsIdentifier_b X)
      (IsIdentifier_c X) rfl rfl rfl⟩


/-! ### The virtual machine -/

theorem Runtime.pop_append (r : Runtime) (rest : List Value) (v : Value)
    (h : r.stack = rest ++ [v]) : r.pop = Except.ok (v, { r with stack := rest }) := by
  unfold Runtime.pop
  rw [h, List.getLast?_append]
  simp

/-- The six arithmetic opcodes are the ones that `New` maps to a closure of
`instBinaryOp`, each with its operator symbol. -/
theorem instFunc_arithmetic :
    instFunc OpCodeAdd = some (Inst.instBinaryOp (lit "+")) ∧
    instFunc OpCodeSub = some (Inst.instBinaryOp (lit "-")) ∧
    instFunc OpCodeMul = some (Inst.instBinaryOp (lit "*")) ∧
    instFunc OpCodeDiv = some (Inst.instBinaryOp (lit "/")) ∧
    instFunc OpCodeMod = some (Inst.instBinaryOp (lit "%")) ∧
    instFunc OpCodePow = some (Inst.instBinaryOp (lit "^")) :=
  ⟨rfl, rfl, rfl, rfl, rfl, rfl⟩

theorem Runtime.pop_two (r : Runtime) (rest : List Value) (left right : Value)
    (h : r.stack = rest ++ [left, right]) :
    r.pop = Except.ok (right, { r with stack := rest ++ [left] }) :=
  Runtime.pop_append r (rest ++ [left]) right (by rw [h]; simp)

set_option maxRecDepth 4000 in
/-- Claim C18, at three failing inputs, for every host and environment.
* The program `PUSH#0, PUSH#1, PUSH#2, ADD` over the constants `1, 2, 3`, with no
  implementation registered for `+`: `Run` returns the value `1` and a nil error. `ADD` has
  popped `3` and `2`, and `Run` drops the error that the instruction returns.
* The same program with the one implementation `func(int, float64) float64` registered,
  which does not accept two `int` operands: the same result.
* The program `PUSH#0, PUSH#1, ADD` over the constants `1, 2`, with no implementation
  registered: after `ADD` the stack is empty, and the `r.pop()` of `Run` panics. -/
theorem C18_run_drops_the_operator_error (H : Host) (env : Env) (n : Nat) :
    Runtime.Run H (n + 5)
        (New [OpCodePush, 0, 0, OpCodePush, 0, 1, OpCodePush, 0, 2, OpCodeAdd]
          [Value.int 1, Value.int 2, Value.int 3] env) =
      some (Outcome.returned (Value.int 1) none) ∧
    Runtime.Run H (n + 5)
        ((New [OpCodePush, 0, 0, OpCodePush, 0, 1, OpCodePush, 0, 2, OpCodeAdd]
          [Value.int 1, Value.int 2, Value.int 3] env).Register (lit "+") addIntFloat) =
      some (Outcome.returned (Value.int 1) none) ∧
    Runtime.Run H (n + 4)
        (New [OpCodePush, 0, 0, OpCodePush, 0, 1, OpCodeAdd] [Value.int 1, Value.int 2] env) =
      some (Outcome.panicked Panic.indexOutOfRange) :=
  ⟨rfl, rfl, rfl⟩

/-- The instruction itself does return the error: with no implementation registered for the
operator, the closure of `instBinaryOp` pops the two operands and returns
`invalid operator`. -/
theorem Runtime.instBinaryOp_unregistered (H : Host) (r : Runtime) (op : GoString)
    (rest : List Value) (left right : Value) (hs : r.stack = rest ++ [left, right])
    (hreg : r.instImpl.lookup op = none) :
    r.instBinaryOp H op =
      Except.ok ({ r with stack := rest }, some (RuntimeError.invalidOperator op)) := by
  unfold Runtime.instBinaryOp
  rw [Runtime.pop_two r rest left right hs]
  dsimp only
  rw [Runtime.pop_append { r with stack := rest ++ [left] } rest left rfl]
  dsimp only
  rw [hreg]

/-- Claim C20, at the failing inputs `[OpCodeTrue]`, `[OpCodeFalse]` and `[OpCodeNil]`: for every
constant pool and environment `Run` returns the nil value and the error
`unexcepted instruction`, since `New` enters none of the three opcodes in `instFunc`. -/
theorem C20_literal_opcodes_are_rejected (H : Host) (constants : List Value) (env : Env)
    (n : Nat) :
    Runtime.Run H (n + 1) (New [OpCodeTrue] constants env) =
      some (Outcome.returned Value.nil (some RuntimeError.unexceptedInstruction)) ∧
    Runtime.Run H (n + 1) (New [OpCodeFalse] constants env) =
      some (Outcome.returned Value.nil (some RuntimeError.unexceptedInstruction)) ∧
    Runtime.Run H (n + 1) (New [OpCodeNil] constants env) =
      some (Outcome.returned Value.nil (some RuntimeError.unexceptedInstruction)) :=
  ⟨rfl, rfl, rfl⟩

/-- The method `scanNumber` returns `true` whenever it returns: the branch of `numberState`
that reports `bad number syntax` is never taken. -/
theorem lexer.scanNumber_true (fuel : Nat) (l : lexer) (r : Bool × lexer)
    (h : l.scanNumber fuel = some r) : r.1 = true := by
  unfold lexer.scanNumber at h
  dsimp only at h
  split at h
  · exact absurd h (by simp)
  · split_ifs at h
    · split at h
      · exact absurd h (by simp)
      · simp only [Option.some.injEq] at h
        rw [← h]
    · simp only [Option.some.injEq] at h
      rw [← h]

/-- Claim C11, at the failing inputs `0b12` and `0o78`: `Lexer` returns no error. The scan
stops at the first digit outside the alphabet of the prefix and emits the Number token `0b1`
(`0o7`), and the digit that is left starts a second Number token. -/
theorem C11_alphabet_violation_is_accepted (X : Extern) (n : Nat) :
    Lexer X (n + 10) (lit "0b12") = some (Except.ok
      [⟨⟨1, 0⟩, TokenKindNumber, lit "0b1"⟩, ⟨⟨1, 3⟩, TokenKindNumber, lit "2"⟩,
       ⟨⟨1, 3⟩, TokenKindEOF, []⟩]) ∧
    Lexer X (n + 10) (lit "0o78") = some (Except.ok
      [⟨⟨1, 0⟩, TokenKindNumber, lit "0o7"⟩, ⟨⟨1, 3⟩, TokenKindNumber, lit "8"⟩,
       ⟨⟨1, 3⟩, TokenKindEOF, []⟩]) :=
  ⟨Lexer_mono X _ 10 _ _ (by omega) rfl, Lexer_mono X _ 10 _ _ (by omega) rfl⟩

theorem Lexer_bracket_mismatch_10 (X : Extern) :
    Lexer X 10 (lit "(a]") = some (Except.ok
      [⟨⟨1, 0⟩, TokenKindBracket, lit "("⟩, ⟨⟨1, 1⟩, TokenKindIdentifier, lit "a"⟩,
       ⟨⟨1, 2⟩, TokenKindBracket, lit "]"⟩, ⟨⟨1, 2⟩, TokenKindEOF, []⟩]) := rfl

theorem Lexer_bracket_open_10 (X : Extern) :
    Lexer X 10 (lit "(a b") = some (Except.ok
      [⟨⟨1, 0⟩, TokenKindBracket, lit "("⟩, ⟨⟨1, 1⟩, TokenKindIdentifier, lit "a"⟩,
       ⟨⟨1, 3⟩, TokenKindIdentifier, lit "b"⟩, ⟨⟨1, 3⟩, TokenKindEOF, []⟩]) := rfl

theorem Parse_bracket_mismatch_10 (X : Extern) :
    Parse X 10 (lit "(a]") = some (Except.ok (Tree.mk (IdentifierNode (lit "a")))) := by
  unfold Parse
  rw [Lexer_bracket_mismatch_10]
  rfl

theorem Parse_bracket_open_10 (X : Extern) :
    Parse X 10 (lit "(a b") = some (Except.ok (Tree.mk (IdentifierNode (lit "a")))) := by
  unfold Parse
  rw [Lexer_bracket_open_10]
  rfl

/-- Claim C15, at the failing inputs `(a]` and `(a b`: `Parse` returns the tree of `a` and no
error. After the inner expression `parsePrimary` calls `p.next()` without looking at the
token it steps over, so `]` and `b` are taken for the closing bracket. -/
theorem C15_closing_bracket_is_not_checked (X : Extern) (n : Nat) :
    Parse X (n + 10) (lit "(a]") = some (Except.ok (Tree.mk (IdentifierNode (lit "a")))) ∧
    Parse X (n + 10) (lit "(a b") = some (Except.ok (Tree.mk (IdentifierNode (lit "a")))) :=
  ⟨Parse_mono X _ 10 _ _ (by omega) (Parse_bracket_mismatch_10 X),
   Parse_mono X _ 10 _ _ (by omega) (Parse_bracket_open_10 X)⟩

theorem Lexer_garbled_operand_20 (X : Extern) :
    Lexer X 20 (lit "\"日\\\\é\" a") = some (Except.error (Error.unableEscape 0xC3)) := rfl

theorem Parse_garbled_operand_20 (X : Extern) :
    Parse X 20 (lit "\"日\\\\é\" a") = some (Except.error (Error.unableEscape 0xC3)) := by
  unfold Parse
  rw [Lexer_garbled_operand_20]

/-- Claim C16, at the failing input `"日\\é" a` (a string literal with the content `日`,
an escaped backslash and `é`, then the identifier `a`): the error that `Parse` returns is the
`unable escape` error of the tokenizer, not `unexpected token`. -/
theorem C16_string_operand_fails_in_the_lexer (X : Extern) (n : Nat) :
    lit "\"日\\\\é\" a" =
      [0x22, 0xE6, 0x97, 0xA5, 0x5C, 0x5C, 0xC3, 0xA9, 0x22, 0x20, 0x61] ∧
    Parse X (n + 20) (lit "\"日\\\\é\" a") = some (Except.error (Error.unableEscape 0xC3)) :=
  ⟨rfl, Parse_mono X _ 20 _ _ (by omega) (Parse_garbled_operand_20 X)⟩


/-! ### Single words and keywords -/

theorem lexer.Ready_initial (S : GoString) :
    (lexer.mk S [] 0 0 0 ⟨1, 0⟩ ⟨1, 0⟩ ⟨1, 0⟩ none).Ready S 0 [] :=
  ⟨rfl, rfl, rfl, rfl, rfl⟩

/-- The function `Lexer` returns the tokens that the loop ends with, when it ends without an
error. -/
theorem Lexer_of_loop (X : Extern) (S : GoString) (fuel : Nat) (lf : lexer)
    (h : lexerLoop X fuel (some lexerStateFunc.rootState)
      (lexer.mk S [] 0 0 0 ⟨1, 0⟩ ⟨1, 0⟩ ⟨1, 0⟩ none) = some lf)
    (he : lf.err = none) : Lexer X fuel S = some (Except.ok lf.tokens) := by
  unfold Lexer
  dsimp only
  show (match lexerLoop X fuel (some lexerStateFunc.rootState)
      (lexer.mk S [] 0 0 0 ⟨1, 0⟩ ⟨1, 0⟩ ⟨1, 0⟩ none) with
    | none => none
    | some l =>
      match l.err with
      | some e => some (Except.error e)
      | none => some (Except.ok l.tokens)) = _
  rw [h]
  dsimp only
  rw [he]

theorem kv_two (toks : List Token) (e0 e1 : Kind × GoString)
    (h : toks.map Token.kv = [e0, e1]) :
    ∃ t0 t1, toks = [t0, t1] ∧ t0.kv = e0 ∧ t1.kv = e1 := by
  rcases toks with _ | ⟨t0, _ | ⟨t1, _ | ⟨t2, ts⟩⟩⟩ <;>
    simp only [List.map_nil, List.map_cons, List.cons.injEq, and_true, reduceCtorEq,
      and_false] at h
  exact ⟨t0, t1, rfl, h.1, h.2⟩

theorem keywords_contains (w : GoString) :
    keywords.contains w = true ↔
      (w = lit "not" ∨ w = lit "in" ∨ w = lit "and" ∨ w = lit "or") := by
  simp [keywords]

/-- The tokens of a source that is one word. -/
theorem Lexer_word (X : Extern) (a : List Int) (hw : IsWord X a = true) (n : Nat) :
    ∃ toks, Lexer X ((encRunes a).length + 4 + n) (encRunes a) = some (Except.ok toks) ∧
      toks.map Token.kv =
        [(if keywords.contains (encRunes a) then TokenKindOperator else TokenKindIdentifier,
          encRunes a), (TokenKindEOF, [])] := by
  have la := encRunes_length a
  have d0 : (encRunes a).drop 0 = encRunes a ++ [] := by simp
  have d1 := drop_pre (encRunes a) _ _ 0 d0
  obtain ⟨l1, r1, s1⟩ := lexerLoop_word X (encRunes a) 0 [] a [] hw (Or.inl rfl) _
    (lexer.Ready_initial _) d0 ((encRunes a).length + n + 2) (by omega)
  obtain ⟨lf, sf, ef, tf⟩ := lexerLoop_eof X (encRunes a) _ _ l1 r1 d1 ((encRunes a).length + n)
  have hfuel : (encRunes a).length + 4 + n = (encRunes a).length + n + 2 + 2 := by omega
  refine ⟨lf.tokens, ?_, ?_⟩
  · rw [hfuel]
    exact Lexer_of_loop X _ _ lf (s1.trans sf) ef
  · rw [tf]
    rfl

/-- Claim C13. For every source that is one word `w` (a non-empty string of runes that
`isAlphaNumeric` accepts: letters, digits, `_` and `$`, the first no ASCII digit and, as the
tables of `Extern` are arbitrary, none that `isSpace` accepts), `Lexer` returns exactly two
tokens `[T, EOF]`, for every fuel from the length of `w` plus four on.
The value of `T` is `w`; the kind of `T` is Operator if and only if `w` is one of `not`, `in`,
`and`, `or`, and Identifier otherwise. -/
theorem C13_word_is_keyword_or_identifier (X : Extern) (a : List Int)
    (hw : IsWord X a = true) (n : Nat) :
    ∃ T E, Lexer X ((encRunes a).length + 4 + n) (encRunes a) = some (Except.ok [T, E]) ∧
      T.Value = encRunes a ∧ E.Kind = TokenKindEOF ∧ E.Value = [] ∧
      (T.Kind = TokenKindOperator ↔
        (encRunes a = lit "not" ∨ encRunes a = lit "in" ∨ encRunes a = lit "and" ∨
          encRunes a = lit "or")) ∧
      (T.Kind ≠ TokenKindOperator → T.Kind = TokenKindIdentifier) := by
  obtain ⟨toks, hlex, hkv⟩ := Lexer_word X a hw n
  obtain ⟨T, E, rfl, hT, hE⟩ := kv_two toks _ _ hkv
  simp only [Token.kv, Prod.mk.injEq] at hT hE
  refine ⟨T, E, hlex, hT.2, hE.1, hE.2, ?_, ?_⟩
  · rw [← keywords_contains, hT.1]
    by_cases hk : keywords.contains (encRunes a) = true
    · simp [hk]
    · simp [hk]
  · rw [hT.1]
    by_cases hk : keywords.contains (encRunes a) = true
    · simp [hk]
    · simp [hk]

theorem IsWord_var (X : Extern) : IsWord X [0x76, 0x61, 0x72] = true := by
  simp [IsWord, isSpace, IsSpace, validRune, isAlphaNumeric, IsLetter, latin1Letter]

theorem Lexer_keywords_40 (X : Extern) :
    Lexer X 40 (lit "var in [1, 2, 3, 4]") = some (Except.ok
      [⟨⟨1, 0⟩, TokenKindIdentifier, lit "var"⟩, ⟨⟨1, 4⟩, TokenKindOperator, lit "in"⟩,
       ⟨⟨1, 7⟩, TokenKindBracket, lit "["⟩, ⟨⟨1, 8⟩, TokenKindNumber, lit "1"⟩,
       ⟨⟨1, 9⟩, TokenKindOperator, lit ","⟩, ⟨⟨1, 11⟩, TokenKindNumber, lit "2"⟩,
       ⟨⟨1, 12⟩, TokenKindOperator, lit ","⟩, ⟨⟨1, 14⟩, TokenKindNumber, lit "3"⟩,
       ⟨⟨1, 15⟩, TokenKindOperator, lit ","⟩, ⟨⟨1, 17⟩, TokenKindNumber, lit "4"⟩,
       ⟨⟨1, 18⟩, TokenKindBracket, lit "]"⟩, ⟨⟨1, 18⟩, TokenKindEOF, []⟩]) := rfl

/-- The source `var in [1, 2, 3, 4]` of `TestLexerKeywords`: twelve tokens, the first an
Identifier and the second an Operator. -/
theorem Lexer_keywords (X : Extern) (n : Nat) :
    Lexer X (n + 40) (lit "var in [1, 2, 3, 4]") = some (Except.ok
      [⟨⟨1, 0⟩, TokenKindIdentifier, lit "var"⟩, ⟨⟨1, 4⟩, TokenKindOperator, lit "in"⟩,
       ⟨⟨1, 7⟩, TokenKindBracket, lit "["⟩, ⟨⟨1, 8⟩, TokenKindNumber, lit "1"⟩,
       ⟨⟨1, 9⟩, TokenKindOperator, lit ","⟩, ⟨⟨1, 11⟩, TokenKindNumber, lit "2"⟩,
       ⟨⟨1, 12⟩, TokenKindOperator, lit ","⟩, ⟨⟨1, 14⟩, TokenKindNumber, lit "3"⟩,
       ⟨⟨1, 15⟩, TokenKindOperator, lit ","⟩, ⟨⟨1, 17⟩, TokenKindNumber, lit "4"⟩,
       ⟨⟨1, 18⟩, TokenKindBracket, lit "]"⟩, ⟨⟨1, 18⟩, TokenKindEOF, []⟩]) :=
  Lexer_mono X _ 40 _ _ (by omega) (Lexer_keywords_40 X)

/-- Claim C13, witness: the words `var` (an Identifier) and `in` (an Operator) for every
`Extern`, and the twelve tokens of `var in [1, 2, 3, 4]`. -/
theorem C13_witness_var_in :
    (∀ (X : Extern) (n : Nat), ∃ T E,
      Lexer X (7 + n) (lit "var") = some (Except.ok [T, E]) ∧
      T.Value = lit "var" ∧ E.Kind = TokenKindEOF ∧ E.Value = [] ∧
      (T.Kind = TokenKindOperator ↔
        (lit "var" = lit "not" ∨ lit "var" = lit "in" ∨ lit "var" = lit "and" ∨
          lit "var" = lit "or")) ∧
      (T.Kind ≠ TokenKindOperator → T.Kind = TokenKindIdentifier)) ∧
    (∀ (X : Extern) (n : Nat), ∃ T E,
      Lexer X (6 + n) (lit "in") = some (Except.ok [T, E]) ∧
      T.Value = lit "in" ∧ E.Kind = TokenKindEOF ∧ E.Value = [] ∧
      (T.Kind = TokenKindOperator ↔
        (lit "in" = lit "not" ∨ lit "in" = lit "in" ∨ lit "in" = lit "and" ∨
          lit "in" = lit "or")) ∧
      (T.Kind ≠ TokenKindOperator → T.Kind = TokenKindIdentifier)) ∧
    (∀ (X : Extern) (n : Nat), ∃ rest,
      Lexer X (n + 40) (lit "var in [1, 2, 3, 4]") = some (Except.ok
        (⟨⟨1, 0⟩, TokenKindIdentifier, lit "var"⟩ :: ⟨⟨1, 4⟩, TokenKindOperator, lit "in"⟩ ::
          rest)) ∧ rest.length = 10) :=
  ⟨fun X n => C13_word_is_keyword_or_identifier X [0x76, 0x61, 0x72] (IsWord_var X) n,
   fun X n => C13_word_is_keyword_or_identifier X [0x69, 0x6E] (IsWord_in X) n,
   fun X n => ⟨_, Lexer_keywords X n, rfl⟩⟩


/-! ### Decimal numeric literals -/

theorem lexer.At_rest (l : lexer) (S : GoString) (kvs : List (Kind × GoString)) (s e : Nat)
    (h : l.At S kvs s e) : l.rest = S.drop e := by
  rw [lexer.rest, h.1, h.2.2.2.1]

theorem lexer.Ready_At (l : lexer) (S : GoString) (kvs : List (Kind × GoString)) (k : Nat)
    (h : l.Ready S k kvs) : l.At S kvs k k :=
  ⟨h.1, h.2.2.2.2, h.2.1, h.2.2.1, h.2.2.2.1⟩

theorem ContainsRune_byte (valid : GoString) (b : Nat) (hb : b < 0x80) :
    ContainsRune valid (b : Int) = valid.contains b := by
  unfold ContainsRune
  rw [if_pos (by omega), Int.toNat_ofNat]

/-- Reading an ASCII byte inside a token. -/
theorem lexer.nextAlpha_At (l : lexer) (S : GoString) (kvs : List (Kind × GoString))
    (s e : Nat) (c : Nat) (t : GoString) (h : l.At S kvs s e) (hS : S.drop e = c :: t)
    (hc : c < 0x80) :
    l.nextAlpha.1 = (c : Int) ∧ l.nextAlpha.2.At S kvs s (e + 1) ∧ l.nextAlpha.2.width = 1 := by
  have hrest : l.rest = c :: t := by rw [lexer.At_rest l S kvs s e h, hS]
  obtain ⟨h1, h2, h3, h4, h5, h6, h7, _⟩ := lexer.nextAlpha_byte l c t hc hrest
  obtain ⟨g1, g2, g3, g4, g5⟩ := h
  exact ⟨h1, ⟨h2.trans g1, by rw [h6, g2], h7.trans g3, by rw [h3, g4], h5.trans g5⟩, h4⟩

/-- The method `accept` before an ASCII byte, inside a token. -/
theorem lexer.accept_At (l : lexer) (valid : GoString) (S : GoString)
    (kvs : List (Kind × GoString)) (s e : Nat) (c : Nat) (t : GoString) (h : l.At S kvs s e)
    (hS : S.drop e = c :: t) (hc : c < 0x80) :
    (l.accept valid).1 = valid.contains c ∧
      (l.accept valid).2.At S kvs s (if valid.contains c then e + 1 else e) := by
  have hrest : l.rest = c :: t := by rw [lexer.At_rest l S kvs s e h, hS]
  rw [lexer.accept_byte l valid c t hc hrest, ContainsRune_byte valid c hc]
  by_cases hv : valid.contains c = true
  · rw [if_pos hv, if_pos hv]
    exact ⟨hv.symm, (lexer.nextAlpha_At l S kvs s e c t h hS hc).2.1⟩
  · rw [if_neg hv, if_neg hv]
    exact ⟨by simpa using hv, h⟩

/-- The method `accept` at the end of the source. -/
theorem lexer.accept_At_end (l : lexer) (valid : GoString) (S : GoString)
    (kvs : List (Kind × GoString)) (s e : Nat) (h : l.At S kvs s e) (hS : S.drop e = []) :
    (l.accept valid).1 = false ∧ (l.accept valid).2.At S kvs s e := by
  have hlen : l.end_ ≥ l.source.length := by
    have := lexer.rest_length l
    rw [lexer.At_rest l S kvs s e h, hS] at this
    simp only [List.length_nil] at this
    omega
  unfold lexer.accept lexer.peekAlpha
  rw [if_pos hlen]
  dsimp only
  have : ContainsRune valid eof = false := by
    unfold ContainsRune
    rw [if_neg (by simp only [eof]; omega)]
  rw [this]
  exact ⟨rfl, h⟩

/-- The loop of `accept` over a run of bytes of the alphabet, up to a byte outside it or the
end of the source. -/
theorem lexer.acceptRun_At (dig : GoString) (S : GoString) (kvs : List (Kind × GoString))
    (s : Nat) (tail : GoString)
    (htail : tail = [] ∨ ∃ c t, tail = c :: t ∧ c < 0x80 ∧ dig.contains c = false) :
    ∀ (run : GoString), (∀ b ∈ run, b < 0x80 ∧ dig.contains b = true) →
    ∀ (fuel : Nat) (l : lexer) (e : Nat), run.length + 1 ≤ fuel → l.At S kvs s e →
      S.drop e = run ++ tail →
      ∃ l', lexer.acceptRun dig fuel l = some l' ∧ l'.At S kvs s (e + run.length) := by
  intro run
  induction run with
  | nil =>
    intro _ fuel l e hf h hS
    obtain ⟨fuel, rfl⟩ : ∃ f, fuel = f + 1 := ⟨fuel - 1, by omega⟩
    rw [List.nil_append] at hS
    rw [lexer.acceptRun]
    rcases htail with rfl | ⟨c, t, rfl, hc, hn⟩
    · obtain ⟨a1, a2⟩ := lexer.accept_At_end l dig S kvs s e h hS
      rw [a1]
      exact ⟨_, rfl, a2⟩
    · obtain ⟨a1, a2⟩ := lexer.accept_At l dig S kvs s e c t h hS hc
      rw [hn] at a1 a2
      rw [a1]
      exact ⟨_, rfl, a2⟩
  | cons b run ih =>
    intro hall fuel l e hf h hS
    obtain ⟨fuel, rfl⟩ : ∃ f, fuel = f + 1 := ⟨fuel - 1, by simp at hf; omega⟩
    obtain ⟨hb, hin⟩ := hall b (List.mem_cons_self b run)
    rw [List.cons_append] at hS
    obtain ⟨a1, a2⟩ := lexer.accept_At l dig S kvs s e b _ h hS hb
    rw [hin] at a1 a2
    simp only [if_true] at a2
    obtain ⟨l', e1, e2⟩ := ih (fun x hx => hall x (List.mem_cons_of_mem b hx)) fuel
      (l.accept dig).2 (e + 1) (by simp at hf; omega) a2 (drop_pre S [b] _ e hS)
    refine ⟨l', ?_, ?_⟩
    · rw [lexer.acceptRun, a1]
      exact e1
    · rw [List.length_cons]
      have : e + (run.length + 1) = e + 1 + run.length := by omega
      rw [this]
      exact e2


theorem lit_decimal :
    lit "0123456789_" = [0x30, 0x31, 0x32, 0x33, 0x34, 0x35, 0x36, 0x37, 0x38, 0x39, 0x5F] := rfl
theorem lit_zero : lit "0" = [0x30] := rfl
theorem lit_hex : lit "xX" = [0x78, 0x58] := rfl
theorem lit_octal : lit "oO" = [0x6F, 0x4F] := rfl
theorem lit_binary : lit "bB" = [0x62, 0x42] := rfl
theorem lit_dot : lit "." = [0x2E] := rfl
theorem lit_digits : lit "0123456789" = [0x30, 0x31, 0x32, 0x33, 0x34, 0x35, 0x36, 0x37, 0x38, 0x39] :=
  rfl

theorem isDigitByte_iff (b : Nat) : isDigitByte b = true ↔ 0x30 ≤ b ∧ b ≤ 0x39 := by
  simp [isDigitByte]

theorem decimal_contains (b : Nat) (h : isDigitByte b = true ∨ b = 0x5F) :
    b < 0x80 ∧ (lit "0123456789_").contains b = true := by
  rw [isDigitByte_iff] at h
  refine ⟨by omega, ?_⟩
  rw [lit_decimal]
  simp only [List.contains_eq_any_beq, List.any_cons, List.any_nil, Bool.or_false,
    Bool.or_eq_true, beq_iff_eq]
  omega

theorem isDigitRun_contains (run : GoString) (h : isDigitRun run = true) :
    ∀ b ∈ run, b < 0x80 ∧ (lit "0123456789_").contains b = true := by
  intro b hb
  unfold isDigitRun at h
  rw [List.all_eq_true] at h
  have := h b hb
  simp only [Bool.or_eq_true, beq_iff_eq] at this
  exact decimal_contains b this

/-- A byte that can follow the first digit of a decimal literal (a digit, `_`, `.` or a
space) is none of the letters of the prefixes `0x`, `0o`, `0b`. -/
theorem prefix_letters (c : Nat)
    (h : isDigitByte c = true ∨ c = 0x5F ∨ c = 0x2E ∨ c = 0x20) :
    c < 0x80 ∧ (lit "xX").contains c = false ∧ (lit "oO").contains c = false ∧
      (lit "bB").contains c = false := by
  rw [isDigitByte_iff] at h
  refine ⟨by omega, ?_, ?_, ?_⟩
  · rw [lit_hex]
    simp only [List.contains_eq_any_beq, List.any_cons, List.any_nil, Bool.or_false,
      Bool.or_eq_false_iff, beq_eq_false_iff_ne, ne_eq]
    omega
  · rw [lit_octal]
    simp only [List.contains_eq_any_beq, List.any_cons, List.any_nil, Bool.or_false,
      Bool.or_eq_false_iff, beq_eq_false_iff_ne, ne_eq]
    omega
  · rw [lit_binary]
    simp only [List.contains_eq_any_beq, List.any_cons, List.any_nil, Bool.or_false,
      Bool.or_eq_false_iff, beq_eq_false_iff_ne, ne_eq]
    omega

/-- The method `accept` with an alphabet that the next byte, if there is one, is not in. -/
theorem lexer.accept_reject (l : lexer) (valid : GoString) (S : GoString)
    (kvs : List (Kind × GoString)) (s e : Nat) (rest : GoString) (h : l.At S kvs s e)
    (hS : S.drop e = rest)
    (hrest : rest = [] ∨ ∃ c t, rest = c :: t ∧ c < 0x80 ∧ valid.contains c = false) :
    (l.accept valid).1 = false ∧ (l.accept valid).2.At S kvs s e := by
  rcases hrest with rfl | ⟨c, t, rfl, hc, hn⟩
  · exact lexer.accept_At_end l valid S kvs s e h hS
  · have := lexer.accept_At l valid S kvs s e c t h hS hc
    rw [hn] at this
    exact this

/-- The prefix scan of `scanNumber` on a decimal literal: the alphabet stays the decimal
one, and a leading `0` is consumed. -/
theorem lexer.numberDigits_decimal (l : lexer) (S : GoString) (kvs : List (Kind × GoString))
    (s e : Nat) (d : Nat) (rest : GoString) (h : l.At S kvs s e) (hS : S.drop e = d :: rest)
    (hd : isDigitByte d = true)
    (hrest : rest = [] ∨ ∃ c t, rest = c :: t ∧
      (isDigitByte c = true ∨ c = 0x5F ∨ c = 0x2E ∨ c = 0x20)) :
    l.numberDigits.1 = lit "0123456789_" ∧
      l.numberDigits.2.At S kvs s (if d = 0x30 then e + 1 else e) := by
  have hd' := (isDigitByte_iff d).mp hd
  obtain ⟨a1, a2⟩ := lexer.accept_At l (lit "0") S kvs s e d rest h hS (by omega)
  have hz : (lit "0").contains d = decide (d = 0x30) := by
    rw [lit_zero]
    simp
  rw [hz] at a1 a2
  by_cases h0 : d = 0x30
  · simp only [h0, decide_True, if_true] at a1 a2 ⊢
    have hS1 : S.drop (e + 1) = rest := drop_pre S [d] rest e hS
    have hx : rest = [] ∨ ∃ c t, rest = c :: t ∧ c < 0x80 ∧ (lit "xX").contains c = false := by
      rcases hrest with rfl | ⟨c, t, rfl, hc⟩
      · exact Or.inl rfl
      · exact Or.inr ⟨c, t, rfl, (prefix_letters c hc).1, (prefix_letters c hc).2.1⟩
    have ho : rest = [] ∨ ∃ c t, rest = c :: t ∧ c < 0x80 ∧ (lit "oO").contains c = false := by
      rcases hrest with rfl | ⟨c, t, rfl, hc⟩
      · exact Or.inl rfl
      · exact Or.inr ⟨c, t, rfl, (prefix_letters c hc).1, (prefix_letters c hc).2.2.1⟩
    have hb : rest = [] ∨ ∃ c t, rest = c :: t ∧ c < 0x80 ∧ (lit "bB").contains c = false := by
      rcases hrest with rfl | ⟨c, t, rfl, hc⟩
      · exact Or.inl rfl
      · exact Or.inr ⟨c, t, rfl, (prefix_letters c hc).1, (prefix_letters c hc).2.2.2⟩
    obtain ⟨b1, b2⟩ := lexer.accept_reject _ (lit "xX") S kvs s (e + 1) rest a2 hS1 hx
    obtain ⟨c1, c2⟩ := lexer.accept_reject _ (lit "oO") S kvs s (e + 1) rest b2 hS1 ho
    obtain ⟨d1, d2⟩ := lexer.accept_reject _ (lit "bB") S kvs s (e + 1) rest c2 hS1 hb
    unfold lexer.numberDigits
    simp only [a1, b1, c1, d1, if_true, Bool.false_eq_true, if_false, true_and]
    exact d2
  · simp only [h0, decide_False, Bool.false_eq_true, if_false] at a1 a2 ⊢
    unfold lexer.numberDigits
    simp only [a1, Bool.false_eq_true, if_false, true_and]
    exact a2


theorem decimal_stop (c : Nat) (h : c = 0x2E ∨ c = 0x20) :
    c < 0x80 ∧ (lit "0123456789_").contains c = false := by
  refine ⟨by omega, ?_⟩
  rw [lit_decimal]
  simp only [List.contains_eq_any_beq, List.any_cons, List.any_nil, Bool.or_false,
    Bool.or_eq_false_iff, beq_eq_false_iff_ne, ne_eq]
  omega

theorem isDigitRun_head (b : Nat) (run : GoString) (h : isDigitRun (b :: run) = true) :
    (isDigitByte b = true ∨ b = 0x5F) ∧ isDigitRun run = true := by
  unfold isDigitRun at h ⊢
  simpa using h

/-- The loop of `accept` over the digits of a decimal literal, from the state that the
prefix scan leaves: after it the lexer stands behind the first run. -/
theorem lexer.acceptRun_first (S : GoString) (kvs : List (Kind × GoString)) (s : Nat)
    (d : Nat) (run tail : GoString) (hd : isDigitByte d = true) (hrun : isDigitRun run = true)
    (htail : tail = [] ∨ ∃ c t, tail = c :: t ∧ (c = 0x2E ∨ c = 0x20))
    (fuel : Nat) (l : lexer) (e : Nat) (hf : run.length + 2 ≤ fuel) (h : l.At S kvs s e)
    (hS : S.drop e = d :: run ++ tail) :
    ∃ l', lexer.acceptRun l.numberDigits.1 fuel l.numberDigits.2 = some l' ∧
      l'.At S kvs s (e + 1 + run.length) := by
  have hstop : tail = [] ∨ ∃ c t, tail = c :: t ∧ c < 0x80 ∧
      (lit "0123456789_").contains c = false := by
    rcases htail with rfl | ⟨c, t, rfl, hc⟩
    · exact Or.inl rfl
    · exact Or.inr ⟨c, t, rfl, decimal_stop c hc⟩
  have hrest : run ++ tail = [] ∨ ∃ c t, run ++ tail = c :: t ∧
      (isDigitByte c = true ∨ c = 0x5F ∨ c = 0x2E ∨ c = 0x20) := by
    cases run with
    | nil =>
      rcases htail with rfl | ⟨c, t, rfl, hc⟩
      · exact Or.inl rfl
      · exact Or.inr ⟨c, t, rfl, by omega⟩
    | cons b run' =>
      have := (isDigitRun_head b run' hrun).1
      exact Or.inr ⟨b, run' ++ tail, rfl,
        this.elim (fun x => Or.inl x) (fun x => Or.inr (Or.inl x))⟩
  obtain ⟨q1, q2⟩ := lexer.numberDigits_decimal l S kvs s e d (run ++ tail) h hS hd hrest
  rw [q1]
  by_cases h0 : d = 0x30
  · rw [if_pos h0] at q2
    exact lexer.acceptRun_At (lit "0123456789_") S kvs s tail hstop run
      (isDigitRun_contains run hrun) fuel _ (e + 1) (by omega) q2
      (drop_pre S [d] (run ++ tail) e hS)
  · rw [if_neg h0] at q2
    obtain ⟨l', e1, e2⟩ := lexer.acceptRun_At (lit "0123456789_") S kvs s tail hstop (d :: run)
      (by
        intro b hb
        rcases List.mem_cons.mp hb with rfl | hb
        · exact decimal_contains b (Or.inl hd)
        · exact isDigitRun_contains run hrun b hb)
      fuel _ e (by simp only [List.length_cons]; omega) q2 hS
    refine ⟨l', e1, ?_⟩
    rw [List.length_cons] at e2
    have : e + 1 + run.length = e + (run.length + 1) := by omega
    rw [this]
    exact e2

/-- The method `scanNumber` on a decimal literal without a fraction, up to a space or the
end of the source. -/
theorem lexer.scanNumber_whole (S : GoString) (kvs : List (Kind × GoString)) (s : Nat)
    (d : Nat) (run tail : GoString) (hd : isDigitByte d = true) (hrun : isDigitRun run = true)
    (htail : tail = [] ∨ ∃ t, tail = 0x20 :: t)
    (fuel : Nat) (l : lexer) (e : Nat) (hf : run.length + 2 ≤ fuel) (h : l.At S kvs s e)
    (hS : S.drop e = d :: run ++ tail) :
    ∃ l', l.scanNumber fuel = some (true, l') ∧ l'.At S kvs s (e + (d :: run).length) := by
  obtain ⟨l1, e1, e2⟩ := lexer.acceptRun_first S kvs s d run tail hd hrun
    (by
      rcases htail with rfl | ⟨t, rfl⟩
      · exact Or.inl rfl
      · exact Or.inr ⟨0x20, t, rfl, Or.inr rfl⟩)
    fuel l e hf h hS
  have hS1 : S.drop (e + 1 + run.length) = tail := by
    have := drop_pre S (d :: run) tail e hS
    rw [List.length_cons] at this
    have h2 : e + 1 + run.length = e + (run.length + 1) := by omega
    rw [h2]
    exact this
  obtain ⟨p1, p2⟩ := lexer.accept_reject l1 (lit ".") S kvs s _ tail e2 hS1
    (by
      rcases htail with rfl | ⟨t, rfl⟩
      · exact Or.inl rfl
      · exact Or.inr ⟨0x20, t, rfl, by omega, by rw [lit_dot]; rfl⟩)
  refine ⟨(l1.accept (lit ".")).2, ?_, ?_⟩
  · unfold lexer.scanNumber
    dsimp only
    rw [e1]
    dsimp only
    rw [p1]
    rfl
  · rw [List.length_cons]
    have h2 : e + (run.length + 1) = e + 1 + run.length := by omega
    rw [h2]
    exact p2

/-- The method `scanNumber` on a decimal literal with a fraction, up to a space or the end
of the source. -/
theorem lexer.scanNumber_fraction (S : GoString) (kvs : List (Kind × GoString)) (s : Nat)
    (d : Nat) (run run2 tail : GoString) (hd : isDigitByte d = true)
    (hrun : isDigitRun run = true) (hrun2 : isDigitRun run2 = true)
    (htail : tail = [] ∨ ∃ t, tail = 0x20 :: t)
    (fuel : Nat) (l : lexer) (e : Nat) (hf : run.length + run2.length + 2 ≤ fuel)
    (h : l.At S kvs s e) (hS : S.drop e = d :: run ++ 0x2E :: run2 ++ tail) :
    ∃ l', l.scanNumber fuel = some (true, l') ∧
      l'.At S kvs s (e + (d :: run ++ 0x2E :: run2).length) := by
  have hS' : S.drop e = d :: run ++ (0x2E :: run2 ++ tail) := by
    rw [hS, List.append_assoc]
  obtain ⟨l1, e1, e2⟩ := lexer.acceptRun_first S kvs s d run (0x2E :: run2 ++ tail) hd hrun
    (Or.inr ⟨0x2E, run2 ++ tail, rfl, Or.inl rfl⟩) fuel l e (by omega) h hS'
  have hS1 : S.drop (e + 1 + run.length) = 0x2E :: run2 ++ tail := by
    have := drop_pre S (d :: run) (0x2E :: run2 ++ tail) e hS'
    rw [List.length_cons] at this
    have h2 : e + 1 + run.length = e + (run.length + 1) := by omega
    rw [h2]
    exact this
  obtain ⟨p1, p2⟩ := lexer.accept_At l1 (lit ".") S kvs s _ 0x2E (run2 ++ tail) e2 hS1
    (by omega)
  have hdot : (lit ".").contains 0x2E = true := by rw [lit_dot]; rfl
  rw [hdot] at p1 p2
  rw [if_pos rfl] at p2
  have hstop : tail = [] ∨ ∃ c t, tail = c :: t ∧ c < 0x80 ∧
      (lit "0123456789_").contains c = false := by
    rcases htail with rfl | ⟨t, rfl⟩
    · exact Or.inl rfl
    · exact Or.inr ⟨0x20, t, rfl, decimal_stop 0x20 (Or.inr rfl)⟩
  have hq := (lexer.numberDigits_decimal l S kvs s e d (run ++ (0x2E :: run2 ++ tail)) h hS' hd
    (by
      cases run with
      | nil => exact Or.inr ⟨0x2E, run2 ++ tail, rfl, by omega⟩
      | cons b run' =>
        have := (isDigitRun_head b run' hrun).1
        exact Or.inr ⟨b, run' ++ (0x2E :: run2 ++ tail), rfl,
          this.elim (fun x => Or.inl x) (fun x => Or.inr (Or.inl x))⟩)).1
  obtain ⟨l2, f1, f2⟩ := lexer.acceptRun_At (lit "0123456789_") S kvs s tail hstop run2
    (isDigitRun_contains run2 hrun2) fuel _ _ (by omega) p2
    (drop_pre S [0x2E] (run2 ++ tail) _ hS1)
  refine ⟨l2, ?_, ?_⟩
  · unfold lexer.scanNumber
    dsimp only
    rw [e1]
    dsimp only
    rw [p1, hq, f1]
    rfl
  · have h2 : e + (d :: run ++ 0x2E :: run2).length = e + 1 + run.length + 1 + run2.length := by
      simp only [List.length_cons, List.length_append]
      omega
    rw [h2]
    exact f2


/-- The state `numberState` after a scan that leaves the lexer at byte `e'`: it emits the
bytes from `s` to `e'` as a Number token. -/
theorem lexer.numberState_At (S : GoString) (kvs : List (Kind × GoString)) (s e' : Nat)
    (fuel : Nat) (l l' : lexer) (hscan : l.scanNumber fuel = some (true, l'))
    (h' : l'.At S kvs s e') (w : GoString) (hw : (S.drop s).take (e' - s) = w) :
    ∃ l'', l.numberState fuel = some (some lexerStateFunc.rootState, l'') ∧
      l''.Ready S e' (kvs ++ [(TokenKindNumber, w)]) := by
  obtain ⟨g1, g2, g3, g4, g5⟩ := h'
  have hword : l'.word = w := by
    rw [lexer.word, g1, g3, g4]
    exact hw
  refine ⟨l'.product TokenKindNumber l'.word, ?_, ?_, ?_, ?_, ?_, ?_⟩
  · unfold lexer.numberState
    rw [hscan]
    rfl
  · simp only [lexer.product, g1]
  · simp only [lexer.product, g4]
  · simp only [lexer.product, g4]
  · simp only [lexer.product, g5]
  · simp only [lexer.product, hword, List.map_append, List.map_cons, List.map_nil, Token.kv, g2]

theorem isSpace_digit (X : Extern) (d : Nat) (hd : isDigitByte d = true) :
    isSpace X (d : Int) = false := by
  rw [isDigitByte_iff] at hd
  have c1 : 0 ≤ (d : Int) ∧ (d : Int) ≤ 0xFF := by omega
  simp only [isSpace, IsSpace, if_pos c1, Bool.or_eq_false_iff, beq_eq_false_iff_ne, ne_eq]
  omega

/-- The state `rootState` on a digit: it steps back and hands over to `numberState`. -/
theorem lexer.rootState_digit (X : Extern) (S : GoString) (kvs : List (Kind × GoString))
    (k : Nat) (d : Nat) (rest : GoString) (fuel : Nat) (l : lexer) (hl : l.Ready S k kvs)
    (hS : S.drop k = d :: rest) (hd : isDigitByte d = true) :
    ∃ l1, l.rootState X fuel = some (some lexerStateFunc.numberState, l1) ∧ l1.At S kvs k k := by
  have hd' := (isDigitByte_iff d).mp hd
  obtain ⟨a1, ⟨g1, g2, g3, g4, g5⟩, a3⟩ :=
    lexer.nextAlpha_At l S kvs k k d rest (lexer.Ready_At l S kvs k hl) hS (by omega)
  refine ⟨l.nextAlpha.2.prevAlpha, ?_, ?_, ?_, ?_, ?_, ?_⟩
  · unfold lexer.rootState
    dsimp only
    rw [a1, if_neg (by simp only [eof]; omega), isSpace_digit X d hd]
    simp only [Bool.false_eq_true, if_false]
    rw [if_neg (by omega), if_pos (by omega)]
  · simp only [lexer.prevAlpha, g1]
  · simp only [lexer.prevAlpha, g2]
  · simp only [lexer.prevAlpha, g3]
  · simp only [lexer.prevAlpha, g4, a3]
    omega
  · simp only [lexer.prevAlpha, g5]

/-- The state `rootState` on a `.`: it steps back and hands over to `dotState`. -/
theorem lexer.rootState_dot (X : Extern) (S : GoString) (kvs : List (Kind × GoString))
    (k : Nat) (rest : GoString) (fuel : Nat) (l : lexer) (hl : l.Ready S k kvs)
    (hS : S.drop k = 0x2E :: rest) :
    ∃ l1, l.rootState X fuel = some (some lexerStateFunc.dotState, l1) ∧ l1.At S kvs k k := by
  obtain ⟨a1, ⟨g1, g2, g3, g4, g5⟩, a3⟩ :=
    lexer.nextAlpha_At l S kvs k k 0x2E rest (lexer.Ready_At l S kvs k hl) hS (by omega)
  refine ⟨l.nextAlpha.2.prevAlpha, ?_, ?_, ?_, ?_, ?_, ?_⟩
  · unfold lexer.rootState
    dsimp only
    rw [a1]
    simp [eof, isSpace, IsSpace, ContainsRune, lit_open, lit_close, lit_single, lit_double]
  · simp only [lexer.prevAlpha, g1]
  · simp only [lexer.prevAlpha, g2]
  · simp only [lexer.prevAlpha, g3]
  · simp only [lexer.prevAlpha, g4, a3]
    omega
  · simp only [lexer.prevAlpha, g5]

/-- The state `dotState` on a `.` that a digit follows: it reads the `.` and hands over to
`numberState`. -/
theorem lexer.dotState_digit (S : GoString) (kvs : List (Kind × GoString)) (k : Nat)
    (d : Nat) (rest : GoString) (l : lexer) (hl : l.At S kvs k k)
    (hS : S.drop k = 0x2E :: d :: rest) (hd : isDigitByte d = true) :
    ∃ l1, l.dotState = (some lexerStateFunc.numberState, l1) ∧ l1.At S kvs k (k + 1) := by
  have hd' := (isDigitByte_iff d).mp hd
  obtain ⟨a1, a2, a3⟩ := lexer.nextAlpha_At l S kvs k k 0x2E (d :: rest) hl hS (by omega)
  have hS1 : S.drop (k + 1) = d :: rest := drop_pre S [0x2E] (d :: rest) k hS
  have hrest : l.nextAlpha.2.rest = d :: rest := by
    rw [lexer.At_rest _ S kvs k (k + 1) a2, hS1]
  have hlen : ¬ (l.nextAlpha.2.end_ ≥ l.nextAlpha.2.source.length) := by
    have := lexer.rest_length l.nextAlpha.2
    rw [hrest] at this
    simp only [List.length_cons] at this
    omega
  have hdec : DecodeRuneInString (l.nextAlpha.2.source.drop l.nextAlpha.2.end_) = ((d : Int), 1) := by
    have : l.nextAlpha.2.source.drop l.nextAlpha.2.end_ = d :: rest := hrest
    rw [this, Decode_ascii d rest (by omega)]
  have hc : ContainsRune (lit "0123456789") (d : Int) = true := by
    rw [ContainsRune_byte _ d (by omega), lit_digits]
    simp only [List.contains_eq_any_beq, List.any_cons, List.any_nil, Bool.or_false,
      Bool.or_eq_true, beq_iff_eq]
    omega
  refine ⟨l.nextAlpha.2, ?_, a2⟩
  unfold lexer.dotState lexer.peekAlpha
  simp only [if_neg hlen, hdec, hc, if_true]


theorem take_literal (S w tail : GoString) (k e : Nat) (hS : S.drop k = w ++ tail)
    (he : e = k + w.length) : (S.drop k).take (e - k) = w := by
  rw [hS, he, Nat.add_sub_cancel_left]
  exact List.take_left _ _

/-- One digit-led decimal literal of the source: two rounds of the lexer loop (`rootState`,
then `numberState`) emit it as one Number token. -/
theorem lexerLoop_digits (X : Extern) (S : GoString) (k : Nat) (kvs : List (Kind × GoString))
    (d : Nat) (body w tail : GoString) (hd : isDigitByte d = true) (hw : w = d :: body)
    (l : lexer) (hl : l.Ready S k kvs) (hS : S.drop k = w ++ tail) (n : Nat)
    (hscan : ∀ l1 : lexer, l1.At S kvs k k →
      ∃ l', l1.scanNumber n = some (true, l') ∧ l'.At S kvs k (k + w.length)) :
    ∃ l', l'.Ready S (k + w.length) (kvs ++ [(TokenKindNumber, w)]) ∧
      lexerLoop X (n + 2) (some lexerStateFunc.rootState) l =
        lexerLoop X n (some lexerStateFunc.rootState) l' := by
  have hS0 : S.drop k = d :: (body ++ tail) := by rw [hS, hw]; rfl
  obtain ⟨l1, r1, a1⟩ := lexer.rootState_digit X S kvs k d (body ++ tail) (n + 1) l hl hS0 hd
  obtain ⟨l2, s2, a2⟩ := hscan l1 a1
  obtain ⟨l3, s3, a3⟩ := lexer.numberState_At S kvs k (k + w.length) n l1 l2 s2 a2 w
    (take_literal S w tail k _ hS rfl)
  refine ⟨l3, a3, ?_⟩
  rw [lexerLoop_succ X (n + 1) _ l hl.2.2.2.1]
  simp only [lexerStateFunc.call, r1, Option.bind]
  rw [lexerLoop_succ X n _ l1 a1.2.2.2.2]
  simp only [lexerStateFunc.call, s3, Option.bind]

/-- One decimal literal of the source, before a space or the end: at most three rounds of
the lexer loop emit it as one Number token whose value is the text of the literal. -/
theorem lexerLoop_number (X : Extern) (S : GoString) (k : Nat) (kvs : List (Kind × GoString))
    (w tail : GoString) (hw : DecimalLiteral w) (htail : tail = [] ∨ ∃ t, tail = 0x20 :: t)
    (l : lexer) (hl : l.Ready S k kvs) (hS : S.drop k = w ++ tail) (n : Nat)
    (hn : w.length + 2 ≤ n) :
    ∃ l', l'.Ready S (k + w.length) (kvs ++ [(TokenKindNumber, w)]) ∧
      ∀ r, lexerLoop X n (some lexerStateFunc.rootState) l' = some r →
        lexerLoop X (n + 3) (some lexerStateFunc.rootState) l = some r := by
  cases hw with
  | whole d run hd hrun =>
    obtain ⟨l', r', s'⟩ := lexerLoop_digits X S k kvs d run (d :: run) tail hd rfl l hl hS n
      (fun l1 a1 => lexer.scanNumber_whole S kvs k d run tail hd hrun htail n l1 k
        (by simp only [List.length_cons] at hn; omega) a1 hS)
    exact ⟨l', r', fun r hr => lexerLoop_step X (n + 2) _ l r (s'.trans hr)⟩
  | fraction d run run2 hd hrun hrun2 =>
    obtain ⟨l', r', s'⟩ := lexerLoop_digits X S k kvs d (run ++ 0x2E :: run2)
      (d :: run ++ 0x2E :: run2) tail hd rfl l hl hS n
      (fun l1 a1 => lexer.scanNumber_fraction S kvs k d run run2 tail hd hrun hrun2 htail n l1 k
        (by simp only [List.length_cons, List.length_append] at hn; omega) a1 hS)
    exact ⟨l', r', fun r hr => lexerLoop_step X (n + 2) _ l r (s'.trans hr)⟩
  | leadingDot d run hd hrun =>
    have hS0 : S.drop k = 0x2E :: d :: (run ++ tail) := hS
    obtain ⟨l1, r1, a1⟩ := lexer.rootState_dot X S kvs k (d :: (run ++ tail)) (n + 2) l hl hS0
    obtain ⟨l2, r2, a2⟩ := lexer.dotState_digit S kvs k d (run ++ tail) l1 a1 hS0 hd
    have hS1 : S.drop (k + 1) = d :: run ++ tail := drop_pre S [0x2E] _ k hS0
    obtain ⟨l3, s3, a3⟩ := lexer.scanNumber_whole S kvs k d run tail hd hrun htail n l2 (k + 1)
      (by simp only [List.length_cons] at hn; omega) a2 hS1
    have he : k + 1 + (d :: run).length = k + (0x2E :: d :: run).length := by
      simp only [List.length_cons]
      omega
    rw [he] at a3
    obtain ⟨l4, s4, a4⟩ := lexer.numberState_At S kvs k _ n l2 l3 s3 a3 (0x2E :: d :: run)
      (take_literal S _ tail k _ hS rfl)
    refine ⟨l4, a4, ?_⟩
    intro r hr
    rw [lexerLoop_succ X (n + 2) _ l hl.2.2.2.1]
    simp only [lexerStateFunc.call, r1, Option.bind]
    rw [lexerLoop_succ X (n + 1) _ l1 a1.2.2.2.2]
    simp only [lexerStateFunc.call, r2, Option.bind]
    rw [lexerLoop_succ X n _ l2 a2.2.2.2.2]
    simp only [lexerStateFunc.call, s4, Option.bind]
    exact hr

/-- Claim C12. For every source that is one decimal numeric literal (a digit and a run of
digits and `_`, with or without a `.` and a further run of digits and `_` after it; or a `.`,
a digit and a run of digits and `_`), `Lexer` returns without an error exactly two tokens,
for every fuel from the length of the source plus seven on: a Number token whose value is the
source text as it is, and the EOF token. -/
theorem C12_decimal_literal_is_one_number (X : Extern) (w : GoString)
    (hw : DecimalLiteral w) (n : Nat) :
    ∃ T E, Lexer X (w.length + 7 + n) w = some (Except.ok [T, E]) ∧
      T.Kind = TokenKindNumber ∧ T.Value = w ∧ E.Kind = TokenKindEOF ∧ E.Value = [] := by
  have d0 : w.drop 0 = w ++ [] := by simp
  have d1 := drop_pre w _ _ 0 d0
  obtain ⟨l1, r1, s1⟩ := lexerLoop_number X w 0 [] w [] hw (Or.inl rfl) _
    (lexer.Ready_initial w) d0 (w.length + n + 2 + 2) (by omega)
  obtain ⟨lf, sf, ef, tf⟩ := lexerLoop_eof X w _ _ l1 r1 d1 (w.length + n + 2)
  have hfuel : w.length + 7 + n = w.length + n + 2 + 2 + 3 := by omega
  have hlex := Lexer_of_loop X w _ lf (s1 lf sf) ef
  rw [← hfuel] at hlex
  obtain ⟨T, E, hte, hT, hE⟩ := kv_two lf.tokens _ _ tf
  simp only [Token.kv, Prod.mk.injEq] at hT hE
  rw [hte] at hlex
  exact ⟨T, E, hlex, hT.1, hT.2, hE.1, hE.2⟩


set_option maxRecDepth 4000 in
/-- Claim C12, witness: the literals `123.45_6` and `.12345_6` of the tests, and `0_.5`
(a leading zero, a separator, a fraction). -/
theorem C12_witness_test_literals :
    (∀ (X : Extern) (n : Nat), ∃ T E,
      Lexer X ((lit "123.45_6").length + 7 + n) (lit "123.45_6") = some (Except.ok [T, E]) ∧
      T.Kind = TokenKindNumber ∧ T.Value = lit "123.45_6" ∧ E.Kind = TokenKindEOF ∧
      E.Value = []) ∧
    (∀ (X : Extern) (n : Nat), ∃ T E,
      Lexer X ((lit ".12345_6").length + 7 + n) (lit ".12345_6") = some (Except.ok [T, E]) ∧
      T.Kind = TokenKindNumber ∧ T.Value = lit ".12345_6" ∧ E.Kind = TokenKindEOF ∧
      E.Value = []) ∧
    (∀ (X : Extern) (n : Nat), ∃ T E,
      Lexer X ((lit "0_.5").length + 7 + n) (lit "0_.5") = some (Except.ok [T, E]) ∧
      T.Kind = TokenKindNumber ∧ T.Value = lit "0_.5" ∧ E.Kind = TokenKindEOF ∧
      E.Value = []) :=
  ⟨fun X n => C12_decimal_literal_is_one_number X (lit "123.45_6")
      (DecimalLiteral.fraction 0x31 [0x32, 0x33] [0x34, 0x35, 0x5F, 0x36] rfl rfl rfl) n,
   fun X n => C12_decimal_literal_is_one_number X (lit ".12345_6")
      (DecimalLiteral.leadingDot 0x31 [0x32, 0x33, 0x34, 0x35, 0x5F, 0x36] rfl rfl) n,
   fun X n => C12_decimal_literal_is_one_number X (lit "0_.5")
      (DecimalLiteral.fraction 0x30 [0x5F] [0x35] rfl rfl rfl) n⟩

/-! ### The end marker -/

theorem lexer.peekAlpha_tokens (l : lexer) : l.peekAlpha.2.2.tokens = l.tokens := by
  unfold lexer.peekAlpha
  split_ifs <;> rfl

theorem lexer.nextAlpha_tokens (l : lexer) : l.nextAlpha.2.tokens = l.tokens := by
  by_cases h : l.rest = []
  · rw [lexer.nextAlpha_nil l h]
  · exact (lexer.nextAlpha_cons l h).2.2.2.2.2.1

theorem lexer.accept_tokens (l : lexer) (valid : GoString) :
    (l.accept valid).2.tokens = l.tokens := by
  unfold lexer.accept
  dsimp only
  split_ifs
  · rw [lexer.nextAlpha_tokens, lexer.peekAlpha_tokens]
  · exact lexer.peekAlpha_tokens l

theorem lexer.acceptRun_tokens (dig : GoString) :
    ∀ (fuel : Nat) (l l' : lexer), lexer.acceptRun dig fuel l = some l' →
      l'.tokens = l.tokens := by
  intro fuel
  induction fuel with
  | zero => intro l l' h; simp [lexer.acceptRun] at h
  | succ fuel ih =>
    intro l l' h
    rw [lexer.acceptRun] at h
    split_ifs at h
    · rw [ih _ _ h, lexer.accept_tokens]
    · simp only [Option.some.injEq] at h
      rw [← h, lexer.accept_tokens]

theorem lexer.numberDigits_tokens (l : lexer) : l.numberDigits.2.tokens = l.tokens := by
  unfold lexer.numberDigits
  dsimp only
  split_ifs <;> simp only [lexer.accept_tokens]

theorem lexer.scanNumber_tokens (fuel : Nat) (l : lexer) (r : Bool × lexer)
    (h : l.scanNumber fuel = some r) : r.2.tokens = l.tokens := by
  unfold lexer.scanNumber at h
  dsimp only at h
  split at h
  · exact absurd h (by simp)
  · rename_i l1 h1
    have t1 := lexer.acceptRun_tokens _ _ _ _ h1
    split_ifs at h
    · split at h
      · exact absurd h (by simp)
      · rename_i l2 h2
        have t2 := lexer.acceptRun_tokens _ _ _ _ h2
        simp only [Option.some.injEq] at h
        rw [← h]
        dsimp only
        rw [t2, lexer.accept_tokens, t1, lexer.numberDigits_tokens]
    · simp only [Option.some.injEq] at h
      rw [← h]
      dsimp only
      rw [lexer.accept_tokens, t1, lexer.numberDigits_tokens]

theorem lexer.scanEscape_tokens (l : lexer) (quote : Int) :
    (l.scanEscape quote).2.tokens = l.tokens := by
  rcases lexer.scanEscape_cases l quote with h | h
  · rw [h, lexer.nextAlpha_tokens, lexer.nextAlpha_tokens]
  · rw [h]
    exact lexer.nextAlpha_tokens l

theorem lexer.scanStringLoop_tokens (quote : Int) :
    ∀ (fuel : Nat) (alpha : Int) (l l' : lexer),
      lexer.scanStringLoop quote fuel alpha l = some l' → l'.tokens = l.tokens := by
  intro fuel
  induction fuel with
  | zero => intro alpha l l' h; simp [lexer.scanStringLoop] at h
  | succ fuel ih =>
    intro alpha l l' h
    rw [lexer.scanStringLoop_succ] at h
    split_ifs at h
    · simp only [Option.some.injEq] at h
      rw [← h]
    · simp only [Option.some.injEq] at h
      rw [← h]
    · rw [ih _ _ _ h, lexer.scanEscape_tokens]
    · rw [ih _ _ _ h, lexer.nextAlpha_tokens]

theorem lexer.product_tokens (l : lexer) (kind : Kind) (word : GoString) :
    (l.product kind word).tokens = l.tokens ++ [⟨l.startPos, kind, word⟩] := rfl

theorem lexer.product_err (l : lexer) (kind : Kind) (word : GoString) :
    (l.product kind word).err = l.err := rfl

theorem lexer.NoEOF_of_tokens (l l' : lexer) (h : l'.tokens = l.tokens) (hl : l.NoEOF) :
    l'.NoEOF := by
  unfold lexer.NoEOF
  rw [h]
  exact hl

theorem lexer.NoEOF_product (l l' : lexer) (kind : Kind) (word : GoString)
    (h : l'.tokens = l.tokens) (hk : kind ≠ TokenKindEOF) (hl : l.NoEOF) :
    (l'.product kind word).NoEOF := by
  unfold lexer.NoEOF
  rw [lexer.product_tokens, h]
  intro t ht
  rcases List.mem_append.mp ht with ht | ht
  · exact hl t ht
  · simp only [List.mem_singleton] at ht
    rw [ht]
    exact hk

theorem identifierLoop_NoEOF (X : Extern) :
    ∀ (fuel : Nat) (l l' : lexer), identifierLoop X fuel l = some l' → l.NoEOF → l'.NoEOF := by
  intro fuel
  induction fuel with
  | zero => intro l l' h; simp [identifierLoop] at h
  | succ fuel ih =>
    intro l l' h hl
    rw [identifierLoop] at h
    dsimp only at h
    split_ifs at h
    · exact ih _ _ h (lexer.NoEOF_of_tokens l _ (lexer.nextAlpha_tokens l) hl)
    · simp only [Option.some.injEq] at h
      rw [← h]
      exact lexer.NoEOF_product l _ _ _ (lexer.nextAlpha_tokens l) (by decide) hl
    · simp only [Option.some.injEq] at h
      rw [← h]
      exact lexer.NoEOF_product l _ _ _ (lexer.nextAlpha_tokens l) (by decide) hl


theorem lexer.rootString_NoEOF (fuel : Nat) (l l' : lexer) (alpha : Int)
    (h : l.rootString fuel alpha = some l') (hl : l.NoEOF) : l'.NoEOF := by
  unfold lexer.rootString at h
  split at h
  · exact absurd h (by simp)
  · rename_i l1 h1
    have t1 : l1.tokens = l.tokens := by
      unfold lexer.scanString at h1
      rw [lexer.scanStringLoop_tokens _ _ _ _ _ h1, lexer.nextAlpha_tokens]
    split at h
    · exact absurd h (by simp)
    · rename_i r hr
      simp only [Option.some.injEq] at h
      rw [← h]
      apply lexer.NoEOF_product l _ _ _ _ (by decide) hl
      split
      · exact t1
      · exact t1

/-- What a state function leaves behind: it returns the nil state only with an error set or
after the end marker, with an empty value, has been emitted as the last token; with every
other state no end marker has been emitted. -/
theorem lexer.rootState_NoEOF (X : Extern) (fuel : Nat) (l : lexer)
    (r : Option lexerStateFunc × lexer) (h : l.rootState X fuel = some r) (hl : l.NoEOF) :
    (r.1 = none ∧ ∃ t, r.2.tokens = l.tokens ++ [t] ∧ t.Kind = TokenKindEOF ∧ t.Value = []) ∨
    (r.1 ≠ none ∧ r.2.NoEOF) := by
  have hn := lexer.nextAlpha_tokens l
  unfold lexer.rootState at h
  generalize l.nextAlpha = p at h hn
  dsimp only at h
  by_cases h1 : p.1 = eof
  · rw [if_pos h1] at h
    simp only [Option.some.injEq] at h
    rw [← h]
    refine Or.inl ⟨rfl, ⟨p.2.prevPos, TokenKindEOF, []⟩, ?_, rfl, rfl⟩
    show p.2.tokens ++ _ = l.tokens ++ _
    rw [hn]
  rw [if_neg h1] at h
  by_cases h2 : isSpace X p.1 = true
  · rw [if_pos h2] at h
    simp only [Option.some.injEq] at h
    rw [← h]
    exact Or.inr ⟨by simp, lexer.NoEOF_of_tokens l p.2.ignore hn hl⟩
  rw [if_neg h2] at h
  by_cases h3 : p.1 = 0x27 ∨ p.1 = 0x22
  · rw [if_pos h3] at h
    split at h
    · exact absurd h (by simp)
    · rename_i l1 h4
      simp only [Option.some.injEq] at h
      rw [← h]
      exact Or.inr ⟨by simp, lexer.rootString_NoEOF fuel _ l1 _ h4
        (lexer.NoEOF_of_tokens l _ hn hl)⟩
  rw [if_neg h3] at h
  by_cases h4 : 0x30 ≤ p.1 ∧ p.1 ≤ 0x39
  · rw [if_pos h4] at h
    simp only [Option.some.injEq] at h
    rw [← h]
    exact Or.inr ⟨by simp, lexer.NoEOF_of_tokens l p.2.prevAlpha hn hl⟩
  rw [if_neg h4] at h
  by_cases h5 : ContainsRune (lit "([\x7b") p.1 = true
  · rw [if_pos h5] at h
    simp only [Option.some.injEq] at h
    rw [← h]
    exact Or.inr ⟨by simp, lexer.NoEOF_product l _ _ _ hn (by decide) hl⟩
  rw [if_neg h5] at h
  by_cases h6 : ContainsRune (lit ")]\x7d") p.1 = true
  · rw [if_pos h6] at h
    simp only [Option.some.injEq] at h
    rw [← h]
    exact Or.inr ⟨by simp, lexer.NoEOF_product l _ _ _ hn (by decide) hl⟩
  rw [if_neg h6] at h
  by_cases h7 : ContainsRune (lit "?:%,+-*/^") p.1 = true
  · rw [if_pos h7] at h
    simp only [Option.some.injEq] at h
    rw [← h]
    exact Or.inr ⟨by simp, lexer.NoEOF_product l _ _ _ hn (by decide) hl⟩
  rw [if_neg h7] at h
  by_cases h8 : ContainsRune (lit "&|!=<>") p.1 = true
  · rw [if_pos h8] at h
    simp only [Option.some.injEq] at h
    rw [← h]
    exact Or.inr ⟨by simp, lexer.NoEOF_product l _ _ _
      ((lexer.accept_tokens _ _).trans hn) (by decide) hl⟩
  rw [if_neg h8] at h
  by_cases h9 : p.1 = 0x2E
  · rw [if_pos h9] at h
    simp only [Option.some.injEq] at h
    rw [← h]
    exact Or.inr ⟨by simp, lexer.NoEOF_of_tokens l p.2.prevAlpha hn hl⟩
  rw [if_neg h9] at h
  by_cases h10 : isAlphaNumeric X p.1 = true
  · rw [if_pos h10] at h
    simp only [Option.some.injEq] at h
    rw [← h]
    exact Or.inr ⟨by simp, lexer.NoEOF_of_tokens l p.2.prevAlpha hn hl⟩
  rw [if_neg h10] at h
  simp only [Option.some.injEq] at h
  rw [← h]
  exact Or.inr ⟨by simp, lexer.NoEOF_of_tokens l p.2 hn hl⟩

theorem lexer.dotState_NoEOF (l : lexer) (hl : l.NoEOF) :
    l.dotState.1 ≠ none ∧ l.dotState.2.NoEOF := by
  have hn : l.nextAlpha.2.peekAlpha.2.2.tokens = l.tokens :=
    (lexer.peekAlpha_tokens _).trans (lexer.nextAlpha_tokens l)
  unfold lexer.dotState
  dsimp only
  split_ifs
  · exact ⟨by simp, lexer.NoEOF_of_tokens l _ hn hl⟩
  · exact ⟨by simp, lexer.NoEOF_product l _ _ _ hn (by decide) hl⟩

theorem lexer.numberState_NoEOF (fuel : Nat) (l : lexer) (r : Option lexerStateFunc × lexer)
    (h : l.numberState fuel = some r) (hl : l.NoEOF) :
    (r.1 = none ∧ r.2.err ≠ none) ∨ (r.1 ≠ none ∧ r.2.NoEOF) := by
  unfold lexer.numberState at h
  split at h
  · exact absurd h (by simp)
  · rename_i r1 h1
    have t1 := lexer.scanNumber_tokens fuel l r1 h1
    split_ifs at h
    · simp only [Option.some.injEq] at h
      rw [← h]
      exact Or.inl ⟨rfl, by simp⟩
    · simp only [Option.some.injEq] at h
      rw [← h]
      exact Or.inr ⟨by simp, lexer.NoEOF_product l _ _ _ t1 (by decide) hl⟩

/-- One call of a state function, for the end marker. -/
theorem lexerStateFunc.call_NoEOF (X : Extern) (fuel : Nat) (s : lexerStateFunc) (l : lexer)
    (r : Option lexerStateFunc × lexer) (h : s.call X fuel l = some r) (hl : l.NoEOF) :
    (r.1 = none ∧ (r.2.err ≠ none ∨
      ∃ t, r.2.tokens = l.tokens ++ [t] ∧ t.Kind = TokenKindEOF ∧ t.Value = [])) ∨
    (r.1 ≠ none ∧ r.2.NoEOF) := by
  cases s with
  | rootState =>
    rcases lexer.rootState_NoEOF X fuel l r h hl with ⟨h1, h2⟩ | h2
    · exact Or.inl ⟨h1, Or.inr h2⟩
    · exact Or.inr h2
  | identifierState =>
    simp only [lexerStateFunc.call, lexer.identifierState] at h
    split at h
    · exact absurd h (by simp)
    · rename_i l1 h1
      simp only [Option.some.injEq] at h
      rw [← h]
      exact Or.inr ⟨by simp, identifierLoop_NoEOF X fuel l l1 h1 hl⟩
  | dotState =>
    simp only [lexerStateFunc.call, Option.some.injEq] at h
    rw [← h]
    exact Or.inr (lexer.dotState_NoEOF l hl)
  | numberState =>
    rcases lexer.numberState_NoEOF fuel l r h hl with ⟨h1, h2⟩ | h2
    · exact Or.inl ⟨h1, Or.inl h2⟩
    · exact Or.inr h2

/-- The loop of `Lexer`: when it ends without an error, the end marker is the last token and
no token before it is one. -/
theorem lexerLoop_NoEOF (X : Extern) :
    ∀ (fuel : Nat) (s : lexerStateFunc) (l lf : lexer),
      lexerLoop X fuel (some s) l = some lf → l.NoEOF → lf.err = none →
      ∃ pre e, lf.tokens = pre ++ [e] ∧ e.Kind = TokenKindEOF ∧ e.Value = [] ∧
        ∀ t ∈ pre, t.Kind ≠ TokenKindEOF := by
  intro fuel
  induction fuel with
  | zero => intro s l lf h; simp [lexerLoop] at h
  | succ fuel ih =>
    intro s l lf h hl he
    by_cases herr : l.err = none
    · rw [lexerLoop_succ X fuel s l herr] at h
      cases hc : s.call X fuel l with
      | none => rw [hc] at h; exact absurd h (by simp [Option.bind])
      | some r =>
        rw [hc] at h
        simp only [Option.bind] at h
        rcases lexerStateFunc.call_NoEOF X fuel s l r hc hl with ⟨h1, h2⟩ | ⟨h1, h2⟩
        · rw [h1] at h
          cases fuel with
          | zero => simp [lexerLoop] at h
          | succ fuel =>
            rw [lexerLoop_nil] at h
            simp only [Option.some.injEq] at h
            rw [← h] at he ⊢
            rcases h2 with h2 | ⟨t, h3, h4, h5⟩
            · exact absurd he h2
            · exact ⟨l.tokens, t, h3, h4, h5, hl⟩
        · obtain ⟨s2, hs2⟩ := Option.ne_none_iff_exists'.mp h1
          rw [hs2] at h
          exact ih s2 r.2 lf h h2 he
    · rw [lexerLoop] at h
      simp only [ne_eq, herr, not_false_eq_true, if_true, Option.some.injEq] at h
      rw [← h] at he
      exact absurd he herr

/-- Claim C14. For every source on which `Lexer` returns no error, the token list it returns
is not empty, its last token has the kind EOF and an empty value, and no token before the
last has the kind EOF. -/
theorem C14_one_end_marker_in_final_position (X : Extern) (fuel : Nat) (source : GoString)
    (tokens : List Token) (h : Lexer X fuel source = some (Except.ok tokens)) :
    ∃ pre e, tokens = pre ++ [e] ∧ e.Kind = TokenKindEOF ∧ e.Value = [] ∧
      ∀ t ∈ pre, t.Kind ≠ TokenKindEOF := by
  unfold Lexer at h
  dsimp only at h
  split at h
  · exact absurd h (by simp)
  · rename_i lf hloop
    split at h
    · exact absurd h (by simp)
    · rename_i herr
      simp only [Option.some.injEq, Except.ok.injEq] at h
      rw [← h]
      exact lexerLoop_NoEOF X fuel _ _ lf hloop (by intro t ht; simp at ht) herr

/-- Claim C14, witness: the twelve tokens of `var in [1, 2, 3, 4]`. -/
theorem C14_witness_keywords :
    ∃ pre e,
      [(⟨⟨1, 0⟩, TokenKindIdentifier, lit "var"⟩ : Token), ⟨⟨1, 4⟩, TokenKindOperator, lit "in"⟩,
       ⟨⟨1, 7⟩, TokenKindBracket, lit "["⟩, ⟨⟨1, 8⟩, TokenKindNumber, lit "1"⟩,
       ⟨⟨1, 9⟩, TokenKindOperator, lit ","⟩, ⟨⟨1, 11⟩, TokenKindNumber, lit "2"⟩,
       ⟨⟨1, 12⟩, TokenKindOperator, lit ","⟩, ⟨⟨1, 14⟩, TokenKindNumber, lit "3"⟩,
       ⟨⟨1, 15⟩, TokenKindOperator, lit ","⟩, ⟨⟨1, 17⟩, TokenKindNumber, lit "4"⟩,
       ⟨⟨1, 18⟩, TokenKindBracket, lit "]"⟩, ⟨⟨1, 18⟩, TokenKindEOF, []⟩] = pre ++ [e] ∧
      e.Kind = TokenKindEOF ∧ e.Value = [] ∧ ∀ t ∈ pre, t.Kind ≠ TokenKindEOF :=
  C14_one_end_marker_in_final_position Extern.ascii 40 (lit "var in [1, 2, 3, 4]") _
    (Lexer_keywords_40 Extern.ascii)


/-! ### A token after a complete expression -/

/-- The method `parse` on an operand token that another operand token, or the end marker,
follows: it returns the node of the operand and stands on the token after it. -/
theorem parser.parse_primary_token (X : Extern) (n : Nat) (p : parser) (priority : Int)
    (hk : p.current.Kind.isOperand = true)
    (hno : p.next.current.Kind ≠ TokenKindOperator)
    (hnb : p.next.current.Kind ≠ TokenKindBracket) :
    parser.parse X (n + 5) p priority = some (primaryNode X p.current, p.next) := by
  have hpost : ∀ node, parser.parsePostfix X (n + 3) p.next node = some (node, p.next) := by
    intro node
    rw [parser.parsePostfix, parser.parsePostfixLoop]
    rw [if_neg]
    intro hh
    rcases hh.1 with c | c
    · exact hno c
    · exact hnb c
  have hloop : ∀ node, parser.parseLoop X (n + 4) p.next priority node p.next.current =
      some (node, p.next) := fun node => parser.parseLoop_end X _ _ _ _ _ hno
  have h3 : p.next.atBracket (lit "(") = false := by
    simp only [parser.atBracket, Bool.and_eq_false_iff, beq_eq_false_iff_ne]
    exact Or.inl hnb
  rw [parser.parse, parser.parsePrimary]
  dsimp only
  cases hkind : p.current.Kind with
  | TokenKindIdentifier =>
    simp only [reduceCtorEq, if_false, false_and, primaryNode, hkind]
    unfold operand
    split_ifs
    · exact hloop _
    · exact hloop _
    · exact hloop _
    · rw [parser.parseIdentifier, h3]
      simp only [Bool.false_eq_true, if_false]
      rw [hpost]
      exact hloop _
  | TokenKindNumber =>
    simp only [reduceCtorEq, if_false, false_and, primaryNode, hkind]
    split_ifs
    · exact hloop _
    · exact hloop _
  | TokenKindString =>
    simp only [reduceCtorEq, if_false, false_and, primaryNode, hkind]
    exact hloop _
  | TokenKindOperator => rw [hkind] at hk; exact absurd hk (by decide)
  | TokenKindBracket => rw [hkind] at hk; exact absurd hk (by decide)
  | TokenKindEOF => rw [hkind] at hk; exact absurd hk (by decide)

/-- The function `Parse` on a source whose tokens start with two operands: the second one is
the unexpected token. -/
theorem Parse_second_operand (X : Extern) (n : Nat) (source : GoString) (tx ty : Token)
    (rest : List Token)
    (hlex : Lexer X (n + 5) source = some (Except.ok (tx :: ty :: rest)))
    (hx : tx.Kind.isOperand = true) (hy : ty.Kind.isOperand = true) :
    Parse X (n + 5) source = some (Except.error (Error.unexpectedToken ty)) := by
  have hnext : (parser.mk (tx :: ty :: rest) tx 0 none).next =
      parser.mk (tx :: ty :: rest) ty 1 none := by
    simp [parser.next]
  have hyo : ty.Kind ≠ TokenKindOperator := by
    intro h; rw [h] at hy; exact absurd hy (by decide)
  have hyb : ty.Kind ≠ TokenKindBracket := by
    intro h; rw [h] at hy; exact absurd hy (by decide)
  have hye : ty.Kind ≠ TokenKindEOF := by
    intro h; rw [h] at hy; exact absurd hy (by decide)
  have hparse := parser.parse_primary_token X n (parser.mk (tx :: ty :: rest) tx 0 none) 0 hx
    (by rw [hnext]; exact hyo) (by rw [hnext]; exact hyb)
  rw [hnext] at hparse
  unfold Parse
  rw [hlex]
  dsimp only
  rw [List.head?_cons]
  dsimp only
  rw [hparse]
  simp [hye]


/-- One operand of the source that is an identifier or a decimal literal, before a space or
the end: at most three rounds of the lexer loop emit it as one token. -/
theorem lexerLoop_operand (X : Extern) (S : GoString) (k : Nat) (kvs : List (Kind × GoString))
    (w tail : GoString) (kind : Kind) (hw : OperandText X w kind)
    (htail : tail = [] ∨ ∃ t, tail = 0x20 :: t) (l : lexer) (hl : l.Ready S k kvs)
    (hS : S.drop k = w ++ tail) (n : Nat) (hn : w.length + 2 ≤ n) :
    ∃ l', l'.Ready S (k + w.length) (kvs ++ [(kind, w)]) ∧
      ∀ r, lexerLoop X n (some lexerStateFunc.rootState) l' = some r →
        lexerLoop X (n + 3) (some lexerStateFunc.rootState) l = some r := by
  cases hw with
  | identifier a ha =>
    obtain ⟨wa, ka⟩ := IsIdentifier_word X a ha
    have la := encRunes_length a
    obtain ⟨l', r', s'⟩ := lexerLoop_word X S k kvs a tail wa htail l hl hS n (by omega)
    simp only [ka, Bool.false_eq_true, if_false] at r'
    exact ⟨l', r', fun r hr => lexerLoop_step X (n + 2) _ l r (s'.trans hr)⟩
  | number w hw => exact lexerLoop_number X S k kvs w tail hw htail l hl hS n hn

theorem kv_three (toks : List Token) (e0 e1 e2 : Kind × GoString)
    (h : toks.map Token.kv = [e0, e1, e2]) :
    ∃ t0 t1 t2, toks = [t0, t1, t2] ∧ t0.kv = e0 ∧ t1.kv = e1 ∧ t2.kv = e2 := by
  rcases toks with _ | ⟨t0, _ | ⟨t1, _ | ⟨t2, _ | ⟨t3, ts⟩⟩⟩⟩ <;>
    simp only [List.map_nil, List.map_cons, List.cons.injEq, and_true, reduceCtorEq,
      and_false] at h
  exact ⟨t0, t1, t2, rfl, h.1, h.2.1, h.2.2⟩

/-- The tokens of the source `x y`, two operands with one space between them. -/
theorem Lexer_two_operands (X : Extern) (x y : GoString) (kx ky : Kind)
    (hx : OperandText X x kx) (hy : OperandText X y ky) (n : Nat) :
    ∃ toks, Lexer X ((x ++ 0x20 :: y).length + 9 + n) (x ++ 0x20 :: y) =
        some (Except.ok toks) ∧
      toks.map Token.kv = [(kx, x), (ky, y), (TokenKindEOF, [])] := by
  generalize hS : x ++ 0x20 :: y = S
  have hlen : S.length = x.length + y.length + 1 := by
    rw [← hS]
    simp only [List.length_append, List.length_cons]
    omega
  have d0 : S.drop 0 = x ++ 0x20 :: (y ++ []) := by
    rw [List.drop_zero, ← hS, List.append_nil]
  have d1 := drop_pre S _ _ 0 d0
  have d2 := drop_space S _ _ d1
  have d3 := drop_pre S _ _ _ d2
  obtain ⟨l1, r1, s1⟩ := lexerLoop_operand X S 0 [] x _ kx hx (Or.inr ⟨_, rfl⟩) _
    (lexer.Ready_initial S) d0 (S.length + n + 2 + 3 + 1) (by omega)
  obtain ⟨l2, r2, s2⟩ := lexerLoop_space X S _ _ _ l1 r1 d1 (S.length + n + 2 + 3)
  obtain ⟨l3, r3, s3⟩ := lexerLoop_operand X S _ _ y [] ky hy (Or.inl rfl) l2 r2 d2
    (S.length + n + 2) (by omega)
  obtain ⟨lf, sf, ef, tf⟩ := lexerLoop_eof X S _ _ l3 r3 d3 (S.length + n)
  have hrun : lexerLoop X (S.length + n + 2 + 3 + 1 + 3) (some lexerStateFunc.rootState)
      (lexer.mk S [] 0 0 0 ⟨1, 0⟩ ⟨1, 0⟩ ⟨1, 0⟩ none) = some lf := by
    apply s1
    rw [s2]
    apply s3
    exact sf
  have hfuel : S.length + 9 + n = S.length + n + 2 + 3 + 1 + 3 := by omega
  refine ⟨lf.tokens, ?_, ?_⟩
  · rw [hfuel]
    exact Lexer_of_loop X S _ lf hrun ef
  · rw [tf]
    rfl

theorem OperandText_isOperand (X : Extern) (w : GoString) (kind : Kind)
    (h : OperandText X w kind) : kind.isOperand = true := by
  cases h <;> rfl

/-- For operands `x` and `y`, each an identifier or a decimal numeric literal, `Parse` of
the source `x y` returns the error `unexpected token` with the token of `y`, for every fuel
from the length of the source plus nine on. -/
theorem Parse_two_operands (X : Extern) (x y : GoString) (kx ky : Kind)
    (hx : OperandText X x kx) (hy : OperandText X y ky) (n : Nat) :
    ∃ t, Parse X ((x ++ 0x20 :: y).length + 9 + n) (x ++ 0x20 :: y) =
        some (Except.error (Error.unexpectedToken t)) ∧ t.Kind = ky ∧ t.Value = y := by
  obtain ⟨toks, hlex, hkv⟩ := Lexer_two_operands X x y kx ky hx hy n
  obtain ⟨tx, ty, te, rfl, h0, h1, h2⟩ := kv_three toks _ _ _ hkv
  simp only [Token.kv, Prod.mk.injEq] at h0 h1 h2
  have hfuel : (x ++ 0x20 :: y).length + 9 + n = ((x ++ 0x20 :: y).length + 4 + n) + 5 := by
    omega
  rw [hfuel] at hlex ⊢
  exact ⟨ty, Parse_second_operand X _ _ tx ty [te] hlex
    (by rw [h0.1]; exact OperandText_isOperand X x kx hx)
    (by rw [h1.1]; exact OperandText_isOperand X y ky hy), h1.1, h1.2⟩

/-- The sources `a b`, `1 2` and `'s' 't'`: the second operand is the unexpected token. -/
theorem Parse_two_operands_examples (X : Extern) (n : Nat) :
    Parse X (n + 15) (lit "a b") = some (Except.error
      (Error.unexpectedToken ⟨⟨1, 2⟩, TokenKindIdentifier, lit "b"⟩)) ∧
    Parse X (n + 15) (lit "1 2") = some (Except.error
      (Error.unexpectedToken ⟨⟨1, 2⟩, TokenKindNumber, lit "2"⟩)) ∧
    Parse X (n + 15) (lit "'s' 't'") = some (Except.error
      (Error.unexpectedToken ⟨⟨1, 4⟩, TokenKindString, lit "t"⟩)) :=
  ⟨Parse_second_operand X (n + 10) _ ⟨⟨1, 0⟩, TokenKindIdentifier, lit "a"⟩ _
      [⟨⟨1, 2⟩, TokenKindEOF, []⟩] (Lexer_mono X _ 10 _ _ (by omega) rfl) rfl rfl,
   Parse_second_operand X (n + 10) _ ⟨⟨1, 0⟩, TokenKindNumber, lit "1"⟩ _
      [⟨⟨1, 2⟩, TokenKindEOF, []⟩] (Lexer_mono X _ 10 _ _ (by omega) rfl) rfl rfl,
   Parse_second_operand X (n + 10) _ ⟨⟨1, 0⟩, TokenKindString, lit "s"⟩ _
      [⟨⟨1, 6⟩, TokenKindEOF, []⟩] (Lexer_mono X _ 15 _ _ (by omega) rfl) rfl rfl⟩


/-! ### Operands are indexes into the pool -/

theorem decode_nil : decode [] = some [] := by
  rw [decode.eq_def]

theorem decode_plain (op : Nat) (rest : List Nat) (h : hasOperand op = false) :
    decode (op :: rest) = (decode rest).map (fun is => (op, none) :: is) := by
  rw [decode.eq_def]
  simp only [h, Bool.false_eq_true, if_false]

theorem decode_operand (op hi lo : Nat) (rest : List Nat) (h : hasOperand op = true) :
    decode (op :: hi :: lo :: rest) =
      (decode rest).map (fun is => (op, some (hi * 256 + lo)) :: is) := by
  rw [decode.eq_def]
  simp only [h, if_true]

theorem decode_cut (op : Nat) (rest : List Nat) (h : hasOperand op = true)
    (hr : rest.length < 2) : decode (op :: rest) = none := by
  rw [decode.eq_def]
  cases rest with
  | nil => simp only [h, if_true]
  | cons a rest =>
    cases rest with
    | nil => simp only [h, if_true]
    | cons b rest => simp only [List.length_cons] at hr; omega

/-- Decoding a stream that is made of two streams: the instructions of the first, then the
instructions of the second. -/
theorem decode_append (ys : List Nat) :
    ∀ (n : Nat) (xs : List Nat), xs.length ≤ n → ∀ is, decode xs = some is →
      decode (xs ++ ys) = (decode ys).map (fun js => is ++ js) := by
  intro n
  induction n with
  | zero =>
    intro xs hn is h
    have : xs = [] := List.length_eq_zero.mp (Nat.le_zero.mp hn)
    subst this
    rw [decode_nil, Option.some.injEq] at h
    subst h
    rw [List.nil_append]
    cases decode ys <;> rfl
  | succ n ih =>
    intro xs hn is h
    rcases xs with _ | ⟨op, rest⟩
    · rw [decode_nil, Option.some.injEq] at h
      subst h
      rw [List.nil_append]
      cases decode ys <;> rfl
    · by_cases ho : hasOperand op = true
      · rcases rest with _ | ⟨hi, _ | ⟨lo, rest2⟩⟩
        · rw [decode_cut op [] ho (by simp)] at h
          exact absurd h (by simp)
        · rw [decode_cut op [hi] ho (by simp)] at h
          exact absurd h (by simp)
        · rw [decode_operand op hi lo rest2 ho] at h
          cases hd : decode rest2 with
          | none => rw [hd] at h; exact absurd h (by simp)
          | some is2 =>
            rw [hd] at h
            simp only [Option.map_some', Option.some.injEq] at h
            subst h
            have hlen : rest2.length ≤ n := by
              simp only [List.length_cons] at hn
              omega
            simp only [List.cons_append]
            rw [decode_operand op hi lo _ ho, ih rest2 hlen is2 hd]
            cases decode ys <;> rfl
      · have ho' : hasOperand op = false := by simpa using ho
        rw [decode_plain op rest ho'] at h
        cases hd : decode rest with
        | none => rw [hd] at h; exact absurd h (by simp)
        | some is2 =>
          rw [hd] at h
          simp only [Option.map_some', Option.some.injEq] at h
          subst h
          have hlen : rest.length ≤ n := by
            simp only [List.length_cons] at hn
            omega
          simp only [List.cons_append]
          rw [decode_plain op _ ho', ih rest hlen is2 hd]
          cases decode ys <;> rfl

theorem decodesBelow_append (n : Nat) (xs ys : List Nat) (hx : decodesBelow n xs)
    (hy : decodesBelow n ys) : decodesBelow n (xs ++ ys) := by
  obtain ⟨is, hi, hib⟩ := hx
  obtain ⟨js, hj, hjb⟩ := hy
  refine ⟨is ++ js, ?_, ?_⟩
  · rw [decode_append ys xs.length xs (Nat.le_refl _) is hi, hj]
    rfl
  · intro op k hk
    rcases List.mem_append.mp hk with h | h
    · exact hib op k h
    · exact hjb op k h

theorem decodesBelow_mono (n m : Nat) (xs : List Nat) (hnm : n ≤ m) (hx : decodesBelow n xs) :
    decodesBelow m xs := by
  obtain ⟨is, hi, hib⟩ := hx
  exact ⟨is, hi, fun op k hk => Nat.lt_of_lt_of_le (hib op k hk) hnm⟩

/-- The state that `Compile` starts from has its operands in range. -/
theorem compiler.InRange_empty :
    compiler.InRange { instructions := [], constants := [], constantsIndex := [] } :=
  ⟨fun e h => by simp at h, ⟨[], rfl, fun op k h => by simp at h⟩⟩

/-- An instruction without operand keeps the operands in range. -/
theorem compiler.appendInstruction_inRange (c : compiler) (op : Nat) (h : c.InRange)
    (ho : hasOperand op = false) : (c.appendInstruction op []).InRange := by
  refine ⟨h.index, ?_⟩
  have : (c.appendInstruction op []).instructions = c.instructions ++ [op] := by
    simp [compiler.appendInstruction]
  rw [this]
  refine decodesBelow_append _ _ _ h.code ⟨[(op, none)], ?_, ?_⟩
  · rw [decode_plain op [] ho]
    rfl
  · intro op' k hk
    simp at hk

/-- The operand that `newConstant` returns is less than the length of the pool it leaves,
also when the pool has outgrown the range of a `uint16`; and the index keeps pointing into
the pool. -/
theorem compiler.newConstant_inRange (c : compiler) (k : Const)
    (h : ∀ e, e ∈ c.constantsIndex → e.2 < c.constants.length) :
    (∃ hi lo, (c.newConstant k).1 = [hi, lo] ∧
      hi * 256 + lo < (c.newConstant k).2.constants.length) ∧
    (∀ e, e ∈ (c.newConstant k).2.constantsIndex →
      e.2 < (c.newConstant k).2.constants.length) ∧
    c.constants.length ≤ (c.newConstant k).2.constants.length := by
  cases hidx : c.index k with
  | some i =>
    rw [compiler.newConstant_hit hidx]
    have hi : i < c.constants.length := by
      simp only [compiler.index, Option.map_eq_some'] at hidx
      obtain ⟨e, he, hei⟩ := hidx
      rw [← hei]
      exact h e (List.mem_of_find?_eq_some he)
    refine ⟨⟨_, _, rfl, ?_⟩, h, Nat.le_refl _⟩
    simp only
    omega
  | none =>
    rw [compiler.newConstant_miss hidx]
    refine ⟨⟨_, _, rfl, ?_⟩, ?_, ?_⟩
    · simp only [List.length_append, List.length_singleton]
      omega
    · intro e he
      simp only [List.length_append, List.length_singleton]
      rcases List.mem_cons.mp he with h1 | h1
      · rw [h1]
        simp only
        omega
      · have := h e h1
        omega
    · simp only [List.length_append, List.length_singleton]
      omega

/-- An instruction with an operand from `newConstant` keeps the operands in range. -/
theorem compiler.appendConstant_inRange (c : compiler) (op : Nat) (k : Const) (h : c.InRange)
    (ho : hasOperand op = true) : (c.appendConstant op k).InRange := by
  obtain ⟨⟨hi, lo, hbytes, hlt⟩, hindex, hle⟩ := compiler.newConstant_inRange c k h.index
  have hins : (c.appendConstant op k).instructions = c.instructions ++ [op, hi, lo] := by
    simp [compiler.appendConstant, compiler.appendInstruction,
      compiler.newConstant_instructions, hbytes]
  have hconst : (c.appendConstant op k).constants = (c.newConstant k).2.constants := by
    simp [compiler.appendConstant, compiler.appendInstruction]
  have hidx : (c.appendConstant op k).constantsIndex = (c.newConstant k).2.constantsIndex := by
    simp [compiler.appendConstant, compiler.appendInstruction]
  refine ⟨?_, ?_⟩
  · rw [hidx, hconst]
    exact hindex
  · rw [hins, hconst]
    refine decodesBelow_append _ _ _ (decodesBelow_mono _ _ _ hle h.code)
      ⟨[(op, some (hi * 256 + lo))], ?_, ?_⟩
    · rw [decode_operand op hi lo [] ho]
      rfl
    · intro op2 k2 hk
      simp only [List.mem_singleton, Prod.mk.injEq, Option.some.injEq] at hk
      rw [hk.2]
      exact hlt

mutual

/-- Compiling a node keeps the operands in range. -/
theorem compiler.compile_inRange : ∀ (n : Node) (c : compiler), c.InRange → (c.compile n).InRange
  | Node.nil, c, h => by rw [compiler.compile]; exact h
  | UnaryNode op e, c, h => by
    rw [compiler.compile]
    have he := compiler.compile_inRange e c h
    split_ifs
    · exact compiler.appendInstruction_inRange _ _ he rfl
    · exact compiler.appendInstruction_inRange _ _ he rfl
    · exact he
  | BinaryNode op l r, c, h => by
    rw [compiler.compile]
    have hr := compiler.compile_inRange r (c.compile l) (compiler.compile_inRange l c h)
    split_ifs
    all_goals first
      | exact hr
      | exact compiler.appendInstruction_inRange _ _ hr rfl
  | MethodNode e m args, c, h => by
    rw [compiler.compile]
    exact compiler.appendConstant_inRange _ _ _
      (compiler.compileArguments_inRange args (c.compile e) (compiler.compile_inRange e c h)) rfl
  | FunctionNode f args, c, h => by
    rw [compiler.compile]
    exact compiler.appendConstant_inRange _ _ _ (compiler.compileArguments_inRange args c h) rfl
  | PropertyNode e p, c, h => by
    rw [compiler.compile]
    exact compiler.appendConstant_inRange _ _ _ (compiler.compile_inRange e c h) rfl
  | BoolNode v, c, h => by
    rw [compiler.compile]
    split_ifs <;> exact compiler.appendInstruction_inRange _ _ h rfl
  | NilNode, c, h => by
    rw [compiler.compile]; exact compiler.appendInstruction_inRange _ _ h rfl
  | IdentifierNode v, c, h => by
    rw [compiler.compile]; exact compiler.appendConstant_inRange _ _ _ h rfl
  | FloatNode v, c, h => by
    rw [compiler.compile]; exact compiler.appendConstant_inRange _ _ _ h rfl
  | IntNode v, c, h => by
    rw [compiler.compile]; exact compiler.appendConstant_inRange _ _ _ h rfl
  | StringNode v, c, h => by
    rw [compiler.compile]; exact compiler.appendConstant_inRange _ _ _ h rfl

/-- Compiling an argument list keeps the operands in range. -/
theorem compiler.compileArguments_inRange :
    ∀ (args : List Node) (c : compiler), c.InRange → (c.compileArguments args).InRange
  | [], c, h => by rw [compiler.compileArguments]; exact h
  | a :: rest, c, h => by
    rw [compiler.compileArguments]
    exact compiler.compileArguments_inRange rest (c.compile a) (compiler.compile_inRange a c h)

end

/-- Claim C21. For every tree, of any size, the instruction stream that `Compile` returns
decodes from its first byte to its end (one opcode byte, then a two-byte big-endian operand
exactly when the opcode is PUSH, FETCH, PROPERTY or CALL), and every operand in it is less
than the length of the constant pool that the same call returns. The index of a pool slot is
a `uint16`: past 65536 constants it wraps, and the operand is still less than the length of
the pool. -/
theorem C21_operands_decode_within_the_pool (tree : Tree) :
    ∃ is, decode (Compile tree).1 = some is ∧
      ∀ op k, (op, some k) ∈ is → k < (Compile tree).2.length :=
  (compiler.compile_inRange tree.Root _ compiler.InRange_empty).code


/-! ### The argument loop at a comma -/

/-- At a comma, `parse(0)` consumes nothing: `parsePrimary` returns the nil node for a token
that starts no expression, and the comma is no binary operator. -/
theorem parser.parse_at_comma (X : Extern) (p : parser)
    (hk : p.current.Kind = TokenKindOperator) (hv : p.current.Value = lit ",") (n : Nat) :
    parser.parse X n p 0 = none ∨ parser.parse X n p 0 = some (Node.nil, p) := by
  have hprim : ∀ m, parser.parsePrimary X (m + 1) p = some (Node.nil, p) := by
    intro m
    rw [parser.parsePrimary]
    have hu : unaryOp.lookup (lit ",") = none := by decide
    simp only [hk, hv, hu, if_true, reduceCtorEq, false_and, if_false]
  rcases n with _ | _ | _ | n
  · exact Or.inl rfl
  · exact Or.inl rfl
  · right
    rw [parser.parse, hprim]
    simp only
    rw [parser.parseLoop]
    have hb : binaryOp.lookup (lit ",") = none := by decide
    simp only [hk, hv, hb, true_and]
    split_ifs <;> rfl
  · right
    rw [parser.parse, hprim]
    simp only
    rw [parser.parseLoop]
    have hb : binaryOp.lookup (lit ",") = none := by decide
    simp only [hk, hv, hb, true_and]
    split_ifs <;> rfl

/-- Once the argument loop stands at a comma it never ends, whatever it has collected: every
round finds the comma, calls `parse(0)`, which consumes nothing, and appends a nil node. -/
theorem parser.parseArgumentsLoop_at_comma (X : Extern) (p : parser)
    (hk : p.current.Kind = TokenKindOperator) (hv : p.current.Value = lit ",")
    (he : p.err = none) :
    ∀ (n : Nat) (nodes : List Node), parser.parseArgumentsLoop X n p nodes = none := by
  intro n
  induction n with
  | zero => intro nodes; rfl
  | succ n ih =>
    intro nodes
    rw [parser.parseArgumentsLoop]
    have hc : ((!p.atBracket (lit ")")) = true ∧ p.err = none) := by
      refine ⟨?_, he⟩
      simp [parser.atBracket, hk]
    rw [if_pos hc]
    have hcomma : ¬ ((!(p.current.Kind == TokenKindOperator && p.current.Value == lit ",")) =
        true) := by
      simp [hk, hv]
    simp only [if_neg hcomma, ite_self]
    rcases parser.parse_at_comma X p hk hv n with h | h
    · rw [h]
    · rw [h]
      exact ih _


/-! ### Calls with a comma do not return -/

theorem Lexer_method_20 (X : Extern) :
    Lexer X 20 (lit "a.m(1, 2)") = some (Except.ok methodTokens) := rfl

theorem Lexer_comma_20 (X : Extern) :
    Lexer X 20 (lit "f(,)") = some (Except.ok commaTokens) := rfl

theorem parse_method_first_6 (X : Extern) :
    parser.parse X 6 (parserAt methodTokens 4) 0 =
      some (IntNode 1, parserAt methodTokens 5) := rfl

theorem parseArgumentsLoop_method (X : Extern) (n : Nat) :
    parser.parseArgumentsLoop X n (parserAt methodTokens 4) [] = none := by
  cases n with
  | zero => rfl
  | succ n =>
    rw [parser.parseArgumentsLoop]
    have hc : ((!(parserAt methodTokens 4).atBracket (lit ")")) = true ∧
        (parserAt methodTokens 4).err = none) := ⟨by decide, rfl⟩
    rw [if_pos hc]
    simp only [List.length_nil, gt_iff_lt, lt_self_iff_false, if_false]
    cases h : parser.parse X n (parserAt methodTokens 4) 0 with
    | none => rfl
    | some r =>
      have h1 := parse_mono X _ _ n (n + 6) r (Nat.le_add_right n 6) h
      have h2 := parse_mono X _ _ 6 (n + 6) _ (Nat.le_add_left 6 n) (parse_method_first_6 X)
      rw [h1] at h2
      cases h2
      exact parser.parseArgumentsLoop_at_comma X (parserAt methodTokens 5) rfl rfl rfl n _

theorem parseArguments_method (X : Extern) (n : Nat) :
    parser.parseArguments X n (parserAt methodTokens 4) = none := by
  cases n with
  | zero => rfl
  | succ n => rw [parser.parseArguments, parseArgumentsLoop_method]

theorem parsePostfixLoop_method (X : Extern) (n : Nat) (node : Node) :
    parser.parsePostfixLoop X n (parserAt methodTokens 1) node
      ⟨⟨1, 1⟩, TokenKindOperator, [0x2E]⟩ = none := by
  cases n with
  | zero => rfl
  | succ n =>
    rw [parser.parsePostfixLoop]
    have hn1 : (parserAt methodTokens 1).next = parserAt methodTokens 2 := by decide
    have hn2 : (parserAt methodTokens 2).next = parserAt methodTokens 3 := by decide
    have hn3 : (parserAt methodTokens 3).next = parserAt methodTokens 4 := by decide
    have hcur : (parserAt methodTokens 2).current = ⟨⟨1, 2⟩, TokenKindIdentifier, [0x6D]⟩ := rfl
    have hb : (parserAt methodTokens 3).atBracket (lit "(") = true := by decide
    have he : (parserAt methodTokens 1).err = none := rfl
    have hdot : ([0x2E] : GoString) = lit "." := rfl
    simp only [he, hdot, hn1, hn2, hn3, hcur, hb, parseArguments_method, true_or, true_and,
      and_self, if_true, ne_eq, not_true_eq_false, if_false]

theorem parsePostfix_method (X : Extern) (n : Nat) (node : Node) :
    parser.parsePostfix X n (parserAt methodTokens 1) node = none := by
  cases n with
  | zero => rfl
  | succ n =>
    rw [parser.parsePostfix]
    exact parsePostfixLoop_method X n node

theorem parsePrimary_method (X : Extern) (n : Nat) :
    parser.parsePrimary X n (parserAt methodTokens 0) = none := by
  cases n with
  | zero => rfl
  | succ n =>
    rw [parser.parsePrimary]
    have hv : (parserAt methodTokens 0).current = ⟨⟨1, 0⟩, TokenKindIdentifier, [0x61]⟩ := rfl
    have h1 : ¬ (([0x61] : GoString) = lit "true") := by decide
    have h2 : ¬ (([0x61] : GoString) = lit "false") := by decide
    have h3 : ¬ (([0x61] : GoString) = lit "nil") := by decide
    have hn : (parserAt methodTokens 0).next = parserAt methodTokens 1 := by decide
    have hid : parser.parseIdentifier X n (parserAt methodTokens 1)
        ⟨⟨1, 0⟩, TokenKindIdentifier, [0x61]⟩ = none ∨
        parser.parseIdentifier X n (parserAt methodTokens 1)
          ⟨⟨1, 0⟩, TokenKindIdentifier, [0x61]⟩ =
          some (IdentifierNode [0x61], parserAt methodTokens 1) := by
      cases n with
      | zero => exact Or.inl rfl
      | succ n => exact Or.inr rfl
    rcases hid with h | h
    · simp [hv, hn, h, h1, h2, h3]
    · simp [hv, hn, h, h1, h2, h3, parsePostfix_method]

theorem parse_method (X : Extern) (n : Nat) :
    parser.parse X n (parserAt methodTokens 0) 0 = none := by
  cases n with
  | zero => rfl
  | succ n => rw [parser.parse, parsePrimary_method]

theorem parseArguments_comma (X : Extern) (n : Nat) :
    parser.parseArguments X n (parserAt commaTokens 2) = none := by
  cases n with
  | zero => rfl
  | succ n =>
    rw [parser.parseArguments,
      parser.parseArgumentsLoop_at_comma X (parserAt commaTokens 2) rfl rfl rfl]

theorem parsePrimary_comma (X : Extern) (n : Nat) :
    parser.parsePrimary X n (parserAt commaTokens 0) = none := by
  cases n with
  | zero => rfl
  | succ n =>
    rw [parser.parsePrimary]
    have hv : (parserAt commaTokens 0).current = ⟨⟨1, 0⟩, TokenKindIdentifier, [0x66]⟩ := rfl
    have h1 : ¬ (([0x66] : GoString) = lit "true") := by decide
    have h2 : ¬ (([0x66] : GoString) = lit "false") := by decide
    have h3 : ¬ (([0x66] : GoString) = lit "nil") := by decide
    have hn : (parserAt commaTokens 0).next = parserAt commaTokens 1 := by decide
    have hid : parser.parseIdentifier X n (parserAt commaTokens 1)
        ⟨⟨1, 0⟩, TokenKindIdentifier, [0x66]⟩ = none := by
      cases n with
      | zero => rfl
      | succ n =>
        rw [parser.parseIdentifier]
        have hb : (parserAt commaTokens 1).atBracket (lit "(") = true := by decide
        have hn2 : (parserAt commaTokens 1).next = parserAt commaTokens 2 := by decide
        rw [if_pos hb]
        simp only [hn2, parseArguments_comma]
    simp [hv, hn, hid, h1, h2, h3]

theorem parse_comma (X : Extern) (n : Nat) :
    parser.parse X n (parserAt commaTokens 0) 0 = none := by
  cases n with
  | zero => rfl
  | succ n => rw [parser.parse, parsePrimary_comma]

/-- Claim C23, at the failing inputs `a.m(1, 2)` and `f(,)`: `Parse` does not return, whatever
the fuel. The loop of `parseArguments` tests for the comma between two arguments but does not
consume it, and `parse(0)` at a comma consumes nothing, so a round of the loop neither
consumes a token nor ends the loop. -/
theorem C23_argument_loop_never_ends (X : Extern) (fuel : Nat) :
    Parse X fuel (lit "a.m(1, 2)") = none ∧ Parse X fuel (lit "f(,)") = none := by
  constructor
  · unfold Parse
    cases hl : Lexer X fuel (lit "a.m(1, 2)") with
    | none => rfl
    | some res =>
      have h1 := Lexer_mono X _ fuel (fuel + 20) res (Nat.le_add_right fuel 20) hl
      have h2 := Lexer_mono X _ 20 (fuel + 20) _ (Nat.le_add_left 20 fuel) (Lexer_method_20 X)
      rw [h1] at h2
      cases h2
      have h0 : parser.parse X fuel (parserAt methodTokens 0) 0 = none := parse_method X fuel
      simp only [methodTokens, parserAt, List.getD, List.get?, Option.getD, List.head?] at h0 ⊢
      rw [h0]
  · unfold Parse
    cases hl : Lexer X fuel (lit "f(,)") with
    | none => rfl
    | some res =>
      have h1 := Lexer_mono X _ fuel (fuel + 20) res (Nat.le_add_right fuel 20) hl
      have h2 := Lexer_mono X _ 20 (fuel + 20) _ (Nat.le_add_left 20 fuel) (Lexer_comma_20 X)
      rw [h1] at h2
      cases h2
      have h0 : parser.parse X fuel (parserAt commaTokens 0) 0 = none := parse_comma X fuel
      simp only [commaTokens, parserAt, List.getD, List.get?, Option.getD, List.head?] at h0 ⊢
      rw [h0]


/-! ### The name of a call on an expression -/

theorem Lexer_call_on_bracket_20 (X : Extern) :
    Lexer X 20 (lit "(a)(b)") = some (Except.ok
      [⟨⟨1, 0⟩, TokenKindBracket, lit "("⟩, ⟨⟨1, 1⟩, TokenKindIdentifier, lit "a"⟩,
       ⟨⟨1, 2⟩, TokenKindBracket, lit ")"⟩, ⟨⟨1, 3⟩, TokenKindBracket, lit "("⟩,
       ⟨⟨1, 4⟩, TokenKindIdentifier, lit "b"⟩, ⟨⟨1, 5⟩, TokenKindBracket, lit ")"⟩,
       ⟨⟨1, 5⟩, TokenKindEOF, []⟩]) := rfl

theorem Lexer_call_on_call_20 (X : Extern) :
    Lexer X 20 (lit "f()()") = some (Except.ok
      [⟨⟨1, 0⟩, TokenKindIdentifier, lit "f"⟩, ⟨⟨1, 1⟩, TokenKindBracket, lit "("⟩,
       ⟨⟨1, 2⟩, TokenKindBracket, lit ")"⟩, ⟨⟨1, 3⟩, TokenKindBracket, lit "("⟩,
       ⟨⟨1, 4⟩, TokenKindBracket, lit ")"⟩, ⟨⟨1, 4⟩, TokenKindEOF, []⟩]) := rfl

theorem Parse_call_on_bracket_20 (X : Extern) :
    Parse X 20 (lit "(a)(b)") =
      some (Except.ok (Tree.mk (FunctionNode (lit "(") [IdentifierNode (lit "b")]))) := by
  unfold Parse
  rw [Lexer_call_on_bracket_20]
  rfl

theorem Parse_call_on_call_20 (X : Extern) :
    Parse X 20 (lit "f()()") = some (Except.ok (Tree.mk (FunctionNode (lit "(") []))) := by
  unfold Parse
  rw [Lexer_call_on_call_20]
  rfl

/-- Claim C25, at the failing inputs `(a)(b)` and `f()()`: `Parse` accepts both, and the
root of the tree is a `FunctionNode` whose name is the bracket `(`. The Identifier tokens of
the sources are `a`, `b` and `f`. In `parsePostfix` the name of the node is the value of the
token the loop stands on, which is the opening bracket of the call; the expression that is
called (`a`, `f()`) is dropped. -/
theorem C25_call_on_expression_is_named_bracket (X : Extern) (n : Nat) :
    Parse X (n + 20) (lit "(a)(b)") =
      some (Except.ok (Tree.mk (FunctionNode (lit "(") [IdentifierNode (lit "b")]))) ∧
    Parse X (n + 20) (lit "f()()") =
      some (Except.ok (Tree.mk (FunctionNode (lit "(") []))) ∧
    Lexer X (n + 20) (lit "(a)(b)") = some (Except.ok
      [⟨⟨1, 0⟩, TokenKindBracket, lit "("⟩, ⟨⟨1, 1⟩, TokenKindIdentifier, lit "a"⟩,
       ⟨⟨1, 2⟩, TokenKindBracket, lit ")"⟩, ⟨⟨1, 3⟩, TokenKindBracket, lit "("⟩,
       ⟨⟨1, 4⟩, TokenKindIdentifier, lit "b"⟩, ⟨⟨1, 5⟩, TokenKindBracket, lit ")"⟩,
       ⟨⟨1, 5⟩, TokenKindEOF, []⟩]) ∧
    Lexer X (n + 20) (lit "f()()") = some (Except.ok
      [⟨⟨1, 0⟩, TokenKindIdentifier, lit "f"⟩, ⟨⟨1, 1⟩, TokenKindBracket, lit "("⟩,
       ⟨⟨1, 2⟩, TokenKindBracket, lit ")"⟩, ⟨⟨1, 3⟩, TokenKindBracket, lit "("⟩,
       ⟨⟨1, 4⟩, TokenKindBracket, lit ")"⟩, ⟨⟨1, 4⟩, TokenKindEOF, []⟩]) :=
  ⟨Parse_mono X _ 20 _ _ (by omega) (Parse_call_on_bracket_20 X),
   Parse_mono X _ 20 _ _ (by omega) (Parse_call_on_call_20 X),
   Lexer_mono X _ 20 _ _ (by omega) (Lexer_call_on_bracket_20 X),
   Lexer_mono X _ 20 _ _ (by omega) (Lexer_call_on_call_20 X)⟩

/-- A call on a name is named by the identifier: `parseIdentifier` takes the name from the
Identifier token. -/
theorem Parse_call_on_name (X : Extern) (n : Nat) :
    Parse X (n + 20) (lit "f(b)") =
      some (Except.ok (Tree.mk (FunctionNode (lit "f") [IdentifierNode (lit "b")]))) :=
  Parse_mono X _ 20 _ _ (by omega) rfl

/-! ### Characters that start no token -/

/-- Claim C22, at the failing inputs `@+`, `a #% b` and `1 ;. 2`: `Lexer` returns no error,
and the Operator tokens have the values `@+`, `#%` and `;.`. A character that no case of
`rootState` takes (here `@`, `#`, `;`) is neither emitted nor dropped: `rootState` returns
without moving the start of the lexeme, and the character becomes the head of the next
token. -/
theorem C22_unknown_character_joins_the_operator (X : Extern) (n : Nat) :
    Lexer X (n + 20) (lit "@+") = some (Except.ok
      [⟨⟨1, 0⟩, TokenKindOperator, lit "@+"⟩, ⟨⟨1, 1⟩, TokenKindEOF, []⟩]) ∧
    Lexer X (n + 20) (lit "a #% b") = some (Except.ok
      [⟨⟨1, 0⟩, TokenKindIdentifier, lit "a"⟩, ⟨⟨1, 2⟩, TokenKindOperator, lit "#%"⟩,
       ⟨⟨1, 5⟩, TokenKindIdentifier, lit "b"⟩, ⟨⟨1, 5⟩, TokenKindEOF, []⟩]) ∧
    Lexer X (n + 20) (lit "1 ;. 2") = some (Except.ok
      [⟨⟨1, 0⟩, TokenKindNumber, lit "1"⟩, ⟨⟨1, 2⟩, TokenKindOperator, lit ";."⟩,
       ⟨⟨1, 5⟩, TokenKindNumber, lit "2"⟩, ⟨⟨1, 5⟩, TokenKindEOF, []⟩]) :=
  ⟨Lexer_mono X _ 20 _ _ (by omega) rfl, Lexer_mono X _ 20 _ _ (by omega) rfl,
   Lexer_mono X _ 20 _ _ (by omega) rfl⟩

/-- The state `rootState` on one of the single-character operators `? : % , + - * / ^`. -/
theorem lexer.rootState_plain (X : Extern) (l : lexer) (b : Nat) (t : GoString) (fuel : Nat)
    (hb : b = 0x3F ∨ b = 0x3A ∨ b = 0x25 ∨ b = 0x2C ∨ b = 0x2B ∨ b = 0x2D ∨ b = 0x2A ∨
      b = 0x2F ∨ b = 0x5E) (h : l.rest = b :: t) :
    l.rootState X fuel = some (some lexerStateFunc.rootState,
      l.nextAlpha.2.product TokenKindOperator l.nextAlpha.2.word) := by
  obtain ⟨h1, _⟩ := lexer.nextAlpha_byte l b t (by omega) h
  unfold lexer.rootState
  dsimp only
  rw [h1]
  rcases hb with e1 | e2 | e3 | e4 | e5 | e6 | e7 | e8 | e9 <;> subst_vars <;>
    simp [eof, isSpace, IsSpace, ContainsRune, lit_open, lit_close, lit_single]

/-- Between two tokens, each of the characters `? : % , + - * / ^` of the source gives an
Operator token of exactly that one character. -/
theorem lexerLoop_plain (X : Extern) (S : GoString) (k : Nat) (kvs : List (Kind × GoString))
    (b : Nat) (tail : GoString)
    (hb : b = 0x3F ∨ b = 0x3A ∨ b = 0x25 ∨ b = 0x2C ∨ b = 0x2B ∨ b = 0x2D ∨ b = 0x2A ∨
      b = 0x2F ∨ b = 0x5E)
    (l : lexer) (hl : l.Ready S k kvs) (hS : S.drop k = b :: tail) (n : Nat) :
    ∃ l', l'.Ready S (k + 1) (kvs ++ [(TokenKindOperator, [b])]) ∧
      lexerLoop X (n + 1) (some lexerStateFunc.rootState) l =
        lexerLoop X n (some lexerStateFunc.rootState) l' := by
  obtain ⟨g1, g2, g3, g4, g5⟩ := hl
  have hrest : l.rest = b :: tail := by
    rw [lexer.rest, g1, g3]
    exact hS
  obtain ⟨h1, h2, h3, h4, h5, h6, h7, h8⟩ := lexer.nextAlpha_byte l b tail (by omega) hrest
  have hroot := lexer.rootState_plain X l b tail n hb hrest
  have hword : l.nextAlpha.2.word = [b] := by
    simp only [lexer.word, h2, h3, h7, g1, g2, g3, hS, Nat.add_sub_cancel_left]
    rfl
  refine ⟨l.nextAlpha.2.product TokenKindOperator l.nextAlpha.2.word,
    ⟨?_, ?_, ?_, ?_, ?_⟩, ?_⟩
  rotate_left 5
  · rw [lexerLoop_succ X n _ l g4]
    simp only [lexerStateFunc.call, hroot, Option.bind]
  · simp only [lexer.product, h2, g1]
  · simp only [lexer.product, h3, g3]
  · simp only [lexer.product, h3, g3]
  · simp only [lexer.product, h5, g4]
  · simp only [lexer.product, h6, hword, List.map_append, List.map_cons, List.map_nil, Token.kv,
      g5]


/-! ### Scanning a well-formed string literal -/

theorem literalRest_quote (q : Nat) (rest : GoString) :
    literalRest q (q :: rest) = rest.isEmpty := by
  cases rest <;> simp [literalRest]

theorem literalRest_other (q b : Nat) (t : GoString) (h1 : b ≠ q) (h2 : b ≠ 0x0A)
    (h3 : b ≠ 0x5C) : literalRest q (b :: t) = literalRest q t := by
  cases t <;> simp [literalRest, h1, h2, h3]

theorem literalRest_escape (q e : Nat) (t : GoString) (hq : q ≠ 0x5C) :
    literalRest q (0x5C :: e :: t) = (isEscape q e && literalRest q t) := by
  have : ¬ (0x5C = q) := fun h => hq h.symm
  simp [literalRest, this]

theorem literalRest_backslash (q : Nat) (hq : q ≠ 0x5C) : literalRest q [0x5C] = false := by
  have : ¬ (0x5C = q) := fun h => hq h.symm
  simp [literalRest, this]

theorem literalRest_newline (q : Nat) (rest : GoString) (hq : q ≠ 0x0A) :
    literalRest q (0x0A :: rest) = false := by
  have : ¬ (0x0A = q) := fun h => hq h.symm
  cases rest <;> simp [literalRest, this]

theorem literalRest_nil (q : Nat) : literalRest q [] = false := by
  simp [literalRest]

/-- The bytes of a character outside ASCII lie inside the literal, and the literal goes on
after them. -/
theorem literalRest_skip (q : Nat) (hq : q < 0x80) (tail : GoString) :
    ∀ (n : Nat) (body : GoString), literalRest q body = true →
      (∀ x, x ∈ (body ++ tail).take n → 0x80 ≤ x) →
      n ≤ body.length ∧ literalRest q (body.drop n) = true := by
  intro n
  induction n with
  | zero => intro body h _; exact ⟨Nat.zero_le _, h⟩
  | succ n ih =>
    intro body h hx
    cases body with
    | nil => rw [literalRest_nil] at h; exact absurd h (by simp)
    | cons b rest =>
      have hb : 0x80 ≤ b := hx b (by simp)
      rw [literalRest_other q b rest (by omega) (by omega) (by omega)] at h
      obtain ⟨h1, h2⟩ := ih rest h (fun x hm => hx x (by simp [hm]))
      exact ⟨by simp only [List.length_cons]; omega, by rw [List.drop_succ_cons]; exact h2⟩

/-- Reading a character outside ASCII inside a token: the rune is outside ASCII, and so are
the bytes the lexer steps over. -/
theorem lexer.nextAlpha_At_wide (l : lexer) (S : GoString) (kvs : List (Kind × GoString))
    (s e : Nat) (b : Nat) (t : GoString) (h : l.At S kvs s e) (hS : S.drop e = b :: t)
    (hb : 0x80 ≤ b) :
    0x80 ≤ l.nextAlpha.1 ∧ ∃ w, 1 ≤ w ∧ (∀ x, x ∈ (b :: t).take w → 0x80 ≤ x) ∧
      l.nextAlpha.2.At S kvs s (e + w) := by
  have hrest : l.rest = b :: t := by rw [lexer.At_rest l S kvs s e h, hS]
  have hne : l.rest ≠ [] := by rw [hrest]; simp
  obtain ⟨h1, h2, h3, _, h5, h6, h7, _⟩ := lexer.nextAlpha_cons l hne
  obtain ⟨d1, _, d3, d4⟩ := Decode_nonascii b t hb
  rw [hrest] at h1 h3
  obtain ⟨g1, g2, g3, g4, g5⟩ := h
  refine ⟨by rw [h1]; exact d3, _, d1, d4, ?_⟩
  exact ⟨h2.trans g1, by rw [h6, g2], h7.trans g3, by rw [h3, g4], h5.trans g5⟩

/-- The loop of `scanString` on the rest of a well-formed literal: it ends behind the
closing quote, without an error. -/
theorem lexer.scanStringLoop_literal (q : Nat) (hq : q = 0x27 ∨ q = 0x22) (S : GoString)
    (kvs : List (Kind × GoString)) (s : Nat) (tail : GoString) :
    ∀ (n : Nat) (body : GoString) (l : lexer) (e fuel : Nat), body.length ≤ n →
      literalRest q body = true → l.At S kvs s e → S.drop e = body ++ tail →
      body.length + 1 ≤ fuel →
      ∃ l', lexer.scanStringLoop (q : Int) fuel l.nextAlpha.1 l.nextAlpha.2 = some l' ∧
        l'.At S kvs s (e + body.length) := by
  have hq80 : q < 0x80 := by omega
  intro n
  induction n with
  | zero =>
    intro body l e fuel hn hb _ _ _
    have : body = [] := List.length_eq_zero.mp (Nat.le_zero.mp hn)
    rw [this, literalRest_nil] at hb
    exact absurd hb (by simp)
  | succ n ih =>
    intro body l e fuel hn hb hl hS hf
    cases body with
    | nil => rw [literalRest_nil] at hb; exact absurd hb (by simp)
    | cons b rest =>
      simp only [List.length_cons] at hn hf
      obtain ⟨fuel, rfl⟩ : ∃ f, fuel = f + 1 := ⟨fuel - 1, by omega⟩
      rw [List.cons_append] at hS
      rw [lexer.scanStringLoop_succ]
      by_cases hb80 : b < 0x80
      · obtain ⟨a1, a2, _⟩ := lexer.nextAlpha_At l S kvs s e b (rest ++ tail) hl hS hb80
        have hS1 : S.drop (e + 1) = rest ++ tail := drop_pre S [b] _ e hS
        rw [a1]
        by_cases h1 : b = q
        · subst h1
          rw [literalRest_quote] at hb
          have hr : rest = [] := List.isEmpty_iff.mp hb
          subst hr
          rw [if_pos rfl]
          exact ⟨_, rfl, a2⟩
        rw [if_neg (by omega)]
        by_cases h2 : b = 0x0A
        · subst h2
          rw [literalRest_newline q rest (by omega)] at hb
          exact absurd hb (by simp)
        rw [if_neg (by simp only [eof]; omega)]
        by_cases h3 : b = 0x5C
        · subst h3
          rw [if_pos (by omega)]
          cases rest with
          | nil => rw [literalRest_backslash q (by omega)] at hb; exact absurd hb (by simp)
          | cons c rest' =>
            rw [literalRest_escape q c rest' (by omega), Bool.and_eq_true] at hb
            obtain ⟨hesc, hb'⟩ := hb
            have hc80 : c < 0x80 := by
              simp only [isEscape, Bool.or_eq_true, beq_iff_eq] at hesc
              omega
            rw [List.cons_append] at hS1
            obtain ⟨c1, c2, _⟩ :=
              lexer.nextAlpha_At l.nextAlpha.2 S kvs s (e + 1) c (rest' ++ tail) a2 hS1 hc80
            have hse : l.nextAlpha.2.scanEscape (q : Int) =
                l.nextAlpha.2.nextAlpha.2.nextAlpha := by
              unfold lexer.scanEscape
              dsimp only
              rw [if_pos]
              rw [c1]
              exact (isEscape_iff q c).mpr hesc
            rw [hse]
            obtain ⟨l', e1, e2⟩ := ih rest' l.nextAlpha.2.nextAlpha.2 (e + 1 + 1) fuel
              (by simp only [List.length_cons] at hn; omega) hb' c2
              (drop_pre S [c] _ (e + 1) hS1) (by simp only [List.length_cons] at hf; omega)
            refine ⟨l', e1, ?_⟩
            have : e + (rest'.length + 1 + 1) = e + 1 + 1 + rest'.length := by omega
            simp only [List.length_cons]
            rw [this]
            exact e2
        · rw [if_neg (by omega)]
          rw [literalRest_other q b rest h1 h2 h3] at hb
          obtain ⟨l', e1, e2⟩ := ih rest l.nextAlpha.2 (e + 1) fuel (by omega) hb a2 hS1
            (by omega)
          refine ⟨l', e1, ?_⟩
          have : e + (rest.length + 1) = e + 1 + rest.length := by omega
          simp only [List.length_cons]
          rw [this]
          exact e2
      · obtain ⟨a1, w, w1, w2, a2⟩ :=
          lexer.nextAlpha_At_wide l S kvs s e b (rest ++ tail) hl hS (by omega)
        rw [if_neg (by omega), if_neg (by simp only [eof]; omega), if_neg (by omega)]
        have hskip := literalRest_skip q hq80 tail w (b :: rest) hb
          (by rw [List.cons_append]; exact w2)
        obtain ⟨k1, k2⟩ := hskip
        simp only [List.length_cons] at k1
        have hS1 : S.drop (e + w) = (b :: rest).drop w ++ tail := by
          rw [← List.drop_drop, hS, ← List.cons_append, List.drop_append_of_le_length]
          simp only [List.length_cons]
          exact k1
        obtain ⟨l', e1, e2⟩ := ih ((b :: rest).drop w) l.nextAlpha.2 (e + w) fuel
          (by simp only [List.length_drop, List.length_cons]; omega) k2 a2 hS1
          (by simp only [List.length_drop, List.length_cons]; omega)
        refine ⟨l', e1, ?_⟩
        have : e + (rest.length + 1) = e + w + ((b :: rest).drop w).length := by
          simp only [List.length_drop, List.length_cons]
          omega
        simp only [List.length_cons]
        rw [this]
        exact e2


/-! ### Numeric literals with a prefix -/

theorem prefixAlphabet_cases (p : Nat) (dig : GoString) (h : prefixAlphabet p = some dig) :
    ((p = 0x78 ∨ p = 0x58) ∧ dig = lit "0123456789abcdefABCDEF_") ∨
    ((p = 0x6F ∨ p = 0x4F) ∧ dig = lit "01234567_") ∨
    ((p = 0x62 ∨ p = 0x42) ∧ dig = lit "01_") := by
  unfold prefixAlphabet at h
  split_ifs at h with h1 h2 h3
  · exact Or.inl ⟨h1, (Option.some.inj h).symm⟩
  · exact Or.inr (Or.inl ⟨h2, (Option.some.inj h).symm⟩)
  · exact Or.inr (Or.inr ⟨h3, (Option.some.inj h).symm⟩)

theorem lit_hexdigits : lit "0123456789abcdefABCDEF_" =
    [0x30, 0x31, 0x32, 0x33, 0x34, 0x35, 0x36, 0x37, 0x38, 0x39, 0x61, 0x62, 0x63, 0x64, 0x65,
     0x66, 0x41, 0x42, 0x43, 0x44, 0x45, 0x46, 0x5F] := rfl

theorem lit_octaldigits : lit "01234567_" =
    [0x30, 0x31, 0x32, 0x33, 0x34, 0x35, 0x36, 0x37, 0x5F] := rfl

theorem lit_binarydigits : lit "01_" = [0x30, 0x31, 0x5F] := rfl

/-- The bytes of the three alphabets are ASCII, and neither `.` nor the space is one of
them. -/
theorem prefixAlphabet_bytes (p : Nat) (dig : GoString) (h : prefixAlphabet p = some dig) :
    (∀ b, dig.contains b = true → b < 0x80) ∧ dig.contains 0x2E = false ∧
      dig.contains 0x20 = false := by
  rcases prefixAlphabet_cases p dig h with ⟨_, rfl⟩ | ⟨_, rfl⟩ | ⟨_, rfl⟩
  · rw [lit_hexdigits]
    refine ⟨?_, by decide, by decide⟩
    intro b hb
    simp only [List.contains_eq_any_beq, List.any_cons, List.any_nil, Bool.or_false,
      Bool.or_eq_true, beq_iff_eq] at hb
    omega
  · rw [lit_octaldigits]
    refine ⟨?_, by decide, by decide⟩
    intro b hb
    simp only [List.contains_eq_any_beq, List.any_cons, List.any_nil, Bool.or_false,
      Bool.or_eq_true, beq_iff_eq] at hb
    omega
  · rw [lit_binarydigits]
    refine ⟨?_, by decide, by decide⟩
    intro b hb
    simp only [List.contains_eq_any_beq, List.any_cons, List.any_nil, Bool.or_false,
      Bool.or_eq_true, beq_iff_eq] at hb
    omega

/-- The prefix scan of `scanNumber` on `0` and a prefix letter: both are consumed, and the
alphabet is the one of the letter. -/
theorem lexer.numberDigits_prefixed (l : lexer) (S : GoString) (kvs : List (Kind × GoString))
    (s e : Nat) (p : Nat) (dig rest : GoString) (h : l.At S kvs s e)
    (hS : S.drop e = 0x30 :: p :: rest) (hp : prefixAlphabet p = some dig) :
    l.numberDigits.1 = dig ∧ l.numberDigits.2.At S kvs s (e + 2) := by
  obtain ⟨a1, a2⟩ := lexer.accept_At l (lit "0") S kvs s e 0x30 (p :: rest) h hS (by omega)
  have hz : (lit "0").contains 0x30 = true := by rw [lit_zero]; rfl
  rw [hz] at a1 a2
  rw [if_pos rfl] at a2
  have hS1 : S.drop (e + 1) = p :: rest := drop_pre S [0x30] _ e hS
  have hp80 : p < 0x80 := by
    rcases prefixAlphabet_cases p dig hp with ⟨c, _⟩ | ⟨c, _⟩ | ⟨c, _⟩ <;> omega
  obtain ⟨b1, b2⟩ := lexer.accept_At _ (lit "xX") S kvs s (e + 1) p rest a2 hS1 hp80
  rcases prefixAlphabet_cases p dig hp with ⟨c, rfl⟩ | ⟨c, rfl⟩ | ⟨c, rfl⟩
  · have hx : (lit "xX").contains p = true := by
      rw [lit_hex]
      rcases c with rfl | rfl <;> rfl
    rw [hx] at b1 b2
    rw [if_pos rfl] at b2
    unfold lexer.numberDigits
    simp only [a1, b1, if_true, true_and]
    exact b2
  · have hx : (lit "xX").contains p = false := by
      rw [lit_hex]
      rcases c with rfl | rfl <;> rfl
    rw [hx] at b1 b2
    simp only [Bool.false_eq_true, if_false] at b2
    obtain ⟨c1, c2⟩ := lexer.accept_At _ (lit "oO") S kvs s (e + 1) p rest b2 hS1 hp80
    have ho : (lit "oO").contains p = true := by
      rw [lit_octal]
      rcases c with rfl | rfl <;> rfl
    rw [ho] at c1 c2
    rw [if_pos rfl] at c2
    unfold lexer.numberDigits
    simp only [a1, b1, c1, if_true, Bool.false_eq_true, if_false, true_and]
    exact c2
  · have hx : (lit "xX").contains p = false := by
      rw [lit_hex]
      rcases c with rfl | rfl <;> rfl
    rw [hx] at b1 b2
    simp only [Bool.false_eq_true, if_false] at b2
    obtain ⟨c1, c2⟩ := lexer.accept_At _ (lit "oO") S kvs s (e + 1) p rest b2 hS1 hp80
    have ho : (lit "oO").contains p = false := by
      rw [lit_octal]
      rcases c with rfl | rfl <;> rfl
    rw [ho] at c1 c2
    simp only [Bool.false_eq_true, if_false] at c2
    obtain ⟨d1, d2⟩ := lexer.accept_At _ (lit "bB") S kvs s (e + 1) p rest c2 hS1 hp80
    have hb : (lit "bB").contains p = true := by
      rw [lit_binary]
      rcases c with rfl | rfl <;> rfl
    rw [hb] at d1 d2
    rw [if_pos rfl] at d2
    unfold lexer.numberDigits
    simp only [a1, b1, c1, d1, if_true, Bool.false_eq_true, if_false, true_and]
    exact d2

theorem run_bytes (p : Nat) (dig run : GoString) (hp : prefixAlphabet p = some dig)
    (hrun : run.all dig.contains = true) : ∀ b ∈ run, b < 0x80 ∧ dig.contains b = true := by
  intro b hb
  have := List.all_eq_true.mp hrun b hb
  exact ⟨(prefixAlphabet_bytes p dig hp).1 b this, this⟩

/-- The method `scanNumber` on a prefixed literal without a fraction, up to a space or the
end of the source. -/
theorem lexer.scanNumber_prefixed (S : GoString) (kvs : List (Kind × GoString)) (s : Nat)
    (p : Nat) (dig run tail : GoString) (hp : prefixAlphabet p = some dig)
    (hrun : run.all dig.contains = true) (htail : tail = [] ∨ ∃ t, tail = 0x20 :: t)
    (fuel : Nat) (l : lexer) (e : Nat) (hf : run.length + 1 ≤ fuel) (h : l.At S kvs s e)
    (hS : S.drop e = 0x30 :: p :: run ++ tail) :
    ∃ l', l.scanNumber fuel = some (true, l') ∧
      l'.At S kvs s (e + (0x30 :: p :: run).length) := by
  obtain ⟨q1, q2⟩ := lexer.numberDigits_prefixed l S kvs s e p dig (run ++ tail) h hS hp
  obtain ⟨_, hdot, hsp⟩ := prefixAlphabet_bytes p dig hp
  have hS2 : S.drop (e + 2) = run ++ tail := drop_pre S [0x30, p] _ e hS
  have hstop : tail = [] ∨ ∃ c t, tail = c :: t ∧ c < 0x80 ∧ dig.contains c = false := by
    rcases htail with rfl | ⟨t, rfl⟩
    · exact Or.inl rfl
    · exact Or.inr ⟨0x20, t, rfl, by omega, hsp⟩
  obtain ⟨l1, e1, e2⟩ := lexer.acceptRun_At dig S kvs s tail hstop run
    (run_bytes p dig run hp hrun) fuel _ (e + 2) hf q2 hS2
  have hS3 : S.drop (e + 2 + run.length) = tail := drop_pre S run tail _ hS2
  obtain ⟨p1, p2⟩ := lexer.accept_reject l1 (lit ".") S kvs s _ tail e2 hS3
    (by
      rcases htail with rfl | ⟨t, rfl⟩
      · exact Or.inl rfl
      · exact Or.inr ⟨0x20, t, rfl, by omega, by rw [lit_dot]; rfl⟩)
  refine ⟨(l1.accept (lit ".")).2, ?_, ?_⟩
  · unfold lexer.scanNumber
    dsimp only
    rw [q1, e1]
    dsimp only
    rw [p1]
    rfl
  · have h2 : e + (0x30 :: p :: run).length = e + 2 + run.length := by
      simp only [List.length_cons]
      omega
    rw [h2]
    exact p2

/-- The method `scanNumber` on a prefixed literal with a fraction, up to a space or the end
of the source. -/
theorem lexer.scanNumber_prefixed_fraction (S : GoString) (kvs : List (Kind × GoString))
    (s : Nat) (p : Nat) (dig run run2 tail : GoString) (hp : prefixAlphabet p = some dig)
    (hrun : run.all dig.contains = true) (hrun2 : run2.all dig.contains = true)
    (htail : tail = [] ∨ ∃ t, tail = 0x20 :: t)
    (fuel : Nat) (l : lexer) (e : Nat) (hf : run.length + run2.length + 1 ≤ fuel)
    (h : l.At S kvs s e) (hS : S.drop e = 0x30 :: p :: run ++ 0x2E :: run2 ++ tail) :
    ∃ l', l.scanNumber fuel = some (true, l') ∧
      l'.At S kvs s (e + (0x30 :: p :: run ++ 0x2E :: run2).length) := by
  have hS' : S.drop e = 0x30 :: p :: (run ++ (0x2E :: run2 ++ tail)) := by
    rw [hS, List.append_assoc]
    rfl
  obtain ⟨q1, q2⟩ := lexer.numberDigits_prefixed l S kvs s e p dig _ h hS' hp
  obtain ⟨_, hdot, hsp⟩ := prefixAlphabet_bytes p dig hp
  have hS2 : S.drop (e + 2) = run ++ (0x2E :: run2 ++ tail) := drop_pre S [0x30, p] _ e hS'
  obtain ⟨l1, e1, e2⟩ := lexer.acceptRun_At dig S kvs s (0x2E :: run2 ++ tail)
    (Or.inr ⟨0x2E, run2 ++ tail, rfl, by omega, hdot⟩) run
    (run_bytes p dig run hp hrun) fuel _ (e + 2) (by omega) q2 hS2
  have hS3 : S.drop (e + 2 + run.length) = 0x2E :: run2 ++ tail := drop_pre S run _ _ hS2
  obtain ⟨p1, p2⟩ := lexer.accept_At l1 (lit ".") S kvs s _ 0x2E (run2 ++ tail) e2 hS3
    (by omega)
  have hd : (lit ".").contains 0x2E = true := by rw [lit_dot]; rfl
  rw [hd] at p1 p2
  rw [if_pos rfl] at p2
  have hstop : tail = [] ∨ ∃ c t, tail = c :: t ∧ c < 0x80 ∧ dig.contains c = false := by
    rcases htail with rfl | ⟨t, rfl⟩
    · exact Or.inl rfl
    · exact Or.inr ⟨0x20, t, rfl, by omega, hsp⟩
  obtain ⟨l2, f1, f2⟩ := lexer.acceptRun_At dig S kvs s tail hstop run2
    (run_bytes p dig run2 hp hrun2) fuel _ _ (by omega) p2
    (drop_pre S [0x2E] (run2 ++ tail) _ hS3)
  refine ⟨l2, ?_, ?_⟩
  · unfold lexer.scanNumber
    dsimp only
    rw [q1, e1]
    dsimp only
    rw [p1, f1]
    rfl
  · have h2 : e + (0x30 :: p :: run ++ 0x2E :: run2).length =
        e + 2 + run.length + 1 + run2.length := by
      simp only [List.length_cons, List.length_append]
      omega
    rw [h2]
    exact f2

/-- One prefixed numeric literal of the source, before a space or the end: two rounds of the
lexer loop emit it as one Number token whose value is the text of the literal. -/
theorem lexerLoop_prefixed (X : Extern) (S : GoString) (k : Nat) (kvs : List (Kind × GoString))
    (w tail : GoString) (hw : PrefixedLiteral w) (htail : tail = [] ∨ ∃ t, tail = 0x20 :: t)
    (l : lexer) (hl : l.Ready S k kvs) (hS : S.drop k = w ++ tail) (n : Nat)
    (hn : w.length + 2 ≤ n) :
    ∃ l', l'.Ready S (k + w.length) (kvs ++ [(TokenKindNumber, w)]) ∧
      lexerLoop X (n + 2) (some lexerStateFunc.rootState) l =
        lexerLoop X n (some lexerStateFunc.rootState) l' := by
  cases hw with
  | whole p dig run hp hrun =>
    exact lexerLoop_digits X S k kvs 0x30 (p :: run) (0x30 :: p :: run) tail (by decide) rfl l hl
      hS n (fun l1 a1 => lexer.scanNumber_prefixed S kvs k p dig run tail hp hrun htail n l1 k
        (by simp only [List.length_cons] at hn; omega) a1 hS)
  | fraction p dig run run2 hp hrun hrun2 =>
    exact lexerLoop_digits X S k kvs 0x30 (p :: run ++ 0x2E :: run2)
      (0x30 :: p :: run ++ 0x2E :: run2) tail (by decide) rfl l hl hS n
      (fun l1 a1 => lexer.scanNumber_prefixed_fraction S kvs k p dig run run2 tail hp hrun hrun2
        htail n l1 k (by simp only [List.length_cons, List.length_append] at hn; omega) a1 hS)


/-! ### A string literal in the source -/

/-- The state `rootState` on a well-formed string literal: it scans to the closing quote and
emits a String token, or sets the error of `unescape`. -/
theorem lexer.rootState_literal (X : Extern) (q : Nat) (hq : q = 0x27 ∨ q = 0x22)
    (S : GoString) (kvs : List (Kind × GoString)) (k : Nat) (body tail : GoString)
    (fuel : Nat) (l : lexer) (hl : l.Ready S k kvs) (hS : S.drop k = q :: body ++ tail)
    (hb : literalRest q body = true) (hf : body.length + 2 ≤ fuel) :
    ∃ l', l.rootState X fuel = some (some lexerStateFunc.rootState, l') ∧
      (l'.err ≠ none ∨
        ∃ v, l'.Ready S (k + (q :: body).length) (kvs ++ [(TokenKindString, v)])) := by
  rw [List.cons_append] at hS
  obtain ⟨a1, a2, _⟩ := lexer.nextAlpha_At l S kvs k k q (body ++ tail)
    (lexer.Ready_At l S kvs k hl) hS (by omega)
  obtain ⟨l2, s1, s2⟩ := lexer.scanStringLoop_literal q hq S kvs k tail body.length body
    l.nextAlpha.2 (k + 1) fuel (Nat.le_refl _) hb a2 (drop_pre S [q] _ k hS) (by omega)
  have hend : k + 1 + body.length = k + (q :: body).length := by
    simp only [List.length_cons]
    omega
  rw [hend] at s2
  obtain ⟨g1, g2, g3, g4, g5⟩ := s2
  have hword : l2.word = q :: body := by
    rw [lexer.word, g1, g3, g4]
    exact take_literal S (q :: body) tail k _ (by rw [hS]; rfl) rfl
  obtain ⟨r, hr⟩ := unescape_total fuel l2.word (by
    rw [hword]
    simp only [List.length_cons]
    omega)
  have hroot : ∀ l3, l3 = (match r.2 with
        | some e => { l2 with err := some e }
        | none => l2).product TokenKindString r.1 →
      l.nextAlpha.2.rootString fuel (q : Int) = some l3 := by
    intro l3 h3
    unfold lexer.rootString lexer.scanString
    dsimp only
    rw [s1]
    dsimp only
    rw [hr, h3]
    try rfl
  have h3 : ¬ ((q : Int) = eof) := by simp only [eof]; omega
  have h4 : isSpace X (q : Int) = false := by
    rcases hq with rfl | rfl <;> simp [isSpace, IsSpace]
  have h5 : (q : Int) = 0x27 ∨ (q : Int) = 0x22 := by omega
  have hstate : ∀ l3, l.nextAlpha.2.rootString fuel (q : Int) = some l3 →
      l.rootState X fuel = some (some lexerStateFunc.rootState, l3) := by
    intro l3 h
    unfold lexer.rootState
    dsimp only
    rw [a1, h, if_neg h3, h4]
    simp only [Bool.false_eq_true, if_false, if_pos h5]
  cases hr2 : r.2 with
  | some e =>
    refine ⟨_, hstate _ (hroot _ rfl), Or.inl ?_⟩
    rw [hr2]
    simp [lexer.product]
  | none =>
    refine ⟨_, hstate _ (hroot _ rfl), Or.inr ⟨r.1, ?_⟩⟩
    rw [hr2]
    refine ⟨?_, ?_, ?_, ?_, ?_⟩
    · simp only [lexer.product, g1]
    · simp only [lexer.product, g4]
    · simp only [lexer.product, g4]
    · simp only [lexer.product, g5]
    · simp only [lexer.product, List.map_append, List.map_cons, List.map_nil, Token.kv, g2]

/-- The lexer loop stops at a lexer that carries an error. -/
theorem lexerLoop_err (X : Extern) (n : Nat) (s : Option lexerStateFunc) (l : lexer)
    (he : l.err ≠ none) : lexerLoop X (n + 1) s l = some l := by
  cases s with
  | none => rw [lexerLoop]
  | some s =>
    rw [lexerLoop]
    simp only [if_pos he]

/-- One string literal of the source: one round of the lexer loop emits it as a String token,
or ends the loop with the error of `unescape`. -/
theorem lexerLoop_string (X : Extern) (S : GoString) (k : Nat) (kvs : List (Kind × GoString))
    (w tail : GoString) (hw : StringLiteral w) (l : lexer) (hl : l.Ready S k kvs)
    (hS : S.drop k = w ++ tail) (n : Nat) (hn : w.length + 2 ≤ n) :
    (∃ l' v, l'.Ready S (k + w.length) (kvs ++ [(TokenKindString, v)]) ∧
      lexerLoop X (n + 1) (some lexerStateFunc.rootState) l =
        lexerLoop X n (some lexerStateFunc.rootState) l') ∨
    (∃ l', l'.err ≠ none ∧
      lexerLoop X (n + 1) (some lexerStateFunc.rootState) l = some l') := by
  cases hw with
  | quoted q body hq hbody =>
    simp only [List.length_cons] at hn
    obtain ⟨l', r1, r2⟩ := lexer.rootState_literal X q hq S kvs k body tail n l hl hS hbody
      (by omega)
    have hstep : lexerLoop X (n + 1) (some lexerStateFunc.rootState) l =
        lexerLoop X n (some lexerStateFunc.rootState) l' := by
      rw [lexerLoop_succ X n _ l hl.2.2.2.1]
      simp only [lexerStateFunc.call, r1, Option.bind]
    rcases r2 with he | ⟨v, hv⟩
    · right
      obtain ⟨m, rfl⟩ : ∃ m, n = m + 1 := ⟨n - 1, by omega⟩
      exact ⟨l', he, by rw [hstep, lexerLoop_err X m _ l' he]⟩
    · left
      exact ⟨l', v, hv, hstep⟩

/-- The function `Lexer` returns the error that the loop ends with. -/
theorem Lexer_of_error (X : Extern) (S : GoString) (fuel : Nat) (lf : lexer) (e : Error)
    (h : lexerLoop X fuel (some lexerStateFunc.rootState)
      (lexer.mk S [] 0 0 0 ⟨1, 0⟩ ⟨1, 0⟩ ⟨1, 0⟩ none) = some lf)
    (he : lf.err = some e) : Lexer X fuel S = some (Except.error e) := by
  unfold Lexer
  dsimp only
  show (match lexerLoop X fuel (some lexerStateFunc.rootState)
      (lexer.mk S [] 0 0 0 ⟨1, 0⟩ ⟨1, 0⟩ ⟨1, 0⟩ none) with
    | none => none
    | some l =>
      match l.err with
      | some e => some (Except.error e)
      | none => some (Except.ok l.tokens)) = _
  rw [h]
  dsimp only
  rw [he]

/-- One operand of the source, before a space or the end: at most three rounds of the lexer
loop emit it as one token of an operand kind, or end the loop with an error. -/
theorem lexerLoop_anyOperand (X : Extern) (S : GoString) (k : Nat)
    (kvs : List (Kind × GoString)) (w tail : GoString) (hw : Operand X w)
    (htail : tail = [] ∨ ∃ t, tail = 0x20 :: t) (l : lexer) (hl : l.Ready S k kvs)
    (hS : S.drop k = w ++ tail) (n : Nat) (hn : w.length + 2 ≤ n) :
    (∃ l' kind v, kind.isOperand = true ∧
      l'.Ready S (k + w.length) (kvs ++ [(kind, v)]) ∧
      ∀ r, lexerLoop X n (some lexerStateFunc.rootState) l' = some r →
        lexerLoop X (n + 3) (some lexerStateFunc.rootState) l = some r) ∨
    (∃ l' e, l'.err = some e ∧
      lexerLoop X (n + 3) (some lexerStateFunc.rootState) l = some l') := by
  cases hw with
  | text kind h =>
    left
    obtain ⟨l', r1, r2⟩ := lexerLoop_operand X S k kvs w tail kind h htail l hl hS n hn
    exact ⟨l', kind, w, OperandText_isOperand X w kind h, r1, r2⟩
  | prefixed h =>
    left
    obtain ⟨l', r1, r2⟩ := lexerLoop_prefixed X S k kvs w tail h htail l hl hS n hn
    exact ⟨l', TokenKindNumber, w, rfl, r1,
      fun r hr => lexerLoop_step X (n + 2) _ l r (r2.trans hr)⟩
  | string h =>
    rcases lexerLoop_string X S k kvs w tail h l hl hS n hn with ⟨l', v, r1, r2⟩ | ⟨l', r1, r2⟩
    · left
      refine ⟨l', TokenKindString, v, rfl, r1, fun r hr => ?_⟩
      exact lexerLoop_step X (n + 2) _ l r (lexerLoop_step X (n + 1) _ l r (r2.trans hr))
    · right
      cases he : l'.err with
      | none => exact absurd he r1
      | some e =>
        exact ⟨l', e, he,
          lexerLoop_step X (n + 2) _ l l' (lexerLoop_step X (n + 1) _ l l' r2)⟩


/-! ### The modulo operator -/

/-- The method `parse` on an operand token that an operator outside the table `binaryOp`
(and other than `.`) follows: it returns the node of the operand and stands on the
operator. -/
theorem parser.parse_before_stray_operator (X : Extern) (n : Nat) (p : parser) (priority : Int)
    (hk : p.current.Kind.isOperand = true)
    (ho : p.next.current.Kind = TokenKindOperator)
    (hdot : p.next.current.Value ≠ lit ".")
    (hb : binaryOp.lookup p.next.current.Value = none) :
    parser.parse X (n + 5) p priority = some (primaryNode X p.current, p.next) := by
  have hnb : p.next.current.Kind ≠ TokenKindBracket := by rw [ho]; decide
  have hpost : ∀ node, parser.parsePostfix X (n + 3) p.next node = some (node, p.next) :=
    fun node => parser.parsePostfix_stop X (n + 1) p.next node hnb hdot
  have hloop : ∀ node, parser.parseLoop X (n + 4) p.next priority node p.next.current =
      some (node, p.next) := by
    intro node
    rw [parser.parseLoop, hb]
    split_ifs <;> rfl
  have h3 : p.next.atBracket (lit "(") = false := by
    simp only [parser.atBracket, Bool.and_eq_false_iff, beq_eq_false_iff_ne]
    exact Or.inl hnb
  rw [parser.parse, parser.parsePrimary]
  dsimp only
  cases hkind : p.current.Kind with
  | TokenKindIdentifier =>
    simp only [reduceCtorEq, if_false, false_and, primaryNode, hkind]
    unfold operand
    split_ifs
    · exact hloop _
    · exact hloop _
    · exact hloop _
    · rw [parser.parseIdentifier, h3]
      simp only [Bool.false_eq_true, if_false]
      rw [hpost]
      exact hloop _
  | TokenKindNumber =>
    simp only [reduceCtorEq, if_false, false_and, primaryNode, hkind]
    split_ifs
    · exact hloop _
    · exact hloop _
  | TokenKindString =>
    simp only [reduceCtorEq, if_false, false_and, primaryNode, hkind]
    exact hloop _
  | TokenKindOperator => rw [hkind] at hk; exact absurd hk (by decide)
  | TokenKindBracket => rw [hkind] at hk; exact absurd hk (by decide)
  | TokenKindEOF => rw [hkind] at hk; exact absurd hk (by decide)

/-- The function `Parse` on a source whose tokens start with an operand and the operator
`%`: the operator is the unexpected token. -/
theorem Parse_operand_modulo (X : Extern) (n : Nat) (source : GoString) (tx tp : Token)
    (rest : List Token)
    (hlex : Lexer X (n + 5) source = some (Except.ok (tx :: tp :: rest)))
    (hx : tx.Kind.isOperand = true) (hk : tp.Kind = TokenKindOperator)
    (hv : tp.Value = lit "%") :
    Parse X (n + 5) source = some (Except.error (Error.unexpectedToken tp)) := by
  have hnext : (parser.mk (tx :: tp :: rest) tx 0 none).next =
      parser.mk (tx :: tp :: rest) tp 1 none := by
    simp [parser.next]
  have hpe : tp.Kind ≠ TokenKindEOF := by rw [hk]; decide
  have hparse := parser.parse_before_stray_operator X n (parser.mk (tx :: tp :: rest) tx 0 none)
    0 hx (by rw [hnext]; exact hk) (by rw [hnext]; show tp.Value ≠ lit "."; rw [hv]; decide)
    (by rw [hnext]; show binaryOp.lookup tp.Value = none; rw [hv]; decide)
  rw [hnext] at hparse
  unfold Parse
  rw [hlex]
  dsimp only
  rw [List.head?_cons]
  dsimp only
  rw [hparse]
  simp [hpe]

theorem kv_four (toks : List Token) (e0 e1 e2 e3 : Kind × GoString)
    (h : toks.map Token.kv = [e0, e1, e2, e3]) :
    ∃ t0 t1 t2 t3, toks = [t0, t1, t2, t3] ∧ t0.kv = e0 ∧ t1.kv = e1 ∧ t2.kv = e2 ∧
      t3.kv = e3 := by
  rcases toks with _ | ⟨t0, _ | ⟨t1, _ | ⟨t2, _ | ⟨t3, _ | ⟨t4, ts⟩⟩⟩⟩⟩ <;>
    simp only [List.map_nil, List.map_cons, List.cons.injEq, and_true, reduceCtorEq,
      and_false] at h
  exact ⟨t0, t1, t2, t3, rfl, h.1, h.2.1, h.2.2.1, h.2.2.2⟩

/-- The tokens of the source `x % y`: the token of `x`, the Operator token `%`, the token of
`y` and the end marker; or an error, which only a string literal can cause. -/
theorem Lexer_modulo (X : Extern) (x y : GoString) (hx : Operand X x) (hy : Operand X y)
    (n : Nat) :
    (∃ e, Lexer X ((moduloSource x y).length + 11 + n) (moduloSource x y) =
      some (Except.error e)) ∨
    (∃ toks kx vx ky vy, Lexer X ((moduloSource x y).length + 11 + n) (moduloSource x y) =
        some (Except.ok toks) ∧ kx.isOperand = true ∧
      toks.map Token.kv =
        [(kx, vx), (TokenKindOperator, [0x25]), (ky, vy), (TokenKindEOF, [])]) := by
  generalize hS : moduloSource x y = S
  have hlen : S.length = x.length + y.length + 3 := by
    rw [← hS, moduloSource]
    simp only [List.length_append, List.length_cons]
    omega
  have d0 : S.drop 0 = x ++ 0x20 :: 0x25 :: 0x20 :: (y ++ []) := by
    rw [List.drop_zero, ← hS, List.append_nil, moduloSource]
  have d1 := drop_pre S _ _ 0 d0
  have d2 := drop_space S _ _ d1
  have d3 := drop_pre S [0x25] _ _ d2
  have d4 := drop_space S _ _ d3
  have d5 := drop_pre S _ _ _ d4
  have hfuel : S.length + 11 + n = S.length + n + 8 + 3 := by omega
  rw [hfuel]
  rcases lexerLoop_anyOperand X S 0 [] x _ hx (Or.inr ⟨_, rfl⟩) _ (lexer.Ready_initial S) d0
    (S.length + n + 8) (by omega) with ⟨l1, kx, vx, ox, r1, s1⟩ | ⟨l1, e, he, s1⟩
  · obtain ⟨l2, r2, s2⟩ := lexerLoop_space X S _ _ _ l1 r1 d1 (S.length + n + 7)
    obtain ⟨l3, r3, s3⟩ := lexerLoop_plain X S _ _ 0x25 _ (by omega) l2 r2 d2 (S.length + n + 6)
    obtain ⟨l4, r4, s4⟩ := lexerLoop_space X S _ _ _ l3 r3 d3 (S.length + n + 5)
    rcases lexerLoop_anyOperand X S _ _ y [] hy (Or.inl rfl) l4 r4 d4 (S.length + n + 2)
      (by omega) with ⟨l5, ky, vy, _, r5, s5⟩ | ⟨l5, e, he, s5⟩
    · obtain ⟨lf, sf, ef, tf⟩ := lexerLoop_eof X S _ _ l5 r5 d5 (S.length + n)
      right
      refine ⟨lf.tokens, kx, vx, ky, vy, ?_, ox, ?_⟩
      · refine Lexer_of_loop X S _ lf ?_ ef
        apply s1
        rw [s2, s3, s4]
        exact s5 lf sf
      · rw [tf]
        rfl
    · left
      refine ⟨e, Lexer_of_error X S _ l5 e ?_ he⟩
      apply s1
      rw [s2, s3, s4]
      exact s5
  · left
    exact ⟨e, Lexer_of_error X S _ l1 e s1 he⟩


/-- The compiler lowers a `BinaryNode` with the operator `%` to `OpCodeMod`: the opcode is
the last byte of the code of the node. -/
theorem compiler.compile_modulo (c : compiler) (l r : Node) :
    (c.compile (BinaryNode (lit "%") l r)).instructions =
      ((c.compile l).compile r).instructions ++ [OpCodeMod] := by
  rw [compiler.compile]
  have h1 : ¬ (lit "%" = lit "+") := by decide
  have h2 : ¬ (lit "%" = lit "-") := by decide
  have h3 : ¬ (lit "%" = lit "*") := by decide
  have h4 : ¬ (lit "%" = lit "/") := by decide
  have h5 : ¬ (lit "%" = lit "^") := by decide
  simp only [h1, h2, h3, h4, h5, if_false, if_true, compiler.appendInstruction,
    List.append_nil]

/-- Claim C24. The operator `%` has no entry in the table `binaryOp` of the parser, while the
compiler lowers a `BinaryNode` with the operator `%` to `OpCodeMod`. For all operands `x` and
`y`, each an identifier, a numeric literal or a string literal, `Parse` of the source `x % y`
returns an error and no tree, for every fuel from the length of the source plus eleven on:
the tokenizer emits `%` as an Operator token, and `Parse` returns `unexpected token` with
that token; or, for a string literal that `unescape` rejects, `Parse` returns the error of the
tokenizer. -/
theorem C24_modulo_is_not_parsed (X : Extern) (x y : GoString) (hx : Operand X x)
    (hy : Operand X y) (n : Nat) :
    binaryOp.lookup (lit "%") = none ∧
    (∀ l r : Node, ∃ code, (Compile (Tree.mk (BinaryNode (lit "%") l r))).1 =
      code ++ [OpCodeMod]) ∧
    ((∃ e, Lexer X ((moduloSource x y).length + 11 + n) (moduloSource x y) =
        some (Except.error e) ∧
      Parse X ((moduloSource x y).length + 11 + n) (moduloSource x y) =
        some (Except.error e)) ∨
    (∃ tx tp rest, Lexer X ((moduloSource x y).length + 11 + n) (moduloSource x y) =
        some (Except.ok (tx :: tp :: rest)) ∧
      tp.Kind = TokenKindOperator ∧ tp.Value = lit "%" ∧
      Parse X ((moduloSource x y).length + 11 + n) (moduloSource x y) =
        some (Except.error (Error.unexpectedToken tp)))) := by
  refine ⟨by decide, fun l r => ⟨_, compiler.compile_modulo _ l r⟩, ?_⟩
  rcases Lexer_modulo X x y hx hy n with ⟨e, he⟩ | ⟨toks, kx, vx, ky, vy, hlex, ox, hkv⟩
  · left
    refine ⟨e, he, ?_⟩
    unfold Parse
    rw [he]
  · right
    obtain ⟨tx, tp, ty, te, rfl, h0, h1, _, _⟩ := kv_four toks _ _ _ _ hkv
    simp only [Token.kv, Prod.mk.injEq] at h0 h1
    have hfuel : (moduloSource x y).length + 11 + n = ((moduloSource x y).length + 6 + n) + 5 := by
      omega
    refine ⟨tx, tp, [ty, te], hlex, h1.1, h1.2, ?_⟩
    rw [hfuel] at hlex ⊢
    exact Parse_operand_modulo X _ _ tx tp [ty, te] hlex (by rw [h0.1]; exact ox) h1.1 h1.2

theorem Operand_a (X : Extern) : Operand X (lit "a") :=
  Operand.text _ TokenKindIdentifier (OperandText.identifier [0x61] (IsIdentifier_a X))

theorem Operand_decimal (X : Extern) : Operand X (lit "2.5") :=
  Operand.text _ TokenKindNumber
    (OperandText.number _ (DecimalLiteral.fraction 0x32 [] [0x35] rfl rfl rfl))

theorem Operand_hexadecimal (X : Extern) : Operand X (lit "0x1F") :=
  Operand.prefixed _
    (PrefixedLiteral.whole 0x78 (lit "0123456789abcdefABCDEF_") [0x31, 0x46] rfl rfl)

theorem Operand_string (X : Extern) : Operand X (lit "'s'") :=
  Operand.string _ (StringLiteral.quoted 0x27 [0x73, 0x27] (Or.inl rfl) rfl)

/-- The sources `a % 0x1F` and `'s' % 2.5`: the operator `%` is the unexpected token. -/
theorem Parse_modulo_examples (X : Extern) (n : Nat) :
    Parse X (n + 20) (lit "a % 0x1F") = some (Except.error
      (Error.unexpectedToken ⟨⟨1, 2⟩, TokenKindOperator, lit "%"⟩)) ∧
    Parse X (n + 20) (lit "'s' % 2.5") = some (Except.error
      (Error.unexpectedToken ⟨⟨1, 4⟩, TokenKindOperator, lit "%"⟩)) :=
  ⟨Parse_operand_modulo X (n + 15) _ ⟨⟨1, 0⟩, TokenKindIdentifier, lit "a"⟩ _
      [⟨⟨1, 4⟩, TokenKindNumber, lit "0x1F"⟩, ⟨⟨1, 7⟩, TokenKindEOF, []⟩]
      (Lexer_mono X _ 20 _ _ (by omega) rfl) rfl rfl rfl,
   Parse_operand_modulo X (n + 15) _ ⟨⟨1, 0⟩, TokenKindString, lit "s"⟩ _
      [⟨⟨1, 6⟩, TokenKindNumber, lit "2.5"⟩, ⟨⟨1, 8⟩, TokenKindEOF, []⟩]
      (Lexer_mono X _ 20 _ _ (by omega) rfl) rfl rfl rfl⟩

/-- Claim C24, witness: the operands `a` and `0x1F`, and the operands `'s'` and `2.5`, for
every `Extern` and every fuel from the length of the source plus eleven on. -/
theorem C24_witness_operands :
    moduloSource (lit "a") (lit "0x1F") = lit "a % 0x1F" ∧
    moduloSource (lit "'s'") (lit "2.5") = lit "'s' % 2.5" ∧
    (∀ (X : Extern) (n : Nat), Operand X (lit "a") ∧ Operand X (lit "0x1F") ∧
      ((∃ e, Lexer X ((lit "a % 0x1F").length + 11 + n) (lit "a % 0x1F") =
          some (Except.error e) ∧
        Parse X ((lit "a % 0x1F").length + 11 + n) (lit "a % 0x1F") =
          some (Except.error e)) ∨
      (∃ tx tp rest, Lexer X ((lit "a % 0x1F").length + 11 + n) (lit "a % 0x1F") =
          some (Except.ok (tx :: tp :: rest)) ∧
        tp.Kind = TokenKindOperator ∧ tp.Value = lit "%" ∧
        Parse X ((lit "a % 0x1F").length + 11 + n) (lit "a % 0x1F") =
          some (Except.error (Error.unexpectedToken tp))))) ∧
    (∀ (X : Extern) (n : Nat), Operand X (lit "'s'") ∧ Operand X (lit "2.5") ∧
      ((∃ e, Lexer X ((lit "'s' % 2.5").length + 11 + n) (lit "'s' % 2.5") =
          some (Except.error e) ∧
        Parse X ((lit "'s' % 2.5").length + 11 + n) (lit "'s' % 2.5") =
          some (Except.error e)) ∨
      (∃ tx tp rest, Lexer X ((lit "'s' % 2.5").length + 11 + n) (lit "'s' % 2.5") =
          some (Except.ok (tx :: tp :: rest)) ∧
        tp.Kind = TokenKindOperator ∧ tp.Value = lit "%" ∧
        Parse X ((lit "'s' % 2.5").length + 11 + n) (lit "'s' % 2.5") =
          some (Except.error (Error.unexpectedToken tp))))) :=
  ⟨rfl, rfl,
   fun X n => ⟨Operand_a X, Operand_hexadecimal X,
     (C24_modulo_is_not_parsed X (lit "a") (lit "0x1F") (Operand_a X) (Operand_hexadecimal X)
       n).2.2⟩,
   fun X n => ⟨Operand_string X, Operand_decimal X,
     (C24_modulo_is_not_parsed X (lit "'s'") (lit "2.5") (Operand_string X)
       (Operand_decimal X) n).2.2⟩⟩


end Causer
